import Mathlib

/-!
Verification development for the tau-split stochastic simulator.

The Rust source is shallowly embedded:
* `f64` values are modelled as `ℚ` (only ordering and field arithmetic of the
  floating point numbers matter for the properties below),
* `u64` values as `ℕ`, `i64` values as `ℤ`,
* every random draw made by a function is passed to it as an explicit
  argument; the range of a draw (for example, that a uniform draw lies in
  `[0,1)`, or that a binomial draw is at most its count) is stated as a
  hypothesis in the theorems that need it.
-/

namespace TauSplit

/-! ## Sampling primitives (src/src/tau5/reaction_data.rs, src/src/utils.rs) -/

/-- Model of `sample_poisson` (reaction_data.rs): returns `0` when the rate is
`0`, otherwise the Poisson draw `k` (an arbitrary natural number). -/
def sample_poisson (rate : ℚ) (k : ℕ) : ℕ :=
  if rate = 0 then 0 else k

/-- Model of `sample_exp` (reaction_data.rs): the draw `e` is the sampled value
of an `Exp(rate)` variable; theorems hypothesise `0 < e`. -/
def sample_exp (rate : ℚ) (e : ℚ) : ℚ :=
  e

/-- Model of `sample_binomial` (reaction_data.rs): the draw `k` is the sampled
value of a `Binomial(n, p)` variable; theorems hypothesise `k ≤ n`. -/
def sample_binomial (n : ℕ) (p : ℚ) (k : ℕ) : ℕ :=
  k

/-- Model of `max_sample` (reaction_data.rs): the maximum of `n` iid uniform
samples, `0` when `n = 0` and `u^(1/n)` otherwise.  The argument `m` stands
for the computed root `rng.random::<f64>().powf((n as f64).recip())`; since
the uniform draw lies in `[0,1)`, so does `m`, which theorems hypothesise. -/
def max_sample (n : ℕ) (m : ℚ) : ℚ :=
  if n = 0 then 0 else m

/-- Model of `rng.random_bool(p)`: with `u` the underlying uniform draw in
`[0,1)`, the result is `true` exactly when `u < p`. -/
def random_bool (p : ℚ) (u : ℚ) : Bool :=
  decide (u < p)

/-- Binary recursion for the population count, structurally recursive on a
fuel argument so that it evaluates inside the kernel; `fuel ≥ n` suffices
since the argument at least halves every step. -/
def count_ones_aux : ℕ → ℕ → ℕ
  | 0, _ => 0
  | fuel + 1, n => if n = 0 then 0 else n % 2 + count_ones_aux fuel (n / 2)

/-- Population count of a natural number (the `count_ones` of the Rust word). -/
def count_ones (n : ℕ) : ℕ :=
  count_ones_aux n n

/-- Model of `binomial_05` (utils.rs): a Binomial(n, 1/2) sampler.  `word` is
the `rng.random::<u64>()` draw (a 64-bit word, hypothesised `< 2^64`), and
`kGen` the draw of the general `Binomial(n, 0.5)` sampler used when `n > 64`
(hypothesised `≤ n`). -/
def binomial_05 (n : ℕ) (word : ℕ) (kGen : ℕ) : ℕ :=
  if n = 0 then 0
  else if n ≤ 64 then count_ones (word >>> (64 - n))
  else kGen

/-! ## Reaction records (src/src/reaction.rs, src/src/fastspie6/f_reaction.rs) -/

/-- Model of `binomial` (reaction.rs): n choose k by the closed forms for
`k ≤ 3` and the truncating-division loop otherwise. -/
def binomial (n : ℕ) (k : ℕ) : ℕ :=
  match k with
  | 0 => 1
  | 1 => n
  | 2 => (n * n - n) / 2
  | 3 => (n * (n - 1) * (n - 2)) / 6
  | k => (List.range k).foldl (fun res i => res * (n - i) / (i + 1)) 1

/-- Model of `Reaction` (reaction.rs). -/
structure Reaction where
  inputs : List (ℕ × ℕ)
  stoichiometry : List (ℕ × ℤ)
  positive_stoichiometry : List (ℕ × ℤ)
  negative_stoichiometry : List (ℕ × ℤ)
  rate : ℚ
deriving DecidableEq, Repr

/-- Model of `Reaction::new`: derives the positive and negative stoichiometry
partitions from the full stoichiometry list. -/
def Reaction.new (inputs : List (ℕ × ℕ)) (stoichiometry : List (ℕ × ℤ))
    (rate : ℚ) : Reaction where
  inputs := inputs
  stoichiometry := stoichiometry
  positive_stoichiometry := stoichiometry.filter (fun p => decide (0 < p.2))
  negative_stoichiometry := stoichiometry.filter (fun p => decide (p.2 < 0))
  rate := rate

/-- Model of `Input` (f_reaction.rs). -/
structure Input where
  index : ℕ
  count : ℕ
  self_consumption : ℤ
deriving DecidableEq, Repr

/-- Model of `FReaction` (f_reaction.rs). -/
structure FReaction where
  inputs : List Input
  stoichiometry : List (ℕ × ℤ)
  positive_stoichiometry : List (ℕ × ℤ)
  negative_stoichiometry : List (ℕ × ℤ)
  rate : ℚ
deriving DecidableEq, Repr

instance : Inhabited FReaction :=
  ⟨⟨[], [], [], [], 0⟩⟩

/-- Model of `impl From<Reaction> for FReaction` (f_reaction.rs): each input
gets as `self_consumption` the first stoichiometry entry for the same
component (`find_map`), defaulting to `0`, clamped by `.min(0)`. -/
def FReaction.ofReaction (value : Reaction) : FReaction where
  inputs := value.inputs.map (fun p =>
    { index := p.1
      count := p.2
      self_consumption :=
        min (((value.stoichiometry.find? (fun q => q.1 == p.1)).map Prod.snd).getD 0) 0 })
  stoichiometry := value.stoichiometry
  positive_stoichiometry := value.positive_stoichiometry
  negative_stoichiometry := value.negative_stoichiometry
  rate := value.rate

/-! ## State with bounds (src/src/tau6/state_data.rs) -/

/-- Model of `ComponentData`: the `(lower, value, upper)` triple of a species. -/
structure ComponentData where
  lower : ℤ
  value : ℤ
  upper : ℤ
deriving DecidableEq, Repr

/-- Model of `StateData`: the per-species triples (the `Vec` is modelled as a
list). -/
structure StateData where
  state : List ComponentData
deriving DecidableEq, Repr

/-- In-place update of one entry of the state vector, the
`self.state[i] = ...` assignments; like the Rust `Vec` the length never
changes (an out-of-range index, which panics in Rust, is a no-op here and is
exercised by no claim). -/
def modifyIdx {α : Type} (l : List α) (i : ℕ) (f : α → α) : List α :=
  match l, i with
  | [], _ => []
  | c :: t, 0 => f c :: t
  | c :: t, i + 1 => c :: modifyIdx t i f

/-- Pointwise update of the `lower` track (the statement body of
`self.state[reactant].lower += change * event_count`). -/
def addLower (d : ℤ) (c : ComponentData) : ComponentData :=
  { c with lower := c.lower + d }

/-- Pointwise update of the `upper` track (the statement body of
`self.state[reactant].upper += change * event_count`). -/
def addUpper (d : ℤ) (c : ComponentData) : ComponentData :=
  { c with upper := c.upper + d }

/-- Pointwise update of all three tracks (the loop body of
`StateData::apply`). -/
def addAll (d : ℤ) (c : ComponentData) : ComponentData :=
  ⟨c.lower + d, c.value + d, c.upper + d⟩

namespace StateData

/-- Model of `StateData::new`: every component starts with
`lower = value = upper`. -/
def new (state : List ℤ) : StateData :=
  ⟨state.map (fun i => ComponentData.mk i i i)⟩

/-- Model of `StateData::apply_negative`: adds `change * event_count` to the
`lower` track of every component of the negative stoichiometry. -/
def apply_negative (s : StateData) (event_count : ℤ) (reaction : FReaction) : StateData :=
  ⟨reaction.negative_stoichiometry.foldl
    (fun st p => modifyIdx st p.1 (addLower (p.2 * event_count)))
    s.state⟩

/-- Model of `StateData::apply_positive`: adds `change * event_count` to the
`upper` track of every component of the positive stoichiometry. -/
def apply_positive (s : StateData) (event_count : ℤ) (reaction : FReaction) : StateData :=
  ⟨reaction.positive_stoichiometry.foldl
    (fun st p => modifyIdx st p.1 (addUpper (p.2 * event_count)))
    s.state⟩

/-- Model of `StateData::change_bounds`. -/
def change_bounds (s : StateData) (event_count : ℤ) (reaction : FReaction) : StateData :=
  if event_count ≠ 0 then
    (s.apply_negative event_count reaction).apply_positive event_count reaction
  else s

/-- Model of `StateData::remove_bounds`; `events` is `rdata.event_count()`. -/
def remove_bounds (s : StateData) (events : ℕ) (reaction : FReaction) : StateData :=
  s.change_bounds (-(events : ℤ)) reaction

/-- Model of `StateData::add_bounds`; `events` is `rdata.event_count()`. -/
def add_bounds (s : StateData) (events : ℕ) (reaction : FReaction) : StateData :=
  s.change_bounds (events : ℤ) reaction

/-- Model of `StateData::apply`: permanently commits `events` firings,
advancing all three tracks together. -/
def apply (s : StateData) (events : ℕ) (reaction : FReaction) : StateData :=
  ⟨reaction.stoichiometry.foldl
    (fun st p => modifyIdx st p.1 (addAll (p.2 * (events : ℤ))))
    s.state⟩

/-- Component read; the Rust slice indexing panics out of range, which no
claim exercises, so out-of-range reads return a zero component. -/
def getC (s : StateData) (i : ℕ) : ComponentData :=
  s.state.getD i ⟨0, 0, 0⟩

/-- Model of `StateData::upper_product`: the input product computed on the
`upper` track (a `u64` product cast to float). -/
def upper_product (s : StateData) (reaction : FReaction) : ℚ :=
  ((reaction.inputs.map
    (fun inp => binomial ((max (s.getC inp.index).upper 0)).toNat inp.count)).prod : ℕ)

/-- Model of `StateData::state_product`: the input product on the `value`
track. -/
def state_product (s : StateData) (reaction : FReaction) : ℚ :=
  ((reaction.inputs.map
    (fun inp => binomial ((max (s.getC inp.index).value 0)).toNat inp.count)).prod : ℕ)

/-- Model of `StateData::lower_product`: the input product on the `lower`
track; when `has_events` is set, each input's `self_consumption` is
subtracted before the binomial. -/
def lower_product (s : StateData) (reaction : FReaction) (has_events : Bool) : ℚ :=
  ((reaction.inputs.map
    (fun inp => binomial
      (max ((s.getC inp.index).lower - (if has_events then inp.self_consumption else 0)) 0).toNat
      inp.count)).prod : ℕ)

end StateData

/-! ## Per-segment reaction data (src/src/tau5/reaction_data.rs) -/

/-- Model of `ReactionData`. -/
structure ReactionData where
  reaction : ℕ
  time : ℚ
  events : ℕ
  low : ℚ
  high : ℚ
deriving DecidableEq, Repr

instance : Inhabited ReactionData :=
  ⟨⟨0, 0, 0, 0, 0⟩⟩

namespace ReactionData

/-- Model of `TauData::has_events`. -/
def has_events (d : ReactionData) : Bool :=
  decide (d.events ≠ 0)

/-- Model of `ReactionData::sample`.  Draws: `kPoisson` for the Poisson count,
`m` for the `max_sample` root, `e` for the exponential. -/
def sample (product : ℚ) (reaction_idx : ℕ) (reaction : FReaction) (time : ℚ)
    (kPoisson : ℕ) (m : ℚ) (e : ℚ) : ReactionData :=
  let events := sample_poisson (product * time * reaction.rate) kPoisson
  let low := product * max_sample events m
  let high := product + sample_exp (reaction.rate * time) e
  ⟨reaction_idx, time, events, low, high⟩

/-- The random draws consumed by `ReactionData::resample` (at most one branch
actually uses its draws). -/
structure ResampleDraws where
  kBin : ℕ
  mLow : ℚ
  mHigh : ℚ
  kPoisson : ℕ
  mExtra : ℚ
  e : ℚ
deriving DecidableEq, Repr

/-- Model of `ReactionData::resample`: corrects the data when the current
`product` has left `[low, high)`. -/
def resample (d : ReactionData) (product : ℚ) (reaction : FReaction)
    (dr : ResampleDraws) : ReactionData :=
  if product < d.low then
    let rem_events := sample_binomial (d.events - 1) (product / d.low) dr.kBin
    let low := product * max_sample rem_events dr.mLow
    let high := product + (d.low - product) * (1 - max_sample (d.events - rem_events - 1) dr.mHigh)
    { d with low := low, events := rem_events, high := high }
  else if d.high ≤ product then
    let extra_events := sample_poisson (reaction.rate * d.time * (product - d.high)) dr.kPoisson
    let low := d.high + max_sample extra_events dr.mExtra * (product - d.high)
    let high := product + sample_exp (reaction.rate * d.time) dr.e
    { d with events := d.events + extra_events + 1, low := low, high := high }
  else d

/-- The random draws consumed by `<ReactionData as TauData>::split`: `word`
and `kGen` feed `binomial_05`, `uLow` the event-weighted coin, `m` the
`max_sample` root of whichever branch runs, `uHigh` the fair coin, `e` the
exponential of whichever branch runs. -/
structure SplitDraws where
  word : ℕ
  kGen : ℕ
  uLow : ℚ
  m : ℚ
  uHigh : ℚ
  e : ℚ
deriving DecidableEq, Repr

/-- Model of `<ReactionData as TauData>::split`.  The mutated `self` is the
left half (first component); the returned value `res` is the right half
(second component). -/
def split (d : ReactionData) (reaction : FReaction) (dr : SplitDraws) :
    ReactionData × ReactionData :=
  let time := d.time / 2
  let events := d.events
  let rightEvents := binomial_05 d.events dr.word dr.kGen
  let leftEvents := events - rightEvents
  let lows :=
    if 0 < events then
      if random_bool ((rightEvents : ℚ) / (events : ℚ)) dr.uLow then
        (d.low * max_sample leftEvents dr.m, d.low)
      else
        (d.low, d.low * max_sample rightEvents dr.m)
    else (d.low, d.low)
  let highs :=
    if random_bool (1 / 2) dr.uHigh then
      (d.high + sample_exp (reaction.rate * time) dr.e, d.high)
    else
      (d.high, d.high + sample_exp (reaction.rate * time) dr.e)
  (⟨d.reaction, time, leftEvents, lows.1, highs.1⟩,
   ⟨d.reaction, time, rightEvents, lows.2, highs.2⟩)

end ReactionData

/-- Modelled from the spec, for the refinement comparison of the split rule
(spec section 4.4): halve the time, draw `right.events ~ Binomial(events, ½)`
(the code's sampler `binomial_05`), set `left.events = events − right.events`;
pick one of the two halves uniformly weighted by event count — realised with
the single uniform `uLow`: the left half is picked exactly when
`uLow < left.events/events` — and replace the picked half's `low` by
`low · max_uniform(that half's events)`; pick either half with probability ½
and replace its `high` by `high + Exponential(rate · time/2)`. -/
def ReactionData.split_spec (d : ReactionData) (reaction : FReaction)
    (dr : ReactionData.SplitDraws) : ReactionData × ReactionData :=
  let time := d.time / 2
  let events := d.events
  let rightEvents := binomial_05 d.events dr.word dr.kGen
  let leftEvents := events - rightEvents
  let lows :=
    if 0 < events then
      if random_bool ((leftEvents : ℚ) / (events : ℚ)) dr.uLow then
        (d.low * max_sample leftEvents dr.m, d.low)
      else
        (d.low, d.low * max_sample rightEvents dr.m)
    else (d.low, d.low)
  let highs :=
    if random_bool (1 / 2) dr.uHigh then
      (d.high + sample_exp (reaction.rate * time) dr.e, d.high)
    else
      (d.high, d.high + sample_exp (reaction.rate * time) dr.e)
  (⟨d.reaction, time, leftEvents, lows.1, highs.1⟩,
   ⟨d.reaction, time, rightEvents, lows.2, highs.2⟩)

/-- Modelled from the spec as amended by the counterexample to the split
claim: identical to `ReactionData.split_spec` except that the half whose
`low` is replaced is picked with probability proportional to the *other*
half's event count (equivalently, the half that keeps the parent's `low` is
the one picked uniformly weighted by its own event count): the left half's
`low` is replaced exactly when `uLow < right.events/events`. -/
def ReactionData.split_spec_amended (d : ReactionData) (reaction : FReaction)
    (dr : ReactionData.SplitDraws) : ReactionData × ReactionData :=
  let time := d.time / 2
  let events := d.events
  let rightEvents := binomial_05 d.events dr.word dr.kGen
  let leftEvents := events - rightEvents
  let lows :=
    if 0 < events then
      if random_bool ((rightEvents : ℚ) / (events : ℚ)) dr.uLow then
        (d.low * max_sample leftEvents dr.m, d.low)
      else
        (d.low, d.low * max_sample rightEvents dr.m)
    else (d.low, d.low)
  let highs :=
    if random_bool (1 / 2) dr.uHigh then
      (d.high + sample_exp (reaction.rate * time) dr.e, d.high)
    else
      (d.high, d.high + sample_exp (reaction.rate * time) dr.e)
  (⟨d.reaction, time, leftEvents, lows.1, highs.1⟩,
   ⟨d.reaction, time, rightEvents, lows.2, highs.2⟩)

/-- Model of `RecursionTree::is_stable` (src/src/tau5/recursion.rs):
`reaction` stands for `self.reactions[rdata.reaction]`. -/
def is_stable (state : StateData) (reaction : FReaction) (rdata : ReactionData) : Bool :=
  let hasEvents := rdata.has_events
  let lowerProduct := state.lower_product reaction hasEvents
  let upperProduct := state.upper_product reaction
  let lower_legal := decide (rdata.low ≤ lowerProduct)
  let upper_legal := decide (upperProduct < rdata.high)
  upper_legal && lower_legal

/-! ## The recursion tree (src/src/tau5/recursion.rs)

The recursion controller is modelled with an explicit random-draw source: a
bundle of streams, one per draw kind, each with a counter, together with an
oracle interpreting the two `f64` operations that have no exact rational
counterpart (`powf` for `max_sample`, `sqrt` for the listener thresholds).
Every sampler consumes draws exactly where the source calls the RNG.  The
`while` loops and the recursion itself, which have no structural measure,
take a fuel argument and return `none` when it runs out. -/

/-- Interpretation of the two irrational `f64` operations: `root n u` stands
for `u.powf((n as f64).recip())` and `sqrtQ x` for `x.sqrt()`. -/
structure FloatOracle where
  root : ℕ → ℚ → ℚ
  sqrtQ : ℚ → ℚ

/-- The random source: one stream per draw kind, with a counter each. -/
structure RngState where
  oracle : FloatOracle
  uniform : ℕ → ℚ
  word : ℕ → ℕ
  poisson : ℕ → ℕ
  expStream : ℕ → ℚ
  binom : ℕ → ℕ
  iUniform : ℕ
  iWord : ℕ
  iPoisson : ℕ
  iExp : ℕ
  iBinom : ℕ

namespace RngState

/-- Consume the next uniform draw (`rng.random::<f64>()`). -/
def nextUniform (r : RngState) : ℚ × RngState :=
  (r.uniform r.iUniform, { r with iUniform := r.iUniform + 1 })

/-- Consume the next 64-bit word draw (`rng.random::<u64>()`). -/
def nextWord (r : RngState) : ℕ × RngState :=
  (r.word r.iWord, { r with iWord := r.iWord + 1 })

/-- Consume the next Poisson draw. -/
def nextPoisson (r : RngState) : ℕ × RngState :=
  (r.poisson r.iPoisson, { r with iPoisson := r.iPoisson + 1 })

/-- Consume the next exponential draw. -/
def nextExp (r : RngState) : ℚ × RngState :=
  (r.expStream r.iExp, { r with iExp := r.iExp + 1 })

/-- Consume the next general-binomial draw. -/
def nextBinom (r : RngState) : ℕ × RngState :=
  (r.binom r.iBinom, { r with iBinom := r.iBinom + 1 })

end RngState

/-- Stream-threaded `sample_poisson`: the source consumes a draw only when
the rate is non-zero. -/
def sample_poissonR (rate : ℚ) (rng : RngState) : ℕ × RngState :=
  if rate = 0 then (0, rng)
  else rng.nextPoisson

/-- Stream-threaded `sample_exp`. -/
def sample_expR (rate : ℚ) (rng : RngState) : ℚ × RngState :=
  let (e, rng) := rng.nextExp
  (sample_exp rate e, rng)

/-- Stream-threaded `sample_binomial`. -/
def sample_binomialR (n : ℕ) (p : ℚ) (rng : RngState) : ℕ × RngState :=
  let (k, rng) := rng.nextBinom
  (sample_binomial n p k, rng)

/-- Stream-threaded `max_sample`: a uniform is drawn and its `n`-th root
taken only when `n ≠ 0`. -/
def max_sampleR (n : ℕ) (rng : RngState) : ℚ × RngState :=
  if n = 0 then (0, rng)
  else
    let (u, rng) := rng.nextUniform
    (max_sample n (rng.oracle.root n u), rng)

/-- Stream-threaded `rng.random_bool`. -/
def random_boolR (p : ℚ) (rng : RngState) : Bool × RngState :=
  let (u, rng) := rng.nextUniform
  (random_bool p u, rng)

/-- Stream-threaded `binomial_05` (utils.rs): no draw for `n = 0`, a word
draw for `n ≤ 64`, a general binomial draw otherwise; the unused draw slot of
the pure `binomial_05` is passed a dummy value. -/
def binomial_05R (n : ℕ) (rng : RngState) : ℕ × RngState :=
  if n = 0 then (0, rng)
  else if n ≤ 64 then
    let (w, rng) := rng.nextWord
    (binomial_05 n w 0, rng)
  else
    let (k, rng) := rng.nextBinom
    (binomial_05 n 0 k, rng)

/-- Stream-threaded `ReactionData::sample`. -/
def ReactionData.sampleR (product : ℚ) (reaction_idx : ℕ) (reaction : FReaction)
    (time : ℚ) (rng : RngState) : ReactionData × RngState :=
  let (events, rng) := sample_poissonR (product * time * reaction.rate) rng
  let (m, rng) := max_sampleR events rng
  let (e, rng) := sample_expR (reaction.rate * time) rng
  (⟨reaction_idx, time, events, product * m, product + e⟩, rng)

/-- Stream-threaded `ReactionData::resample`. -/
def ReactionData.resampleR (d : ReactionData) (product : ℚ) (reaction : FReaction)
    (rng : RngState) : ReactionData × RngState :=
  if product < d.low then
    let (rem_events, rng) := sample_binomialR (d.events - 1) (product / d.low) rng
    let (ml, rng) := max_sampleR rem_events rng
    let (mh, rng) := max_sampleR (d.events - rem_events - 1) rng
    ({ d with
        low := product * ml
        events := rem_events
        high := product + (d.low - product) * (1 - mh) }, rng)
  else if d.high ≤ product then
    let (extra_events, rng) := sample_poissonR (reaction.rate * d.time * (product - d.high)) rng
    let (mx, rng) := max_sampleR extra_events rng
    let (e, rng) := sample_expR (reaction.rate * d.time) rng
    ({ d with
        events := d.events + extra_events + 1
        low := d.high + mx * (product - d.high)
        high := product + e }, rng)
  else (d, rng)

/-- Stream-threaded `<ReactionData as TauData>::split`; the first component
is the mutated `self` (left half), the second the returned right half. -/
def ReactionData.splitR (d : ReactionData) (reaction : FReaction) (rng : RngState) :
    (ReactionData × ReactionData) × RngState :=
  let time := d.time / 2
  let events := d.events
  let (rightEvents, rng) := binomial_05R d.events rng
  let leftEvents := events - rightEvents
  let (lows, rng) :=
    if 0 < events then
      let (b, rng) := random_boolR ((rightEvents : ℚ) / (events : ℚ)) rng
      if b then
        let (ml, rng) := max_sampleR leftEvents rng
        ((d.low * ml, d.low), rng)
      else
        let (mr, rng) := max_sampleR rightEvents rng
        ((d.low, d.low * mr), rng)
    else ((d.low, d.low), rng)
  let (highs, rng) :=
    let (b, rng) := random_boolR (1 / 2) rng
    if b then
      let (e, rng) := sample_expR (reaction.rate * time) rng
      ((d.high + e, d.high), rng)
    else
      let (e, rng) := sample_expR (reaction.rate * time) rng
      ((d.high, d.high + e), rng)
  ((⟨d.reaction, time, leftEvents, lows.1, highs.1⟩,
    ⟨d.reaction, time, rightEvents, lows.2, highs.2⟩), rng)

/-- Model of `StableReactionData` (src/src/tau5/reaction_data.rs). -/
structure StableReactionData where
  reaction : ℕ
  time : ℚ
  events : ℕ
  low : ℚ
  has_low : Bool
  high : ℚ
  has_high : Bool
deriving DecidableEq, Repr

instance : Inhabited StableReactionData :=
  ⟨⟨0, 0, 0, 0, false, 0, false⟩⟩

/-- Model of `ReactionData::stabilize`. -/
def ReactionData.stabilize (d : ReactionData) : StableReactionData :=
  ⟨d.reaction, d.time, d.events, d.low, true, d.high, true⟩

namespace StableReactionData

/-- Model of `StableReactionData::sample_high`: lazily materialise the upper
endpoint; returns the updated data and the endpoint. -/
def sample_highR (s : StableReactionData) (reaction : FReaction) (rng : RngState) :
    StableReactionData × ℚ × RngState :=
  if !s.has_high then
    let (e, rng) := sample_expR (reaction.rate * s.time) rng
    let s := { s with high := s.high + e, has_high := true }
    (s, s.high, rng)
  else (s, s.high, rng)

/-- Model of `StableReactionData::sample_low`: lazily materialise the lower
endpoint. -/
def sample_lowR (s : StableReactionData) (reaction : FReaction) (rng : RngState) :
    StableReactionData × ℚ × RngState :=
  if !s.has_low then
    let (m, rng) := max_sampleR s.events rng
    let s := { s with low := s.low * m, has_low := true }
    (s, s.low, rng)
  else (s, s.low, rng)

/-- Model of `StableReactionData::destabilize`. -/
def destabilizeR (s : StableReactionData) (reaction : FReaction) (rng : RngState) :
    ReactionData × RngState :=
  let (s, low, rng) := s.sample_lowR reaction rng
  let (s, high, rng) := s.sample_highR reaction rng
  (⟨s.reaction, s.time, s.events, low, high⟩, rng)

/-- Model of `<StableReactionData as TauData>::split`; first component the
mutated `self` (left half), second the returned right half. -/
def splitR (s : StableReactionData) (reaction : FReaction) (rng : RngState) :
    (StableReactionData × StableReactionData) × RngState :=
  let time := s.time / 2
  let events := s.events
  let (rightEvents, rng) := binomial_05R s.events rng
  let leftEvents := events - rightEvents
  let (flagsLow, rng) :=
    if 0 < events && s.has_low then
      let (b, rng) := random_boolR ((rightEvents : ℚ) / (events : ℚ)) rng
      if b then ((false, s.has_low), rng) else ((s.has_low, false), rng)
    else ((s.has_low, s.has_low), rng)
  let (flagsHigh, rng) :=
    if s.has_high then
      let (b, rng) := random_boolR (1 / 2) rng
      if b then ((false, s.has_high), rng) else ((s.has_high, false), rng)
    else ((s.has_high, s.has_high), rng)
  ((⟨s.reaction, time, leftEvents, s.low, flagsLow.1, s.high, flagsHigh.1⟩,
    ⟨s.reaction, time, rightEvents, s.low, flagsLow.2, s.high, flagsHigh.2⟩), rng)

/-- Model of `TauData::has_events` for stable data. -/
def has_events (s : StableReactionData) : Bool :=
  decide (s.events ≠ 0)

end StableReactionData

/-- Model of `FReaction::input_product` (f_reaction.rs). -/
def FReaction.input_product (r : FReaction) (reactants : List ℤ) : ℕ :=
  (r.inputs.map (fun inp => binomial (max (reactants.getD inp.index 0) 0).toNat inp.count)).prod

/-- A listener payload `(reaction_idx, node_idx, node_id)`. -/
abbrev LData : Type := ℕ × ℕ × ℕ

/-- A stored heap entry `(key, data)`. -/
abbrev LEntry : Type := ℤ × LData

/-- Lexicographic order of the Rust tuple `(Key, Data)` used by the heaps. -/
def entryLt (a b : LEntry) : Bool :=
  (a.1 < b.1) || (a.1 == b.1 &&
    ((a.2.1 < b.2.1) || (a.2.1 == b.2.1 &&
      ((a.2.2.1 < b.2.2.1) || (a.2.2.1 == b.2.2.1 && a.2.2.2 < b.2.2.2)))))

/-- The maximal entry of a heap (the heaps are modelled as plain lists whose
pop returns a maximal element under the tuple order). -/
def heapPeek (h : List LEntry) : Option LEntry :=
  h.foldl (fun acc e =>
    match acc with
    | none => some e
    | some m => if entryLt m e then some e else some m) none

/-- Model of `MaxListener::push` (fastspie6/listener.rs). -/
def listener_push_max (h : List LEntry) (key : ℤ) (data : LData) : List LEntry :=
  (key, data) :: h

/-- Model of `MinListener::push`: stores the negated key in a max-heap. -/
def listener_push_min (h : List LEntry) (key : ℤ) (data : LData) : List LEntry :=
  (-key, data) :: h

/-- Model of `MaxListener::pop_if_larger_than`. -/
def listener_pop_if_larger_than (h : List LEntry) (key : ℤ) :
    Option (LData × List LEntry) :=
  match heapPeek h with
  | none => none
  | some top => if key < top.1 then some (top.2, h.erase top) else none

/-- Model of `MinListener::pop_if_smaller_than`. -/
def listener_pop_if_smaller_than (h : List LEntry) (key : ℤ) :
    Option (LData × List LEntry) :=
  match heapPeek h with
  | none => none
  | some top => if -key < top.1 then some (top.2, h.erase top) else none

/-- Model of `UnstableDependents::add_unstable` (tau5/unstable_dependents.rs). -/
def add_unstable_deps (deps : List ℕ) (reaction : FReaction) : List ℕ :=
  reaction.inputs.foldl (fun d inp => modifyIdx d inp.index (fun x => x + 1)) deps

/-- Model of `UnstableDependents::remove_unstable`; the `usize` subtraction
(which would panic at 0 in Rust) truncates. -/
def remove_unstable_deps (deps : List ℕ) (reaction : FReaction) : List ℕ :=
  reaction.inputs.foldl (fun d inp => modifyIdx d inp.index (fun x => x - 1)) deps

/-- Model of `UnstableDependents::has_dependents`. -/
def has_dependents (deps : List ℕ) (reaction : FReaction) : Bool :=
  reaction.stoichiometry.any (fun p => 0 < deps.getD p.1 0)

/-- Modelled from the spec: the sentinel `NO_LISTENER` (declared in the
crate's `tau5` module root, which is not among the provided sources) marks a
reaction as having no registered listener; `is_valid_listener` rejects it
because its node index (`usize::MAX`) can never be below the node count. -/
def NO_LISTENER : ℕ × ℕ :=
  (2 ^ 64 - 1, 0)

/-- Model of `RecursionTreeNode` (tau5/recursion.rs); node ids are the `u64`
contents of `NodeId`. -/
structure RecNode where
  stable_reactions : List StableReactionData
  unstable_reactions : List ReactionData
  is_active : Bool
  parent : Option ℕ
  left : Option ℕ
  right : Option ℕ
  id : ℕ

instance : Inhabited RecNode :=
  ⟨⟨[], [], false, none, none, none, 0⟩⟩

/-- Model of `RecursionTree` (tau5/recursion.rs): the mutable fields of the
controller; the borrowed `reactions` slice is passed to each function and
`reactant_names` (used only by debug printing) is dropped. -/
structure RecState where
  nodes : List RecNode
  stable_index : List (Option (ℕ × ℕ))
  state : StateData
  stored_stable : List Bool
  unstable_dependents : List ℕ
  total_events : ℕ
  inactive_by_component : List (List ℕ)
  upper_listeners : List (List LEntry)
  upper_last_clean : List ℕ
  upper_last_listener : List (ℕ × ℕ)
  lower_listeners : List (List LEntry)
  lower_last_clean : List ℕ
  lower_last_listener : List (ℕ × ℕ)
  rng : RngState

/-- Update one node in place. -/
def RecState.setNode (rs : RecState) (n : ℕ) (f : RecNode → RecNode) : RecState :=
  { rs with nodes := modifyIdx rs.nodes n f }

/-- Reaction lookup, `self.reactions[i]` (panics out of range in Rust; no
claim exercises that). -/
def getReaction (reactions : List FReaction) (i : ℕ) : FReaction :=
  reactions.getD i default

/-- Model of `RecursionTree::is_valid_listener`. -/
def RecState.is_valid_listener (rs : RecState) (l : ℕ × ℕ) : Bool :=
  decide (l.1 < rs.nodes.length) && ((rs.nodes.getD l.1 default).id == l.2)

/-- Swap two positions of a list (`Vec::swap`). -/
def listSwap {α : Type} [Inhabited α] (l : List α) (i j : ℕ) : List α :=
  (l.set i (l.getD j default)).set j (l.getD i default)

/-- Model of `RecursionTree::add_positive_listeners` (tau5/recursion.rs).
The `debug_assert!` is skipped as in a release build, and the unsupported
arities that panic in Rust register nothing. -/
def add_positive_listeners (reactions : List FReaction) (rdata : StableReactionData)
    (node_idx : ℕ) (rs : RecState) : RecState :=
  if rs.is_valid_listener (rs.upper_last_listener.getD rdata.reaction NO_LISTENER) then rs
  else
    let node_id := (rs.nodes.getD node_idx default).id
    let rs := { rs with upper_last_listener :=
      (rs.upper_last_listener.set rdata.reaction (node_idx, node_id)) }
    let key : LData := (rdata.reaction, node_idx, node_id)
    let reaction := getReaction reactions rdata.reaction
    let upper_bound := rdata.high
    let curr_prod := rs.state.upper_product reaction
    match reaction.inputs with
    | [] => rs
    | [inp] =>
      if inp.count = 1 then
        { rs with upper_listeners := (modifyIdx rs.upper_listeners inp.index
            (fun h => listener_push_min h (Int.floor upper_bound) key)) }
      else if inp.count = 2 then
        let target := (1 + rs.rng.oracle.sqrtQ (1 + upper_bound * 8)) / 2
        { rs with upper_listeners := (modifyIdx rs.upper_listeners inp.index
            (fun h => listener_push_min h (Int.floor target) key)) }
      else rs
    | [a, b] =>
      if curr_prod = 0 then
        match [a, b].find? (fun inp => (rs.state.getC inp.index).upper == 0) with
        | some inp =>
          { rs with upper_listeners := (modifyIdx rs.upper_listeners inp.index
              (fun h => listener_push_min h 0 key)) }
        | none => rs
      else
        let ratio := rs.rng.oracle.sqrtQ (upper_bound / curr_prod)
        [a, b].foldl (fun rs inp =>
          { rs with upper_listeners := (modifyIdx rs.upper_listeners inp.index
              (fun h => listener_push_min h
                (Int.floor (((rs.state.getC inp.index).upper : ℚ) * ratio)) key)) }) rs
    | _ => rs

/-- Model of `RecursionTree::add_negative_listeners` (tau5/recursion.rs). -/
def add_negative_listeners (reactions : List FReaction) (rdata : StableReactionData)
    (node_idx : ℕ) (rs : RecState) : RecState :=
  if !rdata.has_events then rs
  else if rs.is_valid_listener (rs.lower_last_listener.getD rdata.reaction NO_LISTENER) then rs
  else
    let node_id := (rs.nodes.getD node_idx default).id
    let rs := { rs with lower_last_listener :=
      (rs.lower_last_listener.set rdata.reaction (node_idx, node_id)) }
    let key : LData := (rdata.reaction, node_idx, node_id)
    let reaction := getReaction reactions rdata.reaction
    let lower_cutoff := rdata.low
    let curr_prod := rs.state.lower_product reaction true
    match reaction.inputs with
    | [] => rs
    | [inp] =>
      if inp.count = 1 then
        let target := Int.ceil lower_cutoff
        if 0 ≤ target then
          { rs with lower_listeners := (modifyIdx rs.lower_listeners inp.index
              (fun h => listener_push_max h (target + inp.self_consumption) key)) }
        else rs
      else if inp.count = 2 then
        let target := Int.ceil ((1 + rs.rng.oracle.sqrtQ (1 + lower_cutoff * 8)) / 2)
        if 0 ≤ target then
          { rs with lower_listeners := (modifyIdx rs.lower_listeners inp.index
              (fun h => listener_push_max h (target + inp.self_consumption) key)) }
        else rs
      else rs
    | [a, b] =>
      if curr_prod < lower_cutoff then
        { rs with lower_listeners := (modifyIdx rs.lower_listeners a.index
            (fun h => listener_push_max h ((rs.state.getC a.index).upper + 1) key)) }
      else
        let ratio := rs.rng.oracle.sqrtQ (lower_cutoff / curr_prod)
        [a, b].foldl (fun rs inp =>
          let cutoff := Int.ceil
            ((((rs.state.getC inp.index).lower - inp.self_consumption : ℤ) : ℚ) * ratio)
          if 0 < cutoff then
            { rs with lower_listeners := (modifyIdx rs.lower_listeners inp.index
                (fun h => listener_push_max h (cutoff + inp.self_consumption) key)) }
          else rs) rs
    | _ => rs

/-- Model of `RecursionTree::clear_listeners`. -/
def clear_listeners (reactions : List FReaction) (node : ℕ) (rs : RecState) : RecState :=
  (rs.nodes.getD node default).stable_reactions.foldl (fun rs rdata =>
    (getReaction reactions rdata.reaction).inputs.foldl (fun rs inp =>
      let rs :=
        if 2 * rs.upper_last_clean.getD inp.index 0 <
            (rs.upper_listeners.getD inp.index []).length then
          let h := (rs.upper_listeners.getD inp.index []).filter
            (fun e => e.2.2.2 == (rs.upper_last_listener.getD e.2.1 NO_LISTENER).2)
          { rs with upper_listeners := rs.upper_listeners.set inp.index h,
                    upper_last_clean := rs.upper_last_clean.set inp.index h.length }
        else rs
      if 2 * rs.lower_last_clean.getD inp.index 0 <
          (rs.lower_listeners.getD inp.index []).length then
        let h := (rs.lower_listeners.getD inp.index []).filter
          (fun e => e.2.2.2 == (rs.lower_last_listener.getD e.2.1 NO_LISTENER).2)
        { rs with lower_listeners := rs.lower_listeners.set inp.index h,
                  lower_last_clean := rs.lower_last_clean.set inp.index h.length }
      else rs) rs) rs

/-- Model of `RecursionTree::activate_node`: add every reaction of the node
to the bounds, register the unstable ones in the dependents tracker, index
the stable ones and give them listeners, then mark the node active. -/
def activate_node (reactions : List FReaction) (node : ℕ) (rs : RecState) : RecState :=
  let rs := (rs.nodes.getD node default).unstable_reactions.foldl (fun rs rdata =>
    let reaction := getReaction reactions rdata.reaction
    { rs with state := rs.state.add_bounds rdata.events reaction,
              unstable_dependents := add_unstable_deps rs.unstable_dependents reaction }) rs
  let rs := (rs.nodes.getD node default).stable_reactions.enum.foldl (fun rs p =>
    let idx := p.1
    let rdata := p.2
    let reaction := getReaction reactions rdata.reaction
    let rs := { rs with
      stable_index := rs.stable_index.set rdata.reaction (some (node, idx)),
      state := rs.state.add_bounds rdata.events reaction }
    let rs := add_negative_listeners reactions rdata node rs
    add_positive_listeners reactions rdata node rs) rs
  rs.setNode node (fun nd => { nd with is_active := true })

/-- Model of `RecursionTree::finish_node`: apply every remaining (stable)
reaction of the node, un-index it, accumulate the firings, and pop the
node. -/
def remove_node (node : ℕ) (rs : RecState) : RecState :=
  let rs :=
    match (rs.nodes.getD node default).parent with
    | none => rs
    | some parent =>
      if (rs.nodes.getD parent default).left == some node then
        rs.setNode parent (fun nd => { nd with left := none })
      else
        rs.setNode parent (fun nd => { nd with right := none })
  { rs with nodes := rs.nodes.dropLast }

/-- Model of `RecursionTree::finish_node`. -/
def finish_node (reactions : List FReaction) (node : ℕ) (rs : RecState) : RecState :=
  let stables := (rs.nodes.getD node default).stable_reactions
  let rs := rs.setNode node (fun nd => { nd with stable_reactions := [] })
  let rs := stables.foldl (fun rs rdata =>
    let reaction := getReaction reactions rdata.reaction
    { rs with
      stable_index := rs.stable_index.set rdata.reaction none,
      state := ((rs.state.remove_bounds rdata.events reaction).apply rdata.events reaction),
      total_events := rs.total_events + rdata.events }) rs
  remove_node node rs

/-- Model of `RecursionTree::resample_unstable`: resample every unstable
reaction of the node at the current state product and adjust the bounds by
the change in the event count. -/
def resample_unstable (reactions : List FReaction) (node : ℕ) (rs : RecState) : RecState :=
  (List.range (rs.nodes.getD node default).unstable_reactions.length).foldl (fun rs idx =>
    let rdata := (rs.nodes.getD node default).unstable_reactions.getD idx default
    let reaction := getReaction reactions rdata.reaction
    let prod := rs.state.state_product reaction
    let old_events := rdata.events
    let (rdata2, rng) := rdata.resampleR prod reaction rs.rng
    let rs := { rs with rng := rng }
    let rs := rs.setNode node (fun nd =>
      { nd with unstable_reactions := nd.unstable_reactions.set idx rdata2 })
    { rs with state := (rs.state.change_bounds
        ((rdata2.events : ℤ) - (old_events : ℤ)) reaction) }) rs

/-- Model of `RecursionTree::add_stable`: register listeners and the index
when the node is on the active path, then push the data. -/
def add_stable (reactions : List FReaction) (node_idx : ℕ) (rdata : StableReactionData)
    (rs : RecState) : RecState :=
  let rs :=
    if (rs.nodes.getD node_idx default).is_active then
      let rs := add_positive_listeners reactions rdata node_idx rs
      let rs := add_negative_listeners reactions rdata node_idx rs
      { rs with stable_index := (rs.stable_index.set rdata.reaction
          (some (node_idx, (rs.nodes.getD node_idx default).stable_reactions.length))) }
    else rs
  rs.setNode node_idx (fun nd =>
    { nd with stable_reactions := nd.stable_reactions ++ [rdata] })

/-- Model of `RecursionTree::remove_stable`: swap-remove the reaction's data
from its node, patching the index of the reaction that was swapped into its
place. -/
def remove_stable (reaction_idx : ℕ) (rs : RecState) :
    Option ((ℕ × StableReactionData) × RecState) :=
  match rs.stable_index.getD reaction_idx none with
  | none => none
  | some (node, vec_idx) =>
    let srs := (rs.nodes.getD node default).stable_reactions
    let rs :=
      if vec_idx + 1 ≠ srs.length then
        let last_idx := srs.length - 1
        let last_reaction := (srs.getD last_idx default).reaction
        let rs := rs.setNode node (fun nd =>
          { nd with stable_reactions := listSwap nd.stable_reactions vec_idx last_idx })
        { rs with stable_index := listSwap rs.stable_index reaction_idx last_reaction }
      else rs
    let rs := { rs with stable_index := rs.stable_index.set reaction_idx none }
    let srs2 := (rs.nodes.getD node default).stable_reactions
    let rdata := srs2.getD (srs2.length - 1) default
    let rs := rs.setNode node (fun nd => { nd with stable_reactions := nd.stable_reactions.dropLast })
    some ((node, rdata), rs)

/-- Model of `RecursionTree::stable_is_stable`: like `is_stable` but lazily
materialising whichever endpoints are needed, with the source's
short-circuit evaluation order (lower first, then upper). -/
def stable_is_stableR (reactions : List FReaction) (rdata : StableReactionData)
    (rs : RecState) : Bool × StableReactionData × RngState :=
  let reaction := getReaction reactions rdata.reaction
  let lower_product := rs.state.lower_product reaction rdata.has_events
  let upper_product := rs.state.upper_product reaction
  let step1 : Bool × StableReactionData × RngState :=
    if rdata.low ≤ lower_product then (true, rdata, rs.rng)
    else
      let (rdata, low, rng) := rdata.sample_lowR reaction rs.rng
      (decide (low ≤ lower_product), rdata, rng)
  let lower_legal := step1.1
  let rdata := step1.2.1
  let rng := step1.2.2
  let step2 : Bool × StableReactionData × RngState :=
    if upper_product < rdata.high then (true, rdata, rng)
    else
      let (rdata, high, rng) := rdata.sample_highR reaction rng
      (decide (upper_product < high), rdata, rng)
  let upper_legal := step2.1
  (upper_legal && lower_legal, step2.2.1, step2.2.2)

/-- Model of `RecursionTree::can_deactivate`. -/
def can_deactivate (reactions : List FReaction) (rdata : StableReactionData)
    (rs : RecState) : Bool :=
  (rdata.events == 0) || !(has_dependents rs.unstable_dependents (getReaction reactions rdata.reaction))

/-- Model of `RecursionTree::add_node`: push a fresh inactive node and return
its index. -/
def add_node (parent : ℕ) (unstable_reactions : List ReactionData)
    (stable_reactions : List StableReactionData) (is_left : Bool) (rs : RecState) :
    ℕ × RecState :=
  let id := (rs.nodes.getD parent default).id * 2 + (if is_left then 0 else 1)
  let rs := { rs with nodes := (rs.nodes ++
    [⟨stable_reactions, unstable_reactions, false, some parent, none, none, id⟩]) }
  (rs.nodes.length - 1, rs)

mutual

/-- Model of `RecursionTree::full_split` (tau5/recursion.rs): remove the
stable data of the reaction, remove its bounds and walk it down to the
active leaf, splitting at every open node.  All loops and the mutual
recursion with `add_unstable` consume fuel and answer `none` when it runs
out (the unreachable `(Some, None)` tree shape, a panic in Rust, also
answers `none`). -/
def full_split (fuel : ℕ) (reactions : List FReaction) (reaction_idx : ℕ)
    (rs : RecState) : Option RecState :=
  match fuel with
  | 0 => none
  | fuel + 1 =>
    match remove_stable reaction_idx rs with
    | none => some rs
    | some ((node, rdata), rs) =>
      let reaction := getReaction reactions reaction_idx
      let rs := { rs with state := rs.state.remove_bounds rdata.events reaction }
      full_split_go fuel reactions reaction_idx node rdata rs

/-- The descent loop of `full_split`. -/
def full_split_go (fuel : ℕ) (reactions : List FReaction) (reaction_idx : ℕ)
    (node : ℕ) (rdata : StableReactionData) (rs : RecState) : Option RecState :=
  match fuel with
  | 0 => none
  | fuel + 1 =>
    let reaction := getReaction reactions reaction_idx
    let nd := rs.nodes.getD node default
    match nd.left, nd.right with
    | none, none =>
      let rs := { rs with state := rs.state.add_bounds rdata.events reaction }
      let res := stable_is_stableR reactions rdata rs
      let rs := { rs with rng := res.2.2 }
      if res.1 then some (add_stable reactions node res.2.1 rs)
      else add_unstable_split fuel reactions node res.2.1 rs
    | none, some right =>
      let res := rdata.splitR reaction rs.rng
      let ldata := res.1.1
      let rdatar := res.1.2
      let rs := { rs with rng := res.2,
                          state := rs.state.apply rdatar.events reaction }
      let rs := { rs with total_events := rs.total_events + ldata.events }
      full_split_go fuel reactions reaction_idx right ldata rs
    | some _, none => none
    | some left, some right =>
      let res := rdata.splitR reaction rs.rng
      let ldata := res.1.1
      let rdatar := res.1.2
      let rs := { rs with rng := res.2 }
      let rs := add_stable reactions right rdatar rs
      full_split_go fuel reactions reaction_idx left ldata rs

/-- Model of `RecursionTree::add_unstable` (named with a suffix to avoid
clashing with the dependents tracker): destabilize the data into the node's
unstable list, clear its listeners, count its inputs as unstable, and fully
split every inactive reaction feeding a newly-contended input. -/
def add_unstable_split (fuel : ℕ) (reactions : List FReaction) (node_idx : ℕ)
    (rdata : StableReactionData) (rs : RecState) : Option RecState :=
  match fuel with
  | 0 => none
  | fuel + 1 =>
    let reaction_idx := rdata.reaction
    let reaction := getReaction reactions reaction_idx
    let res := rdata.destabilizeR reaction rs.rng
    let rs := { rs with rng := res.2 }
    let rs := rs.setNode node_idx (fun nd =>
      { nd with unstable_reactions := nd.unstable_reactions ++ [res.1] })
    let rs := { rs with
      upper_last_listener := rs.upper_last_listener.set rdata.reaction NO_LISTENER,
      lower_last_listener := rs.lower_last_listener.set rdata.reaction NO_LISTENER,
      unstable_dependents := add_unstable_deps rs.unstable_dependents reaction,
      stored_stable := rs.stored_stable.set reaction_idx false }
    dep_inputs_loop fuel reactions reaction.inputs rs

/-- The loop of `add_unstable` over the reaction's inputs. -/
def dep_inputs_loop (fuel : ℕ) (reactions : List FReaction) (inputs : List Input)
    (rs : RecState) : Option RecState :=
  match fuel with
  | 0 => none
  | fuel + 1 =>
    match inputs with
    | [] => some rs
    | inp :: rest =>
      if rs.unstable_dependents.getD inp.index 0 = 1 then
        match inactive_pop_loop fuel reactions inp.index rs with
        | none => none
        | some rs => dep_inputs_loop fuel reactions rest rs
      else dep_inputs_loop fuel reactions rest rs

/-- The `while let Some(..) = inactive_by_component[..].pop()` loop of
`add_unstable`. -/
def inactive_pop_loop (fuel : ℕ) (reactions : List FReaction) (comp : ℕ)
    (rs : RecState) : Option RecState :=
  match fuel with
  | 0 => none
  | fuel + 1 =>
    let l := rs.inactive_by_component.getD comp []
    match l.getLast? with
    | none => some rs
    | some ridx =>
      let rs := { rs with inactive_by_component :=
        rs.inactive_by_component.set comp l.dropLast }
      match full_split fuel reactions ridx rs with
      | none => none
      | some rs => inactive_pop_loop fuel reactions comp rs

end

/-- The `while` loop over the upper listeners of one component in
`RecursionTree::reactivate_component`. -/
def reactivate_upper_loop (fuel : ℕ) (reactions : List FReaction) (comp : ℕ)
    (rs : RecState) : Option RecState :=
  match fuel with
  | 0 => none
  | fuel + 1 =>
    match listener_pop_if_smaller_than (rs.upper_listeners.getD comp [])
        ((rs.state.getC comp).upper) with
    | none => some rs
    | some (data, h2) =>
      let rs := { rs with upper_listeners := rs.upper_listeners.set comp h2 }
      let reaction_idx := data.1
      let l_node_idx := data.2.1
      let l_node_id := data.2.2
      match rs.stable_index.getD reaction_idx none with
      | none => reactivate_upper_loop fuel reactions comp rs
      | some (node_idx, vec_idx) =>
        if rs.nodes.length ≤ l_node_idx ∨
            l_node_id ≠ (rs.nodes.getD l_node_idx default).id then
          reactivate_upper_loop fuel reactions comp rs
        else
          let reaction := getReaction reactions reaction_idx
          let new_upper := rs.state.upper_product reaction
          let srdata := (rs.nodes.getD node_idx default).stable_reactions.getD vec_idx default
          if new_upper < srdata.high then
            let rs := { rs with upper_last_listener :=
              rs.upper_last_listener.set reaction_idx NO_LISTENER }
            let rs := add_positive_listeners reactions srdata node_idx rs
            reactivate_upper_loop fuel reactions comp rs
          else
            let res := srdata.sample_highR reaction rs.rng
            let srdata2 := res.1
            let rs := { rs with rng := res.2.2 }
            let rs := rs.setNode node_idx (fun nd =>
              { nd with stable_reactions := nd.stable_reactions.set vec_idx srdata2 })
            if new_upper < res.2.1 then
              let rs := { rs with upper_last_listener :=
                rs.upper_last_listener.set reaction_idx NO_LISTENER }
              let rs := add_positive_listeners reactions srdata2 node_idx rs
              reactivate_upper_loop fuel reactions comp rs
            else
              let rs := { rs with
                upper_last_listener := rs.upper_last_listener.set reaction_idx NO_LISTENER,
                lower_last_listener := rs.lower_last_listener.set reaction_idx NO_LISTENER }
              match full_split fuel reactions reaction_idx rs with
              | none => none
              | some rs => reactivate_upper_loop fuel reactions comp rs

/-- The `while` loop over the lower listeners of one component in
`RecursionTree::reactivate_component`. -/
def reactivate_lower_loop (fuel : ℕ) (reactions : List FReaction) (comp : ℕ)
    (rs : RecState) : Option RecState :=
  match fuel with
  | 0 => none
  | fuel + 1 =>
    match listener_pop_if_larger_than (rs.lower_listeners.getD comp [])
        ((rs.state.getC comp).lower) with
    | none => some rs
    | some (data, h2) =>
      let rs := { rs with lower_listeners := rs.lower_listeners.set comp h2 }
      let reaction_idx := data.1
      let l_node_idx := data.2.1
      let l_node_id := data.2.2
      match rs.stable_index.getD reaction_idx none with
      | none => reactivate_lower_loop fuel reactions comp rs
      | some (node_idx, vec_idx) =>
        if rs.nodes.length ≤ l_node_idx ∨
            l_node_id ≠ (rs.nodes.getD l_node_idx default).id then
          reactivate_lower_loop fuel reactions comp rs
        else
          let reaction := getReaction reactions reaction_idx
          let srdata := (rs.nodes.getD node_idx default).stable_reactions.getD vec_idx default
          let new_lower := rs.state.lower_product reaction srdata.has_events
          if srdata.low ≤ new_lower then
            let rs := { rs with lower_last_listener :=
              rs.lower_last_listener.set reaction_idx NO_LISTENER }
            let rs := add_negative_listeners reactions srdata node_idx rs
            reactivate_lower_loop fuel reactions comp rs
          else
            let res := srdata.sample_lowR reaction rs.rng
            let srdata2 := res.1
            let rs := { rs with rng := res.2.2 }
            let rs := rs.setNode node_idx (fun nd =>
              { nd with stable_reactions := nd.stable_reactions.set vec_idx srdata2 })
            if res.2.1 ≤ new_lower then
              let rs := { rs with lower_last_listener :=
                rs.lower_last_listener.set reaction_idx NO_LISTENER }
              let rs := add_negative_listeners reactions srdata2 node_idx rs
              reactivate_lower_loop fuel reactions comp rs
            else
              let rs := { rs with
                lower_last_listener := rs.lower_last_listener.set reaction_idx NO_LISTENER,
                upper_last_listener := rs.upper_last_listener.set reaction_idx NO_LISTENER }
              match full_split fuel reactions reaction_idx rs with
              | none => none
              | some rs => reactivate_lower_loop fuel reactions comp rs

/-- Model of `RecursionTree::reactivate_component`. -/
def reactivate_component (fuel : ℕ) (reactions : List FReaction) (comp : ℕ)
    (rs : RecState) : Option RecState :=
  match reactivate_upper_loop fuel reactions comp rs with
  | none => none
  | some rs => reactivate_lower_loop fuel reactions comp rs

/-- The loop of `reactivate_reactions` over one reaction's stoichiometry. -/
def reactivate_comps_loop (fuel : ℕ) (reactions : List FReaction)
    (comps : List (ℕ × ℤ)) (rs : RecState) : Option RecState :=
  match fuel with
  | 0 => none
  | fuel + 1 =>
    match comps with
    | [] => some rs
    | p :: rest =>
      match reactivate_component fuel reactions p.1 rs with
      | none => none
      | some rs => reactivate_comps_loop fuel reactions rest rs

/-- The index loop of `reactivate_reactions` over the node's stable
reactions (the list may shrink and grow while it runs, as in the source). -/
def reactivate_stable_loop (fuel : ℕ) (reactions : List FReaction) (node : ℕ)
    (idx : ℕ) (rs : RecState) : Option RecState :=
  match fuel with
  | 0 => none
  | fuel + 1 =>
    if idx < (rs.nodes.getD node default).stable_reactions.length then
      let rdata := (rs.nodes.getD node default).stable_reactions.getD idx default
      match reactivate_comps_loop fuel reactions
          (getReaction reactions rdata.reaction).stoichiometry rs with
      | none => none
      | some rs => reactivate_stable_loop fuel reactions node (idx + 1) rs
    else some rs

/-- The index loop of `reactivate_reactions` over the node's unstable
reactions. -/
def reactivate_unstable_loop (fuel : ℕ) (reactions : List FReaction) (node : ℕ)
    (idx : ℕ) (rs : RecState) : Option RecState :=
  match fuel with
  | 0 => none
  | fuel + 1 =>
    if idx < (rs.nodes.getD node default).unstable_reactions.length then
      let rdata := (rs.nodes.getD node default).unstable_reactions.getD idx default
      match reactivate_comps_loop fuel reactions
          (getReaction reactions rdata.reaction).stoichiometry rs with
      | none => none
      | some rs => reactivate_unstable_loop fuel reactions node (idx + 1) rs
    else some rs

/-- Model of `RecursionTree::reactivate_reactions`. -/
def reactivate_reactions (fuel : ℕ) (reactions : List FReaction) (node : ℕ)
    (rs : RecState) : Option RecState :=
  match reactivate_stable_loop fuel reactions node 0 rs with
  | none => none
  | some rs => reactivate_unstable_loop fuel reactions node 0 rs

/-- Model of `RecursionTree::stabilize_reactions`: record stability of every
unstable reaction of the node, move the stable ones (via
`ReactionData::stabilize`) to the node's stable set and drop them from the
dependents tracker. -/
def stabilize_reactions (reactions : List FReaction) (node : ℕ) (rs : RecState) :
    RecState :=
  let unstable := (rs.nodes.getD node default).unstable_reactions
  let stored := unstable.foldl (fun st rdata =>
    st.set rdata.reaction
      (is_stable rs.state (getReaction reactions rdata.reaction) rdata))
    rs.stored_stable
  let rs := { rs with stored_stable := stored }
  let moved := unstable.filter (fun d => rs.stored_stable.getD d.reaction false)
  let remaining := unstable.filter (fun d => !(rs.stored_stable.getD d.reaction false))
  let rs := rs.setNode node (fun nd => { nd with unstable_reactions := remaining })
  moved.foldl (fun rs rdata =>
    let rs := { rs with unstable_dependents :=
      remove_unstable_deps rs.unstable_dependents (getReaction reactions rdata.reaction) }
    add_stable reactions node rdata.stabilize rs) rs

/-- Model of the deactivation-and-split pass over the stable reactions in
phase 5 of `RecursionTree::recursion` (the `while idx < ..` loop): each
deactivatable reaction stays in the node (registering itself in
`inactive_by_component` when it has events), every other stable reaction is
removed from the bounds, un-indexed and split into a left and a right part. -/
def deactivate_pass (reactions : List FReaction) (node : ℕ) (rs : RecState) :
    RecState × List StableReactionData × List StableReactionData :=
  let stables := (rs.nodes.getD node default).stable_reactions
  let start : (RecState × List StableReactionData × List StableReactionData) ×
      List StableReactionData := ((rs, [], []), [])
  let res := stables.foldl (fun acc rdata =>
    let rs := acc.1.1
    let left_stable := acc.1.2.1
    let right_stable := acc.1.2.2
    let kept := acc.2
    if can_deactivate reactions rdata rs then
      let rs :=
        if 0 < rdata.events then
          (getReaction reactions rdata.reaction).stoichiometry.foldl (fun rs p =>
            { rs with inactive_by_component := (modifyIdx rs.inactive_by_component p.1
                (fun l => l ++ [rdata.reaction])) }) rs
        else rs
      let rs := { rs with stable_index := (rs.stable_index.set rdata.reaction
        (some (node, kept.length))) }
      ((rs, left_stable, right_stable), kept ++ [rdata])
    else
      let reaction := getReaction reactions rdata.reaction
      let rs := { rs with state := rs.state.remove_bounds rdata.events reaction }
      let rs := { rs with stable_index := rs.stable_index.set rdata.reaction none }
      let spl := rdata.splitR reaction rs.rng
      let rs := { rs with rng := spl.2 }
      ((rs, left_stable ++ [spl.1.1], right_stable ++ [spl.1.2]), kept)) start
  let rs := res.1.1
  let rs := rs.setNode node (fun nd => { nd with stable_reactions := res.2 })
  (rs, res.1.2.1, res.1.2.2)

/-- Model of `RecursionTree::recursion` (tau5/recursion.rs), with the
debug-only `validate_*` passes omitted as in a release build.  The recursion
depth is bounded by fuel. -/
def recursion (fuel : ℕ) (reactions : List FReaction) (node : ℕ) (time : ℚ)
    (rs : RecState) : Option RecState :=
  match fuel with
  | 0 => none
  | fuel + 1 =>
    let rs := activate_node reactions node rs
    let rs := resample_unstable reactions node rs
    match reactivate_reactions fuel reactions node rs with
    | none => none
    | some rs =>
      let rs := clear_listeners reactions node rs
      let rs := stabilize_reactions reactions node rs
      if (rs.nodes.getD node default).unstable_reactions.isEmpty then
        some (finish_node reactions node rs)
      else
        let dp := deactivate_pass reactions node rs
        let rs := dp.1
        let left_stable := dp.2.1
        let right_stable := dp.2.2
        let rs := (rs.nodes.getD node default).unstable_reactions.foldl (fun rs rdata =>
          let reaction := getReaction reactions rdata.reaction
          { rs with state := rs.state.remove_bounds rdata.events reaction,
                    unstable_dependents :=
                      (remove_unstable_deps rs.unstable_dependents reaction) }) rs
        let left_unstable0 := (rs.nodes.getD node default).unstable_reactions
        let rs := rs.setNode node (fun nd => { nd with unstable_reactions := [] })
        let spl := left_unstable0.foldl
          (fun (acc : (List ReactionData × List ReactionData) × RngState) rdata =>
            let s := rdata.splitR (getReaction reactions rdata.reaction) acc.2
            ((acc.1.1 ++ [s.1.1], acc.1.2 ++ [s.1.2]), s.2))
          (([], []), rs.rng)
        let rs := { rs with rng := spl.2 }
        let left_unstable := spl.1.1
        let right_unstable := spl.1.2
        let ar := add_node node right_unstable right_stable false rs
        let right_node := ar.1
        let rs := ar.2.setNode node (fun nd => { nd with right := some right_node })
        let al := add_node node left_unstable left_stable true rs
        let left_node := al.1
        let rs := al.2.setNode node (fun nd => { nd with left := some left_node })
        match recursion fuel reactions left_node (time / 2) rs with
        | none => none
        | some rs =>
          match recursion fuel reactions right_node (time / 2) rs with
          | none => none
          | some rs => some (finish_node reactions node rs)

/-- Trace-instrumented `recursion`: the same computation, additionally
logging `rs.state` after every phase of every node visit (activation,
resampling, reactivation, listener clearing, stabilization, the
split-and-attach pass when it runs, and the closing `finish_node`), in
execution order.  The first component coincides with `recursion`
(`recursionT_fst`). -/
def recursionT (fuel : ℕ) (reactions : List FReaction) (node : ℕ) (time : ℚ)
    (rs : RecState) : Option RecState × List StateData :=
  match fuel with
  | 0 => (none, [])
  | fuel + 1 =>
    let rs1 := activate_node reactions node rs
    let rs2 := resample_unstable reactions node rs1
    match reactivate_reactions fuel reactions node rs2 with
    | none => (none, [rs1.state, rs2.state])
    | some rs3 =>
      let rs4 := clear_listeners reactions node rs3
      let rs5 := stabilize_reactions reactions node rs4
      if (rs5.nodes.getD node default).unstable_reactions.isEmpty then
        (some (finish_node reactions node rs5),
          [rs1.state, rs2.state, rs3.state, rs4.state, rs5.state,
            (finish_node reactions node rs5).state])
      else
        let dp := deactivate_pass reactions node rs5
        let rsa := dp.1
        let left_stable := dp.2.1
        let right_stable := dp.2.2
        let rsb := (rsa.nodes.getD node default).unstable_reactions.foldl (fun rs rdata =>
          let reaction := getReaction reactions rdata.reaction
          { rs with state := rs.state.remove_bounds rdata.events reaction,
                    unstable_dependents :=
                      (remove_unstable_deps rs.unstable_dependents reaction) }) rsa
        let left_unstable0 := (rsb.nodes.getD node default).unstable_reactions
        let rsc := rsb.setNode node (fun nd => { nd with unstable_reactions := [] })
        let spl := left_unstable0.foldl
          (fun (acc : (List ReactionData × List ReactionData) × RngState) rdata =>
            let s := rdata.splitR (getReaction reactions rdata.reaction) acc.2
            ((acc.1.1 ++ [s.1.1], acc.1.2 ++ [s.1.2]), s.2))
          (([], []), rsc.rng)
        let rsd := { rsc with rng := spl.2 }
        let left_unstable := spl.1.1
        let right_unstable := spl.1.2
        let ar := add_node node right_unstable right_stable false rsd
        let right_node := ar.1
        let rse := ar.2.setNode node (fun nd => { nd with right := some right_node })
        let al := add_node node left_unstable left_stable true rse
        let left_node := al.1
        let rsf := al.2.setNode node (fun nd => { nd with left := some left_node })
        match recursionT fuel reactions left_node (time / 2) rsf with
        | (none, trL) =>
          (none,
            [rs1.state, rs2.state, rs3.state, rs4.state, rs5.state, rsf.state] ++ trL)
        | (some rsL, trL) =>
          match recursionT fuel reactions right_node (time / 2) rsL with
          | (none, trR) =>
            (none,
              [rs1.state, rs2.state, rs3.state, rs4.state, rs5.state, rsf.state] ++
                trL ++ trR)
          | (some rsR, trR) =>
            (some (finish_node reactions node rsR),
              [rs1.state, rs2.state, rs3.state, rs4.state, rs5.state, rsf.state] ++
                trL ++ trR ++ [(finish_node reactions node rsR).state])

/-- Model of `RecursionTree::new`: sample initial data for every reaction
over the whole horizon; all reactions start (despite the constructor-site
variable names) in the unstable list of the single root node. -/
def RecursionTree.new (initial_state : List ℤ) (reactions : List FReaction)
    (time : ℚ) (rng : RngState) : RecState :=
  let sampled := reactions.enum.foldl
    (fun (acc : List ReactionData × RngState) p =>
      let s := ReactionData.sampleR ((p.2.input_product initial_state : ℕ) : ℚ)
        p.1 p.2 time acc.2
      (acc.1 ++ [s.1], s.2))
    ([], rng)
  { nodes := [⟨[], sampled.1, false, none, none, none, 1⟩]
    stable_index := List.replicate reactions.length none
    state := StateData.new initial_state
    stored_stable := List.replicate reactions.length true
    unstable_dependents := List.replicate initial_state.length 0
    total_events := 0
    inactive_by_component := List.replicate initial_state.length []
    upper_listeners := List.replicate initial_state.length []
    upper_last_clean := List.replicate initial_state.length 0
    upper_last_listener := List.replicate reactions.length NO_LISTENER
    lower_listeners := List.replicate initial_state.length []
    lower_last_clean := List.replicate initial_state.length 0
    lower_last_listener := List.replicate reactions.length NO_LISTENER
    rng := sampled.2 }

/-! ## Input file parsing (src/src/parsers.rs)

The `nom` combinators used by the parser are embedded over `List Char`.
A parser takes the input and returns `none` on failure or
`some (remaining input, value)` on success; `nom`'s `is_alphanum` and
`multispace0` are ASCII classifiers, matched below. -/

/-- Parser type for the embedded `nom` combinators. -/
def Parser (α : Type) : Type :=
  List Char → Option (List Char × α)

/-- Characters accepted by `nom`'s `multispace0`. -/
def isMultispace (c : Char) : Bool :=
  (c == ' ') || (c == '\t') || (c == '\r') || (c == '\n')

/-- Model of `nom`'s `tag`. -/
def pTag (t : List Char) : Parser Unit := fun s =>
  if t.isPrefixOf s then some (s.drop t.length, ()) else none

/-- Model of `nom`'s `take_while1`. -/
def pTakeWhile1 (p : Char → Bool) : Parser (List Char) := fun s =>
  if (s.takeWhile p).isEmpty then none else some (s.dropWhile p, s.takeWhile p)

/-- Model of `nom`'s `multispace0` (never fails). -/
def pMultispace0 : Parser Unit := fun s =>
  some (s.dropWhile isMultispace, ())

/-- Numeric value of a digit string. -/
def digitsToNat (l : List Char) : ℕ :=
  l.foldl (fun acc c => acc * 10 + (c.toNat - 48)) 0

/-- Model of `decimal` (parsers.rs): `map_res(digit1, parse::<u64>)`; the
`u64` overflow failure of `parse` is not modelled (no claim reaches it). -/
def decimal : Parser ℕ := fun s => do
  let (rest, ds) ← pTakeWhile1 Char.isDigit s
  some (rest, digitsToNat ds)

/-- The parsed form of a reactant line (`Reactant` in parsers.rs). -/
structure Reactant where
  name : String
  amount : ℕ
deriving DecidableEq, Repr

/-- The parsed form of a reaction line (`NamedReaction` in parsers.rs). -/
structure NamedReaction where
  inputs : List (String × ℕ)
  outputs : List (String × ℕ)
  rate : ℚ
deriving DecidableEq, Repr

/-- Model of the `Line` enum (parsers.rs). -/
inductive Line where
  | reactant : Reactant → Line
  | reaction : NamedReaction → Line
deriving DecidableEq, Repr

/-- Model of `parse_reactant` (parsers.rs): a line `NAME = NUMBER`. -/
def parse_reactant : Parser Line := fun s => do
  let (s, name) ← pTakeWhile1 Char.isAlphanum s
  let (s, _) ← pMultispace0 s
  let (s, _) ← pTag ['='] s
  let (s, _) ← pMultispace0 s
  let (s, amount) ← decimal s
  some (s, Line.reactant ⟨String.mk name, amount⟩)

/-- Model of `parse_reaction_item` (parsers.rs): a term `2A` (`digit0` then
an alphanumeric name, defaulting the coefficient to 1). -/
def parse_reaction_item : Parser (String × ℕ) := fun s => do
  let ds := s.takeWhile Char.isDigit
  let num := if ds.isEmpty then 1 else digitsToNat ds
  let (rest, name) ← pTakeWhile1 Char.isAlphanum (s.dropWhile Char.isDigit)
  some (rest, (String.mk name, num))

/-- Tail loop of `nom`'s `separated_list0`: repeatedly parse
`multispace0 "+" multispace0` then an item; stop when that fails.  Every
successful step consumes at least the `+`, so `fuel` bounded by the input
length never runs out before the separator fails. -/
def sepByPlusAux : ℕ → List (String × ℕ) → List Char → List Char × List (String × ℕ)
  | 0, acc, s => (s, acc.reverse)
  | fuel + 1, acc, s =>
    match (do
      let (s1, _) ← pMultispace0 s
      let (s2, _) ← pTag ['+'] s1
      let (s3, _) ← pMultispace0 s2
      parse_reaction_item s3 : Option (List Char × (String × ℕ))) with
    | none => (s, acc.reverse)
    | some (s4, x) => sepByPlusAux fuel (x :: acc) s4

/-- Model of `parse_reaction_half` (parsers.rs): `separated_list0` of
reaction items separated by `+`; an empty list is a success. -/
def parse_reaction_half : Parser (List (String × ℕ)) := fun s =>
  match parse_reaction_item s with
  | none => some (s, [])
  | some (s1, x) => some (sepByPlusAux s1.length [x] s1)

/-- Model of `nom`'s `double` combinator (an external library function):
an optional sign, a decimal mantissa (digits, an optional dot and fraction
digits, at least one digit overall) and an optional exponent. -/
def pDouble : Parser ℚ := fun s =>
  let signAndRest : ℚ × List Char :=
    match s with
    | '-' :: rest => (-1, rest)
    | '+' :: rest => (1, rest)
    | _ => (1, s)
  let sgn := signAndRest.1
  let s1 := signAndRest.2
  let ip := s1.takeWhile Char.isDigit
  let s2 := s1.dropWhile Char.isDigit
  let fracAndRest : List Char × List Char :=
    match s2 with
    | '.' :: rest => (rest.takeWhile Char.isDigit, rest.dropWhile Char.isDigit)
    | _ => ([], s2)
  let frac := fracAndRest.1
  let s3 := fracAndRest.2
  if ip.isEmpty && (s2.head? != some '.' || frac.isEmpty) then none
  else
    let mant : ℚ := sgn * ((digitsToNat ip : ℚ) + (digitsToNat frac : ℚ) / (10 : ℚ) ^ frac.length)
    match s3 with
    | 'e' :: rest =>
      match (do
        let esignAndRest : ℤ × List Char :=
          match rest with
          | '-' :: r => (-1, r)
          | '+' :: r => (1, r)
          | _ => (1, rest)
        let (r1, ed) ← pTakeWhile1 Char.isDigit esignAndRest.2
        some (r1, mant * (10 : ℚ) ^ (esignAndRest.1 * (digitsToNat ed : ℤ))) :
          Option (List Char × ℚ)) with
      | none => none
      | some r => some r
    | 'E' :: rest =>
      match (do
        let esignAndRest : ℤ × List Char :=
          match rest with
          | '-' :: r => (-1, r)
          | '+' :: r => (1, r)
          | _ => (1, rest)
        let (r1, ed) ← pTakeWhile1 Char.isDigit esignAndRest.2
        some (r1, mant * (10 : ℚ) ^ (esignAndRest.1 * (digitsToNat ed : ℤ))) :
          Option (List Char × ℚ)) with
      | none => none
      | some r => some r
    | _ => some (s3, mant)

/-- Model of `parse_reaction` (parsers.rs): `lhs -> rhs, RATE`. -/
def parse_reaction : Parser Line := fun s => do
  let (s, left_half) ← parse_reaction_half s
  let (s, _) ← pMultispace0 s
  let (s, _) ← pTag ['-', '>'] s
  let (s, _) ← pMultispace0 s
  let (s, right_half) ← parse_reaction_half s
  let (s, _) ← pMultispace0 s
  let (s, _) ← pTag [','] s
  let (s, _) ← pMultispace0 s
  let (s, rate) ← pDouble s
  some (s, Line.reaction ⟨left_half, right_half, rate⟩)

/-- Model of `parse_line` (parsers.rs): `alt((parse_reactant, parse_reaction))`. -/
def parse_line : Parser Line := fun s =>
  match parse_reactant s with
  | some r => some r
  | none => parse_reaction s

/-- Replaces the value of a key in an association list, or appends it: the
insert of the `initial_states` map. -/
def insertAssoc (l : List (String × ℕ)) (key : String) (val : ℕ) : List (String × ℕ) :=
  if l.any (fun p => p.1 == key) then
    l.map (fun p => if p.1 == key then (key, val) else p)
  else l ++ [(key, val)]

/-- Model of `ParseState` (parsers.rs). -/
structure ParseState where
  initial_states : List (String × ℕ)
  reactions : List NamedReaction
deriving DecidableEq, Repr

/-- The empty `ParseState` (`ParseState::default()`). -/
def ParseState.empty : ParseState :=
  ⟨[], []⟩

/-- Model of `ParseState::parse_data_file`, with the file already read as a
list of lines.  The source filters out the lines whose trimmed content
starts with `#` and feeds every remaining line lazily to `parse_line`,
panicking on the first failure; that streaming pipeline is the recursion
below, with the panic modelled as `Except.error` carrying the offending
line. -/
def ParseState.parse_data_file (st : ParseState) :
    List (List Char) → Except String ParseState
  | [] => Except.ok st
  | line :: rest =>
    if (line.dropWhile isMultispace).head? == some '#' then
      ParseState.parse_data_file st rest
    else
      match parse_line line with
      | none => Except.error (String.mk line)
      | some (_, Line.reactant r) =>
        ParseState.parse_data_file
          { st with initial_states := insertAssoc st.initial_states r.name r.amount } rest
      | some (_, Line.reaction nr) =>
        ParseState.parse_data_file { st with reactions := st.reactions ++ [nr] } rest

/-! ## Helper lemmas -/

theorem max_sample_nonneg {m : ℚ} (n : ℕ) (hm : 0 ≤ m) : 0 ≤ max_sample n m := by
  unfold max_sample
  split <;> simp [hm]

theorem max_sample_le_one {m : ℚ} (n : ℕ) (hm : m ≤ 1) : max_sample n m ≤ 1 := by
  unfold max_sample
  split
  · norm_num
  · exact hm

theorem max_sample_lt_one {m : ℚ} (n : ℕ) (hm : m < 1) : max_sample n m < 1 := by
  unfold max_sample
  split
  · norm_num
  · exact hm

theorem max_sample_zero (m : ℚ) : max_sample 0 m = 0 := by
  simp [max_sample]

theorem count_ones_aux_le {fuel m k : ℕ} (h : m < 2 ^ k) (hf : m ≤ fuel) :
    count_ones_aux fuel m ≤ k := by
  induction fuel generalizing m k with
  | zero => simp [count_ones_aux]
  | succ fuel ih =>
    rcases Nat.eq_zero_or_pos m with h0 | h0
    · simp [count_ones_aux, h0]
    · rw [count_ones_aux, if_neg (Nat.pos_iff_ne_zero.mp h0)]
      have hk : k ≠ 0 := by
        rintro rfl
        simp at h
        omega
      have hdiv : m / 2 < 2 ^ (k - 1) := by
        rw [Nat.div_lt_iff_lt_mul (by norm_num)]
        calc m < 2 ^ k := h
        _ = 2 ^ (k - 1) * 2 := by
          rw [← pow_succ]
          congr 1
          omega
      have hmf : m / 2 ≤ fuel := by
        have := Nat.div_le_self m 2
        omega
      have := ih hdiv hmf
      have hm2 : m % 2 ≤ 1 := Nat.le_of_lt_succ (Nat.mod_lt m (by norm_num))
      omega

theorem count_ones_le {k m : ℕ} (h : m < 2 ^ k) : count_ones m ≤ k :=
  count_ones_aux_le h le_rfl

theorem shiftRight_lt_pow {w n : ℕ} (hw : w < 2 ^ 64) (hn : n ≤ 64) :
    w >>> (64 - n) < 2 ^ n := by
  rw [Nat.shiftRight_eq_div_pow]
  rw [Nat.div_lt_iff_lt_mul (Nat.pos_pow_of_pos _ (by norm_num))]
  calc w < 2 ^ 64 := hw
  _ = 2 ^ n * 2 ^ (64 - n) := by
    rw [← pow_add]
    congr 1
    omega

theorem binomial_05_le {n w g : ℕ} (hw : w < 2 ^ 64) (hg : g ≤ n) :
    binomial_05 n w g ≤ n := by
  unfold binomial_05
  split
  · omega
  · split
    · exact le_trans (count_ones_le (shiftRight_lt_pow hw (by omega))) (by omega)
    · exact hg

/-! ### Modify-fold machinery for the bounds operations -/

theorem modifyIdx_modifyIdx_same (l : List ComponentData) (i : ℕ)
    (f g : ComponentData → ComponentData) :
    modifyIdx (modifyIdx l i f) i g = modifyIdx l i (fun c => g (f c)) := by
  induction l generalizing i with
  | nil => rfl
  | cons c t ih =>
    cases i with
    | zero => rfl
    | succ i => simp [modifyIdx, ih]

theorem modifyIdx_comm (l : List ComponentData) (i j : ℕ)
    (f g : ComponentData → ComponentData) (hfg : ∀ c, f (g c) = g (f c)) :
    modifyIdx (modifyIdx l i f) j g = modifyIdx (modifyIdx l j g) i f := by
  induction l generalizing i j with
  | nil => rfl
  | cons c t ih =>
    cases i with
    | zero =>
      cases j with
      | zero => simp [modifyIdx, hfg]
      | succ j => rfl
    | succ i =>
      cases j with
      | zero => rfl
      | succ j => simp [modifyIdx, ih]

theorem modifyIdx_id (l : List ComponentData) (i : ℕ)
    (f : ComponentData → ComponentData) (hf : ∀ c, f c = c) :
    modifyIdx l i f = l := by
  induction l generalizing i with
  | nil => rfl
  | cons c t ih =>
    cases i with
    | zero => simp [modifyIdx, hf]
    | succ i => simp [modifyIdx, ih]

theorem addLower_addLower (a b : ℤ) (c : ComponentData) :
    addLower a (addLower b c) = addLower (a + b) c := by
  simp [addLower]
  ring

theorem addUpper_addUpper (a b : ℤ) (c : ComponentData) :
    addUpper a (addUpper b c) = addUpper (a + b) c := by
  simp [addUpper]
  ring

theorem addLower_addUpper (a b : ℤ) (c : ComponentData) :
    addLower a (addUpper b c) = addUpper b (addLower a c) := by
  simp [addLower, addUpper]

theorem foldl_modify_single_comm (g : ℤ → ComponentData → ComponentData)
    (L : List (ℕ × ℤ)) (ec : ℤ) (st : List ComponentData) (i : ℕ)
    (f : ComponentData → ComponentData) (hc : ∀ a c, g a (f c) = f (g a c)) :
    L.foldl (fun st p => modifyIdx st p.1 (g (p.2 * ec))) (modifyIdx st i f) =
      modifyIdx (L.foldl (fun st p => modifyIdx st p.1 (g (p.2 * ec))) st) i f := by
  induction L generalizing st with
  | nil => rfl
  | cons p t ih =>
    simp only [List.foldl_cons]
    rw [modifyIdx_comm st i p.1 f (g (p.2 * ec)) (fun c => (hc (p.2 * ec) c).symm), ih]

theorem foldl_modify_cancel (g : ℤ → ComponentData → ComponentData)
    (hadd : ∀ a b c, g a (g b c) = g (a + b) c) (hzero : ∀ c, g 0 c = c)
    (L : List (ℕ × ℤ)) (ec : ℤ) (st : List ComponentData) :
    L.foldl (fun st p => modifyIdx st p.1 (g (p.2 * -ec)))
      (L.foldl (fun st p => modifyIdx st p.1 (g (p.2 * ec))) st) = st := by
  induction L generalizing st with
  | nil => rfl
  | cons p t ih =>
    simp only [List.foldl_cons]
    rw [foldl_modify_single_comm g t ec st p.1 (g (p.2 * ec))
        (fun a c => by rw [hadd, hadd, add_comm]),
      modifyIdx_modifyIdx_same,
      modifyIdx_id _ p.1 _ (fun c => by
        rw [hadd, show p.2 * -ec + p.2 * ec = 0 by ring]
        exact hzero c),
      ih]

theorem foldl_modify_cross (g₁ g₂ : ℤ → ComponentData → ComponentData)
    (hc : ∀ a b c, g₁ a (g₂ b c) = g₂ b (g₁ a c))
    (L₁ L₂ : List (ℕ × ℤ)) (ec₁ ec₂ : ℤ) (st : List ComponentData) :
    L₂.foldl (fun st p => modifyIdx st p.1 (g₂ (p.2 * ec₂)))
      (L₁.foldl (fun st p => modifyIdx st p.1 (g₁ (p.2 * ec₁))) st) =
    L₁.foldl (fun st p => modifyIdx st p.1 (g₁ (p.2 * ec₁)))
      (L₂.foldl (fun st p => modifyIdx st p.1 (g₂ (p.2 * ec₂))) st) := by
  induction L₁ generalizing st with
  | nil => rfl
  | cons p t ih =>
    simp only [List.foldl_cons]
    rw [ih, foldl_modify_single_comm g₂ L₂ ec₂ st p.1 (g₁ (p.2 * ec₁))
      (fun a c => (hc (p.2 * ec₁) a c).symm)]

theorem addLower_zero (c : ComponentData) : addLower 0 c = c := by
  simp [addLower]

theorem addUpper_zero (c : ComponentData) : addUpper 0 c = c := by
  simp [addUpper]

theorem bounds_roundtrip (reaction : FReaction) (c : ℤ) (a : List ComponentData) :
    reaction.positive_stoichiometry.foldl
      (fun st p => modifyIdx st p.1 (addUpper (p.2 * -c)))
      (reaction.negative_stoichiometry.foldl
        (fun st p => modifyIdx st p.1 (addLower (p.2 * -c)))
        (reaction.positive_stoichiometry.foldl
          (fun st p => modifyIdx st p.1 (addUpper (p.2 * c)))
          (reaction.negative_stoichiometry.foldl
            (fun st p => modifyIdx st p.1 (addLower (p.2 * c))) a))) = a := by
  rw [foldl_modify_cross addUpper addLower (fun x y z => (addLower_addUpper y x z).symm)
      reaction.positive_stoichiometry reaction.negative_stoichiometry c (-c),
    foldl_modify_cancel addLower addLower_addLower addLower_zero,
    foldl_modify_cancel addUpper addUpper_addUpper addUpper_zero]

/-! ## Bounds-coherence invariant for the recursion tree

`validate_bounds` in the source checks that the current `lower`/`upper`
tracks equal the `value` track adjusted by the contributions of every
reaction currently accounted in the bounds: the unstable reactions of the
visited node plus the stable reactions of every active node.  The
definitions below express that and the sandwich property it implies. -/

/-- Total delta that the entries of a stoichiometry list apply to component
`i`. -/
def sumAt (L : List (ℕ × ℤ)) (i : ℕ) : ℤ :=
  ((L.filter (fun p => p.1 = i)).map (fun p => p.2)).sum

/-- Contribution of one firing of reaction `r` to the `lower` track of
component `i`. -/
def negContrib (reactions : List FReaction) (r : ℕ) (i : ℕ) : ℤ :=
  sumAt (getReaction reactions r).negative_stoichiometry i

/-- Contribution of one firing of reaction `r` to the `upper` track of
component `i`. -/
def posContrib (reactions : List FReaction) (r : ℕ) (i : ℕ) : ℤ :=
  sumAt (getReaction reactions r).positive_stoichiometry i

/-- Contribution of one firing of reaction `r` to all three tracks. -/
def allContrib (reactions : List FReaction) (r : ℕ) (i : ℕ) : ℤ :=
  sumAt (getReaction reactions r).stoichiometry i

/-- Total `lower`-track offset of a ledger of `(reaction, events)` pairs. -/
def negSum (reactions : List FReaction) (tr : List (ℕ × ℕ)) (i : ℕ) : ℤ :=
  (tr.map (fun p => (p.2 : ℤ) * negContrib reactions p.1 i)).sum

/-- Total `upper`-track offset of a ledger of `(reaction, events)` pairs. -/
def posSum (reactions : List FReaction) (tr : List (ℕ × ℕ)) (i : ℕ) : ℤ :=
  (tr.map (fun p => (p.2 : ℤ) * posContrib reactions p.1 i)).sum

/-- Bounds coherence of a state against a ledger: on every component the
`lower` and `upper` tracks are the `value` track offset by the ledger's
contributions. -/
def BOk (reactions : List FReaction) (s : StateData) (tr : List (ℕ × ℕ)) : Prop :=
  ∀ i, i < s.state.length →
    (s.getC i).lower = (s.getC i).value + negSum reactions tr i ∧
    (s.getC i).upper = (s.getC i).value + posSum reactions tr i

/-- The ledger entries of one node's stable reactions. -/
def nodeStableTracked (nd : RecNode) : List (ℕ × ℕ) :=
  nd.stable_reactions.map (fun d => (d.reaction, d.events))

/-- The ledger entries of one node's unstable reactions. -/
def nodeUnstableTracked (nd : RecNode) : List (ℕ × ℕ) :=
  nd.unstable_reactions.map (fun d => (d.reaction, d.events))

/-- The ledger entries a node accounts in the bounds: nothing while
inactive, its stable and unstable reactions while active. -/
def nodeTracked (nd : RecNode) : List (ℕ × ℕ) :=
  if nd.is_active then nodeStableTracked nd ++ nodeUnstableTracked nd else []

/-- The full ledger of a node list. -/
def fullTracked (nodes : List RecNode) : List (ℕ × ℕ) :=
  (nodes.map nodeTracked).flatten

/-- Coherence of a recursion-tree state: the bounds match the reactions of
the active nodes. -/
def Coh (reactions : List FReaction) (rs : RecState) : Prop :=
  BOk reactions rs.state (fullTracked rs.nodes)

/-- All negative-stoichiometry deltas are negative and all
positive-stoichiometry deltas positive (true of every `FReaction` built by
`Reaction::new` / `From<Reaction>`; used only to turn coherence into the
sandwich inequality). -/
def SignOk (reactions : List FReaction) : Prop :=
  ∀ r ∈ reactions,
    (∀ p ∈ r.negative_stoichiometry, p.2 < 0) ∧
    (∀ p ∈ r.positive_stoichiometry, 0 < p.2)

/-- The sandwich property of the claim. -/
def Sandwich (s : StateData) : Prop :=
  ∀ i, i < s.state.length →
    (s.getC i).lower ≤ (s.getC i).value ∧ (s.getC i).value ≤ (s.getC i).upper

/-- Forward coherence of `stable_index`: every entry points into an active
node, at an in-range element recording the same reaction (this is what
`remove_stable` relies on to take the right contributions back out of the
bounds). -/
def IC (rs : RecState) : Prop :=
  ∀ r n i, rs.stable_index.getD r none = some (n, i) →
    n < rs.nodes.length ∧ (rs.nodes.getD n default).is_active = true ∧
    i < (rs.nodes.getD n default).stable_reactions.length ∧
    ((rs.nodes.getD n default).stable_reactions.getD i default).reaction = r

/-- Safety of the `full_split` descent from node `m` during the visit of node
`c`: every node it passes is active, it terminates at `c` (childless), the
`(Some, None)` shape (a panic in the source) never appears, and at a
two-child node the right child is still inactive (so the right half parked
there is not yet accounted in the bounds). -/
inductive DescTo (nodes : List RecNode) (c : ℕ) : ℕ → Prop
  | leaf : c < nodes.length → (nodes.getD c default).is_active = true →
      (nodes.getD c default).left = none → (nodes.getD c default).right = none →
      DescTo nodes c c
  | right {m r : ℕ} : m < nodes.length → (nodes.getD m default).is_active = true →
      (nodes.getD m default).left = none → (nodes.getD m default).right = some r →
      DescTo nodes c r → DescTo nodes c m
  | both {m l r : ℕ} : m < nodes.length → (nodes.getD m default).is_active = true →
      (nodes.getD m default).left = some l → (nodes.getD m default).right = some r →
      r < nodes.length → (nodes.getD r default).is_active = false →
      DescTo nodes c l → DescTo nodes c m

/-- Descent safety from every active node, all descents ending at the node
`c` currently being visited. -/
def DOk (nodes : List RecNode) (c : ℕ) : Prop :=
  ∀ m, m < nodes.length → (nodes.getD m default).is_active = true → DescTo nodes c m

/-- Tree coherence of the child and parent links: every child link points
in range at a node whose parent field points back, and the two child links
of a node differ. -/
def TC (nodes : List RecNode) : Prop :=
  (∀ m t, m < nodes.length →
    ((nodes.getD m default).left = some t →
      t < nodes.length ∧ (nodes.getD t default).parent = some m ∧
      (nodes.getD m default).right ≠ some t) ∧
    ((nodes.getD m default).right = some t →
      t < nodes.length ∧ (nodes.getD t default).parent = some m)) ∧
  (∀ t p, t < nodes.length → (nodes.getD t default).parent = some p →
    p < nodes.length ∧
    ((nodes.getD p default).left = some t ∨ (nodes.getD p default).right = some t))

/-- The tree-shape data of one node (everything but its reaction lists). -/
def nodeShape (nd : RecNode) : Bool × Option ℕ × Option ℕ × Option ℕ × ℕ :=
  (nd.is_active, nd.parent, nd.left, nd.right, nd.id)

/-- The tree-shape data of the whole node list. -/
def shapes (nodes : List RecNode) : List (Bool × Option ℕ × Option ℕ × Option ℕ × ℕ) :=
  nodes.map nodeShape

/-- A node list with node `c` marked active (the shape the tree has once the
visit of `c` begins). -/
def actT (c : ℕ) (nodes : List RecNode) : List RecNode :=
  modifyIdx nodes c (fun nd => { nd with is_active := true })

/-! ### Characterisation of the bounds operations -/

theorem modifyIdx_length {α : Type} (l : List α) (i : ℕ) (f : α → α) :
    (modifyIdx l i f).length = l.length := by
  induction l generalizing i with
  | nil => rfl
  | cons c t ih =>
    cases i with
    | zero => rfl
    | succ i => simp [modifyIdx, ih]

theorem modifyIdx_getD {α : Type} (l : List α) (i j : ℕ) (f : α → α) (d : α) :
    (modifyIdx l i f).getD j d =
      if j = i ∧ i < l.length then f (l.getD j d) else l.getD j d := by
  induction l generalizing i j with
  | nil => simp [modifyIdx]
  | cons c t ih =>
    cases i with
    | zero =>
      cases j with
      | zero => simp [modifyIdx]
      | succ j => simp [modifyIdx]
    | succ i =>
      cases j with
      | zero => simp [modifyIdx]
      | succ j =>
        simp only [modifyIdx, List.getD_cons_succ, List.length_cons]
        rw [ih]
        have hiff : (j = i ∧ i < t.length) ↔ (j + 1 = i + 1 ∧ i + 1 < t.length + 1) := by
          omega
        by_cases hc : j = i ∧ i < t.length
        · rw [if_pos hc, if_pos (hiff.mp hc)]
        · rw [if_neg hc, if_neg (fun h => hc (hiff.mpr h))]

theorem sumAt_nil (i : ℕ) : sumAt [] i = 0 :=
  rfl

theorem sumAt_cons (p : ℕ × ℤ) (L : List (ℕ × ℤ)) (i : ℕ) :
    sumAt (p :: L) i = (if p.1 = i then p.2 else 0) + sumAt L i := by
  by_cases h : p.1 = i <;> simp [sumAt, List.filter_cons, h]

theorem foldl_bounds_length (g : ℤ → ComponentData → ComponentData)
    (L : List (ℕ × ℤ)) (ec : ℤ) (st : List ComponentData) :
    (L.foldl (fun st p => modifyIdx st p.1 (g (p.2 * ec))) st).length = st.length := by
  induction L generalizing st with
  | nil => rfl
  | cons p t ih => simp [List.foldl_cons, ih, modifyIdx_length]

theorem foldl_bounds_getD (g : ℤ → ComponentData → ComponentData)
    (hadd : ∀ a b c, g a (g b c) = g (a + b) c) (hzero : ∀ c, g 0 c = c)
    (L : List (ℕ × ℤ)) (ec : ℤ) (st : List ComponentData) (i : ℕ)
    (hi : i < st.length) :
    (L.foldl (fun st p => modifyIdx st p.1 (g (p.2 * ec))) st).getD i ⟨0, 0, 0⟩ =
      g (sumAt L i * ec) (st.getD i ⟨0, 0, 0⟩) := by
  induction L generalizing st with
  | nil => simp [sumAt_nil, hzero]
  | cons p t ih =>
    simp only [List.foldl_cons]
    rw [ih _ (by simpa [modifyIdx_length] using hi), modifyIdx_getD, sumAt_cons]
    by_cases hp : p.1 = i
    · rw [if_pos ⟨hp.symm, by rw [hp]; exact hi⟩, if_pos hp, hadd]
      congr 1
      ring
    · rw [if_neg (fun hc => hp hc.1.symm), if_neg hp]
      congr 1
      ring

theorem change_bounds_length (s : StateData) (δ : ℤ) (reaction : FReaction) :
    (s.change_bounds δ reaction).state.length = s.state.length := by
  unfold StateData.change_bounds
  split
  · show ((s.apply_negative δ reaction).apply_positive δ reaction).state.length = _
    unfold StateData.apply_positive StateData.apply_negative
    simp [foldl_bounds_length]
  · rfl

theorem change_bounds_getC (s : StateData) (δ : ℤ) (reaction : FReaction) (i : ℕ)
    (hi : i < s.state.length) :
    (s.change_bounds δ reaction).getC i =
      ⟨(s.getC i).lower + sumAt reaction.negative_stoichiometry i * δ,
       (s.getC i).value,
       (s.getC i).upper + sumAt reaction.positive_stoichiometry i * δ⟩ := by
  unfold StateData.change_bounds
  split
  · show ((s.apply_negative δ reaction).apply_positive δ reaction).getC i = _
    unfold StateData.apply_positive StateData.apply_negative StateData.getC
    rw [foldl_bounds_getD addUpper addUpper_addUpper addUpper_zero _ _ _ _
        (by simpa [foldl_bounds_length] using hi),
      foldl_bounds_getD addLower addLower_addLower addLower_zero _ _ _ _ hi]
    rfl
  · rename_i h
    rw [not_not.mp h]
    simp

theorem apply_length (s : StateData) (ev : ℕ) (reaction : FReaction) :
    (s.apply ev reaction).state.length = s.state.length := by
  unfold StateData.apply
  show (List.foldl _ s.state _).length = _
  generalize reaction.stoichiometry = L
  induction L generalizing s with
  | nil => rfl
  | cons p t ih =>
    simp only [List.foldl_cons]
    rw [show (modifyIdx s.state p.1 (addAll (p.2 * (ev : ℤ)))) =
      (StateData.mk (modifyIdx s.state p.1 (addAll (p.2 * (ev : ℤ))))).state from rfl, ih]
    simp [modifyIdx_length]

theorem addAll_addAll (a b : ℤ) (c : ComponentData) :
    addAll a (addAll b c) = addAll (a + b) c := by
  simp [addAll]
  refine ⟨by ring, by ring, by ring⟩

theorem addAll_zero (c : ComponentData) : addAll 0 c = c := by
  simp [addAll]

theorem apply_getC (s : StateData) (ev : ℕ) (reaction : FReaction) (i : ℕ)
    (hi : i < s.state.length) :
    (s.apply ev reaction).getC i =
      addAll (sumAt reaction.stoichiometry i * (ev : ℤ)) (s.getC i) := by
  unfold StateData.apply StateData.getC
  rw [foldl_bounds_getD addAll addAll_addAll addAll_zero _ _ _ _ hi]

theorem negSum_nil (re : List FReaction) (i : ℕ) : negSum re [] i = 0 :=
  rfl

theorem posSum_nil (re : List FReaction) (i : ℕ) : posSum re [] i = 0 :=
  rfl

theorem negSum_cons (re : List FReaction) (p : ℕ × ℕ) (t : List (ℕ × ℕ)) (i : ℕ) :
    negSum re (p :: t) i = (p.2 : ℤ) * negContrib re p.1 i + negSum re t i := by
  simp [negSum]

theorem posSum_cons (re : List FReaction) (p : ℕ × ℕ) (t : List (ℕ × ℕ)) (i : ℕ) :
    posSum re (p :: t) i = (p.2 : ℤ) * posContrib re p.1 i + posSum re t i := by
  simp [posSum]

theorem negSum_append (re : List FReaction) (a b : List (ℕ × ℕ)) (i : ℕ) :
    negSum re (a ++ b) i = negSum re a i + negSum re b i := by
  simp [negSum]

theorem posSum_append (re : List FReaction) (a b : List (ℕ × ℕ)) (i : ℕ) :
    posSum re (a ++ b) i = posSum re a i + posSum re b i := by
  simp [posSum]

theorem negSum_perm (re : List FReaction) {a b : List (ℕ × ℕ)} (h : a.Perm b) (i : ℕ) :
    negSum re a i = negSum re b i :=
  List.Perm.sum_eq (h.map _)

theorem posSum_perm (re : List FReaction) {a b : List (ℕ × ℕ)} (h : a.Perm b) (i : ℕ) :
    posSum re a i = posSum re b i :=
  List.Perm.sum_eq (h.map _)

theorem BOk_perm {re : List FReaction} {s : StateData} {a b : List (ℕ × ℕ)}
    (h : a.Perm b) (hb : BOk re s a) : BOk re s b := by
  intro i hi
  rw [← negSum_perm re h, ← posSum_perm re h]
  exact hb i hi

theorem BOk_state_eq {re : List FReaction} {s s2 : StateData} {tr : List (ℕ × ℕ)}
    (h : s2.state = s.state) (hb : BOk re s tr) : BOk re s2 tr := by
  intro i hi
  have hg : s2.getC i = s.getC i := by
    unfold StateData.getC
    rw [h]
  rw [hg]
  exact hb i (by rwa [h] at hi)

theorem BOk_add_bounds {re : List FReaction} {s : StateData} {tr : List (ℕ × ℕ)}
    (hb : BOk re s tr) (ridx ev : ℕ) :
    BOk re (s.add_bounds ev (getReaction re ridx)) ((ridx, ev) :: tr) := by
  intro i hi2
  have hi : i < s.state.length := by
    rwa [show (s.add_bounds ev (getReaction re ridx)).state.length = s.state.length from
      change_bounds_length s _ _] at hi2
  have hc := change_bounds_getC s (ev : ℤ) (getReaction re ridx) i hi
  rw [show s.add_bounds ev (getReaction re ridx) =
    s.change_bounds (ev : ℤ) (getReaction re ridx) from rfl, hc]
  obtain ⟨h1, h2⟩ := hb i hi
  rw [negSum_cons, posSum_cons]
  constructor
  · show (s.getC i).lower + sumAt (getReaction re ridx).negative_stoichiometry i * (ev : ℤ) = _
    rw [h1]
    show _ = (s.getC i).value + ((ev : ℤ) * negContrib re ridx i + negSum re tr i)
    unfold negContrib
    ring
  · show (s.getC i).upper + sumAt (getReaction re ridx).positive_stoichiometry i * (ev : ℤ) = _
    rw [h2]
    show _ = (s.getC i).value + ((ev : ℤ) * posContrib re ridx i + posSum re tr i)
    unfold posContrib
    ring

theorem BOk_update_entry {re : List FReaction} {s : StateData} {pre post : List (ℕ × ℕ)}
    {ridx ev : ℕ} (hb : BOk re s (pre ++ (ridx, ev) :: post)) (ev2 : ℕ) :
    BOk re (s.change_bounds ((ev2 : ℤ) - (ev : ℤ)) (getReaction re ridx))
      (pre ++ (ridx, ev2) :: post) := by
  intro i hi2
  have hi : i < s.state.length := by
    rwa [change_bounds_length] at hi2
  rw [change_bounds_getC s _ _ i hi]
  obtain ⟨h1, h2⟩ := hb i hi
  rw [negSum_append, negSum_cons] at h1
  rw [posSum_append, posSum_cons] at h2
  rw [negSum_append, negSum_cons, posSum_append, posSum_cons]
  constructor
  · show (s.getC i).lower +
      sumAt (getReaction re ridx).negative_stoichiometry i * ((ev2 : ℤ) - (ev : ℤ)) = _
    rw [h1]
    unfold negContrib
    ring
  · show (s.getC i).upper +
      sumAt (getReaction re ridx).positive_stoichiometry i * ((ev2 : ℤ) - (ev : ℤ)) = _
    rw [h2]
    unfold posContrib
    ring

theorem BOk_remove_bounds {re : List FReaction} {s : StateData} {pre post : List (ℕ × ℕ)}
    {ridx ev : ℕ} (hb : BOk re s (pre ++ (ridx, ev) :: post)) :
    BOk re (s.remove_bounds ev (getReaction re ridx)) (pre ++ post) := by
  intro i hi2
  have hi : i < s.state.length := by
    rwa [show (s.remove_bounds ev (getReaction re ridx)).state.length = s.state.length from
      change_bounds_length s _ _] at hi2
  rw [show s.remove_bounds ev (getReaction re ridx) =
    s.change_bounds (-(ev : ℤ)) (getReaction re ridx) from rfl,
    change_bounds_getC s _ _ i hi]
  obtain ⟨h1, h2⟩ := hb i hi
  rw [negSum_append, negSum_cons] at h1
  rw [posSum_append, posSum_cons] at h2
  rw [negSum_append, posSum_append]
  constructor
  · show (s.getC i).lower +
      sumAt (getReaction re ridx).negative_stoichiometry i * (-(ev : ℤ)) = _
    rw [h1]
    unfold negContrib
    ring
  · show (s.getC i).upper +
      sumAt (getReaction re ridx).positive_stoichiometry i * (-(ev : ℤ)) = _
    rw [h2]
    unfold posContrib
    ring

theorem BOk_apply {re : List FReaction} {s : StateData} {tr : List (ℕ × ℕ)}
    (hb : BOk re s tr) (ev : ℕ) (reaction : FReaction) :
    BOk re (s.apply ev reaction) tr := by
  intro i hi2
  have hi : i < s.state.length := by
    rwa [apply_length] at hi2
  rw [apply_getC s ev reaction i hi]
  obtain ⟨h1, h2⟩ := hb i hi
  unfold addAll
  constructor
  · show (s.getC i).lower + _ = (s.getC i).value + _ + _
    rw [h1]
    ring
  · show (s.getC i).upper + _ = (s.getC i).value + _ + _
    rw [h2]
    ring

theorem list_sum_nonpos {l : List ℤ} (h : ∀ x ∈ l, x ≤ 0) : l.sum ≤ 0 := by
  induction l with
  | nil => simp
  | cons a t ih =>
    simp only [List.sum_cons]
    have h1 := h a (by simp)
    have h2 := ih fun x hx => h x (by simp [hx])
    omega

theorem list_sum_nonneg {l : List ℤ} (h : ∀ x ∈ l, 0 ≤ x) : 0 ≤ l.sum := by
  induction l with
  | nil => simp
  | cons a t ih =>
    simp only [List.sum_cons]
    have h1 := h a (by simp)
    have h2 := ih fun x hx => h x (by simp [hx])
    omega

theorem negContrib_nonpos {re : List FReaction} (hsign : SignOk re) (r i : ℕ) :
    negContrib re r i ≤ 0 := by
  unfold negContrib getReaction
  by_cases hr : r < re.length
  · rw [List.getD_eq_getElem re default hr]
    obtain ⟨hneg, _⟩ := hsign _ (List.getElem_mem hr)
    unfold sumAt
    apply list_sum_nonpos
    intro x hx
    simp only [List.mem_map, List.mem_filter] at hx
    obtain ⟨p, ⟨hp, _⟩, rfl⟩ := hx
    exact (hneg p hp).le
  · rw [List.getD_eq_default _ _ (le_of_not_lt hr)]
    rfl

theorem posContrib_nonneg {re : List FReaction} (hsign : SignOk re) (r i : ℕ) :
    0 ≤ posContrib re r i := by
  unfold posContrib getReaction
  by_cases hr : r < re.length
  · rw [List.getD_eq_getElem re default hr]
    obtain ⟨_, hpos⟩ := hsign _ (List.getElem_mem hr)
    unfold sumAt
    apply list_sum_nonneg
    intro x hx
    simp only [List.mem_map, List.mem_filter] at hx
    obtain ⟨p, ⟨hp, _⟩, rfl⟩ := hx
    exact (hpos p hp).le
  · rw [List.getD_eq_default _ _ (le_of_not_lt hr)]
    exact le_refl 0

theorem negSum_nonpos {re : List FReaction} (hsign : SignOk re) (tr : List (ℕ × ℕ))
    (i : ℕ) : negSum re tr i ≤ 0 := by
  induction tr with
  | nil => simp [negSum_nil]
  | cons p t ih =>
    rw [negSum_cons]
    have h1 : (p.2 : ℤ) * negContrib re p.1 i ≤ 0 :=
      mul_nonpos_of_nonneg_of_nonpos (by positivity) (negContrib_nonpos hsign p.1 i)
    omega

theorem posSum_nonneg {re : List FReaction} (hsign : SignOk re) (tr : List (ℕ × ℕ))
    (i : ℕ) : 0 ≤ posSum re tr i := by
  induction tr with
  | nil => simp [posSum_nil]
  | cons p t ih =>
    rw [posSum_cons]
    have h1 : 0 ≤ (p.2 : ℤ) * posContrib re p.1 i :=
      mul_nonneg (by positivity) (posContrib_nonneg hsign p.1 i)
    omega

theorem BOk_sandwich {re : List FReaction} {s : StateData} {tr : List (ℕ × ℕ)}
    (hsign : SignOk re) (hb : BOk re s tr) : Sandwich s := by
  intro i hi
  obtain ⟨h1, h2⟩ := hb i hi
  constructor
  · rw [h1]
    have := negSum_nonpos hsign tr i
    omega
  · rw [h2]
    have := posSum_nonneg hsign tr i
    omega

theorem BOk_nil_collapse {re : List FReaction} {s : StateData}
    (hb : BOk re s []) :
    ∀ i, i < s.state.length →
      (s.getC i).lower = (s.getC i).value ∧ (s.getC i).upper = (s.getC i).value := by
  intro i hi
  obtain ⟨h1, h2⟩ := hb i hi
  rw [negSum_nil] at h1
  rw [posSum_nil] at h2
  omega

/-! ### Structural lemmas for the recursion-tree invariants -/

theorem getD_map {α β : Type} (f : α → β) (l : List α) (m : ℕ) (d : α) :
    (l.map f).getD m (f d) = f (l.getD m d) := by
  induction l generalizing m with
  | nil => cases m <;> rfl
  | cons a t ih =>
    cases m with
    | zero => rfl
    | succ k => simpa [List.getD] using ih k

theorem getD_set {α : Type} (l : List α) (i k : ℕ) (b d : α) :
    (l.set i b).getD k d = if k = i ∧ i < l.length then b else l.getD k d := by
  induction l generalizing i k with
  | nil => simp
  | cons a t ih =>
    cases i with
    | zero =>
      cases k with
      | zero => simp
      | succ k2 => simp [List.getD]
    | succ i2 =>
      cases k with
      | zero => simp [List.getD]
      | succ k2 =>
        have h := ih i2 k2
        simp only [List.set, List.getD_cons_succ, List.length_cons, h]
        have hiff : (k2 = i2 ∧ i2 < t.length) ↔ (k2 + 1 = i2 + 1 ∧ i2 + 1 < t.length + 1) := by
          omega
        by_cases hc : k2 = i2 ∧ i2 < t.length
        · rw [if_pos hc, if_pos (hiff.mp hc)]
        · rw [if_neg hc, if_neg (fun h2 => hc (hiff.mpr h2))]

theorem getD_append_left {α : Type} (a b : List α) (k : ℕ) (d : α) (h : k < a.length) :
    (a ++ b).getD k d = a.getD k d := by
  induction a generalizing k with
  | nil => simp at h
  | cons x t ih =>
    cases k with
    | zero => rfl
    | succ k2 => simpa [List.getD] using ih k2 (by simpa using h)

theorem getD_append_right {α : Type} (a b : List α) (k : ℕ) (d : α) (h : a.length ≤ k) :
    (a ++ b).getD k d = b.getD (k - a.length) d := by
  induction a generalizing k with
  | nil => simp
  | cons x t ih =>
    cases k with
    | zero => simp at h
    | succ k2 =>
      have := ih k2 (by simpa using h)
      simpa [List.getD] using this

theorem modifyIdx_eq_take_drop {α : Type} [Inhabited α] (l : List α) (i : ℕ) (f : α → α)
    (h : i < l.length) :
    modifyIdx l i f = l.take i ++ f (l.getD i default) :: l.drop (i + 1) := by
  induction l generalizing i with
  | nil => simp at h
  | cons a t ih =>
    cases i with
    | zero => simp [modifyIdx, List.getD]
    | succ k =>
      have := ih k (by simpa using h)
      simp [modifyIdx, List.getD, this]

theorem take_drop_eq_self {α : Type} [Inhabited α] (l : List α) (i : ℕ) (h : i < l.length) :
    l = l.take i ++ l.getD i default :: l.drop (i + 1) := by
  induction l generalizing i with
  | nil => simp at h
  | cons a t ih =>
    cases i with
    | zero => simp [List.getD]
    | succ k =>
      have := ih k (by simpa using h)
      simp only [List.take_succ_cons, List.drop_succ_cons, List.getD_cons_succ,
        List.cons_append]
      exact congrArg (a :: ·) this

theorem fullTracked_nil : fullTracked [] = [] :=
  rfl

theorem fullTracked_cons (a : RecNode) (t : List RecNode) :
    fullTracked (a :: t) = nodeTracked a ++ fullTracked t := by
  simp [fullTracked]

theorem fullTracked_append (a b : List RecNode) :
    fullTracked (a ++ b) = fullTracked a ++ fullTracked b := by
  simp [fullTracked]

theorem nodeTracked_inactive {nd : RecNode} (h : nd.is_active = false) :
    nodeTracked nd = [] := by
  simp [nodeTracked, h]

theorem nodeTracked_active {nd : RecNode} (h : nd.is_active = true) :
    nodeTracked nd = nodeStableTracked nd ++ nodeUnstableTracked nd := by
  simp [nodeTracked, h]

theorem fullTracked_decomp (nodes : List RecNode) (n : ℕ) (hn : n < nodes.length) :
    fullTracked nodes = fullTracked (nodes.take n) ++
      (nodeTracked (nodes.getD n default) ++ fullTracked (nodes.drop (n + 1))) := by
  conv_lhs => rw [take_drop_eq_self nodes n hn]
  rw [fullTracked_append, fullTracked_cons]

theorem fullTracked_modifyIdx (nodes : List RecNode) (n : ℕ) (f : RecNode → RecNode)
    (hn : n < nodes.length) :
    fullTracked (modifyIdx nodes n f) = fullTracked (nodes.take n) ++
      (nodeTracked (f (nodes.getD n default)) ++ fullTracked (nodes.drop (n + 1))) := by
  rw [modifyIdx_eq_take_drop nodes n f hn, fullTracked_append, fullTracked_cons]

theorem shapes_length {A B : List RecNode} (h : shapes A = shapes B) :
    A.length = B.length := by
  have h2 := congrArg List.length h
  simpa [shapes] using h2

theorem shapes_getD {A B : List RecNode} (h : shapes A = shapes B) (m : ℕ) :
    nodeShape (A.getD m default) = nodeShape (B.getD m default) := by
  have h2 := congrArg (fun l => l.getD m (nodeShape default)) h
  simpa [shapes, getD_map] using h2

theorem nodeShape_fields {a b : RecNode} (h : nodeShape a = nodeShape b) :
    a.is_active = b.is_active ∧ a.parent = b.parent ∧ a.left = b.left ∧
    a.right = b.right ∧ a.id = b.id := by
  simp only [nodeShape, Prod.mk.injEq] at h
  exact ⟨h.1, h.2.1, h.2.2.1, h.2.2.2.1, h.2.2.2.2⟩

theorem shapes_active {A B : List RecNode} (h : shapes A = shapes B) (m : ℕ) :
    (B.getD m default).is_active = (A.getD m default).is_active :=
  ((nodeShape_fields (shapes_getD h m)).1).symm

theorem shapes_left {A B : List RecNode} (h : shapes A = shapes B) (m : ℕ) :
    (B.getD m default).left = (A.getD m default).left :=
  ((nodeShape_fields (shapes_getD h m)).2.2.1).symm

theorem shapes_right {A B : List RecNode} (h : shapes A = shapes B) (m : ℕ) :
    (B.getD m default).right = (A.getD m default).right :=
  ((nodeShape_fields (shapes_getD h m)).2.2.2.1).symm

theorem shapes_parent {A B : List RecNode} (h : shapes A = shapes B) (m : ℕ) :
    (B.getD m default).parent = (A.getD m default).parent :=
  ((nodeShape_fields (shapes_getD h m)).2.1).symm

theorem shapes_id {A B : List RecNode} (h : shapes A = shapes B) (m : ℕ) :
    (B.getD m default).id = (A.getD m default).id :=
  ((nodeShape_fields (shapes_getD h m)).2.2.2.2).symm

theorem DescTo_transport {A B : List RecNode} {c m : ℕ} (h : shapes A = shapes B)
    (d : DescTo A c m) : DescTo B c m := by
  induction d with
  | leaf h1 h2 h3 h4 =>
    exact DescTo.leaf (shapes_length h ▸ h1)
      ((shapes_active h c).trans h2)
      ((shapes_left h c).trans h3)
      ((shapes_right h c).trans h4)
  | right h1 h2 h3 h4 _ ih =>
    exact DescTo.right (shapes_length h ▸ h1)
      ((shapes_active h _).trans h2)
      ((shapes_left h _).trans h3)
      ((shapes_right h _).trans h4) ih
  | both h1 h2 h3 h4 h5 h6 _ ih =>
    exact DescTo.both (shapes_length h ▸ h1)
      ((shapes_active h _).trans h2)
      ((shapes_left h _).trans h3)
      ((shapes_right h _).trans h4)
      (shapes_length h ▸ h5)
      ((shapes_active h _).trans h6) ih

theorem DOk_transport {A B : List RecNode} {c : ℕ} (h : shapes A = shapes B)
    (d : DOk A c) : DOk B c := by
  intro m hm hact
  exact DescTo_transport h
    (d m (shapes_length h ▸ hm) ((shapes_active h m).symm.trans hact))

theorem TC_transport {A B : List RecNode} (h : shapes A = shapes B) (tc : TC A) : TC B := by
  obtain ⟨tc1, tc2⟩ := tc
  have hl := shapes_length h
  constructor
  · intro m t hm
    obtain ⟨c1, c2⟩ := tc1 m t (hl ▸ hm)
    constructor
    · intro hlm
      obtain ⟨d1, d2, d3⟩ := c1 ((shapes_left h m).symm.trans hlm)
      exact ⟨hl ▸ d1, (shapes_parent h t).trans d2,
        fun hcon => d3 ((shapes_right h m).symm.trans hcon)⟩
    · intro hrm
      obtain ⟨d1, d2⟩ := c2 ((shapes_right h m).symm.trans hrm)
      exact ⟨hl ▸ d1, (shapes_parent h t).trans d2⟩
  · intro t p ht hp
    obtain ⟨d1, d2⟩ := tc2 t p (hl ▸ ht) ((shapes_parent h t).symm.trans hp)
    refine ⟨hl ▸ d1, ?_⟩
    rcases d2 with d2 | d2
    · exact Or.inl ((shapes_left h p).trans d2)
    · exact Or.inr ((shapes_right h p).trans d2)

theorem listSwap_length {α : Type} [Inhabited α] (l : List α) (i j : ℕ) :
    (listSwap l i j).length = l.length := by
  simp [listSwap]

theorem listSwap_getD {α : Type} [Inhabited α] (l : List α) (i j k : ℕ)
    (hi : i < l.length) (hj : j < l.length) :
    (listSwap l i j).getD k default =
      if k = j then l.getD i default
      else if k = i then l.getD j default
      else l.getD k default := by
  unfold listSwap
  rw [getD_set, getD_set]
  by_cases hkj : k = j
  · rw [if_pos ⟨hkj, by simpa using hj⟩, if_pos hkj]
  · rw [if_neg (fun h2 => hkj h2.1), if_neg hkj]
    by_cases hki : k = i
    · rw [if_pos ⟨hki, hi⟩, if_pos hki]
    · rw [if_neg (fun h2 => hki h2.1), if_neg hki]

/-- Two recursion-tree states that differ only in the listener bookkeeping
(heaps, cleanliness counters, last-listener slots). -/
def listenerFrame (a b : RecState) : Prop :=
  a.nodes = b.nodes ∧ a.stable_index = b.stable_index ∧ a.state = b.state ∧
  a.stored_stable = b.stored_stable ∧ a.unstable_dependents = b.unstable_dependents ∧
  a.total_events = b.total_events ∧ a.inactive_by_component = b.inactive_by_component ∧
  a.rng = b.rng

theorem listenerFrame_refl (a : RecState) : listenerFrame a a :=
  ⟨rfl, rfl, rfl, rfl, rfl, rfl, rfl, rfl⟩

theorem listenerFrame_trans {a b c : RecState} (h1 : listenerFrame a b)
    (h2 : listenerFrame b c) : listenerFrame a c :=
  ⟨h1.1.trans h2.1, h1.2.1.trans h2.2.1, h1.2.2.1.trans h2.2.2.1,
   h1.2.2.2.1.trans h2.2.2.2.1, h1.2.2.2.2.1.trans h2.2.2.2.2.1,
   h1.2.2.2.2.2.1.trans h2.2.2.2.2.2.1, h1.2.2.2.2.2.2.1.trans h2.2.2.2.2.2.2.1,
   h1.2.2.2.2.2.2.2.trans h2.2.2.2.2.2.2.2⟩

theorem foldl_listenerFrame {β : Type} (g : RecState → β → RecState) (l : List β)
    (hstep : ∀ rs x, listenerFrame (g rs x) rs) (rs : RecState) :
    listenerFrame (l.foldl g rs) rs := by
  induction l generalizing rs with
  | nil => exact listenerFrame_refl rs
  | cons x t ih =>
    exact listenerFrame_trans (ih (g rs x)) (hstep rs x)

theorem add_positive_listeners_frame (re : List FReaction) (rdata : StableReactionData)
    (n : ℕ) (rs : RecState) :
    listenerFrame (add_positive_listeners re rdata n rs) rs := by
  unfold add_positive_listeners
  split
  · exact listenerFrame_refl rs
  · dsimp only
    split
    · exact ⟨rfl, rfl, rfl, rfl, rfl, rfl, rfl, rfl⟩
    · split
      · exact ⟨rfl, rfl, rfl, rfl, rfl, rfl, rfl, rfl⟩
      · split
        · exact ⟨rfl, rfl, rfl, rfl, rfl, rfl, rfl, rfl⟩
        · exact ⟨rfl, rfl, rfl, rfl, rfl, rfl, rfl, rfl⟩
    · split
      · split
        · exact ⟨rfl, rfl, rfl, rfl, rfl, rfl, rfl, rfl⟩
        · exact ⟨rfl, rfl, rfl, rfl, rfl, rfl, rfl, rfl⟩
      · refine listenerFrame_trans
          (foldl_listenerFrame _ _ (fun r x => ?_) _)
          ⟨rfl, rfl, rfl, rfl, rfl, rfl, rfl, rfl⟩
        exact ⟨rfl, rfl, rfl, rfl, rfl, rfl, rfl, rfl⟩
    · exact ⟨rfl, rfl, rfl, rfl, rfl, rfl, rfl, rfl⟩

theorem add_negative_listeners_frame (re : List FReaction) (rdata : StableReactionData)
    (n : ℕ) (rs : RecState) :
    listenerFrame (add_negative_listeners re rdata n rs) rs := by
  unfold add_negative_listeners
  split
  · exact listenerFrame_refl rs
  · split
    · exact listenerFrame_refl rs
    · dsimp only
      split
      · exact ⟨rfl, rfl, rfl, rfl, rfl, rfl, rfl, rfl⟩
      · split
        · split
          · exact ⟨rfl, rfl, rfl, rfl, rfl, rfl, rfl, rfl⟩
          · exact ⟨rfl, rfl, rfl, rfl, rfl, rfl, rfl, rfl⟩
        · split
          · split
            · exact ⟨rfl, rfl, rfl, rfl, rfl, rfl, rfl, rfl⟩
            · exact ⟨rfl, rfl, rfl, rfl, rfl, rfl, rfl, rfl⟩
          · exact ⟨rfl, rfl, rfl, rfl, rfl, rfl, rfl, rfl⟩
      · split
        · exact ⟨rfl, rfl, rfl, rfl, rfl, rfl, rfl, rfl⟩
        · refine listenerFrame_trans
            (foldl_listenerFrame _ _ (fun r x => ?_) _)
            ⟨rfl, rfl, rfl, rfl, rfl, rfl, rfl, rfl⟩
          dsimp only
          split
          · exact ⟨rfl, rfl, rfl, rfl, rfl, rfl, rfl, rfl⟩
          · exact listenerFrame_refl _
      · exact ⟨rfl, rfl, rfl, rfl, rfl, rfl, rfl, rfl⟩

theorem clear_listeners_frame (re : List FReaction) (node : ℕ) (rs : RecState) :
    listenerFrame (clear_listeners re node rs) rs := by
  unfold clear_listeners
  refine foldl_listenerFrame _ _ (fun rs2 rdata => ?_) rs
  refine foldl_listenerFrame _ _ (fun rs3 inp => ?_) rs2
  dsimp only []
  split
  · split
    · exact listenerFrame_refl _
    · exact listenerFrame_refl _
  · split
    · exact listenerFrame_refl _
    · exact listenerFrame_refl _

theorem getD_drop {α : Type} (l : List α) (j k : ℕ) (d : α) :
    (l.drop j).getD k d = l.getD (j + k) d := by
  induction l generalizing j with
  | nil => simp
  | cons a t ih =>
    cases j with
    | zero => simp
    | succ j2 =>
      have := ih j2
      simpa [List.getD, Nat.succ_add] using this j2 -- placeholder

theorem set_eq_take_drop {α : Type} [Inhabited α] (l : List α) (i : ℕ) (b : α)
    (h : i < l.length) :
    l.set i b = l.take i ++ b :: l.drop (i + 1) := by
  induction l generalizing i with
  | nil => simp at h
  | cons a t ih =>
    cases i with
    | zero => simp
    | succ k =>
      have := ih k (by simpa using h)
      simp [List.set, this]

theorem eq_dropLast_append {α : Type} [Inhabited α] (D : List α) (h : D ≠ []) :
    D = D.dropLast ++ [D.getD (D.length - 1) default] := by
  induction D with
  | nil => exact absurd rfl h
  | cons a t ih =>
    cases t with
    | nil => rfl
    | cons b t2 =>
      have h2 := ih (by simp)
      simp only [List.dropLast_cons₂, List.length_cons, Nat.add_sub_cancel,
        List.cons_append]
      rw [show ((a :: b :: t2).getD (t2.length + 1) default) =
        ((b :: t2).getD ((b :: t2).length - 1) default) from rfl]
      exact congrArg (a :: ·) h2

theorem dropLast_set_last {α : Type} (X : List α) (y : α) :
    (X.set (X.length - 1) y).dropLast = X.dropLast := by
  induction X with
  | nil => rfl
  | cons a t ih =>
    cases t with
    | nil => rfl
    | cons b t2 =>
      have h2 := ih
      simp only [List.length_cons, Nat.add_sub_cancel, List.set]
      rw [show (b :: t2).length - 1 = t2.length from by simp] at h2
      cases hset : (b :: t2).set t2.length y with
      | nil => simp at hset
      | cons c u =>
        rw [show ((a :: c :: u).dropLast) = a :: (c :: u).dropLast from rfl,
          ← hset, h2]
        rfl

theorem dropLast_cons_of_ne_nil {α : Type} (b : α) (D : List α) (h : D ≠ []) :
    (b :: D).dropLast = b :: D.dropLast := by
  cases D with
  | nil => exact absurd rfl h
  | cons c u => rfl

theorem dropLast_append_ne_nil {α : Type} (A B : List α) (h : B ≠ []) :
    (A ++ B).dropLast = A ++ B.dropLast := by
  induction A with
  | nil => simp
  | cons a t ih =>
    rw [List.cons_append, dropLast_cons_of_ne_nil _ _ (by simp [h]), ih]
    rfl

/-- Swap-remove from the middle: the original list is a permutation of the
removed element consed onto the remainder. -/
theorem swap_remove_perm {α : Type} [Inhabited α] (l : List α) (i : ℕ)
    (h : i + 1 < l.length) :
    l.Perm (l.getD i default ::
      (listSwap l i (l.length - 1)).dropLast) := by
  have hi : i < l.length := by omega
  have hn1 : l.length - 1 < l.length := by omega
  unfold listSwap
  have hlenset : (l.set i (l.getD (l.length - 1) default)).length - 1 = l.length - 1 := by
    simp
  nth_rewrite 2 [← hlenset]
  rw [dropLast_set_last]
  rw [set_eq_take_drop l i (l.getD (l.length - 1) default) hi]
  have hD : l.drop (i + 1) ≠ [] := by
    intro hcon
    have := congrArg List.length hcon
    simp at this
    omega
  rw [dropLast_append_ne_nil _ _ (by simp), dropLast_cons_of_ne_nil _ _ hD]
  have hb : l.getD (l.length - 1) default =
      (l.drop (i + 1)).getD ((l.drop (i + 1)).length - 1) default := by
    rw [getD_drop]
    congr 1
    have := List.length_drop (i + 1) l
    omega
  have s1 : l = l.take i ++ l.getD i default ::
      ((l.drop (i + 1)).dropLast ++
        [(l.drop (i + 1)).getD ((l.drop (i + 1)).length - 1) default]) := by
    conv_lhs => rw [take_drop_eq_self l i hi]
    rw [← eq_dropLast_append _ hD]
  have s2 : List.Perm
      (l.take i ++ l.getD i default ::
        ((l.drop (i + 1)).dropLast ++
          [(l.drop (i + 1)).getD ((l.drop (i + 1)).length - 1) default]))
      (l.getD i default :: (l.take i ++
        ((l.drop (i + 1)).dropLast ++
          [(l.drop (i + 1)).getD ((l.drop (i + 1)).length - 1) default]))) :=
    List.perm_middle
  have s3 : List.Perm
      (l.getD i default :: (l.take i ++
        ((l.drop (i + 1)).dropLast ++
          [(l.drop (i + 1)).getD ((l.drop (i + 1)).length - 1) default])))
      (l.getD i default :: (l.take i ++
        ((l.drop (i + 1)).getD ((l.drop (i + 1)).length - 1) default ::
          (l.drop (i + 1)).dropLast))) :=
    List.Perm.cons _ (List.Perm.append_left _ (List.perm_append_singleton _ _))
  conv_lhs => rw [s1]
  rw [hb]
  exact s2.trans s3

/-- Removing the last element: the original list is a permutation (in fact
equal to) the last element consed onto `dropLast`, up to permutation. -/
theorem last_remove_perm {α : Type} [Inhabited α] (l : List α) (h : l ≠ []) :
    l.Perm (l.getD (l.length - 1) default :: l.dropLast) := by
  conv_lhs => rw [eq_dropLast_append l h]
  exact List.perm_append_singleton _ _

theorem shapes_modifyIdx {nodes : List RecNode} (n : ℕ) {f : RecNode → RecNode}
    (hf : ∀ nd, nodeShape (f nd) = nodeShape nd) :
    shapes (modifyIdx nodes n f) = shapes nodes := by
  induction nodes generalizing n with
  | nil => rfl
  | cons a t ih =>
    cases n with
    | zero => simp [shapes, modifyIdx, hf]
    | succ k =>
      have := ih k
      simp only [shapes, List.map_cons] at this ⊢
      rw [show modifyIdx (a :: t) (k + 1) f = a :: modifyIdx t k f from rfl]
      simp [this]

theorem modifyIdx_comp {α : Type} (l : List α) (i : ℕ) (f g : α → α) :
    modifyIdx (modifyIdx l i f) i g = modifyIdx l i (fun x => g (f x)) := by
  induction l generalizing i with
  | nil => rfl
  | cons a t ih =>
    cases i with
    | zero => rfl
    | succ k =>
      show a :: modifyIdx (modifyIdx t k f) k g = a :: modifyIdx t k _
      rw [ih]

theorem listSwap_getD_general {α : Type} [Inhabited α] (l : List α) (i j k : ℕ) (d : α) :
    (listSwap l i j).getD k d =
      if k = j ∧ j < l.length then l.getD i default
      else if k = i ∧ i < l.length then l.getD j default
      else l.getD k d := by
  unfold listSwap
  rw [getD_set, getD_set]
  simp only [List.length_set]

theorem option_getD_default {β : Type} (l : List (Option β)) (k : ℕ) :
    l.getD k (default : Option β) = l.getD k none :=
  rfl

theorem getD_some_lt {β : Type} {l : List (Option β)} {k : ℕ} {v : β}
    (h : l.getD k none = some v) : k < l.length := by
  by_contra hcon
  rw [List.getD_eq_default _ _ (le_of_not_lt hcon)] at h
  exact Option.noConfusion h

theorem getD_dropLast {α : Type} (l : List α) (k : ℕ) (d : α) (h : k + 1 < l.length) :
    l.dropLast.getD k d = l.getD k d := by
  induction l generalizing k with
  | nil => simp at h
  | cons a t ih =>
    cases t with
    | nil => simp at h
    | cons b t2 =>
      cases k with
      | zero => rfl
      | succ k2 =>
        have h2 := ih k2 (by simpa using h)
        simpa [List.getD] using h2

theorem perm_extract_mid {α : Type} (A B u sE sE2 : List α) (x : α)
    (hperm : List.Perm sE (x :: sE2)) :
    List.Perm (A ++ ((sE ++ u) ++ B)) (x :: (A ++ ((sE2 ++ u) ++ B))) := by
  have h1 : List.Perm (A ++ ((sE ++ u) ++ B)) (A ++ (((x :: sE2) ++ u) ++ B)) :=
    List.Perm.append_left A (List.Perm.append_right B (List.Perm.append_right u hperm))
  have h2 : A ++ (((x :: sE2) ++ u) ++ B) = A ++ (x :: ((sE2 ++ u) ++ B)) := by simp
  rw [h2] at h1
  exact h1.trans List.perm_middle

/-- Everything `remove_stable` guarantees when it finds its reaction: the
node is an active in-range one, the returned data is the indexed element,
only listed bookkeeping changed, index coherence survives the swap-remove,
and the ledger loses exactly the removed entry. -/
theorem remove_stable_spec {rs : RecState} {ridx node : ℕ} {rdata : StableReactionData}
    {rs' : RecState} (hic : IC rs)
    (h : remove_stable ridx rs = some ((node, rdata), rs')) :
    node < rs.nodes.length ∧
    (rs.nodes.getD node default).is_active = true ∧
    rdata.reaction = ridx ∧
    shapes rs'.nodes = shapes rs.nodes ∧
    rs'.state = rs.state ∧
    rs'.rng = rs.rng ∧
    rs'.stored_stable = rs.stored_stable ∧
    rs'.unstable_dependents = rs.unstable_dependents ∧
    rs'.inactive_by_component = rs.inactive_by_component ∧
    rs'.total_events = rs.total_events ∧
    (∀ m, m ≠ node → rs'.nodes.getD m default = rs.nodes.getD m default) ∧
    (rs'.nodes.getD node default).unstable_reactions =
      (rs.nodes.getD node default).unstable_reactions ∧
    IC rs' ∧
    List.Perm (fullTracked rs.nodes) ((ridx, rdata.events) :: fullTracked rs'.nodes) := by
  unfold remove_stable at h
  rcases hscrut : rs.stable_index.getD ridx none with _ | ⟨node0, i0⟩
  · rw [hscrut] at h
    exact absurd h (by simp)
  rw [hscrut] at h
  dsimp only at h
  obtain ⟨hnlt, hact, hilt, hrx⟩ := hic ridx node0 i0 hscrut
  have hsilt : ridx < rs.stable_index.length := getD_some_lt hscrut
  by_cases hsw : i0 + 1 ≠ (rs.nodes.getD node0 default).stable_reactions.length
  · rw [if_pos hsw] at h
    simp only [Option.some.injEq, Prod.mk.injEq] at h
    obtain ⟨⟨hnode, hrd⟩, hrs⟩ := h
    subst hnode
    have hswlt : i0 + 1 < (rs.nodes.getD node0 default).stable_reactions.length := by
      omega
    set srs := (rs.nodes.getD node0 default).stable_reactions with hsrs
    set lastR := (srs.getD (srs.length - 1) default).reaction with hlastR
    -- the returned data is the indexed element
    have hsrs2 : ((rs.setNode node0
        (fun nd => { nd with stable_reactions :=
          (listSwap nd.stable_reactions i0 (srs.length - 1)) })).nodes.getD node0
          default).stable_reactions = listSwap srs i0 (srs.length - 1) := by
      show ((modifyIdx rs.nodes node0 _).getD node0 default).stable_reactions = _
      rw [modifyIdx_getD]
      rw [if_pos ⟨rfl, hnlt⟩]
    have hrdval : rdata = srs.getD i0 default := by
      rw [← hrd, hsrs2, listSwap_length]
      rw [listSwap_getD srs i0 (srs.length - 1) (srs.length - 1) (by omega) (by omega)]
      rw [if_pos rfl]
    -- the output state, in composed form
    have hnodes2 : rs'.nodes = modifyIdx rs.nodes node0
        (fun nd => { nd with stable_reactions :=
          ((listSwap nd.stable_reactions i0 (srs.length - 1)).dropLast) }) := by
      rw [← hrs]
      simp only [RecState.setNode]
      rw [modifyIdx_comp]
    have hsi2 : rs'.stable_index =
        (listSwap rs.stable_index ridx lastR).set ridx none := by
      rw [← hrs]
      simp only [RecState.setNode]
    have hnewl : (rs'.nodes.getD node0 default).stable_reactions =
        (listSwap srs i0 (srs.length - 1)).dropLast := by
      rw [hnodes2, modifyIdx_getD, if_pos ⟨rfl, hnlt⟩]
    have hperm0 : List.Perm srs
        (srs.getD i0 default :: (listSwap srs i0 (srs.length - 1)).dropLast) :=
      swap_remove_perm srs i0 hswlt
    have hfr : ∀ m, m ≠ node0 → rs'.nodes.getD m default = rs.nodes.getD m default := by
      intro m hm
      rw [hnodes2, modifyIdx_getD, if_neg (fun hcon => hm hcon.1)]
    refine ⟨hnlt, hact, ?_, ?_, ?_, ?_, ?_, ?_, ?_, ?_, hfr, ?_, ?_, ?_⟩
    · rw [hrdval, hrx]
    · rw [hnodes2]
      exact shapes_modifyIdx node0 (fun nd => rfl)
    · rw [← hrs]
      rfl
    · rw [← hrs]
      rfl
    · rw [← hrs]
      rfl
    · rw [← hrs]
      rfl
    · rw [← hrs]
      rfl
    · rw [← hrs]
      rfl
    · rw [hnodes2, modifyIdx_getD, if_pos ⟨rfl, hnlt⟩]
    · -- index coherence after the patch
      intro r n2 i2 hr
      rw [hsi2, getD_set] at hr
      by_cases hrid : r = ridx ∧ ridx < (listSwap rs.stable_index ridx lastR).length
      · rw [if_pos hrid] at hr
        exact absurd hr (by simp)
      · rw [if_neg hrid] at hr
        rw [listSwap_getD_general rs.stable_index ridx lastR r none] at hr
        have hlen2 : rs'.nodes.length = rs.nodes.length := by
          rw [hnodes2, modifyIdx_length]
        have hnewlen : (rs'.nodes.getD node0 default).stable_reactions.length =
            srs.length - 1 := by
          rw [hnewl]
          simp [listSwap_length]
        by_cases hcase1 : r = lastR ∧ lastR < rs.stable_index.length
        · rw [if_pos hcase1] at hr
          rw [option_getD_default, hscrut] at hr
          have hr2 : n2 = node0 ∧ i2 = i0 := by
            have := hr.symm
            simp only [Option.some.injEq, Prod.mk.injEq] at this
            exact this
          obtain ⟨hn2, hi2⟩ := hr2
          subst hn2
          refine ⟨hlen2 ▸ hnlt, ?_, ?_, ?_⟩
          · rw [hnodes2, modifyIdx_getD, if_pos ⟨rfl, hnlt⟩]
            exact hact
          · rw [hnewlen]
            omega
          · rw [hi2, hnewl, getD_dropLast _ _ _ (by simp [listSwap_length]; omega)]
            rw [listSwap_getD srs i0 (srs.length - 1) i0 (by omega) (by omega)]
            rw [if_neg (by omega), if_pos rfl]
            exact hcase1.1.symm
        · rw [if_neg hcase1] at hr
          have hrne : ¬(r = ridx ∧ ridx < rs.stable_index.length) := by
            intro hcon
            exact hrid ⟨hcon.1, by simpa [listSwap_length] using hcon.2⟩
          rw [if_neg hrne] at hr
          have hrneridx : r ≠ ridx := fun hcon => hrne ⟨hcon, hsilt⟩
          have hrneL : r ≠ lastR := by
            intro hcon
            exact hcase1 ⟨hcon, hcon ▸ getD_some_lt hr⟩
          obtain ⟨hn2lt, hn2act, hi2lt, hi2rx⟩ := hic r n2 i2 hr
          by_cases hn2 : n2 = node0
          · subst hn2
            have hi2nei : i2 ≠ i0 := by
              intro hcon
              subst hcon
              exact hrneridx (hi2rx ▸ hrx)
            have hi2nel : i2 ≠ srs.length - 1 := by
              intro hcon
              subst hcon
              exact hrneL (hi2rx ▸ hlastR)
            have hi2lt2 : i2 < srs.length - 1 := by
              rw [← hsrs] at hi2lt
              omega
            refine ⟨hlen2 ▸ hnlt, ?_, ?_, ?_⟩
            · rw [hnodes2, modifyIdx_getD, if_pos ⟨rfl, hnlt⟩]
              exact hact
            · rw [hnewlen]
              omega
            · rw [hnewl, getD_dropLast _ _ _ (by simp [listSwap_length]; omega)]
              rw [listSwap_getD srs i0 (srs.length - 1) i2 (by omega) (by omega)]
              rw [if_neg hi2nel, if_neg hi2nei]
              exact hi2rx
          · rw [hfr n2 hn2]
            exact ⟨hlen2 ▸ hn2lt, hn2act, hi2lt, hi2rx⟩
    · -- ledger permutation in the swap case
      rw [fullTracked_decomp rs.nodes node0 hnlt,
        hnodes2, fullTracked_modifyIdx rs.nodes node0 _ hnlt]
      rw [show nodeTracked (rs.nodes.getD node0 default) =
        nodeStableTracked (rs.nodes.getD node0 default) ++
          nodeUnstableTracked (rs.nodes.getD node0 default) from nodeTracked_active hact]
      rw [show nodeTracked ((fun nd => { nd with stable_reactions :=
          ((listSwap nd.stable_reactions i0 (srs.length - 1)).dropLast) })
            (rs.nodes.getD node0 default)) =
        ((listSwap srs i0 (srs.length - 1)).dropLast).map (fun d => (d.reaction, d.events)) ++
          nodeUnstableTracked (rs.nodes.getD node0 default) from nodeTracked_active hact]
      refine perm_extract_mid _ _ _ _ _ _ ?_
      have hmap := hperm0.map (fun d => (d.reaction, d.events))
      rw [List.map_cons] at hmap
      rw [show ((ridx, rdata.events) : ℕ × ℕ) =
        ((srs.getD i0 default).reaction, (srs.getD i0 default).events) from by
          rw [hrx, hrdval]]
      exact hmap
  · rw [if_neg hsw] at h
    have hieq : i0 + 1 = (rs.nodes.getD node0 default).stable_reactions.length := by
      by_contra hcon
      exact hsw hcon
    simp only [Option.some.injEq, Prod.mk.injEq] at h
    obtain ⟨⟨hnode, hrd⟩, hrs⟩ := h
    subst hnode
    set srs := (rs.nodes.getD node0 default).stable_reactions with hsrs
    have hsne : srs ≠ [] := by
      intro hcon
      rw [hcon] at hieq
      simp at hieq
    have hrdval : rdata = srs.getD (srs.length - 1) default := by
      rw [← hrd]
    have hi0eq : i0 = srs.length - 1 := by omega
    have hnodes2 : rs'.nodes = modifyIdx rs.nodes node0
        (fun nd => { nd with stable_reactions := nd.stable_reactions.dropLast }) := by
      rw [← hrs]
      rfl
    have hsi2 : rs'.stable_index = rs.stable_index.set ridx none := by
      rw [← hrs]
      rfl
    have hnewl : (rs'.nodes.getD node0 default).stable_reactions = srs.dropLast := by
      rw [hnodes2, modifyIdx_getD, if_pos ⟨rfl, hnlt⟩]
    have hfr : ∀ m, m ≠ node0 → rs'.nodes.getD m default = rs.nodes.getD m default := by
      intro m hm
      rw [hnodes2, modifyIdx_getD, if_neg (fun hcon => hm hcon.1)]
    have hlen2 : rs'.nodes.length = rs.nodes.length := by
      rw [hnodes2, modifyIdx_length]
    refine ⟨hnlt, hact, ?_, ?_, ?_, ?_, ?_, ?_, ?_, ?_, hfr, ?_, ?_, ?_⟩
    · rw [hrdval, ← hi0eq, hrx]
    · rw [hnodes2]
      exact shapes_modifyIdx node0 (fun nd => rfl)
    · rw [← hrs]
      rfl
    · rw [← hrs]
      rfl
    · rw [← hrs]
      rfl
    · rw [← hrs]
      rfl
    · rw [← hrs]
      rfl
    · rw [← hrs]
      rfl
    · rw [hnodes2, modifyIdx_getD, if_pos ⟨rfl, hnlt⟩]
    · -- index coherence after dropping the last element
      intro r n2 i2 hr
      rw [hsi2, getD_set] at hr
      by_cases hrid : r = ridx ∧ ridx < rs.stable_index.length
      · rw [if_pos hrid] at hr
        exact absurd hr (by simp)
      · rw [if_neg hrid] at hr
        have hrneridx : r ≠ ridx := fun hcon => hrid ⟨hcon, hsilt⟩
        obtain ⟨hn2lt, hn2act, hi2lt, hi2rx⟩ := hic r n2 i2 hr
        by_cases hn2 : n2 = node0
        · subst hn2
          have hi2nei : i2 ≠ srs.length - 1 := by
            intro hcon
            subst hcon
            rw [← hi0eq] at hi2rx
            exact hrneridx (hi2rx ▸ hrx)
          have hi2lt2 : i2 < srs.length - 1 := by
            rw [← hsrs] at hi2lt
            omega
          refine ⟨hlen2 ▸ hnlt, ?_, ?_, ?_⟩
          · rw [hnodes2, modifyIdx_getD, if_pos ⟨rfl, hnlt⟩]
            exact hact
          · rw [hnewl]
            rw [List.length_dropLast]
            omega
          · rw [hnewl, getD_dropLast _ _ _ (by omega)]
            exact hi2rx
        · rw [hfr n2 hn2]
          exact ⟨hlen2 ▸ hn2lt, hn2act, hi2lt, hi2rx⟩
    · -- ledger permutation in the drop-last case
      rw [fullTracked_decomp rs.nodes node0 hnlt,
        hnodes2, fullTracked_modifyIdx rs.nodes node0 _ hnlt]
      rw [show nodeTracked (rs.nodes.getD node0 default) =
        nodeStableTracked (rs.nodes.getD node0 default) ++
          nodeUnstableTracked (rs.nodes.getD node0 default) from nodeTracked_active hact]
      rw [show nodeTracked ((fun nd => { nd with stable_reactions :=
          (nd.stable_reactions.dropLast) }) (rs.nodes.getD node0 default)) =
        (srs.dropLast).map (fun d => (d.reaction, d.events)) ++
          nodeUnstableTracked (rs.nodes.getD node0 default) from nodeTracked_active hact]
      refine perm_extract_mid _ _ _ _ _ _ ?_
      have hmap := (last_remove_perm srs hsne).map (fun d => (d.reaction, d.events))
      rw [List.map_cons] at hmap
      rw [show ((ridx, rdata.events) : ℕ × ℕ) =
        ((srs.getD (srs.length - 1) default).reaction,
          (srs.getD (srs.length - 1) default).events) from by
          rw [← hi0eq, hrx, hrdval, hi0eq]]
      exact hmap

theorem modifyIdx_oob {α : Type} (l : List α) {i : ℕ} (f : α → α) (h : l.length ≤ i) :
    modifyIdx l i f = l := by
  induction l generalizing i with
  | nil => rfl
  | cons a t ih =>
    cases i with
    | zero => simp at h
    | succ k =>
      show a :: modifyIdx t k f = a :: t
      rw [ih (by simpa using h)]

/-- `add_stable` on an active node: the data is appended and indexed, the
ledger gains exactly its entry, and index coherence survives. -/
theorem add_stable_active_spec (re : List FReaction) {rs : RecState} {node_idx : ℕ}
    (rdata : StableReactionData)
    (hact : (rs.nodes.getD node_idx default).is_active = true)
    (hnlt : node_idx < rs.nodes.length) (hic : IC rs) :
    shapes (add_stable re node_idx rdata rs).nodes = shapes rs.nodes ∧
    (add_stable re node_idx rdata rs).state = rs.state ∧
    (add_stable re node_idx rdata rs).stored_stable = rs.stored_stable ∧
    (add_stable re node_idx rdata rs).unstable_dependents = rs.unstable_dependents ∧
    (add_stable re node_idx rdata rs).total_events = rs.total_events ∧
    (add_stable re node_idx rdata rs).inactive_by_component = rs.inactive_by_component ∧
    (add_stable re node_idx rdata rs).rng = rs.rng ∧
    (∀ m, m ≠ node_idx → (add_stable re node_idx rdata rs).nodes.getD m default =
      rs.nodes.getD m default) ∧
    (∀ m, ((add_stable re node_idx rdata rs).nodes.getD m default).unstable_reactions =
      (rs.nodes.getD m default).unstable_reactions) ∧
    IC (add_stable re node_idx rdata rs) ∧
    List.Perm (fullTracked (add_stable re node_idx rdata rs).nodes)
      ((rdata.reaction, rdata.events) :: fullTracked rs.nodes) := by
  have hfp := add_positive_listeners_frame re rdata node_idx rs
  have hfn := add_negative_listeners_frame re rdata node_idx
    (add_positive_listeners re rdata node_idx rs)
  have hf := listenerFrame_trans hfn hfp
  set rs2 := add_negative_listeners re rdata node_idx
    (add_positive_listeners re rdata node_idx rs) with hrs2
  set srs := (rs.nodes.getD node_idx default).stable_reactions with hsrs
  have hn2 : rs2.nodes = rs.nodes := hf.1
  have hs2 : rs2.stable_index = rs.stable_index := hf.2.1
  have hform : add_stable re node_idx rdata rs =
      RecState.setNode { rs2 with stable_index :=
        (rs2.stable_index.set rdata.reaction
          (some (node_idx, (rs2.nodes.getD node_idx default).stable_reactions.length))) }
        node_idx
        (fun nd => { nd with stable_reactions := nd.stable_reactions ++ [rdata] }) := by
    unfold add_stable
    rw [if_pos hact]
  rw [hform]
  have hnR : (RecState.setNode { rs2 with stable_index :=
      (rs2.stable_index.set rdata.reaction
        (some (node_idx, (rs2.nodes.getD node_idx default).stable_reactions.length))) }
      node_idx
      (fun nd => { nd with stable_reactions := nd.stable_reactions ++ [rdata] })).nodes =
      modifyIdx rs.nodes node_idx
        (fun nd => { nd with stable_reactions := nd.stable_reactions ++ [rdata] }) := by
    show modifyIdx rs2.nodes node_idx _ = _
    rw [hn2]
  have hsiR : (RecState.setNode { rs2 with stable_index :=
      (rs2.stable_index.set rdata.reaction
        (some (node_idx, (rs2.nodes.getD node_idx default).stable_reactions.length))) }
      node_idx
      (fun nd => { nd with stable_reactions := nd.stable_reactions ++ [rdata] })).stable_index =
      rs.stable_index.set rdata.reaction (some (node_idx, srs.length)) := by
    show rs2.stable_index.set rdata.reaction
      (some (node_idx, (rs2.nodes.getD node_idx default).stable_reactions.length)) = _
    rw [hs2, hn2]
  refine ⟨?_, hf.2.2.1, hf.2.2.2.1, hf.2.2.2.2.1, hf.2.2.2.2.2.1,
    hf.2.2.2.2.2.2.1, hf.2.2.2.2.2.2.2, ?_, ?_, ?_, ?_⟩
  · rw [hnR, hn2.symm]
    exact shapes_modifyIdx node_idx (fun nd => rfl)
  · intro m hm
    rw [hnR, modifyIdx_getD, if_neg (fun hcon => hm hcon.1)]
  · intro m
    rw [hnR, modifyIdx_getD]
    by_cases hm : m = node_idx ∧ node_idx < rs.nodes.length
    · rw [if_pos hm]
    · rw [if_neg hm]
  · intro r n2 i2 hr
    rw [hsiR, getD_set] at hr
    rw [hnR]
    have hlen : (modifyIdx rs.nodes node_idx
        (fun nd => { nd with stable_reactions := nd.stable_reactions ++ [rdata] })).length =
        rs.nodes.length := modifyIdx_length _ _ _
    by_cases hcase : r = rdata.reaction ∧ rdata.reaction < rs.stable_index.length
    · rw [if_pos hcase] at hr
      simp only [Option.some.injEq, Prod.mk.injEq] at hr
      obtain ⟨he1, he2⟩ := hr
      subst he1
      subst he2
      rw [modifyIdx_getD, if_pos ⟨rfl, hnlt⟩]
      refine ⟨hlen ▸ hnlt, hact, ?_, ?_⟩
      · show srs.length < (srs ++ [rdata]).length
        simp
      · show ((srs ++ [rdata]).getD srs.length default).reaction = r
        rw [getD_append_right srs [rdata] srs.length default (le_refl _)]
        simp only [Nat.sub_self]
        rw [hcase.1]
        rfl
    · rw [if_neg hcase] at hr
      obtain ⟨hn2lt, hn2act, hi2lt, hi2rx⟩ := hic r n2 i2 hr
      by_cases hm : n2 = node_idx
      · subst hm
        rw [modifyIdx_getD, if_pos ⟨rfl, hnlt⟩]
        refine ⟨hlen ▸ hn2lt, hact, ?_, ?_⟩
        · show i2 < (srs ++ [rdata]).length
          rw [← hsrs] at hi2lt
          simp only [List.length_append, List.length_cons, List.length_nil]
          omega
        · show ((srs ++ [rdata]).getD i2 default).reaction = r
          rw [← hsrs] at hi2lt
          rw [getD_append_left srs [rdata] i2 default hi2lt]
          exact hi2rx
      · rw [modifyIdx_getD, if_neg (fun hcon => hm hcon.1)]
        exact ⟨hlen ▸ hn2lt, hn2act, hi2lt, hi2rx⟩
  · rw [hnR]
    rw [fullTracked_modifyIdx rs.nodes node_idx _ hnlt]
    rw [fullTracked_decomp rs.nodes node_idx hnlt]
    rw [show nodeTracked ((fun nd => { nd with stable_reactions :=
        (nd.stable_reactions ++ [rdata]) }) (rs.nodes.getD node_idx default)) =
      ((srs ++ [rdata]).map (fun d => (d.reaction, d.events)) ++
        nodeUnstableTracked (rs.nodes.getD node_idx default)) from nodeTracked_active hact]
    rw [show nodeTracked (rs.nodes.getD node_idx default) =
      (srs.map (fun d => (d.reaction, d.events)) ++
        nodeUnstableTracked (rs.nodes.getD node_idx default)) from nodeTracked_active hact]
    refine perm_extract_mid _ _ _ _ _ _ ?_
    rw [List.map_append]
    exact List.perm_append_singleton _ _

/-- `add_stable` on an inactive node: nothing but the parked list changes,
and the ledger is untouched. -/
theorem add_stable_inactive_spec (re : List FReaction) {rs : RecState} {node_idx : ℕ}
    (rdata : StableReactionData)
    (hact : (rs.nodes.getD node_idx default).is_active = false) (hic : IC rs) :
    shapes (add_stable re node_idx rdata rs).nodes = shapes rs.nodes ∧
    (add_stable re node_idx rdata rs).state = rs.state ∧
    (add_stable re node_idx rdata rs).stable_index = rs.stable_index ∧
    (add_stable re node_idx rdata rs).stored_stable = rs.stored_stable ∧
    (add_stable re node_idx rdata rs).unstable_dependents = rs.unstable_dependents ∧
    (add_stable re node_idx rdata rs).total_events = rs.total_events ∧
    (add_stable re node_idx rdata rs).inactive_by_component = rs.inactive_by_component ∧
    (add_stable re node_idx rdata rs).rng = rs.rng ∧
    (∀ m, m ≠ node_idx → (add_stable re node_idx rdata rs).nodes.getD m default =
      rs.nodes.getD m default) ∧
    (∀ m, ((add_stable re node_idx rdata rs).nodes.getD m default).unstable_reactions =
      (rs.nodes.getD m default).unstable_reactions) ∧
    IC (add_stable re node_idx rdata rs) ∧
    fullTracked (add_stable re node_idx rdata rs).nodes = fullTracked rs.nodes := by
  have hform : add_stable re node_idx rdata rs =
      rs.setNode node_idx
        (fun nd => { nd with stable_reactions := nd.stable_reactions ++ [rdata] }) := by
    unfold add_stable
    rw [if_neg (by rw [hact]; simp)]
  rw [hform]
  have hnR : (rs.setNode node_idx
      (fun nd => { nd with stable_reactions := nd.stable_reactions ++ [rdata] })).nodes =
      modifyIdx rs.nodes node_idx
        (fun nd => { nd with stable_reactions := nd.stable_reactions ++ [rdata] }) := rfl
  refine ⟨?_, rfl, rfl, rfl, rfl, rfl, rfl, rfl, ?_, ?_, ?_, ?_⟩
  · rw [hnR]
    exact shapes_modifyIdx node_idx (fun nd => rfl)
  · intro m hm
    rw [hnR, modifyIdx_getD, if_neg (fun hcon => hm hcon.1)]
  · intro m
    rw [hnR, modifyIdx_getD]
    by_cases hm : m = node_idx ∧ node_idx < rs.nodes.length
    · rw [if_pos hm]
    · rw [if_neg hm]
  · intro r n2 i2 hr
    obtain ⟨hn2lt, hn2act, hi2lt, hi2rx⟩ := hic r n2 i2 hr
    have hn2ne : n2 ≠ node_idx := by
      intro hcon
      subst hcon
      rw [hn2act] at hact
      exact Bool.noConfusion hact
    rw [hnR]
    rw [show (modifyIdx rs.nodes node_idx
      (fun nd => { nd with stable_reactions := (nd.stable_reactions ++ [rdata]) })).getD
        n2 default = rs.nodes.getD n2 default from by
      rw [modifyIdx_getD, if_neg (fun hcon => hn2ne hcon.1)]]
    exact ⟨(modifyIdx_length _ _ _).symm ▸ hn2lt, hn2act, hi2lt, hi2rx⟩
  · rw [hnR]
    by_cases hnlt : node_idx < rs.nodes.length
    · rw [fullTracked_modifyIdx rs.nodes node_idx _ hnlt,
        fullTracked_decomp rs.nodes node_idx hnlt]
      rw [nodeTracked_inactive hact, nodeTracked_inactive]
      exact hact
    · rw [modifyIdx_oob _ _ (le_of_not_lt hnlt)]

/-- Index coherence as a property of the raw index and node lists. -/
def ICd (si : List (Option (ℕ × ℕ))) (nodes : List RecNode) : Prop :=
  ∀ r n i, si.getD r none = some (n, i) →
    n < nodes.length ∧ (nodes.getD n default).is_active = true ∧
    i < (nodes.getD n default).stable_reactions.length ∧
    ((nodes.getD n default).stable_reactions.getD i default).reaction = r

theorem IC_eq_ICd (rs : RecState) : IC rs = ICd rs.stable_index rs.nodes :=
  rfl

theorem actT_getD_self (c : ℕ) (nodes : List RecNode) (hc : c < nodes.length) :
    (actT c nodes).getD c default =
      { nodes.getD c default with is_active := true } := by
  unfold actT
  rw [modifyIdx_getD, if_pos ⟨rfl, hc⟩]

theorem actT_getD_other (c : ℕ) (nodes : List RecNode) {m : ℕ} (hm : m ≠ c) :
    (actT c nodes).getD m default = nodes.getD m default := by
  unfold actT
  rw [modifyIdx_getD, if_neg (fun hcon => hm hcon.1)]

theorem actT_length (c : ℕ) (nodes : List RecNode) :
    (actT c nodes).length = nodes.length :=
  modifyIdx_length _ _ _

theorem ICd_actT {si : List (Option (ℕ × ℕ))} {nodes : List RecNode} (c : ℕ)
    (h : ICd si nodes) : ICd si (actT c nodes) := by
  intro r n i hr
  obtain ⟨h1, h2, h3, h4⟩ := h r n i hr
  by_cases hn : n = c
  · subst hn
    rw [actT_getD_self n nodes h1]
    exact ⟨(actT_length n nodes).symm ▸ h1, rfl, h3, h4⟩
  · rw [actT_getD_other c nodes hn]
    exact ⟨(actT_length c nodes).symm ▸ h1, h2, h3, h4⟩

/-- The unstable fold of `activate_node`: bounds are added one reaction at a
time and the ledger grows by the matching entries. -/
theorem activate_unstable_fold (re : List FReaction) (l : List ReactionData) :
    ∀ (X : RecState) (tr : List (ℕ × ℕ)), BOk re X.state tr →
    (l.foldl (fun rs rdata =>
      { rs with state := rs.state.add_bounds rdata.events (getReaction re rdata.reaction),
                unstable_dependents := (add_unstable_deps rs.unstable_dependents
                  (getReaction re rdata.reaction)) }) X).nodes = X.nodes ∧
    (l.foldl (fun rs rdata =>
      { rs with state := rs.state.add_bounds rdata.events (getReaction re rdata.reaction),
                unstable_dependents := (add_unstable_deps rs.unstable_dependents
                  (getReaction re rdata.reaction)) }) X).stable_index = X.stable_index ∧
    (l.foldl (fun rs rdata =>
      { rs with state := rs.state.add_bounds rdata.events (getReaction re rdata.reaction),
                unstable_dependents := (add_unstable_deps rs.unstable_dependents
                  (getReaction re rdata.reaction)) }) X).stored_stable = X.stored_stable ∧
    (l.foldl (fun rs rdata =>
      { rs with state := rs.state.add_bounds rdata.events (getReaction re rdata.reaction),
                unstable_dependents := (add_unstable_deps rs.unstable_dependents
                  (getReaction re rdata.reaction)) }) X).total_events = X.total_events ∧
    (l.foldl (fun rs rdata =>
      { rs with state := rs.state.add_bounds rdata.events (getReaction re rdata.reaction),
                unstable_dependents := (add_unstable_deps rs.unstable_dependents
                  (getReaction re rdata.reaction)) }) X).inactive_by_component =
      X.inactive_by_component ∧
    (l.foldl (fun rs rdata =>
      { rs with state := rs.state.add_bounds rdata.events (getReaction re rdata.reaction),
                unstable_dependents := (add_unstable_deps rs.unstable_dependents
                  (getReaction re rdata.reaction)) }) X).rng = X.rng ∧
    (l.foldl (fun rs rdata =>
      { rs with state := rs.state.add_bounds rdata.events (getReaction re rdata.reaction),
                unstable_dependents := (add_unstable_deps rs.unstable_dependents
                  (getReaction re rdata.reaction)) }) X).upper_listeners = X.upper_listeners ∧
    (l.foldl (fun rs rdata =>
      { rs with state := rs.state.add_bounds rdata.events (getReaction re rdata.reaction),
                unstable_dependents := (add_unstable_deps rs.unstable_dependents
                  (getReaction re rdata.reaction)) }) X).lower_listeners = X.lower_listeners ∧
    BOk re (l.foldl (fun rs rdata =>
      { rs with state := rs.state.add_bounds rdata.events (getReaction re rdata.reaction),
                unstable_dependents := (add_unstable_deps rs.unstable_dependents
                  (getReaction re rdata.reaction)) }) X).state
      (tr ++ l.map (fun d => (d.reaction, d.events))) := by
  induction l with
  | nil =>
    intro X tr hb
    refine ⟨rfl, rfl, rfl, rfl, rfl, rfl, rfl, rfl, ?_⟩
    simpa using hb
  | cons a t ih =>
    intro X tr hb
    have hstep : BOk re (X.state.add_bounds a.events (getReaction re a.reaction))
        (tr ++ [(a.reaction, a.events)]) := by
      refine BOk_perm ?_ (BOk_add_bounds hb a.reaction a.events)
      exact (List.perm_append_singleton _ _).symm
    have := ih { X with
      state := X.state.add_bounds a.events (getReaction re a.reaction),
      unstable_dependents := (add_unstable_deps X.unstable_dependents
        (getReaction re a.reaction)) } (tr ++ [(a.reaction, a.events)]) hstep
    obtain ⟨c1, c2, c3, c4, c5, c6, c7, c8, c9⟩ := this
    refine ⟨c1, c2, c3, c4, c5, c6, c7, c8, ?_⟩
    rw [show tr ++ (a :: t).map (fun d => (d.reaction, d.events)) =
      (tr ++ [(a.reaction, a.events)]) ++ t.map (fun d => (d.reaction, d.events)) from by
        simp]
    exact c9

/-- One step of the stable fold in `activate_node`: index the reaction, add
its bounds, and register both listeners. -/
def stableActStep (re : List FReaction) (node : ℕ) (rs : RecState)
    (p : ℕ × StableReactionData) : RecState :=
  add_positive_listeners re p.2 node
    (add_negative_listeners re p.2 node
      { rs with
        stable_index := rs.stable_index.set p.2.reaction (some (node, p.1)),
        state := rs.state.add_bounds p.2.events (getReaction re p.2.reaction) })

theorem stableActStep_facts (re : List FReaction) (node : ℕ) (rs : RecState)
    (p : ℕ × StableReactionData) :
    (stableActStep re node rs p).nodes = rs.nodes ∧
    (stableActStep re node rs p).stable_index =
      rs.stable_index.set p.2.reaction (some (node, p.1)) ∧
    (stableActStep re node rs p).state =
      rs.state.add_bounds p.2.events (getReaction re p.2.reaction) ∧
    (stableActStep re node rs p).stored_stable = rs.stored_stable ∧
    (stableActStep re node rs p).unstable_dependents = rs.unstable_dependents ∧
    (stableActStep re node rs p).total_events = rs.total_events ∧
    (stableActStep re node rs p).inactive_by_component = rs.inactive_by_component ∧
    (stableActStep re node rs p).rng = rs.rng := by
  unfold stableActStep
  have hf := listenerFrame_trans
    (add_positive_listeners_frame re p.2 node
      (add_negative_listeners re p.2 node
        { rs with
          stable_index := rs.stable_index.set p.2.reaction (some (node, p.1)),
          state := rs.state.add_bounds p.2.events (getReaction re p.2.reaction) }))
    (add_negative_listeners_frame re p.2 node
      { rs with
        stable_index := rs.stable_index.set p.2.reaction (some (node, p.1)),
        state := rs.state.add_bounds p.2.events (getReaction re p.2.reaction) })
  exact ⟨hf.1, hf.2.1, hf.2.2.1, hf.2.2.2.1, hf.2.2.2.2.1, hf.2.2.2.2.2.1,
    hf.2.2.2.2.2.2.1, hf.2.2.2.2.2.2.2⟩

/-- The stable fold of `activate_node`, processing the suffix of the node's
stable list from position `k`. -/
theorem activate_stable_fold (re : List FReaction) (node : ℕ)
    (srs : List StableReactionData) (nodes0 : List RecNode)
    (hnode : node < nodes0.length)
    (hsrs : (nodes0.getD node default).stable_reactions = srs) :
    ∀ (suffix : List StableReactionData) (k : ℕ) (X : RecState) (tr : List (ℕ × ℕ)),
    srs.drop k = suffix →
    X.nodes = nodes0 →
    BOk re X.state tr →
    ICd X.stable_index (actT node nodes0) →
    ((List.enumFrom k suffix).foldl (stableActStep re node) X).nodes = nodes0 ∧
    ((List.enumFrom k suffix).foldl (stableActStep re node) X).stored_stable =
      X.stored_stable ∧
    ((List.enumFrom k suffix).foldl (stableActStep re node) X).unstable_dependents =
      X.unstable_dependents ∧
    ((List.enumFrom k suffix).foldl (stableActStep re node) X).total_events =
      X.total_events ∧
    ((List.enumFrom k suffix).foldl (stableActStep re node) X).inactive_by_component =
      X.inactive_by_component ∧
    ((List.enumFrom k suffix).foldl (stableActStep re node) X).rng = X.rng ∧
    BOk re ((List.enumFrom k suffix).foldl (stableActStep re node) X).state
      (tr ++ suffix.map (fun d => (d.reaction, d.events))) ∧
    ICd ((List.enumFrom k suffix).foldl (stableActStep re node) X).stable_index
      (actT node nodes0) := by
  intro suffix
  induction suffix with
  | nil =>
    intro k X tr _ hXn hb hicd
    refine ⟨hXn, rfl, rfl, rfl, rfl, rfl, ?_, hicd⟩
    simpa using hb
  | cons a t ih =>
    intro k X tr hdrop hXn hb hicd
    have hk : k < srs.length := by
      have := congrArg List.length hdrop
      rw [List.length_drop] at this
      simp only [List.length_cons] at this
      omega
    have ha : srs.getD k default = a := by
      have h0 : (srs.drop k).getD 0 default = a := by
        rw [hdrop]
        rfl
      rw [getD_drop] at h0
      simpa using h0
    have hdrop2 : srs.drop (k + 1) = t := by
      rw [← List.drop_drop 1 k srs, hdrop]
      rfl
    rw [show List.enumFrom k (a :: t) = (k, a) :: List.enumFrom (k + 1) t from rfl]
    rw [List.foldl_cons]
    obtain ⟨f1, f2, f3, f4, f5, f6, f7, f8⟩ := stableActStep_facts re node X (k, a)
    have hb2 : BOk re (stableActStep re node X (k, a)).state
        (tr ++ [(a.reaction, a.events)]) := by
      rw [f3]
      refine BOk_perm ?_ (BOk_add_bounds hb a.reaction a.events)
      exact (List.perm_append_singleton _ _).symm
    have hicd2 : ICd (stableActStep re node X (k, a)).stable_index (actT node nodes0) := by
      rw [f2]
      intro r n2 i2 hr
      rw [getD_set] at hr
      by_cases hcase : r = a.reaction ∧ a.reaction < X.stable_index.length
      · rw [if_pos hcase] at hr
        simp only [Option.some.injEq, Prod.mk.injEq] at hr
        obtain ⟨he1, he2⟩ := hr
        subst he1
        subst he2
        rw [actT_getD_self node nodes0 hnode]
        refine ⟨(actT_length node nodes0).symm ▸ hnode, rfl, ?_, ?_⟩
        · show k < (nodes0.getD node default).stable_reactions.length
          rw [hsrs]
          exact hk
        · show (((nodes0.getD node default).stable_reactions).getD k default).reaction = r
          rw [hsrs, ha]
          exact hcase.1.symm
      · rw [if_neg hcase] at hr
        exact hicd r n2 i2 hr
    have := ih (k + 1) (stableActStep re node X (k, a)) (tr ++ [(a.reaction, a.events)])
      hdrop2 (f1.trans hXn) hb2 hicd2
    obtain ⟨c1, c2, c3, c4, c5, c6, c7, c8⟩ := this
    refine ⟨c1, c2.trans f4, c3.trans f5, c4.trans f6, c5.trans f7, c6.trans f8, ?_, c8⟩
    rw [show tr ++ (a :: t).map (fun d => (d.reaction, d.events)) =
      (tr ++ [(a.reaction, a.events)]) ++ t.map (fun d => (d.reaction, d.events)) from by
        simp]
    exact c7

/-- `activate_node`: the node's reactions enter the bounds and the index,
the node is marked active, and coherence of bounds and index survives. -/
theorem activate_node_spec (re : List FReaction) {rs : RecState} {node : ℕ}
    (hnlt : node < rs.nodes.length)
    (hinact : (rs.nodes.getD node default).is_active = false)
    (hcoh : Coh re rs) (hic : IC rs) :
    (activate_node re node rs).nodes = actT node rs.nodes ∧
    (activate_node re node rs).stored_stable = rs.stored_stable ∧
    (activate_node re node rs).total_events = rs.total_events ∧
    (activate_node re node rs).inactive_by_component = rs.inactive_by_component ∧
    (activate_node re node rs).rng = rs.rng ∧
    Coh re (activate_node re node rs) ∧
    IC (activate_node re node rs) := by
  obtain ⟨u1, u2, u3, u4, u5, u6, u7, u8, u9⟩ := activate_unstable_fold re
    (rs.nodes.getD node default).unstable_reactions rs (fullTracked rs.nodes) hcoh
  set R1 := (rs.nodes.getD node default).unstable_reactions.foldl (fun rs2 rdata =>
    { rs2 with state := rs2.state.add_bounds rdata.events (getReaction re rdata.reaction),
               unstable_dependents := (add_unstable_deps rs2.unstable_dependents
                 (getReaction re rdata.reaction)) }) rs with hR1
  have hicd1 : ICd R1.stable_index (actT node rs.nodes) := by
    rw [u2]
    exact ICd_actT node hic
  obtain ⟨s1, s2, s3, s4, s5, s6, s7, s8⟩ := activate_stable_fold re node
    (rs.nodes.getD node default).stable_reactions rs.nodes hnlt rfl
    (rs.nodes.getD node default).stable_reactions 0 R1
    (fullTracked rs.nodes ++
      (rs.nodes.getD node default).unstable_reactions.map (fun d => (d.reaction, d.events)))
    rfl u1 u9 hicd1
  set R2 := (rs.nodes.getD node default).stable_reactions.enum.foldl
    (stableActStep re node) R1 with hR2
  have hform : activate_node re node rs = R2.setNode node
      (fun nd => { nd with is_active := true }) := by
    show ((((R1.nodes.getD node default).stable_reactions).enum.foldl
      (stableActStep re node) R1).setNode node
      (fun nd => { nd with is_active := true })) = _
    rw [u1]
  rw [hform]
  have hnodesR : (R2.setNode node (fun nd => { nd with is_active := true })).nodes =
      actT node rs.nodes := by
    have s1b : R2.nodes = rs.nodes := s1
    show modifyIdx R2.nodes node _ = actT node rs.nodes
    rw [s1b]
    rfl
  refine ⟨hnodesR, ?_, ?_, ?_, ?_, ?_, ?_⟩
  · exact s2.trans u3
  · exact s4.trans u4
  · exact s5.trans u5
  · exact s6.trans u6
  · unfold Coh
    rw [hnodesR]
    show BOk re R2.state _
    refine BOk_perm ?_ s7
    rw [fullTracked_decomp rs.nodes node hnlt, nodeTracked_inactive hinact]
    have hfull2 : fullTracked (actT node rs.nodes) =
        fullTracked (rs.nodes.take node) ++
          ((nodeStableTracked (rs.nodes.getD node default) ++
            nodeUnstableTracked (rs.nodes.getD node default)) ++
            fullTracked (rs.nodes.drop (node + 1))) := by
      unfold actT
      rw [fullTracked_modifyIdx rs.nodes node _ hnlt]
      rw [show nodeTracked ((fun nd => { nd with is_active := true })
          (rs.nodes.getD node default)) =
        (nodeStableTracked (rs.nodes.getD node default) ++
          nodeUnstableTracked (rs.nodes.getD node default)) from nodeTracked_active rfl]
    rw [hfull2]
    rw [List.perm_iff_count]
    intro x
    simp only [List.count_append, List.append_assoc, List.count_nil, List.nil_append,
      nodeStableTracked, nodeUnstableTracked]
    omega
  · rw [IC_eq_ICd]
    rw [hnodesR]
    show ICd R2.stable_index _
    exact s8

theorem resampleR_reaction (d : ReactionData) (p : ℚ) (r : FReaction) (rng : RngState) :
    (d.resampleR p r rng).1.reaction = d.reaction := by
  unfold ReactionData.resampleR
  split
  · rfl
  · split
    · rfl
    · rfl

/-- One step of `resample_unstable`. -/
def resampleStep (re : List FReaction) (node : ℕ) (rs : RecState) (idx : ℕ) : RecState :=
  let rdata := (rs.nodes.getD node default).unstable_reactions.getD idx default
  let reaction := getReaction re rdata.reaction
  let prod := rs.state.state_product reaction
  let res := rdata.resampleR prod reaction rs.rng
  let rdata2 := res.1
  let rs3 := ({ rs with rng := res.2 } : RecState).setNode node (fun nd =>
    { nd with unstable_reactions := nd.unstable_reactions.set idx rdata2 })
  { rs3 with state := (rs3.state.change_bounds
      ((rdata2.events : ℤ) - (rdata.events : ℤ)) reaction) }

/-- The fold of `resample_unstable` over any in-range index list preserves
coherence, index coherence, the shapes, the other nodes and the node's
stable list. -/
theorem resample_fold (re : List FReaction) (node : ℕ) (idxs : List ℕ) :
    ∀ (X : RecState), node < X.nodes.length →
    (X.nodes.getD node default).is_active = true →
    Coh re X → IC X →
    (∀ i ∈ idxs, i < (X.nodes.getD node default).unstable_reactions.length) →
    (idxs.foldl (resampleStep re node) X).nodes.length = X.nodes.length ∧
    shapes (idxs.foldl (resampleStep re node) X).nodes = shapes X.nodes ∧
    (idxs.foldl (resampleStep re node) X).stable_index = X.stable_index ∧
    (idxs.foldl (resampleStep re node) X).stored_stable = X.stored_stable ∧
    (idxs.foldl (resampleStep re node) X).total_events = X.total_events ∧
    (idxs.foldl (resampleStep re node) X).inactive_by_component =
      X.inactive_by_component ∧
    (idxs.foldl (resampleStep re node) X).unstable_dependents = X.unstable_dependents ∧
    (∀ m, m ≠ node → (idxs.foldl (resampleStep re node) X).nodes.getD m default =
      X.nodes.getD m default) ∧
    ((idxs.foldl (resampleStep re node) X).nodes.getD node default).stable_reactions =
      (X.nodes.getD node default).stable_reactions ∧
    ((idxs.foldl (resampleStep re node) X).nodes.getD node
      default).unstable_reactions.length =
      (X.nodes.getD node default).unstable_reactions.length ∧
    Coh re (idxs.foldl (resampleStep re node) X) ∧
    IC (idxs.foldl (resampleStep re node) X) := by
  induction idxs with
  | nil =>
    intro X h1 h2 h3 h4 _
    exact ⟨rfl, rfl, rfl, rfl, rfl, rfl, rfl, fun m _ => rfl, rfl, rfl, h3, h4⟩
  | cons idx rest ih =>
    intro X hnlt hact hcoh hic hbound
    rw [List.foldl_cons]
    set ulist := (X.nodes.getD node default).unstable_reactions with hul
    set rdata := ulist.getD idx default with hrd
    set reaction := getReaction re rdata.reaction with hre
    set res := rdata.resampleR (X.state.state_product reaction) reaction X.rng with hres
    have hidx : idx < ulist.length := hbound idx (by simp)
    have hY : resampleStep re node X idx =
        { (({ X with rng := res.2 } : RecState).setNode node (fun nd =>
            { nd with unstable_reactions := nd.unstable_reactions.set idx res.1 })) with
          state := (X.state.change_bounds
            ((res.1.events : ℤ) - (rdata.events : ℤ)) reaction) } := rfl
    set Y := resampleStep re node X idx with hYdef
    have hYnodes : Y.nodes = modifyIdx X.nodes node (fun nd =>
        { nd with unstable_reactions := nd.unstable_reactions.set idx res.1 }) := rfl
    have hYstate : Y.state = X.state.change_bounds
        ((res.1.events : ℤ) - (rdata.events : ℤ)) reaction := rfl
    have hYnode : Y.nodes.getD node default =
        { X.nodes.getD node default with
          unstable_reactions := ulist.set idx res.1 } := by
      rw [hYnodes, modifyIdx_getD, if_pos ⟨rfl, hnlt⟩]
    have hYother : ∀ m, m ≠ node → Y.nodes.getD m default = X.nodes.getD m default := by
      intro m hm
      rw [hYnodes, modifyIdx_getD, if_neg (fun hcon => hm hcon.1)]
    have hYlen : Y.nodes.length = X.nodes.length := by
      rw [hYnodes]
      exact modifyIdx_length _ _ _
    have hYshapes : shapes Y.nodes = shapes X.nodes := by
      rw [hYnodes]
      exact shapes_modifyIdx node (fun nd => rfl)
    have hYcoh : Coh re Y := by
      unfold Coh
      rw [hYstate, hYnodes, fullTracked_modifyIdx X.nodes node _ hnlt]
      have hsplit : ulist = ulist.take idx ++ rdata :: ulist.drop (idx + 1) :=
        take_drop_eq_self ulist idx hidx
      have hset : ulist.set idx res.1 =
          ulist.take idx ++ res.1 :: ulist.drop (idx + 1) :=
        set_eq_take_drop ulist idx res.1 hidx
      have hsrc : Coh re X := hcoh
      unfold Coh at hsrc
      rw [fullTracked_decomp X.nodes node hnlt, nodeTracked_active hact] at hsrc
      have hsrc2 : BOk re X.state
          ((fullTracked (X.nodes.take node) ++
            nodeStableTracked (X.nodes.getD node default) ++
            (ulist.take idx).map (fun d => (d.reaction, d.events))) ++
            (rdata.reaction, rdata.events) ::
            ((ulist.drop (idx + 1)).map (fun d => (d.reaction, d.events)) ++
              fullTracked (X.nodes.drop (node + 1)))) := by
        refine BOk_perm ?_ hsrc
        rw [show nodeUnstableTracked (X.nodes.getD node default) =
          ulist.map (fun d => (d.reaction, d.events)) from rfl]
        conv_lhs => rw [hsplit]
        rw [List.perm_iff_count]
        intro x
        simp only [List.count_append, List.map_append, List.map_cons, List.count_cons,
          List.append_assoc, List.cons_append]
      have hupd := BOk_update_entry hsrc2 res.1.events
      rw [show nodeTracked ((fun nd => { nd with unstable_reactions :=
          (nd.unstable_reactions.set idx res.1) }) (X.nodes.getD node default)) =
        nodeStableTracked (X.nodes.getD node default) ++
          ((ulist.set idx res.1).map (fun d => (d.reaction, d.events))) from
        nodeTracked_active hact]
      refine BOk_perm ?_ hupd
      rw [hset]
      have hr2 : res.1.reaction = rdata.reaction := resampleR_reaction _ _ _ _
      rw [List.perm_iff_count]
      intro x
      simp only [List.count_append, List.map_append, List.map_cons, List.count_cons,
        List.append_assoc, List.cons_append, hr2]
    have hYic : IC Y := by
      intro r n2 i2 hr
      have hr0 : X.stable_index.getD r none = some (n2, i2) := hr
      obtain ⟨g1, g2, g3, g4⟩ := hic r n2 i2 hr0
      by_cases hn2 : n2 = node
      · subst hn2
        rw [hYnode]
        exact ⟨hYlen ▸ g1, hact, g3, g4⟩
      · rw [hYother n2 hn2]
        exact ⟨hYlen ▸ g1, g2, g3, g4⟩
    have hbound2 : ∀ i ∈ rest, i < (Y.nodes.getD node default).unstable_reactions.length := by
      intro i hi
      rw [hYnode]
      show i < (ulist.set idx res.1).length
      rw [List.length_set]
      exact hbound i (by simp [hi])
    have hactY : (Y.nodes.getD node default).is_active = true := by
      rw [hYnode]
      exact hact
    obtain ⟨c1, c2, c3, c4, c5, c6, c7, c8, c9, c10, c11, c12⟩ :=
      ih Y (hYlen ▸ hnlt) hactY hYcoh hYic hbound2
    refine ⟨c1.trans hYlen, c2.trans hYshapes, c3, c4, c5, c6, c7, ?_, ?_, ?_, c11, c12⟩
    · intro m hm
      rw [c8 m hm, hYother m hm]
    · rw [c9, hYnode]
    · rw [c10, hYnode]
      show (ulist.set idx res.1).length = ulist.length
      exact List.length_set _ _ _

/-- `resample_unstable` preserves the invariant bundle. -/
theorem resample_unstable_spec (re : List FReaction) {rs : RecState} {node : ℕ}
    (hnlt : node < rs.nodes.length)
    (hact : (rs.nodes.getD node default).is_active = true)
    (hcoh : Coh re rs) (hic : IC rs) :
    (resample_unstable re node rs).nodes.length = rs.nodes.length ∧
    shapes (resample_unstable re node rs).nodes = shapes rs.nodes ∧
    (resample_unstable re node rs).stable_index = rs.stable_index ∧
    (resample_unstable re node rs).stored_stable = rs.stored_stable ∧
    (resample_unstable re node rs).total_events = rs.total_events ∧
    (resample_unstable re node rs).inactive_by_component = rs.inactive_by_component ∧
    (resample_unstable re node rs).unstable_dependents = rs.unstable_dependents ∧
    (∀ m, m ≠ node → (resample_unstable re node rs).nodes.getD m default =
      rs.nodes.getD m default) ∧
    ((resample_unstable re node rs).nodes.getD node default).stable_reactions =
      (rs.nodes.getD node default).stable_reactions ∧
    Coh re (resample_unstable re node rs) ∧
    IC (resample_unstable re node rs) := by
  have hform : resample_unstable re node rs =
      (List.range (rs.nodes.getD node default).unstable_reactions.length).foldl
        (resampleStep re node) rs := rfl
  rw [hform]
  obtain ⟨c1, c2, c3, c4, c5, c6, c7, c8, c9, c10, c11, c12⟩ :=
    resample_fold re node
      (List.range (rs.nodes.getD node default).unstable_reactions.length) rs
      hnlt hact hcoh hic (fun i hi => List.mem_range.mp hi)
  exact ⟨c1, c2, c3, c4, c5, c6, c7, c8, c9, c11, c12⟩

theorem filter_partition_perm {α : Type} (p : α → Bool) (l : List α) :
    List.Perm l (l.filter p ++ l.filter (fun x => !(p x))) := by
  induction l with
  | nil => simp
  | cons a t ih =>
    by_cases hp : p a = true
    · rw [List.filter_cons_of_pos hp, List.filter_cons_of_neg (by simp [hp])]
      exact List.Perm.cons a ih
    · rw [List.filter_cons_of_neg (by simpa using hp),
        List.filter_cons_of_pos (by simp [hp])]
      exact (List.Perm.cons a ih).trans List.perm_middle.symm

theorem stabilize_entry (d : ReactionData) :
    (d.stabilize.reaction, d.stabilize.events) = (d.reaction, d.events) :=
  rfl

/-- The fold of `stabilize_reactions` moving stabilised reactions into the
node's stable set: the ledger entries move from the explicit extra list into
the tracked stable set. -/
theorem stabilize_moved_fold (re : List FReaction) (node : ℕ)
    (moved : List ReactionData) :
    ∀ (X : RecState), node < X.nodes.length →
    (X.nodes.getD node default).is_active = true → IC X →
    BOk re X.state (fullTracked X.nodes ++ moved.map (fun d => (d.reaction, d.events))) →
    (moved.foldl (fun rs2 rdata => add_stable re node rdata.stabilize
      { rs2 with unstable_dependents := (remove_unstable_deps rs2.unstable_dependents
        (getReaction re rdata.reaction)) }) X).nodes.length = X.nodes.length ∧
    shapes (moved.foldl (fun rs2 rdata => add_stable re node rdata.stabilize
      { rs2 with unstable_dependents := (remove_unstable_deps rs2.unstable_dependents
        (getReaction re rdata.reaction)) }) X).nodes = shapes X.nodes ∧
    (moved.foldl (fun rs2 rdata => add_stable re node rdata.stabilize
      { rs2 with unstable_dependents := (remove_unstable_deps rs2.unstable_dependents
        (getReaction re rdata.reaction)) }) X).state = X.state ∧
    (moved.foldl (fun rs2 rdata => add_stable re node rdata.stabilize
      { rs2 with unstable_dependents := (remove_unstable_deps rs2.unstable_dependents
        (getReaction re rdata.reaction)) }) X).stored_stable = X.stored_stable ∧
    (moved.foldl (fun rs2 rdata => add_stable re node rdata.stabilize
      { rs2 with unstable_dependents := (remove_unstable_deps rs2.unstable_dependents
        (getReaction re rdata.reaction)) }) X).total_events = X.total_events ∧
    (moved.foldl (fun rs2 rdata => add_stable re node rdata.stabilize
      { rs2 with unstable_dependents := (remove_unstable_deps rs2.unstable_dependents
        (getReaction re rdata.reaction)) }) X).inactive_by_component =
      X.inactive_by_component ∧
    (moved.foldl (fun rs2 rdata => add_stable re node rdata.stabilize
      { rs2 with unstable_dependents := (remove_unstable_deps rs2.unstable_dependents
        (getReaction re rdata.reaction)) }) X).rng = X.rng ∧
    (∀ m, m ≠ node → (moved.foldl (fun rs2 rdata => add_stable re node rdata.stabilize
      { rs2 with unstable_dependents := (remove_unstable_deps rs2.unstable_dependents
        (getReaction re rdata.reaction)) }) X).nodes.getD m default =
      X.nodes.getD m default) ∧
    (∀ m, ((moved.foldl (fun rs2 rdata => add_stable re node rdata.stabilize
      { rs2 with unstable_dependents := (remove_unstable_deps rs2.unstable_dependents
        (getReaction re rdata.reaction)) }) X).nodes.getD m default).unstable_reactions =
      (X.nodes.getD m default).unstable_reactions) ∧
    Coh re (moved.foldl (fun rs2 rdata => add_stable re node rdata.stabilize
      { rs2 with unstable_dependents := (remove_unstable_deps rs2.unstable_dependents
        (getReaction re rdata.reaction)) }) X) ∧
    IC (moved.foldl (fun rs2 rdata => add_stable re node rdata.stabilize
      { rs2 with unstable_dependents := (remove_unstable_deps rs2.unstable_dependents
        (getReaction re rdata.reaction)) }) X) := by
  induction moved with
  | nil =>
    intro X h1 h2 h3 h4
    refine ⟨rfl, rfl, rfl, rfl, rfl, rfl, rfl, fun m _ => rfl, fun m => rfl, ?_, h3⟩
    unfold Coh
    simpa using h4
  | cons a t ih =>
    intro X hnlt hact hic hb
    rw [List.foldl_cons]
    set X1 : RecState := { X with unstable_dependents :=
      (remove_unstable_deps X.unstable_dependents (getReaction re a.reaction)) } with hX1
    have hic1 : IC X1 := hic
    obtain ⟨a1, a2, a3, a4, a5, a6, a7, a8, a9, a10, a11⟩ :=
      @add_stable_active_spec re X1 node a.stabilize hact hnlt hic1
    set X2 := add_stable re node a.stabilize X1 with hX2
    have hX2len : X2.nodes.length = X.nodes.length := by
      have := congrArg List.length a1
      simpa [shapes] using this
    have hactX2 : (X2.nodes.getD node default).is_active = true := by
      have h2 := shapes_active a1 node
      rw [← h2]
      exact hact
    have hbX2 : BOk re X2.state (fullTracked X2.nodes ++
        t.map (fun d => (d.reaction, d.events))) := by
      rw [a2]
      refine BOk_perm ?_ hb
      have h1 : List.Perm (fullTracked X2.nodes)
          ((a.reaction, a.events) :: fullTracked X.nodes) := a11
      rw [List.perm_iff_count]
      intro x
      have hc := List.Perm.count_eq h1 x
      simp only [List.count_append, List.map_cons, List.count_cons] at hc ⊢
      omega
    obtain ⟨c1, c2, c3, c4, c5, c6, c7, c8, c9, c10, c11⟩ :=
      ih X2 (hX2len ▸ hnlt) hactX2 a10 hbX2
    refine ⟨c1.trans hX2len, c2.trans a1, c3.trans a2, c4.trans a3, c5.trans a5,
      c6.trans a6, c7.trans a7, ?_, ?_, c10, c11⟩
    · intro m hm
      rw [c8 m hm, a8 m hm]
    · intro m
      rw [c9 m, a9 m]

/-- `stabilize_reactions` preserves the invariant bundle: the state is
untouched and the ledger is only permuted (unstable entries become stable
entries of the same node). -/
theorem stabilize_reactions_spec (re : List FReaction) {rs : RecState} {node : ℕ}
    (hnlt : node < rs.nodes.length)
    (hact : (rs.nodes.getD node default).is_active = true)
    (hcoh : Coh re rs) (hic : IC rs) :
    (stabilize_reactions re node rs).nodes.length = rs.nodes.length ∧
    shapes (stabilize_reactions re node rs).nodes = shapes rs.nodes ∧
    (stabilize_reactions re node rs).state = rs.state ∧
    (stabilize_reactions re node rs).total_events = rs.total_events ∧
    (stabilize_reactions re node rs).inactive_by_component = rs.inactive_by_component ∧
    (stabilize_reactions re node rs).rng = rs.rng ∧
    (∀ m, m ≠ node → (stabilize_reactions re node rs).nodes.getD m default =
      rs.nodes.getD m default) ∧
    Coh re (stabilize_reactions re node rs) ∧
    IC (stabilize_reactions re node rs) := by
  set u := (rs.nodes.getD node default).unstable_reactions with hu
  set stored := u.foldl (fun st rdata =>
    st.set rdata.reaction (is_stable rs.state (getReaction re rdata.reaction) rdata))
    rs.stored_stable with hstored
  set moved := u.filter (fun d => stored.getD d.reaction false) with hmoved
  set remaining := u.filter (fun d => !(stored.getD d.reaction false)) with hrem
  set rs2 := ({ rs with stored_stable := stored } : RecState).setNode node
    (fun nd => { nd with unstable_reactions := remaining }) with hrs2
  have hform : stabilize_reactions re node rs =
      moved.foldl (fun rs3 rdata => add_stable re node rdata.stabilize
        { rs3 with unstable_dependents := (remove_unstable_deps rs3.unstable_dependents
          (getReaction re rdata.reaction)) }) rs2 := rfl
  have hnodes2 : rs2.nodes = modifyIdx rs.nodes node
      (fun nd => { nd with unstable_reactions := remaining }) := rfl
  have hnode2 : rs2.nodes.getD node default =
      { rs.nodes.getD node default with unstable_reactions := remaining } := by
    rw [hnodes2, modifyIdx_getD, if_pos ⟨rfl, hnlt⟩]
  have hother2 : ∀ m, m ≠ node → rs2.nodes.getD m default = rs.nodes.getD m default := by
    intro m hm
    rw [hnodes2, modifyIdx_getD, if_neg (fun hcon => hm hcon.1)]
  have hlen2 : rs2.nodes.length = rs.nodes.length := by
    rw [hnodes2]
    exact modifyIdx_length _ _ _
  have hshapes2 : shapes rs2.nodes = shapes rs.nodes := by
    rw [hnodes2]
    exact shapes_modifyIdx node (fun nd => rfl)
  have hact2 : (rs2.nodes.getD node default).is_active = true := by
    rw [hnode2]
    exact hact
  have hic2 : IC rs2 := by
    intro r n2 i2 hr
    obtain ⟨g1, g2, g3, g4⟩ := hic r n2 i2 hr
    by_cases hn2 : n2 = node
    · subst hn2
      rw [hnode2]
      exact ⟨hlen2 ▸ g1, hact, g3, g4⟩
    · rw [hother2 n2 hn2]
      exact ⟨hlen2 ▸ g1, g2, g3, g4⟩
  have hb2 : BOk re rs2.state (fullTracked rs2.nodes ++
      moved.map (fun d => (d.reaction, d.events))) := by
    show BOk re rs.state _
    unfold Coh at hcoh
    rw [fullTracked_decomp rs.nodes node hnlt, nodeTracked_active hact] at hcoh
    rw [hnodes2, fullTracked_modifyIdx rs.nodes node _ hnlt]
    rw [show nodeTracked ((fun nd => { nd with unstable_reactions := remaining })
        (rs.nodes.getD node default)) =
      nodeStableTracked (rs.nodes.getD node default) ++
        remaining.map (fun d => (d.reaction, d.events)) from nodeTracked_active hact]
    refine BOk_perm ?_ hcoh
    have hpermU : List.Perm (u.map (fun d => (d.reaction, d.events)))
        (moved.map (fun d => (d.reaction, d.events)) ++
          remaining.map (fun d => (d.reaction, d.events))) := by
      rw [← List.map_append]
      exact (filter_partition_perm (fun d => stored.getD d.reaction false) u).map _
    rw [List.perm_iff_count]
    intro x
    have hcu := hpermU.count_eq x
    simp only [List.count_append] at hcu ⊢
    rw [show nodeUnstableTracked (rs.nodes.getD node default) =
      u.map (fun d => (d.reaction, d.events)) from rfl]
    omega
  obtain ⟨c1, c2, c3, c4, c5, c6, c7, c8, c9, c10, c11⟩ :=
    stabilize_moved_fold re node moved rs2 (hlen2 ▸ hnlt) hact2 hic2 hb2
  rw [hform]
  refine ⟨c1.trans hlen2, c2.trans hshapes2, c3, c5, c6.trans ?_, c7, ?_, c10, c11⟩
  · rfl
  · intro m hm
    rw [c8 m hm, hother2 m hm]

/-- The fold of `finish_node` over the node's stable reactions: each one is
taken out of the bounds, applied to all three tracks, un-indexed and counted.
`A` is the ledger of everything else, which stays fixed. -/
theorem finish_fold (re : List FReaction) (node : ℕ) (si0 : List (Option (ℕ × ℕ)))
    (stables : List StableReactionData)
    (hmatch : ∀ r i2, si0.getD r none = some (node, i2) → i2 < stables.length →
      (stables.getD i2 default).reaction = r) :
    ∀ (suffix : List StableReactionData) (k : ℕ) (X : RecState) (A : List (ℕ × ℕ)),
    stables.drop k = suffix →
    BOk re X.state (A ++ suffix.map (fun d => (d.reaction, d.events))) →
    (∀ r n2 i2, X.stable_index.getD r none = some (n2, i2) →
      si0.getD r none = some (n2, i2) ∧ (n2 = node → k ≤ i2)) →
    (suffix.foldl (fun rs2 rdata =>
      { rs2 with
        stable_index := rs2.stable_index.set rdata.reaction none,
        state := ((rs2.state.remove_bounds rdata.events
          (getReaction re rdata.reaction)).apply rdata.events
            (getReaction re rdata.reaction)),
        total_events := rs2.total_events + rdata.events }) X).nodes = X.nodes ∧
    (suffix.foldl (fun rs2 rdata =>
      { rs2 with
        stable_index := rs2.stable_index.set rdata.reaction none,
        state := ((rs2.state.remove_bounds rdata.events
          (getReaction re rdata.reaction)).apply rdata.events
            (getReaction re rdata.reaction)),
        total_events := rs2.total_events + rdata.events }) X).stored_stable =
      X.stored_stable ∧
    (suffix.foldl (fun rs2 rdata =>
      { rs2 with
        stable_index := rs2.stable_index.set rdata.reaction none,
        state := ((rs2.state.remove_bounds rdata.events
          (getReaction re rdata.reaction)).apply rdata.events
            (getReaction re rdata.reaction)),
        total_events := rs2.total_events + rdata.events }) X).inactive_by_component =
      X.inactive_by_component ∧
    (suffix.foldl (fun rs2 rdata =>
      { rs2 with
        stable_index := rs2.stable_index.set rdata.reaction none,
        state := ((rs2.state.remove_bounds rdata.events
          (getReaction re rdata.reaction)).apply rdata.events
            (getReaction re rdata.reaction)),
        total_events := rs2.total_events + rdata.events }) X).unstable_dependents =
      X.unstable_dependents ∧
    (suffix.foldl (fun rs2 rdata =>
      { rs2 with
        stable_index := rs2.stable_index.set rdata.reaction none,
        state := ((rs2.state.remove_bounds rdata.events
          (getReaction re rdata.reaction)).apply rdata.events
            (getReaction re rdata.reaction)),
        total_events := rs2.total_events + rdata.events }) X).rng = X.rng ∧
    BOk re (suffix.foldl (fun rs2 rdata =>
      { rs2 with
        stable_index := rs2.stable_index.set rdata.reaction none,
        state := ((rs2.state.remove_bounds rdata.events
          (getReaction re rdata.reaction)).apply rdata.events
            (getReaction re rdata.reaction)),
        total_events := rs2.total_events + rdata.events }) X).state A ∧
    (∀ r n2 i2, (suffix.foldl (fun rs2 rdata =>
      { rs2 with
        stable_index := rs2.stable_index.set rdata.reaction none,
        state := ((rs2.state.remove_bounds rdata.events
          (getReaction re rdata.reaction)).apply rdata.events
            (getReaction re rdata.reaction)),
        total_events := rs2.total_events + rdata.events }) X).stable_index.getD r none =
        some (n2, i2) →
      si0.getD r none = some (n2, i2) ∧ (n2 = node → k + suffix.length ≤ i2)) := by
  intro suffix
  induction suffix with
  | nil =>
    intro k X A _ hb hinv
    refine ⟨rfl, rfl, rfl, rfl, rfl, ?_, ?_⟩
    · simpa using hb
    · intro r n2 i2 hr
      obtain ⟨h1, h2⟩ := hinv r n2 i2 hr
      exact ⟨h1, fun he => by simpa using h2 he⟩
  | cons a t ih =>
    intro k X A hdrop hb hinv
    rw [List.foldl_cons]
    have hb1 : BOk re X.state (A ++ ((a.reaction, a.events) ::
        t.map (fun d => (d.reaction, d.events)))) := by
      refine BOk_perm ?_ hb
      simp
    have hb2 := BOk_apply (BOk_remove_bounds hb1) a.events (getReaction re a.reaction)
    have hk : k < stables.length := by
      have := congrArg List.length hdrop
      rw [List.length_drop] at this
      simp only [List.length_cons] at this
      omega
    have hdrop2 : stables.drop (k + 1) = t := by
      rw [← List.drop_drop 1 k stables, hdrop]
      rfl
    have hinv2 : ∀ r n2 i2,
        (X.stable_index.set a.reaction none).getD r none = some (n2, i2) →
        si0.getD r none = some (n2, i2) ∧ (n2 = node → k + 1 ≤ i2) := by
      intro r n2 i2 hr
      rw [getD_set] at hr
      by_cases hcase : r = a.reaction ∧ a.reaction < X.stable_index.length
      · rw [if_pos hcase] at hr
        exact absurd hr (by simp)
      · rw [if_neg hcase] at hr
        obtain ⟨h1, h2⟩ := hinv r n2 i2 hr
        refine ⟨h1, fun he => ?_⟩
        have hk2 := h2 he
        rcases Nat.eq_or_lt_of_le hk2 with heq | hlt
        · exfalso
          subst he
          subst heq
          have ha : stables.getD k default = a := by
            have h0 : (stables.drop k).getD 0 default = a := by
              rw [hdrop]
              rfl
            rw [getD_drop] at h0
            simpa using h0
          have hrk : (stables.getD k default).reaction = r := hmatch r k h1 hk
          rw [ha] at hrk
          have hrlt : r < X.stable_index.length := by
            have := getD_some_lt hr
            exact this
          exact hcase ⟨hrk.symm, hrk ▸ hrlt⟩
        · omega
    obtain ⟨c1, c2, c3, c4, c5, c6, c7⟩ := ih (k + 1)
      { X with
        stable_index := X.stable_index.set a.reaction none,
        state := ((X.state.remove_bounds a.events
          (getReaction re a.reaction)).apply a.events (getReaction re a.reaction)),
        total_events := X.total_events + a.events } A hdrop2 hb2 hinv2
    refine ⟨c1, c2, c3, c4, c5, c6, ?_⟩
    intro r n2 i2 hr
    obtain ⟨h1, h2⟩ := c7 r n2 i2 hr
    refine ⟨h1, fun he => ?_⟩
    have := h2 he
    simp only [List.length_cons]
    omega

theorem fullTracked_modify_shape (nodes : List RecNode) (n : ℕ) (f : RecNode → RecNode)
    (hf : ∀ nd, nodeTracked (f nd) = nodeTracked nd) :
    fullTracked (modifyIdx nodes n f) = fullTracked nodes := by
  by_cases hn : n < nodes.length
  · rw [fullTracked_modifyIdx nodes n f hn, fullTracked_decomp nodes n hn, hf]
  · rw [modifyIdx_oob _ _ (le_of_not_lt hn)]

/-- `finish_node` on the last node (childless, active, with an empty unstable
list): the node's reactions leave the bounds and the index, the node is
popped, and all invariants survive; of the remaining nodes only the parent
changes, losing its link to the popped node. -/
theorem finish_node_spec (re : List FReaction) {rs : RecState} {node : ℕ}
    (hlast : rs.nodes.length = node + 1)
    (hact : (rs.nodes.getD node default).is_active = true)
    (hln : (rs.nodes.getD node default).left = none)
    (hrn : (rs.nodes.getD node default).right = none)
    (hunst : (rs.nodes.getD node default).unstable_reactions = [])
    (hcoh : Coh re rs) (hic : IC rs) (htc : TC rs.nodes) :
    (finish_node re node rs).nodes.length = node ∧
    (finish_node re node rs).stored_stable = rs.stored_stable ∧
    (finish_node re node rs).inactive_by_component = rs.inactive_by_component ∧
    (finish_node re node rs).unstable_dependents = rs.unstable_dependents ∧
    (finish_node re node rs).rng = rs.rng ∧
    Coh re (finish_node re node rs) ∧
    IC (finish_node re node rs) ∧
    TC (finish_node re node rs).nodes ∧
    (∀ m, m < node →
      ((finish_node re node rs).nodes.getD m default = rs.nodes.getD m default) ∨
      ((rs.nodes.getD node default).parent = some m ∧
        (((rs.nodes.getD m default).left = some node ∧
          (finish_node re node rs).nodes.getD m default =
            { rs.nodes.getD m default with left := none }) ∨
         ((rs.nodes.getD m default).left ≠ some node ∧
          (finish_node re node rs).nodes.getD m default =
            { rs.nodes.getD m default with right := none })))) := by
  have hnlt : node < rs.nodes.length := by omega
  have hBOk0 : BOk re rs.state (fullTracked (rs.nodes.take node) ++
      ((rs.nodes.getD node default).stable_reactions).map
        (fun d => (d.reaction, d.events))) := by
    unfold Coh at hcoh
    rw [fullTracked_decomp rs.nodes node hnlt, nodeTracked_active hact] at hcoh
    rw [show rs.nodes.drop (node + 1) = [] from by
      apply List.eq_nil_of_length_eq_zero
      rw [List.length_drop]
      omega] at hcoh
    rw [show nodeUnstableTracked (rs.nodes.getD node default) =
      ((rs.nodes.getD node default).unstable_reactions).map
        (fun d => (d.reaction, d.events)) from rfl, hunst] at hcoh
    refine BOk_perm ?_ hcoh
    rw [List.perm_iff_count]
    intro x
    simp [List.count_append, nodeStableTracked, fullTracked_nil]
  obtain ⟨c1, c2, c3, c4, c5, c6, c7⟩ := finish_fold re node rs.stable_index
    (rs.nodes.getD node default).stable_reactions
    (fun r i2 hr _ => (hic r node i2 hr).2.2.2)
    (rs.nodes.getD node default).stable_reactions 0
    (rs.setNode node (fun nd => { nd with stable_reactions :=
      ([] : List StableReactionData) }))
    (fullTracked (rs.nodes.take node))
    rfl hBOk0 (fun r n2 i2 hr => ⟨hr, fun _ => Nat.zero_le _⟩)
  set R := ((rs.nodes.getD node default).stable_reactions).foldl (fun rs2 rdata =>
    { rs2 with
      stable_index := rs2.stable_index.set rdata.reaction none,
      state := ((rs2.state.remove_bounds rdata.events
        (getReaction re rdata.reaction)).apply rdata.events
          (getReaction re rdata.reaction)),
      total_events := rs2.total_events + rdata.events })
    (rs.setNode node (fun nd => { nd with stable_reactions :=
      ([] : List StableReactionData) })) with hR
  have hfin : finish_node re node rs = remove_node node R := rfl
  have hRnodes : R.nodes = modifyIdx rs.nodes node
      (fun nd => { nd with stable_reactions := ([] : List StableReactionData) }) := c1
  have hgA : R.nodes.getD node default =
      { rs.nodes.getD node default with stable_reactions := [] } := by
    rw [hRnodes, modifyIdx_getD, if_pos ⟨rfl, hnlt⟩]
  have hgAo : ∀ m, m ≠ node → R.nodes.getD m default = rs.nodes.getD m default := by
    intro m hm
    rw [hRnodes, modifyIdx_getD, if_neg (fun hcon => hm hcon.1)]
  have hlenA : R.nodes.length = rs.nodes.length := by
    rw [hRnodes]
    exact modifyIdx_length _ _ _
  have hRtrack : fullTracked R.nodes = fullTracked (rs.nodes.take node) := by
    rw [hRnodes, fullTracked_modifyIdx rs.nodes node _ hnlt]
    rw [show nodeTracked ((fun nd => { nd with stable_reactions :=
      ([] : List StableReactionData) }) (rs.nodes.getD node default)) =
      (([] : List (ℕ × ℕ)) ++ nodeUnstableTracked (rs.nodes.getD node default)) from
        nodeTracked_active hact]
    rw [show nodeUnstableTracked (rs.nodes.getD node default) =
      ((rs.nodes.getD node default).unstable_reactions).map
        (fun d => (d.reaction, d.events)) from rfl, hunst]
    rw [show rs.nodes.drop (node + 1) = [] from by
      apply List.eq_nil_of_length_eq_zero
      rw [List.length_drop]
      omega]
    simp [fullTracked_nil]
  -- common facts for any link-clearing function applied at a position q
  have hpop : ∀ (q : ℕ) (f : RecNode → RecNode),
      (∀ nd, nodeTracked (f nd) = nodeTracked nd) →
      (∀ nd, (f nd).stable_reactions = nd.stable_reactions) →
      (∀ nd, (f nd).is_active = nd.is_active) →
      q ≠ node →
      ((modifyIdx R.nodes q f).dropLast.length = node ∧
        fullTracked (modifyIdx R.nodes q f).dropLast =
          fullTracked (rs.nodes.take node) ∧
        (∀ m, m < node → (modifyIdx R.nodes q f).dropLast.getD m default =
          (if m = q then f (rs.nodes.getD m default) else rs.nodes.getD m default))) := by
    intro q f hf1 hf2 hf3 hq
    have hlenC : (modifyIdx R.nodes q f).length = node + 1 := by
      rw [modifyIdx_length, hlenA, hlast]
    have hgC : ∀ m, m < node → (modifyIdx R.nodes q f).dropLast.getD m default =
        (if m = q then f (rs.nodes.getD m default) else rs.nodes.getD m default) := by
      intro m hm
      rw [getD_dropLast _ _ _ (by omega), modifyIdx_getD]
      by_cases hmq : m = q
      · rw [if_pos ⟨hmq, by omega⟩, if_pos hmq]
        subst hmq
        rw [hgAo m hq]
      · rw [if_neg (fun hcon => hmq hcon.1), if_neg hmq]
        rw [hgAo m (by omega)]
    refine ⟨by rw [List.length_dropLast, hlenC]; omega, ?_, hgC⟩
    have hfullC : fullTracked (modifyIdx R.nodes q f) =
        fullTracked (rs.nodes.take node) := by
      rw [fullTracked_modify_shape R.nodes q f hf1]
      exact hRtrack
    have hCnode : (modifyIdx R.nodes q f).getD node default =
        { rs.nodes.getD node default with stable_reactions := [] } := by
      rw [modifyIdx_getD, if_neg (fun hcon => hq (hcon.1.symm))]
      exact hgA
    have hsplit : modifyIdx R.nodes q f =
        (modifyIdx R.nodes q f).dropLast ++
          [(modifyIdx R.nodes q f).getD ((modifyIdx R.nodes q f).length - 1) default] :=
      eq_dropLast_append _ (by
        intro hcon
        rw [hcon] at hlenC
        simp at hlenC)
    have htrlast : nodeTracked ((modifyIdx R.nodes q f).getD
        ((modifyIdx R.nodes q f).length - 1) default) = [] := by
      rw [show (modifyIdx R.nodes q f).length - 1 = node from by omega, hCnode]
      rw [nodeTracked_active (show ({ rs.nodes.getD node default with
        stable_reactions := ([] : List StableReactionData) } : RecNode).is_active =
          true from hact)]
      rw [show nodeUnstableTracked { rs.nodes.getD node default with
        stable_reactions := ([] : List StableReactionData) } =
        ((rs.nodes.getD node default).unstable_reactions).map
          (fun d => (d.reaction, d.events)) from rfl, hunst]
      rfl
    rw [hsplit, fullTracked_append, fullTracked_cons, htrlast, fullTracked_nil] at hfullC
    simpa using hfullC
  -- the invariants after popping, for any such clearing
  have hpost : ∀ (q : ℕ) (f : RecNode → RecNode)
      (hf1 : ∀ nd, nodeTracked (f nd) = nodeTracked nd)
      (hf2 : ∀ nd, (f nd).stable_reactions = nd.stable_reactions)
      (hf3 : ∀ nd, (f nd).is_active = nd.is_active)
      (hq : q ≠ node),
      BOk re R.state (fullTracked (modifyIdx R.nodes q f).dropLast) ∧
      (∀ r n2 i2, R.stable_index.getD r none = some (n2, i2) →
        n2 < (modifyIdx R.nodes q f).dropLast.length ∧
        ((modifyIdx R.nodes q f).dropLast.getD n2 default).is_active = true ∧
        i2 < ((modifyIdx R.nodes q f).dropLast.getD n2
          default).stable_reactions.length ∧
        (((modifyIdx R.nodes q f).dropLast.getD n2
          default).stable_reactions.getD i2 default).reaction = r) := by
    intro q f hf1 hf2 hf3 hq
    obtain ⟨hp1, hp2, hp3⟩ := hpop q f hf1 hf2 hf3 hq
    constructor
    · rw [hp2]
      exact c6
    · intro r n2 i2 hr
      obtain ⟨h1, h2⟩ := c7 r n2 i2 hr
      obtain ⟨g1, g2, g3, g4⟩ := hic r n2 i2 h1
      have hn2ne : n2 ≠ node := by
        intro hcon
        subst hcon
        have := h2 rfl
        omega
      have hn2lt : n2 < node := by omega
      rw [hp1, hp3 n2 hn2lt]
      by_cases hn2q : n2 = q
      · rw [if_pos hn2q, hf3, hf2]
        exact ⟨hn2lt, g2, g3, g4⟩
      · rw [if_neg hn2q]
        exact ⟨hn2lt, g2, g3, g4⟩
  rw [hfin]
  unfold remove_node
  rw [show (R.nodes.getD node default).parent =
    (rs.nodes.getD node default).parent from by rw [hgA]]
  rcases hpar : (rs.nodes.getD node default).parent with _ | p
  · -- root: nothing to unlink, only the pop
    show (({ R with nodes := R.nodes.dropLast } : RecState)).nodes.length = node ∧ _
    have hlenF : R.nodes.dropLast.length = node := by
      rw [List.length_dropLast, hlenA, hlast]
      omega
    have hgF : ∀ m, m < node → R.nodes.dropLast.getD m default =
        rs.nodes.getD m default := by
      intro m hm
      rw [getD_dropLast _ _ _ (by omega), hgAo m (by omega)]
    have hfullF : fullTracked R.nodes.dropLast = fullTracked (rs.nodes.take node) := by
      have hsplit : R.nodes = R.nodes.dropLast ++
          [R.nodes.getD (R.nodes.length - 1) default] :=
        eq_dropLast_append _ (by
          intro hcon
          rw [hcon] at hlenA
          rw [hlast] at hlenA
          simp at hlenA)
      have htrlast : nodeTracked (R.nodes.getD (R.nodes.length - 1) default) = [] := by
        rw [show R.nodes.length - 1 = node from by omega, hgA]
        rw [nodeTracked_active (show ({ rs.nodes.getD node default with
          stable_reactions := ([] : List StableReactionData) } : RecNode).is_active =
            true from hact)]
        rw [show nodeUnstableTracked { rs.nodes.getD node default with
          stable_reactions := ([] : List StableReactionData) } =
          ((rs.nodes.getD node default).unstable_reactions).map
            (fun d => (d.reaction, d.events)) from rfl, hunst]
        rfl
      have := hRtrack
      rw [hsplit, fullTracked_append, fullTracked_cons, htrlast, fullTracked_nil] at this
      simpa using this
    refine ⟨hlenF, c2, c3, c4, c5, ?_, ?_, ?_, ?_⟩
    · show BOk re R.state (fullTracked R.nodes.dropLast)
      rw [hfullF]
      exact c6
    · intro r n2 i2 hr
      obtain ⟨h1, h2⟩ := c7 r n2 i2 hr
      obtain ⟨g1, g2, g3, g4⟩ := hic r n2 i2 h1
      have hn2ne : n2 ≠ node := by
        intro hcon
        subst hcon
        have := h2 rfl
        omega
      have hn2lt : n2 < node := by omega
      rw [show (({ R with nodes := R.nodes.dropLast } : RecState)).nodes = R.nodes.dropLast
        from rfl, hlenF, hgF n2 hn2lt]
      exact ⟨hn2lt, g2, g3, g4⟩
    · constructor
      · intro m t hm
        rw [show (({ R with nodes := R.nodes.dropLast } : RecState)).nodes =
          R.nodes.dropLast from rfl] at hm ⊢
        rw [hlenF] at hm
        rw [hgF m hm]
        constructor
        · intro hlm
          obtain ⟨d1, d2, d3⟩ := (htc.1 m t (by omega)).1 hlm
          have htne : t ≠ node := by
            intro hcon
            subst hcon
            rw [hpar] at d2
            exact Option.noConfusion d2
          refine ⟨by rw [hlenF]; omega, ?_, d3⟩
          rw [hgF t (by omega)]
          exact d2
        · intro hrm
          obtain ⟨d1, d2⟩ := (htc.1 m t (by omega)).2 hrm
          have htne : t ≠ node := by
            intro hcon
            subst hcon
            rw [hpar] at d2
            exact Option.noConfusion d2
          refine ⟨by rw [hlenF]; omega, ?_⟩
          rw [hgF t (by omega)]
          exact d2
      · intro t q ht hq
        rw [show (({ R with nodes := R.nodes.dropLast } : RecState)).nodes =
          R.nodes.dropLast from rfl] at ht hq ⊢
        rw [hlenF] at ht
        rw [hgF t ht] at hq
        obtain ⟨d1, d2⟩ := htc.2 t q (by omega) hq
        have hqne : q ≠ node := by
          intro hcon
          subst hcon
          rcases d2 with d2 | d2
          · rw [hln] at d2
            exact Option.noConfusion d2
          · rw [hrn] at d2
            exact Option.noConfusion d2
        refine ⟨by rw [hlenF]; omega, ?_⟩
        rw [hgF q (by omega)]
        exact d2
    · intro m hm
      left
      show R.nodes.dropLast.getD m default = rs.nodes.getD m default
      exact hgF m hm
  · -- a parent exists; its link to the popped node is cleared
    obtain ⟨hplt, hplink⟩ := htc.2 node p hnlt hpar
    have hpne : p ≠ node := by
      intro hcon
      subst hcon
      rcases hplink with h | h
      · rw [hln] at h
        exact Option.noConfusion h
      · rw [hrn] at h
        exact Option.noConfusion h
    have hgAp : R.nodes.getD p default = rs.nodes.getD p default := hgAo p hpne
    dsimp only
    by_cases hlp : (rs.nodes.getD p default).left = some node
    · rw [if_pos (by rw [hgAp, hlp]; exact beq_self_eq_true _)]
      obtain ⟨hb1, hb2⟩ := hpost p (fun nd => { nd with left := none })
        (fun nd => rfl) (fun nd => rfl) (fun nd => rfl) hpne
      obtain ⟨hp1, hp2, hp3⟩ := hpop p (fun nd => { nd with left := none })
        (fun nd => rfl) (fun nd => rfl) (fun nd => rfl) hpne
      have hkey : ∀ (Z : RecState),
          Z.nodes = (modifyIdx R.nodes p (fun nd => { nd with left := none })).dropLast →
          Z.stored_stable = R.stored_stable →
          Z.inactive_by_component = R.inactive_by_component →
          Z.unstable_dependents = R.unstable_dependents →
          Z.rng = R.rng →
          Z.state = R.state →
          Z.stable_index = R.stable_index →
          (Z.nodes.length = node ∧
           Z.stored_stable = rs.stored_stable ∧
           Z.inactive_by_component = rs.inactive_by_component ∧
           Z.unstable_dependents = rs.unstable_dependents ∧
           Z.rng = rs.rng ∧
           Coh re Z ∧ IC Z ∧ TC Z.nodes ∧
           (∀ m, m < node →
             (Z.nodes.getD m default = rs.nodes.getD m default) ∨
             (some p = some m ∧
               (((rs.nodes.getD m default).left = some node ∧
                 Z.nodes.getD m default =
                   { rs.nodes.getD m default with left := none }) ∨
                ((rs.nodes.getD m default).left ≠ some node ∧
                 Z.nodes.getD m default =
                   { rs.nodes.getD m default with right := none }))))) := by
        intro Z hZn hZst hZic hZud hZrng hZs hZsi
        refine ⟨by rw [hZn]; exact hp1, hZst.trans c2, hZic.trans c3, hZud.trans c4,
          hZrng.trans c5, ?_, ?_, ?_, ?_⟩
        · show BOk re Z.state (fullTracked Z.nodes)
          rw [hZs, hZn]
          exact hb1
        · intro r n2 i2 hr
          rw [hZsi] at hr
          rw [hZn]
          exact hb2 r n2 i2 hr
        · rw [hZn]
          constructor
          · intro m t hm
            rw [hp1] at hm
            rw [hp3 m hm]
            by_cases hmp : m = p
            · rw [if_pos hmp]
              subst hmp
              constructor
              · intro hcon
                exact absurd hcon (by simp)
              · intro hrm
                have hrm2 : (rs.nodes.getD m default).right = some t := hrm
                obtain ⟨d1, d2⟩ := (htc.1 m t (by omega)).2 hrm2
                have htne : t ≠ node := by
                  intro hcon
                  subst hcon
                  obtain ⟨_, _, d3⟩ := (htc.1 m t (by omega)).1 hlp
                  exact d3 hrm2
                refine ⟨by rw [hp1]; omega, ?_⟩
                rw [hp3 t (by omega)]
                by_cases htp : t = m
                · rw [if_pos htp]
                  exact d2
                · rw [if_neg htp]
                  exact d2
            · rw [if_neg hmp]
              constructor
              · intro hlm
                obtain ⟨d1, d2, d3⟩ := (htc.1 m t (by omega)).1 hlm
                have htne : t ≠ node := by
                  intro hcon
                  subst hcon
                  rw [hpar] at d2
                  injection d2 with d4
                  exact hmp d4.symm
                refine ⟨by rw [hp1]; omega, ?_, d3⟩
                rw [hp3 t (by omega)]
                by_cases htp : t = p
                · rw [if_pos htp]
                  exact d2
                · rw [if_neg htp]
                  exact d2
              · intro hrm
                obtain ⟨d1, d2⟩ := (htc.1 m t (by omega)).2 hrm
                have htne : t ≠ node := by
                  intro hcon
                  subst hcon
                  rw [hpar] at d2
                  injection d2 with d4
                  exact hmp d4.symm
                refine ⟨by rw [hp1]; omega, ?_⟩
                rw [hp3 t (by omega)]
                by_cases htp : t = p
                · rw [if_pos htp]
                  exact d2
                · rw [if_neg htp]
                  exact d2
          · intro t q ht hq
            rw [hp1] at ht
            rw [hp3 t ht] at hq
            have hq2 : (rs.nodes.getD t default).parent = some q := by
              by_cases htp : t = p
              · rw [if_pos htp] at hq
                exact hq
              · rw [if_neg htp] at hq
                exact hq
            obtain ⟨d1, d2⟩ := htc.2 t q (by omega) hq2
            have hqne : q ≠ node := by
              intro hcon
              subst hcon
              rcases d2 with d2 | d2
              · rw [hln] at d2
                exact Option.noConfusion d2
              · rw [hrn] at d2
                exact Option.noConfusion d2
            refine ⟨by rw [hp1]; omega, ?_⟩
            rw [hp3 q (by omega)]
            by_cases hqp : q = p
            · rw [if_pos hqp]
              subst hqp
              rcases d2 with d2 | d2
              · rw [hlp] at d2
                have : t = node := by
                  injection d2 with d3
                  exact d3.symm
                exact absurd this (by omega)
              · right
                exact d2
            · rw [if_neg hqp]
              exact d2
        · intro m hm
          rw [hZn]
          by_cases hmp : m = p
          · subst hmp
            right
            refine ⟨rfl, Or.inl ⟨hlp, ?_⟩⟩
            rw [hp3 m hm, if_pos rfl]
          · left
            rw [hp3 m hm, if_neg hmp]
      exact hkey { R.setNode p (fun nd => { nd with left := none }) with
        nodes := (R.setNode p (fun nd => { nd with left := none })).nodes.dropLast }
        rfl rfl rfl rfl rfl rfl rfl
    · rw [if_neg (by rw [hgAp]; simp only [beq_iff_eq]; exact hlp)]
      have hrp : (rs.nodes.getD p default).right = some node := by
        rcases hplink with h | h
        · exact absurd h hlp
        · exact h
      obtain ⟨hb1, hb2⟩ := hpost p (fun nd => { nd with right := none })
        (fun nd => rfl) (fun nd => rfl) (fun nd => rfl) hpne
      obtain ⟨hp1, hp2, hp3⟩ := hpop p (fun nd => { nd with right := none })
        (fun nd => rfl) (fun nd => rfl) (fun nd => rfl) hpne
      have hkey : ∀ (Z : RecState),
          Z.nodes = (modifyIdx R.nodes p (fun nd => { nd with right := none })).dropLast →
          Z.stored_stable = R.stored_stable →
          Z.inactive_by_component = R.inactive_by_component →
          Z.unstable_dependents = R.unstable_dependents →
          Z.rng = R.rng →
          Z.state = R.state →
          Z.stable_index = R.stable_index →
          (Z.nodes.length = node ∧
           Z.stored_stable = rs.stored_stable ∧
           Z.inactive_by_component = rs.inactive_by_component ∧
           Z.unstable_dependents = rs.unstable_dependents ∧
           Z.rng = rs.rng ∧
           Coh re Z ∧ IC Z ∧ TC Z.nodes ∧
           (∀ m, m < node →
             (Z.nodes.getD m default = rs.nodes.getD m default) ∨
             (some p = some m ∧
               (((rs.nodes.getD m default).left = some node ∧
                 Z.nodes.getD m default =
                   { rs.nodes.getD m default with left := none }) ∨
                ((rs.nodes.getD m default).left ≠ some node ∧
                 Z.nodes.getD m default =
                   { rs.nodes.getD m default with right := none }))))) := by
        intro Z hZn hZst hZic hZud hZrng hZs hZsi
        refine ⟨by rw [hZn]; exact hp1, hZst.trans c2, hZic.trans c3, hZud.trans c4,
          hZrng.trans c5, ?_, ?_, ?_, ?_⟩
        · show BOk re Z.state (fullTracked Z.nodes)
          rw [hZs, hZn]
          exact hb1
        · intro r n2 i2 hr
          rw [hZsi] at hr
          rw [hZn]
          exact hb2 r n2 i2 hr
        · rw [hZn]
          constructor
          · intro m t hm
            rw [hp1] at hm
            rw [hp3 m hm]
            by_cases hmp : m = p
            · rw [if_pos hmp]
              subst hmp
              constructor
              · intro hlm
                have hlm2 : (rs.nodes.getD m default).left = some t := hlm
                obtain ⟨d1, d2, d3⟩ := (htc.1 m t (by omega)).1 hlm2
                have htne : t ≠ node := by
                  intro hcon
                  subst hcon
                  exact hlp hlm2
                refine ⟨by rw [hp1]; omega, ?_, by simp⟩
                rw [hp3 t (by omega)]
                by_cases htp : t = m
                · rw [if_pos htp]
                  exact d2
                · rw [if_neg htp]
                  exact d2
              · intro hcon
                exact absurd hcon (by simp)
            · rw [if_neg hmp]
              constructor
              · intro hlm
                obtain ⟨d1, d2, d3⟩ := (htc.1 m t (by omega)).1 hlm
                have htne : t ≠ node := by
                  intro hcon
                  subst hcon
                  rw [hpar] at d2
                  injection d2 with d4
                  exact hmp d4.symm
                refine ⟨by rw [hp1]; omega, ?_, d3⟩
                rw [hp3 t (by omega)]
                by_cases htp : t = p
                · rw [if_pos htp]
                  exact d2
                · rw [if_neg htp]
                  exact d2
              · intro hrm
                obtain ⟨d1, d2⟩ := (htc.1 m t (by omega)).2 hrm
                have htne : t ≠ node := by
                  intro hcon
                  subst hcon
                  rw [hpar] at d2
                  injection d2 with d4
                  exact hmp d4.symm
                refine ⟨by rw [hp1]; omega, ?_⟩
                rw [hp3 t (by omega)]
                by_cases htp : t = p
                · rw [if_pos htp]
                  exact d2
                · rw [if_neg htp]
                  exact d2
          · intro t q ht hq
            rw [hp1] at ht
            rw [hp3 t ht] at hq
            have hq2 : (rs.nodes.getD t default).parent = some q := by
              by_cases htp : t = p
              · rw [if_pos htp] at hq
                exact hq
              · rw [if_neg htp] at hq
                exact hq
            obtain ⟨d1, d2⟩ := htc.2 t q (by omega) hq2
            have hqne : q ≠ node := by
              intro hcon
              subst hcon
              rcases d2 with d2 | d2
              · rw [hln] at d2
                exact Option.noConfusion d2
              · rw [hrn] at d2
                exact Option.noConfusion d2
            refine ⟨by rw [hp1]; omega, ?_⟩
            rw [hp3 q (by omega)]
            by_cases hqp : q = p
            · rw [if_pos hqp]
              subst hqp
              rcases d2 with d2 | d2
              · left
                exact d2
              · rw [hrp] at d2
                have : t = node := by
                  injection d2 with d3
                  exact d3.symm
                exact absurd this (by omega)
            · rw [if_neg hqp]
              exact d2
        · intro m hm
          rw [hZn]
          by_cases hmp : m = p
          · subst hmp
            right
            refine ⟨rfl, Or.inr ⟨hlp, ?_⟩⟩
            rw [hp3 m hm, if_pos rfl]
          · left
            rw [hp3 m hm, if_neg hmp]
      exact hkey { R.setNode p (fun nd => { nd with right := none }) with
        nodes := (R.setNode p (fun nd => { nd with right := none })).nodes.dropLast }
        rfl rfl rfl rfl rfl rfl rfl

/-! ### The deactivation pass (phase 5 of the recursion body) -/

theorem ibc_fold_frame (ridx : ℕ) (l : List (ℕ × ℤ)) (rs : RecState) :
    (l.foldl (fun rs2 p => { rs2 with inactive_by_component :=
        (modifyIdx rs2.inactive_by_component p.1 (fun q => q ++ [ridx])) }) rs).nodes =
      rs.nodes ∧
    (l.foldl (fun rs2 p => { rs2 with inactive_by_component :=
        (modifyIdx rs2.inactive_by_component p.1 (fun q => q ++ [ridx])) }) rs).stable_index =
      rs.stable_index ∧
    (l.foldl (fun rs2 p => { rs2 with inactive_by_component :=
        (modifyIdx rs2.inactive_by_component p.1 (fun q => q ++ [ridx])) }) rs).state =
      rs.state ∧
    (l.foldl (fun rs2 p => { rs2 with inactive_by_component :=
        (modifyIdx rs2.inactive_by_component p.1 (fun q => q ++ [ridx])) }) rs).stored_stable =
      rs.stored_stable ∧
    (l.foldl (fun rs2 p => { rs2 with inactive_by_component :=
        (modifyIdx rs2.inactive_by_component p.1
          (fun q => q ++ [ridx])) }) rs).unstable_dependents =
      rs.unstable_dependents ∧
    (l.foldl (fun rs2 p => { rs2 with inactive_by_component :=
        (modifyIdx rs2.inactive_by_component p.1 (fun q => q ++ [ridx])) }) rs).total_events =
      rs.total_events ∧
    (l.foldl (fun rs2 p => { rs2 with inactive_by_component :=
        (modifyIdx rs2.inactive_by_component p.1 (fun q => q ++ [ridx])) }) rs).rng =
      rs.rng := by
  induction l generalizing rs with
  | nil => exact ⟨rfl, rfl, rfl, rfl, rfl, rfl, rfl⟩
  | cons p t ih =>
    obtain ⟨g1, g2, g3, g4, g5, g6, g7⟩ := ih { rs with inactive_by_component :=
      (modifyIdx rs.inactive_by_component p.1 (fun q => q ++ [ridx])) }
    exact ⟨g1.trans rfl, g2.trans rfl, g3.trans rfl, g4.trans rfl, g5.trans rfl,
      g6.trans rfl, g7.trans rfl⟩

/-- One step of the deactivation pass (the body of its fold, as a named
function so the fold can be reasoned about). -/
def deactStep (re : List FReaction) (node : ℕ)
    (acc : (RecState × List StableReactionData × List StableReactionData) ×
      List StableReactionData)
    (rdata : StableReactionData) :
    (RecState × List StableReactionData × List StableReactionData) ×
      List StableReactionData :=
  let rs := acc.1.1
  let left_stable := acc.1.2.1
  let right_stable := acc.1.2.2
  let kept := acc.2
  if can_deactivate re rdata rs then
    let rs :=
      if 0 < rdata.events then
        (getReaction re rdata.reaction).stoichiometry.foldl (fun rs p =>
          { rs with inactive_by_component := (modifyIdx rs.inactive_by_component p.1
              (fun l => l ++ [rdata.reaction])) }) rs
      else rs
    let rs := { rs with stable_index := (rs.stable_index.set rdata.reaction
      (some (node, kept.length))) }
    ((rs, left_stable, right_stable), kept ++ [rdata])
  else
    let reaction := getReaction re rdata.reaction
    let rs := { rs with state := rs.state.remove_bounds rdata.events reaction }
    let rs := { rs with stable_index := rs.stable_index.set rdata.reaction none }
    let spl := rdata.splitR reaction rs.rng
    let rs := { rs with rng := spl.2 }
    ((rs, left_stable ++ [spl.1.1], right_stable ++ [spl.1.2]), kept)

theorem deact_fold (re : List FReaction) (node : ℕ) (rs0 : RecState)
    (hic0 : IC rs0)
    (stables0 : List StableReactionData)
    (hst0 : (rs0.nodes.getD node default).stable_reactions = stables0)
    (A U B : List (ℕ × ℕ))
    (S : List StableReactionData) (k : ℕ)
    (hdrop : stables0.drop k = S)
    (acc : (RecState × List StableReactionData × List StableReactionData) ×
      List StableReactionData)
    (hnodes : acc.1.1.nodes = rs0.nodes)
    (hstored : acc.1.1.stored_stable = rs0.stored_stable)
    (hud : acc.1.1.unstable_dependents = rs0.unstable_dependents)
    (htot : acc.1.1.total_events = rs0.total_events)
    (hsilen : acc.1.1.stable_index.length = rs0.stable_index.length)
    (hbok : BOk re acc.1.1.state
      (A ++ (((acc.2 ++ S).map (fun d => (d.reaction, d.events))) ++ U) ++ B))
    (hinv : ∀ r n2 i2, acc.1.1.stable_index.getD r none = some (n2, i2) →
      (n2 = node → (i2 < acc.2.length ∧ (acc.2.getD i2 default).reaction = r) ∨
        (rs0.stable_index.getD r none = some (n2, i2) ∧ k ≤ i2)) ∧
      (n2 ≠ node → rs0.stable_index.getD r none = some (n2, i2))) :
    (S.foldl (deactStep re node) acc).1.1.nodes = rs0.nodes ∧
    (S.foldl (deactStep re node) acc).1.1.stored_stable = rs0.stored_stable ∧
    (S.foldl (deactStep re node) acc).1.1.unstable_dependents = rs0.unstable_dependents ∧
    (S.foldl (deactStep re node) acc).1.1.total_events = rs0.total_events ∧
    BOk re (S.foldl (deactStep re node) acc).1.1.state
      (A ++ ((((S.foldl (deactStep re node) acc).2).map
        (fun d => (d.reaction, d.events))) ++ U) ++ B) ∧
    (∀ r n2 i2,
      (S.foldl (deactStep re node) acc).1.1.stable_index.getD r none = some (n2, i2) →
      (n2 = node → (i2 < (S.foldl (deactStep re node) acc).2.length ∧
        (((S.foldl (deactStep re node) acc).2).getD i2 default).reaction = r) ∨
        (rs0.stable_index.getD r none = some (n2, i2) ∧ k + S.length ≤ i2)) ∧
      (n2 ≠ node → rs0.stable_index.getD r none = some (n2, i2))) := by
  revert hdrop hnodes hstored hud htot hsilen hbok hinv
  induction S generalizing k acc with
  | nil =>
    intro hdrop hnodes hstored hud htot hsilen hbok hinv
    refine ⟨hnodes, hstored, hud, htot, by simpa using hbok, ?_⟩
    intro r n2 i2 hr
    obtain ⟨h1, h2⟩ := hinv r n2 i2 hr
    refine ⟨fun he => ?_, h2⟩
    rcases h1 he with h | h
    · exact Or.inl h
    · exact Or.inr ⟨h.1, by simpa using h.2⟩
  | cons rdata S2 ih =>
    intro hdrop hnodes hstored hud htot hsilen hbok hinv
    have hklt : k < stables0.length := by
      by_contra hcon
      rw [List.drop_eq_nil_of_le (by omega)] at hdrop
      exact List.noConfusion hdrop
    have hsk : stables0.getD k default = rdata := by
      have := getD_drop stables0 k 0 default
      rw [hdrop] at this
      simpa using this.symm
    have hdrop2 : stables0.drop (k + 1) = S2 := by
      have hdd : stables0.drop (k + 1) = (stables0.drop k).drop 1 := by
        rw [List.drop_drop]
      rw [hdd, hdrop]
      rfl
    rw [List.foldl_cons]
    by_cases hcan : can_deactivate re rdata acc.1.1 = true
    · -- the reaction stays in the node, re-indexed at the end of the kept list
      have hinvstep : ∀ (mid : RecState),
          mid.nodes = acc.1.1.nodes → mid.stable_index = acc.1.1.stable_index →
          mid.state = acc.1.1.state → mid.stored_stable = acc.1.1.stored_stable →
          mid.unstable_dependents = acc.1.1.unstable_dependents →
          mid.total_events = acc.1.1.total_events →
          (S2.foldl (deactStep re node)
            (({ mid with stable_index := (mid.stable_index.set rdata.reaction
              (some (node, acc.2.length))) }, acc.1.2.1, acc.1.2.2),
              acc.2 ++ [rdata])).1.1.nodes = rs0.nodes ∧
          (S2.foldl (deactStep re node)
            (({ mid with stable_index := (mid.stable_index.set rdata.reaction
              (some (node, acc.2.length))) }, acc.1.2.1, acc.1.2.2),
              acc.2 ++ [rdata])).1.1.stored_stable = rs0.stored_stable ∧
          (S2.foldl (deactStep re node)
            (({ mid with stable_index := (mid.stable_index.set rdata.reaction
              (some (node, acc.2.length))) }, acc.1.2.1, acc.1.2.2),
              acc.2 ++ [rdata])).1.1.unstable_dependents = rs0.unstable_dependents ∧
          (S2.foldl (deactStep re node)
            (({ mid with stable_index := (mid.stable_index.set rdata.reaction
              (some (node, acc.2.length))) }, acc.1.2.1, acc.1.2.2),
              acc.2 ++ [rdata])).1.1.total_events = rs0.total_events ∧
          BOk re (S2.foldl (deactStep re node)
            (({ mid with stable_index := (mid.stable_index.set rdata.reaction
              (some (node, acc.2.length))) }, acc.1.2.1, acc.1.2.2),
              acc.2 ++ [rdata])).1.1.state
            (A ++ ((((S2.foldl (deactStep re node)
              (({ mid with stable_index := (mid.stable_index.set rdata.reaction
                (some (node, acc.2.length))) }, acc.1.2.1, acc.1.2.2),
                acc.2 ++ [rdata])).2).map
              (fun d => (d.reaction, d.events))) ++ U) ++ B) ∧
          (∀ r n2 i2,
            (S2.foldl (deactStep re node)
              (({ mid with stable_index := (mid.stable_index.set rdata.reaction
                (some (node, acc.2.length))) }, acc.1.2.1, acc.1.2.2),
                acc.2 ++ [rdata])).1.1.stable_index.getD r none = some (n2, i2) →
            (n2 = node → (i2 < (S2.foldl (deactStep re node)
              (({ mid with stable_index := (mid.stable_index.set rdata.reaction
                (some (node, acc.2.length))) }, acc.1.2.1, acc.1.2.2),
                acc.2 ++ [rdata])).2.length ∧
              (((S2.foldl (deactStep re node)
                (({ mid with stable_index := (mid.stable_index.set rdata.reaction
                  (some (node, acc.2.length))) }, acc.1.2.1, acc.1.2.2),
                  acc.2 ++ [rdata])).2).getD i2 default).reaction = r) ∨
              (rs0.stable_index.getD r none = some (n2, i2) ∧ k + 1 + S2.length ≤ i2)) ∧
            (n2 ≠ node → rs0.stable_index.getD r none = some (n2, i2))) := by
        intro mid m1 m2 m3 m4 m5 m6
        refine ih (k + 1) _ hdrop2
          (by dsimp only; rw [m1, hnodes])
          (by dsimp only; rw [m4, hstored])
          (by dsimp only; rw [m5, hud])
          (by dsimp only; rw [m6, htot])
          (by dsimp only; rw [List.length_set, m2, hsilen])
          ?_ ?_
        · dsimp only
          rw [m3]
          refine BOk_perm (List.Perm.of_eq ?_) hbok
          rw [List.append_cons acc.2 rdata S2]
        · dsimp only
          intro r n2 i2 hr
          rw [m2] at hr
          rw [getD_set] at hr
          by_cases hhit : r = rdata.reaction ∧ rdata.reaction < acc.1.1.stable_index.length
          · rw [if_pos hhit] at hr
            have hpair : node = n2 ∧ acc.2.length = i2 := by
              simpa using hr
            obtain ⟨hn2e, hi2e⟩ := hpair
            refine ⟨fun he => Or.inl ⟨?_, ?_⟩, fun hne => absurd hn2e.symm hne⟩
            · rw [List.length_append, ← hi2e]
              simp
            · rw [← hi2e, getD_append_right _ _ _ _ (le_refl _)]
              simp [hhit.1]
          · rw [if_neg hhit] at hr
            obtain ⟨h1, h2⟩ := hinv r n2 i2 hr
            refine ⟨fun he => ?_, h2⟩
            rcases h1 he with h | h
            · refine Or.inl ⟨by rw [List.length_append]; omega, ?_⟩
              rw [getD_append_left _ _ _ _ h.1]
              exact h.2
            · refine Or.inr ⟨h.1, ?_⟩
              have hne : i2 ≠ k := by
                intro hcon
                subst hcon
                obtain ⟨q1, q2, q3, q4⟩ := hic0 r n2 i2 h.1
                rw [he, hst0, hsk] at q4
                have hrlen : r < rs0.stable_index.length := getD_some_lt h.1
                exact hhit ⟨q4.symm, by omega⟩
              omega
      by_cases hev : (0 : ℕ) < rdata.events
      · have hstep : deactStep re node acc rdata =
            (({ ((getReaction re rdata.reaction).stoichiometry.foldl (fun rs p =>
                { rs with inactive_by_component := (modifyIdx rs.inactive_by_component p.1
                    (fun l => l ++ [rdata.reaction])) }) acc.1.1) with
              stable_index := ((((getReaction re rdata.reaction).stoichiometry.foldl
                (fun rs p => { rs with inactive_by_component :=
                  (modifyIdx rs.inactive_by_component p.1
                    (fun l => l ++ [rdata.reaction])) }) acc.1.1)).stable_index.set
                rdata.reaction (some (node, acc.2.length))) },
              acc.1.2.1, acc.1.2.2), acc.2 ++ [rdata]) := by
          unfold deactStep
          rw [if_pos hcan, if_pos hev]
        obtain ⟨f1, f2, f3, f4, f5, f6, f7⟩ := ibc_fold_frame rdata.reaction
          (getReaction re rdata.reaction).stoichiometry acc.1.1
        rw [hstep]
        obtain ⟨g1, g2, g3, g4, g5, g6⟩ := hinvstep _ f1 f2 f3 f4 f5 f6
        refine ⟨g1, g2, g3, g4, g5, ?_⟩
        intro r n2 i2 hr
        obtain ⟨h1, h2⟩ := g6 r n2 i2 hr
        refine ⟨fun he => ?_, h2⟩
        rcases h1 he with h | h
        · exact Or.inl h
        · exact Or.inr ⟨h.1, by simp only [List.length_cons]; omega⟩
      · have hstep : deactStep re node acc rdata =
            (({ acc.1.1 with
              stable_index := (acc.1.1.stable_index.set
                rdata.reaction (some (node, acc.2.length))) },
              acc.1.2.1, acc.1.2.2), acc.2 ++ [rdata]) := by
          unfold deactStep
          rw [if_pos hcan, if_neg hev]
        rw [hstep]
        obtain ⟨g1, g2, g3, g4, g5, g6⟩ := hinvstep _ rfl rfl rfl rfl rfl rfl
        refine ⟨g1, g2, g3, g4, g5, ?_⟩
        intro r n2 i2 hr
        obtain ⟨h1, h2⟩ := g6 r n2 i2 hr
        refine ⟨fun he => ?_, h2⟩
        rcases h1 he with h | h
        · exact Or.inl h
        · exact Or.inr ⟨h.1, by simp only [List.length_cons]; omega⟩
    · -- the reaction leaves: bounds removed, index entry erased, data split
      have hstep : deactStep re node acc rdata =
          (({ acc.1.1 with
            state := acc.1.1.state.remove_bounds rdata.events
              (getReaction re rdata.reaction),
            stable_index := acc.1.1.stable_index.set rdata.reaction none,
            rng := (rdata.splitR (getReaction re rdata.reaction) acc.1.1.rng).2 },
            acc.1.2.1 ++ [(rdata.splitR (getReaction re rdata.reaction) acc.1.1.rng).1.1],
            acc.1.2.2 ++ [(rdata.splitR (getReaction re rdata.reaction) acc.1.1.rng).1.2]),
            acc.2) := by
        unfold deactStep
        rw [if_neg hcan]
      rw [hstep]
      have hb2 : BOk re (acc.1.1.state.remove_bounds rdata.events
          (getReaction re rdata.reaction))
          (A ++ (((acc.2 ++ S2).map (fun d => (d.reaction, d.events))) ++ U) ++ B) := by
        have hmass : A ++ (((acc.2 ++ rdata :: S2).map
            (fun d => (d.reaction, d.events))) ++ U) ++ B =
            (A ++ acc.2.map (fun d => (d.reaction, d.events))) ++
              (rdata.reaction, rdata.events) ::
                (S2.map (fun d => (d.reaction, d.events)) ++ (U ++ B)) := by
          simp [List.map_append, List.append_assoc]
        have hb3 := BOk_remove_bounds (hmass ▸ hbok)
        refine BOk_perm (List.Perm.of_eq ?_) hb3
        simp [List.map_append, List.append_assoc]
      refine ih (k + 1) _ hdrop2
        (by dsimp only; exact hnodes)
        (by dsimp only; exact hstored)
        (by dsimp only; exact hud)
        (by dsimp only; exact htot)
        (by dsimp only; rw [List.length_set]; exact hsilen)
        (by dsimp only; exact hb2)
        ?_ |>.imp id (fun w => w.imp id (fun w => w.imp id (fun w => w.imp id
          (fun w => w.imp id (fun w r n2 i2 hr => (w r n2 i2 hr).imp
            (fun h1 he => (h1 he).imp id
              (fun h => ⟨h.1, by simp only [List.length_cons]; omega⟩)) id)))))
      dsimp only
      intro r n2 i2 hr
      rw [getD_set] at hr
      by_cases hhit : r = rdata.reaction ∧ rdata.reaction < acc.1.1.stable_index.length
      · rw [if_pos hhit] at hr
        exact Option.noConfusion hr
      · rw [if_neg hhit] at hr
        obtain ⟨h1, h2⟩ := hinv r n2 i2 hr
        refine ⟨fun he => ?_, h2⟩
        rcases h1 he with h | h
        · exact Or.inl h
        · refine Or.inr ⟨h.1, ?_⟩
          have hne : i2 ≠ k := by
            intro hcon
            subst hcon
            obtain ⟨q1, q2, q3, q4⟩ := hic0 r n2 i2 h.1
            rw [he, hst0, hsk] at q4
            have hrlen : r < rs0.stable_index.length := getD_some_lt h.1
            exact hhit ⟨q4.symm, by omega⟩
          omega

theorem deactivate_pass_spec (re : List FReaction) {rs : RecState} {node : ℕ}
    (hnlt : node < rs.nodes.length)
    (hact : (rs.nodes.getD node default).is_active = true)
    (hcoh : Coh re rs) (hic : IC rs) :
    (deactivate_pass re node rs).1.nodes.length = rs.nodes.length ∧
    shapes (deactivate_pass re node rs).1.nodes = shapes rs.nodes ∧
    (deactivate_pass re node rs).1.stored_stable = rs.stored_stable ∧
    (deactivate_pass re node rs).1.unstable_dependents = rs.unstable_dependents ∧
    (deactivate_pass re node rs).1.total_events = rs.total_events ∧
    (∀ m, m ≠ node → (deactivate_pass re node rs).1.nodes.getD m default =
      rs.nodes.getD m default) ∧
    ((deactivate_pass re node rs).1.nodes.getD node default).unstable_reactions =
      (rs.nodes.getD node default).unstable_reactions ∧
    Coh re (deactivate_pass re node rs).1 ∧
    IC (deactivate_pass re node rs).1 := by
  have hbok0 : BOk re rs.state
      (fullTracked (rs.nodes.take node) ++
        (((([] : List StableReactionData) ++
            (rs.nodes.getD node default).stable_reactions).map
          (fun d => (d.reaction, d.events))) ++
          nodeUnstableTracked (rs.nodes.getD node default)) ++
        fullTracked (rs.nodes.drop (node + 1))) := by
    unfold Coh at hcoh
    rw [fullTracked_decomp rs.nodes node hnlt, nodeTracked_active hact] at hcoh
    simpa using hcoh
  obtain ⟨g1, g2, g3, g4, g5, g6⟩ := deact_fold re node rs hic
    (rs.nodes.getD node default).stable_reactions rfl
    (fullTracked (rs.nodes.take node))
    (nodeUnstableTracked (rs.nodes.getD node default))
    (fullTracked (rs.nodes.drop (node + 1)))
    (rs.nodes.getD node default).stable_reactions 0 (by simp)
    ((rs, [], []), []) rfl rfl rfl rfl rfl hbok0
    (by
      intro r n2 i2 hr
      exact ⟨fun he => Or.inr ⟨hr, Nat.zero_le _⟩, fun hne => hr⟩)
  have hform : deactivate_pass re node rs =
      (((rs.nodes.getD node default).stable_reactions.foldl (deactStep re node)
        ((rs, [], []), [])).1.1.setNode node (fun nd => { nd with stable_reactions := (
        (((rs.nodes.getD node default).stable_reactions).foldl (deactStep re node)
          ((rs, [], []), [])).2) }),
       (((rs.nodes.getD node default).stable_reactions).foldl (deactStep re node)
          ((rs, [], []), [])).1.2.1,
       (((rs.nodes.getD node default).stable_reactions).foldl (deactStep re node)
          ((rs, [], []), [])).1.2.2) := rfl
  rw [hform]
  dsimp only
  have hnF : ((((rs.nodes.getD node default).stable_reactions).foldl (deactStep re node)
      ((rs, [], []), [])).1.1.setNode node (fun nd => { nd with stable_reactions := (
      (((rs.nodes.getD node default).stable_reactions).foldl (deactStep re node)
        ((rs, [], []), [])).2) })).nodes =
      modifyIdx rs.nodes node (fun nd => { nd with stable_reactions := (
      (((rs.nodes.getD node default).stable_reactions).foldl (deactStep re node)
        ((rs, [], []), [])).2) }) := by
    show modifyIdx (((rs.nodes.getD node default).stable_reactions).foldl
      (deactStep re node) ((rs, [], []), [])).1.1.nodes node _ = _
    rw [g1]
  have hgother : ∀ m, m ≠ node →
      (modifyIdx rs.nodes node (fun nd => { nd with stable_reactions :=
        (((rs.nodes.getD node default).stable_reactions).foldl (deactStep re node)
          ((rs, [], []), [])).2 })).getD m default = rs.nodes.getD m default := by
    intro m hm
    rw [modifyIdx_getD, if_neg (fun hcon => hm hcon.1)]
  have hgnode : (modifyIdx rs.nodes node (fun nd => { nd with stable_reactions :=
      (((rs.nodes.getD node default).stable_reactions).foldl (deactStep re node)
        ((rs, [], []), [])).2 })).getD node default =
      { rs.nodes.getD node default with stable_reactions := (
      (((rs.nodes.getD node default).stable_reactions).foldl (deactStep re node)
        ((rs, [], []), [])).2) } := by
    rw [modifyIdx_getD, if_pos ⟨rfl, hnlt⟩]
  refine ⟨by rw [hnF]; exact modifyIdx_length _ _ _,
    by rw [hnF]; exact shapes_modifyIdx node (fun nd => rfl),
    by show (_ : RecState).stored_stable = _; exact g2,
    by show (_ : RecState).unstable_dependents = _; exact g3,
    by show (_ : RecState).total_events = _; exact g4,
    by rw [hnF]; exact hgother,
    by rw [hnF, hgnode],
    ?_, ?_⟩
  · show BOk re _ (fullTracked _)
    rw [hnF, fullTracked_modifyIdx rs.nodes node _ hnlt]
    rw [show (RecState.setNode _ node _).state =
      (((rs.nodes.getD node default).stable_reactions).foldl (deactStep re node)
        ((rs, [], []), [])).1.1.state from rfl]
    rw [nodeTracked_active (show ({ rs.nodes.getD node default with stable_reactions :=
      (((rs.nodes.getD node default).stable_reactions).foldl (deactStep re node)
        ((rs, [], []), [])).2 } : RecNode).is_active = true from hact)]
    refine BOk_perm (List.Perm.of_eq ?_) g5
    simp [nodeStableTracked, nodeUnstableTracked, List.append_assoc]
  · intro r n2 i2 hr
    rw [show (RecState.setNode _ node _).stable_index =
      (((rs.nodes.getD node default).stable_reactions).foldl (deactStep re node)
        ((rs, [], []), [])).1.1.stable_index from rfl] at hr
    obtain ⟨h1, h2⟩ := g6 r n2 i2 hr
    rw [show (RecState.setNode (((rs.nodes.getD node default).stable_reactions).foldl
        (deactStep re node) ((rs, [], []), [])).1.1 node _).nodes =
      modifyIdx (((rs.nodes.getD node default).stable_reactions).foldl
        (deactStep re node) ((rs, [], []), [])).1.1.nodes node _ from rfl, g1]
    by_cases hn2 : n2 = node
    · subst hn2
      rcases h1 rfl with h | h
      · refine ⟨by rw [modifyIdx_length]; exact hnlt, ?_, ?_, ?_⟩
        · rw [hgnode]
          exact hact
        · rw [hgnode]
          exact h.1
        · rw [hgnode]
          exact h.2
      · obtain ⟨q1, q2, q3, q4⟩ := hic r n2 i2 h.1
        have := h.2
        simp only [Nat.zero_add] at this
        omega
    · obtain ⟨q1, q2, q3, q4⟩ := hic r n2 i2 (h2 hn2)
      refine ⟨by rw [modifyIdx_length]; exact q1, ?_, ?_, ?_⟩
      · rw [hgother n2 hn2]
        exact q2
      · rw [hgother n2 hn2]
        exact q3
      · rw [hgother n2 hn2]
        exact q4

/-! ### Phase 6: splitting the node and attaching the two children -/

/-- Field-wise equality of everything a recursion step may rely on in an
ancestor node: tree shape and the unstable list (stable lists of ancestors
do change during a visit, via listener-triggered splits). -/
def sameShapeU (a b : RecNode) : Prop :=
  a.is_active = b.is_active ∧ a.parent = b.parent ∧ a.left = b.left ∧
  a.right = b.right ∧ a.id = b.id ∧ a.unstable_reactions = b.unstable_reactions

theorem sameShapeU_refl (a : RecNode) : sameShapeU a a :=
  ⟨rfl, rfl, rfl, rfl, rfl, rfl⟩

theorem sameShapeU_of_eq {a b : RecNode} (h : a = b) : sameShapeU a b := by
  subst h
  exact sameShapeU_refl a

theorem sameShapeU_trans {a b c : RecNode} (h1 : sameShapeU a b)
    (h2 : sameShapeU b c) : sameShapeU a c :=
  ⟨h1.1.trans h2.1, h1.2.1.trans h2.2.1, h1.2.2.1.trans h2.2.2.1,
   h1.2.2.2.1.trans h2.2.2.2.1, h1.2.2.2.2.1.trans h2.2.2.2.2.1,
   h1.2.2.2.2.2.trans h2.2.2.2.2.2⟩

/-- `sample_highR` only touches the `high` endpoint and its flag. -/
theorem sample_highR_fields (s : StableReactionData) (reaction : FReaction)
    (rng : RngState) :
    (s.sample_highR reaction rng).1.reaction = s.reaction ∧
    (s.sample_highR reaction rng).1.events = s.events := by
  unfold StableReactionData.sample_highR
  split
  · exact ⟨rfl, rfl⟩
  · exact ⟨rfl, rfl⟩

/-- `sample_lowR` only touches the `low` endpoint and its flag. -/
theorem sample_lowR_fields (s : StableReactionData) (reaction : FReaction)
    (rng : RngState) :
    (s.sample_lowR reaction rng).1.reaction = s.reaction ∧
    (s.sample_lowR reaction rng).1.events = s.events := by
  unfold StableReactionData.sample_lowR
  split
  · exact ⟨rfl, rfl⟩
  · exact ⟨rfl, rfl⟩

/-- `destabilize` keeps the reaction index and event count. -/
theorem destabilizeR_fields (s : StableReactionData) (reaction : FReaction)
    (rng : RngState) :
    (s.destabilizeR reaction rng).1.reaction = s.reaction ∧
    (s.destabilizeR reaction rng).1.events = s.events := by
  unfold StableReactionData.destabilizeR
  constructor
  · show ((s.sample_lowR reaction rng).1.sample_highR reaction
      (s.sample_lowR reaction rng).2.2).1.reaction = s.reaction
    rw [(sample_highR_fields _ _ _).1, (sample_lowR_fields _ _ _).1]
  · show ((s.sample_lowR reaction rng).1.sample_highR reaction
      (s.sample_lowR reaction rng).2.2).1.events = s.events
    rw [(sample_highR_fields _ _ _).2, (sample_lowR_fields _ _ _).2]

/-- The fold of phase 6 removing the bounds of the node's unstable
reactions: the ledger entries of the list leave the bounds. -/
theorem unstable_remove_fold (re : List FReaction) (S : List ReactionData)
    (rs : RecState) (A B : List (ℕ × ℕ))
    (hbok : BOk re rs.state (A ++ (S.map (fun d => (d.reaction, d.events)) ++ B))) :
    (S.foldl (fun rs2 rdata =>
      { rs2 with
        state := rs2.state.remove_bounds rdata.events (getReaction re rdata.reaction),
        unstable_dependents := remove_unstable_deps rs2.unstable_dependents (getReaction re rdata.reaction) }) rs).nodes = rs.nodes ∧
    (S.foldl (fun rs2 rdata =>
      { rs2 with
        state := rs2.state.remove_bounds rdata.events (getReaction re rdata.reaction),
        unstable_dependents := remove_unstable_deps rs2.unstable_dependents (getReaction re rdata.reaction) }) rs).stable_index = rs.stable_index ∧
    (S.foldl (fun rs2 rdata =>
      { rs2 with
        state := rs2.state.remove_bounds rdata.events (getReaction re rdata.reaction),
        unstable_dependents := remove_unstable_deps rs2.unstable_dependents (getReaction re rdata.reaction) }) rs).stored_stable = rs.stored_stable ∧
    (S.foldl (fun rs2 rdata =>
      { rs2 with
        state := rs2.state.remove_bounds rdata.events (getReaction re rdata.reaction),
        unstable_dependents := remove_unstable_deps rs2.unstable_dependents (getReaction re rdata.reaction) }) rs).inactive_by_component =
      rs.inactive_by_component ∧
    (S.foldl (fun rs2 rdata =>
      { rs2 with
        state := rs2.state.remove_bounds rdata.events (getReaction re rdata.reaction),
        unstable_dependents := remove_unstable_deps rs2.unstable_dependents (getReaction re rdata.reaction) }) rs).total_events = rs.total_events ∧
    (S.foldl (fun rs2 rdata =>
      { rs2 with
        state := rs2.state.remove_bounds rdata.events (getReaction re rdata.reaction),
        unstable_dependents := remove_unstable_deps rs2.unstable_dependents (getReaction re rdata.reaction) }) rs).rng = rs.rng ∧
    BOk re (S.foldl (fun rs2 rdata =>
      { rs2 with
        state := rs2.state.remove_bounds rdata.events (getReaction re rdata.reaction),
        unstable_dependents := remove_unstable_deps rs2.unstable_dependents (getReaction re rdata.reaction) }) rs).state (A ++ B) := by
  induction S generalizing rs with
  | nil => exact ⟨rfl, rfl, rfl, rfl, rfl, rfl, by simpa using hbok⟩
  | cons rdata S2 ih =>
    rw [List.foldl_cons]
    have hb2 : BOk re ({ rs with
        state := rs.state.remove_bounds rdata.events (getReaction re rdata.reaction),
        unstable_dependents := remove_unstable_deps rs.unstable_dependents (getReaction re rdata.reaction) } : RecState).state
        (A ++ (S2.map (fun d => (d.reaction, d.events)) ++ B)) := by
      show BOk re (rs.state.remove_bounds rdata.events (getReaction re rdata.reaction)) _
      have hb3 : BOk re rs.state (A ++ (rdata.reaction, rdata.events) ::
          (S2.map (fun d => (d.reaction, d.events)) ++ B)) := by
        refine BOk_perm (List.Perm.of_eq ?_) hbok
        simp
      exact BOk_remove_bounds hb3
    obtain ⟨g1, g2, g3, g4, g5, g6, g7⟩ := ih _ hb2
    exact ⟨g1.trans rfl, g2.trans rfl, g3.trans rfl, g4.trans rfl, g5.trans rfl,
      g6.trans rfl, g7⟩

/-- The node list produced by phase 6: append the right child, link it,
append the left child, link it. -/
def attachKids (N : List RecNode) (node : ℕ) (Rn Ln : RecNode) : List RecNode :=
  modifyIdx ((modifyIdx (N ++ [Rn]) node
    (fun nd => { nd with right := some N.length })) ++ [Ln]) node
    (fun nd => { nd with left := some (N.length + 1) })

theorem attachKids_length (N : List RecNode) (node : ℕ) (Rn Ln : RecNode) :
    (attachKids N node Rn Ln).length = N.length + 2 := by
  unfold attachKids
  rw [modifyIdx_length, List.length_append, modifyIdx_length, List.length_append]
  rfl

theorem attachKids_getD_lt (N : List RecNode) (node : ℕ) (Rn Ln : RecNode)
    (m : ℕ) (hm : m < node) (hnode : node < N.length) :
    (attachKids N node Rn Ln).getD m default = N.getD m default := by
  unfold attachKids
  rw [modifyIdx_getD, if_neg (by intro hcon; omega),
    getD_append_left _ _ _ _ (by rw [modifyIdx_length, List.length_append]; omega),
    modifyIdx_getD, if_neg (by intro hcon; omega),
    getD_append_left _ _ _ _ (by omega)]

theorem attachKids_getD_node (N : List RecNode) (node : ℕ) (Rn Ln : RecNode)
    (hnode : node < N.length) :
    (attachKids N node Rn Ln).getD node default =
      { N.getD node default with
        left := some (N.length + 1)
        right := some N.length } := by
  have hb1 : node < ((modifyIdx (N ++ [Rn]) node
      (fun nd => { nd with right := some N.length })) ++ [Ln]).length := by
    rw [List.length_append, modifyIdx_length, List.length_append]
    omega
  have hb2 : node < (N ++ [Rn]).length := by
    rw [List.length_append]
    omega
  unfold attachKids
  rw [modifyIdx_getD, if_pos ⟨rfl, hb1⟩,
    getD_append_left _ _ _ _ (by rw [modifyIdx_length, List.length_append]; omega),
    modifyIdx_getD, if_pos ⟨rfl, hb2⟩,
    getD_append_left _ _ _ _ (by omega)]

theorem attachKids_getD_R (N : List RecNode) (node : ℕ) (Rn Ln : RecNode)
    (hnode : node < N.length) :
    (attachKids N node Rn Ln).getD N.length default = Rn := by
  unfold attachKids
  rw [modifyIdx_getD, if_neg (by intro hcon; omega),
    getD_append_left _ _ _ _
      (by rw [modifyIdx_length, List.length_append, List.length_singleton]; omega),
    modifyIdx_getD, if_neg (by intro hcon; omega),
    getD_append_right _ _ _ _ (by omega)]
  simp

theorem attachKids_getD_L (N : List RecNode) (node : ℕ) (Rn Ln : RecNode)
    (hnode : node < N.length) :
    (attachKids N node Rn Ln).getD (N.length + 1) default = Ln := by
  unfold attachKids
  rw [modifyIdx_getD, if_neg (by intro hcon; omega),
    getD_append_right _ _ _ _
      (by rw [modifyIdx_length, List.length_append, List.length_singleton]),
    modifyIdx_length, List.length_append]
  simp

theorem modifyIdx_append_left {α : Type} (X Y : List α) (n : ℕ) (f : α → α)
    (h : n < X.length) :
    modifyIdx (X ++ Y) n f = modifyIdx X n f ++ Y := by
  induction X generalizing n with
  | nil => simp at h
  | cons a t ih =>
    cases n with
    | zero => rfl
    | succ n =>
      show a :: modifyIdx (t ++ Y) n f = a :: (modifyIdx t n f ++ Y)
      rw [ih n (by simpa using h)]

theorem attachKids_tracked (N : List RecNode) (node : ℕ) (Rn Ln : RecNode)
    (hnode : node < N.length)
    (hRa : Rn.is_active = false) (hLa : Ln.is_active = false) :
    fullTracked (attachKids N node Rn Ln) = fullTracked N := by
  unfold attachKids
  rw [modifyIdx_append_left _ [Ln] node _
    (by rw [modifyIdx_length, List.length_append]; omega)]
  rw [modifyIdx_append_left N [Rn] node _ hnode]
  rw [modifyIdx_append_left _ [Rn] node _ (by rw [modifyIdx_length]; omega)]
  rw [modifyIdx_comp]
  rw [fullTracked_append, fullTracked_append]
  rw [show fullTracked [Rn] = [] from by
    rw [fullTracked_cons, nodeTracked_inactive hRa, fullTracked_nil]; rfl]
  rw [show fullTracked [Ln] = [] from by
    rw [fullTracked_cons, nodeTracked_inactive hLa, fullTracked_nil]; rfl]
  rw [List.append_nil, List.append_nil]
  exact fullTracked_modify_shape N node _ (fun nd => by
    unfold nodeTracked nodeStableTracked nodeUnstableTracked
    rfl)

theorem TC_attach (N : List RecNode) (node : ℕ) (Rn Ln : RecNode)
    (hlen : N.length = node + 1)
    (hln : (N.getD node default).left = none)
    (hrn : (N.getD node default).right = none)
    (hRn : Rn.parent = some node ∧ Rn.left = none ∧ Rn.right = none)
    (hLn : Ln.parent = some node ∧ Ln.left = none ∧ Ln.right = none)
    (htc : TC N) :
    TC (attachKids N node Rn Ln) := by
  have hnode : node < N.length := by omega
  have hlenA : (attachKids N node Rn Ln).length = node + 3 := by
    rw [attachKids_length]
    omega
  have hgnode : (attachKids N node Rn Ln).getD node default =
      { N.getD node default with
        left := some (node + 2)
        right := some (node + 1) } := by
    rw [attachKids_getD_node N node Rn Ln hnode, hlen]
  have hgR : (attachKids N node Rn Ln).getD (node + 1) default = Rn := by
    rw [← hlen]
    exact attachKids_getD_R N node Rn Ln hnode
  have hgL : (attachKids N node Rn Ln).getD (node + 2) default = Ln := by
    rw [show node + 2 = N.length + 1 from by omega]
    exact attachKids_getD_L N node Rn Ln hnode
  have hglt : ∀ m, m < node → (attachKids N node Rn Ln).getD m default =
      N.getD m default := fun m hm => attachKids_getD_lt N node Rn Ln m hm hnode
  have hgle : ∀ m, m ≤ node → m ≠ node → (attachKids N node Rn Ln).getD m default =
      N.getD m default := fun m hm hne => hglt m (by omega)
  constructor
  · intro m t hm
    rw [hlenA] at hm
    by_cases hmn : m = node
    · rw [hmn, hgnode]
      constructor
      · intro hlm
        have ht : t = node + 2 := by
          have h9 : some (node + 2) = some t := hlm
          injection h9 with h
          exact h.symm
        subst ht
        refine ⟨by omega, ?_, ?_⟩
        · rw [hgL]
          exact hLn.1
        · show some (node + 1) ≠ some (node + 2)
          intro hcon
          injection hcon with h
          omega
      · intro hrm
        have ht : t = node + 1 := by
          have h9 : some (node + 1) = some t := hrm
          injection h9 with h
          exact h.symm
        subst ht
        refine ⟨by omega, ?_⟩
        rw [hgR]
        exact hRn.1
    · by_cases hm1 : m = node + 1
      · subst hm1
        rw [hgR]
        exact ⟨fun hlm => absurd hlm (by rw [hRn.2.1]; simp),
          fun hrm => absurd hrm (by rw [hRn.2.2]; simp)⟩
      · by_cases hm2 : m = node + 2
        · subst hm2
          rw [hgL]
          exact ⟨fun hlm => absurd hlm (by rw [hLn.2.1]; simp),
            fun hrm => absurd hrm (by rw [hLn.2.2]; simp)⟩
        · have hmlt : m < node := by omega
          rw [hglt m hmlt]
          obtain ⟨c1, c2⟩ := htc.1 m t (by omega)
          constructor
          · intro hlm
            obtain ⟨d1, d2, d3⟩ := c1 hlm
            refine ⟨by omega, ?_, d3⟩
            by_cases htn : t = node
            · subst htn
              rw [hgnode]
              exact d2
            · rw [hglt t (by omega)]
              exact d2
          · intro hrm
            obtain ⟨d1, d2⟩ := c2 hrm
            refine ⟨by omega, ?_⟩
            by_cases htn : t = node
            · subst htn
              rw [hgnode]
              exact d2
            · rw [hglt t (by omega)]
              exact d2
  · intro t q ht hq
    rw [hlenA] at ht
    by_cases ht1 : t = node + 1
    · subst ht1
      rw [hgR, hRn.1] at hq
      have hqn : q = node := by
        injection hq with h
        exact h.symm
      rw [hqn, hgnode]
      exact ⟨by omega, Or.inr rfl⟩
    · by_cases ht2 : t = node + 2
      · subst ht2
        rw [hgL, hLn.1] at hq
        have hqn : q = node := by
          injection hq with h
          exact h.symm
        rw [hqn, hgnode]
        exact ⟨by omega, Or.inl rfl⟩
      · have htle : t < node + 1 := by omega
        have hqold : (N.getD t default).parent = some q := by
          by_cases htn : t = node
          · subst htn
            rw [hgnode] at hq
            exact hq
          · rw [hglt t (by omega)] at hq
            exact hq
        obtain ⟨d1, d2⟩ := htc.2 t q (by omega) hqold
        have hqne : q ≠ node := by
          intro hcon
          subst hcon
          rcases d2 with d2 | d2
          · rw [hln] at d2
            exact Option.noConfusion d2
          · rw [hrn] at d2
            exact Option.noConfusion d2
        refine ⟨by omega, ?_⟩
        rw [hglt q (by omega)]
        exact d2

theorem DescTo_attach (N : List RecNode) (node : ℕ) (Rn Ln : RecNode)
    (hlen : N.length = node + 1)
    (hcura : (N.getD node default).is_active = true)
    (hln : (N.getD node default).left = none)
    (hrn : (N.getD node default).right = none)
    (hRa : Rn.is_active = false)
    (hLl : Ln.left = none) (hLr : Ln.right = none)
    {m : ℕ} (hd : DescTo N node m) :
    DescTo (actT (node + 2) (attachKids N node Rn Ln)) (node + 2) m := by
  have hnode : node < N.length := by omega
  have hlenA : (actT (node + 2) (attachKids N node Rn Ln)).length = node + 3 := by
    rw [actT_length, attachKids_length]
    omega
  have hgnode : (actT (node + 2) (attachKids N node Rn Ln)).getD node default =
      { N.getD node default with
        left := some (node + 2)
        right := some (node + 1) } := by
    rw [actT_getD_other _ _ (by omega), attachKids_getD_node N node Rn Ln hnode, hlen]
  have hgR : (actT (node + 2) (attachKids N node Rn Ln)).getD (node + 1) default = Rn := by
    rw [actT_getD_other _ _ (by omega), ← hlen]
    exact attachKids_getD_R N node Rn Ln hnode
  have hgL : (actT (node + 2) (attachKids N node Rn Ln)).getD (node + 2) default =
      { Ln with is_active := true } := by
    rw [actT_getD_self _ _ (by rw [attachKids_length]; omega),
      show node + 2 = N.length + 1 from by omega,
      attachKids_getD_L N node Rn Ln hnode]
  have hglt : ∀ p, p < node → (actT (node + 2) (attachKids N node Rn Ln)).getD p default =
      N.getD p default := by
    intro p hp
    rw [actT_getD_other _ _ (by omega)]
    exact attachKids_getD_lt N node Rn Ln p hp hnode
  have hleafL : DescTo (actT (node + 2) (attachKids N node Rn Ln)) (node + 2)
      (node + 2) := by
    refine DescTo.leaf (by omega) ?_ ?_ ?_
    · rw [hgL]
    · rw [hgL]
      exact hLl
    · rw [hgL]
      exact hLr
  induction hd with
  | leaf h1 h2 h3 h4 =>
    refine DescTo.both (r := node + 1) ?_ ?_ ?_ ?_ ?_ ?_ hleafL
    · rw [hlenA]
      omega
    · rw [hgnode]
      exact hcura
    · rw [hgnode]
    · rw [hgnode]
    · rw [hlenA]
      omega
    · rw [hgR]
      exact hRa
  | right h1 h2 h3 h4 hsub ih =>
    rename_i m2 r2
    have hm2 : m2 ≠ node := by
      intro hcon
      subst hcon
      rw [hrn] at h4
      exact Option.noConfusion h4
    have hm2lt : m2 < node := by omega
    refine DescTo.right (by omega) ?_ ?_ ?_ ih
    · rw [hglt m2 hm2lt]
      exact h2
    · rw [hglt m2 hm2lt]
      exact h3
    · rw [hglt m2 hm2lt]
      exact h4
  | both h1 h2 h3 h4 h5 h6 hsub ih =>
    rename_i m2 l2 r2
    have hm2 : m2 ≠ node := by
      intro hcon
      subst hcon
      rw [hln] at h3
      exact Option.noConfusion h3
    have hm2lt : m2 < node := by omega
    have hr2 : r2 ≠ node := by
      intro hcon
      subst hcon
      rw [hcura] at h6
      exact Bool.noConfusion h6
    have hr2lt : r2 < node := by omega
    refine DescTo.both (r := r2) (by omega) ?_ ?_ ?_ (by omega) ?_ ih
    · rw [hglt m2 hm2lt]
      exact h2
    · rw [hglt m2 hm2lt]
      exact h3
    · rw [hglt m2 hm2lt]
      exact h4
    · rw [hglt r2 hr2lt]
      exact h6

theorem DOk_attach (N : List RecNode) (node : ℕ) (Rn Ln : RecNode)
    (hlen : N.length = node + 1)
    (hcura : (N.getD node default).is_active = true)
    (hln : (N.getD node default).left = none)
    (hrn : (N.getD node default).right = none)
    (hRa : Rn.is_active = false)
    (hLl : Ln.left = none) (hLr : Ln.right = none)
    (hdok : DOk N node) :
    DOk (actT (node + 2) (attachKids N node Rn Ln)) (node + 2) := by
  have hnode : node < N.length := by omega
  intro m hm hact
  rw [actT_length, attachKids_length] at hm
  by_cases hm2 : m = node + 2
  · subst hm2
    refine DescTo.leaf (by rw [actT_length, attachKids_length]; omega) ?_ ?_ ?_
    · rw [actT_getD_self _ _ (by rw [attachKids_length]; omega)]
    · rw [actT_getD_self _ _ (by rw [attachKids_length]; omega),
        show node + 2 = N.length + 1 from by omega, attachKids_getD_L N node Rn Ln hnode]
      exact hLl
    · rw [actT_getD_self _ _ (by rw [attachKids_length]; omega),
        show node + 2 = N.length + 1 from by omega, attachKids_getD_L N node Rn Ln hnode]
      exact hLr
  · by_cases hm1 : m = node + 1
    · subst hm1
      rw [actT_getD_other _ _ (by omega), ← hlen,
        attachKids_getD_R N node Rn Ln hnode, hRa] at hact
      exact Bool.noConfusion hact
    · have hmle : m < node + 1 := by omega
      have hactN : (N.getD m default).is_active = true := by
        by_cases hmn : m = node
        · subst hmn
          exact hcura
        · rw [actT_getD_other _ _ (by omega),
            attachKids_getD_lt N node Rn Ln m (by omega) hnode] at hact
          exact hact
      exact DescTo_attach N node Rn Ln hlen hcura hln hrn hRa hLl hLr
        (hdok m (by omega) hactN)

theorem DOk_after_left (N2 N3 : List RecNode) (cur : ℕ)
    (hlen2 : N2.length = cur + 3)
    (hlen3 : N3.length = cur + 2)
    (hparL : (N2.getD (cur + 2) default).parent = some cur)
    (hcl2 : (N2.getD cur default).left = some (cur + 2))
    (hcr2 : (N2.getD cur default).right = some (cur + 1))
    (hcact : (N2.getD cur default).is_active = true)
    (hRa : (N2.getD (cur + 1) default).is_active = false)
    (hRl : (N2.getD (cur + 1) default).left = none)
    (hRr : (N2.getD (cur + 1) default).right = none)
    (hRp : (N2.getD (cur + 1) default).parent = some cur)
    (htc3 : TC N3)
    (hdokL : DOk (actT (cur + 2) N2) (cur + 2))
    (hframe : ∀ m, m < cur + 2 →
      sameShapeU (N3.getD m default) (N2.getD m default) ∨
      ((N2.getD (cur + 2) default).parent = some m ∧
        (((N2.getD m default).left = some (cur + 2) ∧
          sameShapeU (N3.getD m default)
            { N2.getD m default with left := none }) ∨
         ((N2.getD m default).left ≠ some (cur + 2) ∧
          sameShapeU (N3.getD m default)
            { N2.getD m default with right := none })))) :
    DOk (actT (cur + 1) N3) (cur + 1) := by
  -- the popped left child's parent link was cleared
  have hcur3 : sameShapeU (N3.getD cur default)
      { N2.getD cur default with left := none } := by
    rcases hframe cur (by omega) with h | h
    · exfalso
      have hl3 : (N3.getD cur default).left = some (cur + 2) := h.2.2.1.trans hcl2
      obtain ⟨d1, d2, d3⟩ := (htc3.1 cur (cur + 2) (by omega)).1 hl3
      omega
    · rcases h.2 with h2 | h2
      · exact h2.2
      · exact absurd hcl2 h2.1
  have hother : ∀ m, m < cur + 2 → m ≠ cur →
      sameShapeU (N3.getD m default) (N2.getD m default) := by
    intro m hm hmne
    rcases hframe m hm with h | h
    · exact h
    · exfalso
      rw [hparL] at h
      exact hmne (Option.some.inj h.1).symm
  have hR3 : sameShapeU (N3.getD (cur + 1) default) (N2.getD (cur + 1) default) :=
    hother (cur + 1) (by omega) (by omega)
  have hleafR : DescTo (actT (cur + 1) N3) (cur + 1) (cur + 1) := by
    refine DescTo.leaf (by rw [actT_length]; omega) ?_ ?_ ?_
    · rw [actT_getD_self _ _ (by omega)]
    · rw [actT_getD_self _ _ (by omega)]
      exact hR3.2.2.1.trans hRl
    · rw [actT_getD_self _ _ (by omega)]
      exact hR3.2.2.2.1.trans hRr
  have hcurstep : DescTo (actT (cur + 1) N3) (cur + 1) cur := by
    refine DescTo.right (by rw [actT_length]; omega) ?_ ?_ ?_ hleafR
    · rw [actT_getD_other _ _ (by omega)]
      exact hcur3.1.trans hcact
    · rw [actT_getD_other _ _ (by omega)]
      exact hcur3.2.2.1
    · rw [actT_getD_other _ _ (by omega)]
      exact hcur3.2.2.2.1.trans hcr2
  have htrans : ∀ m, DescTo (actT (cur + 2) N2) (cur + 2) m → m < cur + 2 →
      DescTo (actT (cur + 1) N3) (cur + 1) m := by
    intro m hd
    induction hd with
    | leaf h1 h2 h3 h4 =>
      intro hm
      omega
    | right h1 h2 h3 h4 hsub ih =>
      rename_i m2 r2
      intro hm
      have hm2c : m2 ≠ cur := by
        intro hcon
        subst hcon
        rw [actT_getD_other _ _ (by omega), hcl2] at h3
        exact Option.noConfusion h3
      have hm2R : m2 ≠ cur + 1 := by
        intro hcon
        subst hcon
        rw [actT_getD_other _ _ (by omega), hRr] at h4
        exact Option.noConfusion h4
      have hfields : sameShapeU (N3.getD m2 default) (N2.getD m2 default) :=
        hother m2 hm hm2c
      have hN2f : (actT (cur + 2) N2).getD m2 default = N2.getD m2 default :=
        actT_getD_other _ _ (by omega)
      rw [hN2f] at h2 h3 h4
      have hm3 : (N3.getD m2 default).right = some r2 := hfields.2.2.2.1.trans h4
      have hr2lt : r2 < cur + 2 := by
        have := ((htc3.1 m2 r2 (by omega)).2 hm3).1
        omega
      refine DescTo.right (by rw [actT_length]; omega) ?_ ?_ ?_ (ih hr2lt)
      · rw [actT_getD_other _ _ (by omega)]
        exact hfields.1.trans h2
      · rw [actT_getD_other _ _ (by omega)]
        exact hfields.2.2.1.trans h3
      · rw [actT_getD_other _ _ (by omega)]
        exact hm3
    | both h1 h2 h3 h4 h5 h6 hsub ih =>
      rename_i m2 l2 r2
      intro hm
      by_cases hm2c : m2 = cur
      · subst hm2c
        exact hcurstep
      · have hm2R : m2 ≠ cur + 1 := by
          intro hcon
          subst hcon
          rw [actT_getD_other _ _ (by omega), hRl] at h3
          exact Option.noConfusion h3
        have hfields : sameShapeU (N3.getD m2 default) (N2.getD m2 default) :=
          hother m2 hm hm2c
        have hN2f : (actT (cur + 2) N2).getD m2 default = N2.getD m2 default :=
          actT_getD_other _ _ (by omega)
        rw [hN2f] at h2 h3 h4
        have hm3l : (N3.getD m2 default).left = some l2 := hfields.2.2.1.trans h3
        have hm3r : (N3.getD m2 default).right = some r2 := hfields.2.2.2.1.trans h4
        have hl2lt : l2 < cur + 2 := by
          have := ((htc3.1 m2 l2 (by omega)).1 hm3l).1
          omega
        have hr2lt : r2 < cur + 2 := by
          have := ((htc3.1 m2 r2 (by omega)).2 hm3r).1
          omega
        have hr2L : r2 ≠ cur + 2 := by omega
        have hr2N2 : (N2.getD r2 default).is_active = false := by
          rw [actT_getD_other _ _ hr2L] at h6
          exact h6
        have hr2c : r2 ≠ cur := by
          intro hcon
          subst hcon
          rw [hcact] at hr2N2
          exact Bool.noConfusion hr2N2
        have hr2R : r2 ≠ cur + 1 := by
          intro hcon
          subst hcon
          obtain ⟨e1, e2⟩ := (htc3.1 m2 (cur + 1) (by omega)).2 hm3r
          have hp3 : (N3.getD (cur + 1) default).parent = some cur :=
            hR3.2.1.trans hRp
          rw [hp3] at e2
          exact hm2c (Option.some.inj e2).symm
        refine DescTo.both (r := r2) (by rw [actT_length]; omega) ?_ ?_ ?_
          (by rw [actT_length]; omega) ?_ (ih hl2lt)
        · rw [actT_getD_other _ _ (by omega)]
          exact hfields.1.trans h2
        · rw [actT_getD_other _ _ (by omega)]
          exact hm3l
        · rw [actT_getD_other _ _ (by omega)]
          exact hm3r
        · rw [actT_getD_other _ _ hr2R]
          exact (hother r2 (by omega) hr2c).1.trans hr2N2
  intro m hm hact
  rw [actT_length, hlen3] at hm
  by_cases hmR : m = cur + 1
  · subst hmR
    exact hleafR
  · have hact3 : (N3.getD m default).is_active = true := by
      rw [actT_getD_other _ _ hmR] at hact
      exact hact
    have hact2 : (N2.getD m default).is_active = true := by
      by_cases hmc : m = cur
      · subst hmc
        exact hcact
      · exact ((hother m hm hmc).1.symm.trans hact3)
    have hactA : ((actT (cur + 2) N2).getD m default).is_active = true := by
      rw [actT_getD_other _ _ (by omega)]
      exact hact2
    exact htrans m (hdokL m (by rw [actT_length]; omega) hactA) hm

/-! ### The full-split mutual recursion (listener-triggered re-splitting) -/

/-- The invariant carried through the visit of node `c` while its phases
run: coherent bounds, a coherent index, a coherent tree, every active node
descends to `c`, and `c` itself is the active childless leaf. -/
def MInv (re : List FReaction) (c : ℕ) (rs : RecState) : Prop :=
  Coh re rs ∧ IC rs ∧ TC rs.nodes ∧ DOk rs.nodes c ∧
  c < rs.nodes.length ∧ (rs.nodes.getD c default).is_active = true ∧
  (rs.nodes.getD c default).left = none ∧ (rs.nodes.getD c default).right = none

/-- What every loop of the visit guarantees about its output state relative
to its input: the invariant-carrying parts plus frame facts (tree shapes
unchanged, unstable lists of all other nodes unchanged). -/
def MPost (re : List FReaction) (c : ℕ) (rs rsq : RecState) : Prop :=
  Coh re rsq ∧ IC rsq ∧ shapes rsq.nodes = shapes rs.nodes ∧
  (∀ m, m ≠ c → (rsq.nodes.getD m default).unstable_reactions =
    (rs.nodes.getD m default).unstable_reactions)

theorem MPost_refl {re : List FReaction} {c : ℕ} {rs : RecState}
    (h : Coh re rs) (hic : IC rs) : MPost re c rs rs :=
  ⟨h, hic, rfl, fun m hm => rfl⟩

theorem MPost_trans {re : List FReaction} {c : ℕ} {rs1 rs2 rs3 : RecState}
    (h1 : MPost re c rs1 rs2) (h2 : MPost re c rs2 rs3) : MPost re c rs1 rs3 :=
  ⟨h2.1, h2.2.1, h2.2.2.1.trans h1.2.2.1,
   fun m hm => (h2.2.2.2 m hm).trans (h1.2.2.2 m hm)⟩

theorem MInv_of_post {re : List FReaction} {c : ℕ} {rs rsq : RecState}
    (h : MInv re c rs) (hp : MPost re c rs rsq) : MInv re c rsq := by
  obtain ⟨h1, h2, h3, h4, h5, h6, h7, h8⟩ := h
  obtain ⟨p1, p2, p3, p4⟩ := hp
  refine ⟨p1, p2, TC_transport p3.symm h3, DOk_transport p3.symm h4,
    by rw [shapes_length p3]; exact h5, ?_, ?_, ?_⟩
  · rw [← shapes_active p3 c]
    exact h6
  · rw [← shapes_left p3 c]
    exact h7
  · rw [← shapes_right p3 c]
    exact h8

/-- A childless node from which a descent exists is the leaf itself. -/
theorem DescTo_childless {nodes : List RecNode} {c m : ℕ}
    (hd : DescTo nodes c m)
    (hl : (nodes.getD m default).left = none)
    (hr : (nodes.getD m default).right = none) : m = c := by
  cases hd with
  | leaf h1 h2 h3 h4 => rfl
  | right h1 h2 h3 h4 hsub =>
    rw [hr] at h4
    exact Option.noConfusion h4
  | both h1 h2 h3 h4 h5 h6 hsub =>
    rw [hl] at h3
    exact Option.noConfusion h3

theorem set_getD_self {α : Type} (l : List α) (i : ℕ) (b : α)
    (h : l.getD i b = b) : l.set i b = l := by
  induction l generalizing i with
  | nil => rfl
  | cons a t ih =>
    cases i with
    | zero =>
      show b :: t = a :: t
      rw [show b = a from h.symm]
    | succ i =>
      show a :: t.set i b = a :: t
      rw [ih i h]

/-- Both halves of a stable split keep the reaction index. -/
theorem splitR_fields (s : StableReactionData) (reaction : FReaction)
    (rng : RngState) :
    (s.splitR reaction rng).1.1.reaction = s.reaction ∧
    (s.splitR reaction rng).1.2.reaction = s.reaction :=
  ⟨rfl, rfl⟩

/-- `stable_is_stable` only resamples endpoints: reaction and event count of
the returned data are unchanged. -/
theorem stable_is_stableR_fields (re : List FReaction) (rdata : StableReactionData)
    (rs : RecState) :
    (stable_is_stableR re rdata rs).2.1.reaction = rdata.reaction ∧
    (stable_is_stableR re rdata rs).2.1.events = rdata.events := by
  unfold stable_is_stableR
  dsimp only
  constructor
  · split <;> try split
    all_goals dsimp only
    all_goals first
      | rfl
      | exact (sample_lowR_fields _ _ _).1
      | exact (sample_highR_fields _ _ _).1
      | (rw [(sample_highR_fields _ _ _).1]; exact (sample_lowR_fields _ _ _).1)
  · split <;> try split
    all_goals dsimp only
    all_goals first
      | rfl
      | exact (sample_lowR_fields _ _ _).2
      | exact (sample_highR_fields _ _ _).2
      | (rw [(sample_highR_fields _ _ _).2]; exact (sample_lowR_fields _ _ _).2)

theorem mutual_spec (re : List FReaction) (c : ℕ) : ∀ fuel : ℕ,
    (∀ ridx rs rsq, MInv re c rs →
      full_split fuel re ridx rs = some rsq → MPost re c rs rsq) ∧
    (∀ ridx node rdata rs rsq, MInv re c rs → DescTo rs.nodes c node →
      rdata.reaction = ridx →
      full_split_go fuel re ridx node rdata rs = some rsq → MPost re c rs rsq) ∧
    (∀ rdata rs rsq,
      IC rs → TC rs.nodes → DOk rs.nodes c → c < rs.nodes.length →
      (rs.nodes.getD c default).is_active = true →
      (rs.nodes.getD c default).left = none →
      (rs.nodes.getD c default).right = none →
      BOk re rs.state ((rdata.reaction, rdata.events) :: fullTracked rs.nodes) →
      add_unstable_split fuel re c rdata rs = some rsq → MPost re c rs rsq) ∧
    (∀ inputs rs rsq, MInv re c rs →
      dep_inputs_loop fuel re inputs rs = some rsq → MPost re c rs rsq) ∧
    (∀ comp rs rsq, MInv re c rs →
      inactive_pop_loop fuel re comp rs = some rsq → MPost re c rs rsq) := by
  intro fuel
  induction fuel with
  | zero =>
    refine ⟨?_, ?_, ?_, ?_, ?_⟩
    · intro ridx rs rsq hinv h
      unfold full_split at h
      exact Option.noConfusion h
    · intro ridx node rdata rs rsq hinv hdesc hrr h
      unfold full_split_go at h
      exact Option.noConfusion h
    · intro rdata rs rsq h1 h2 h3 h4 h5 h6 h7 h8 h
      unfold add_unstable_split at h
      exact Option.noConfusion h
    · intro inputs rs rsq hinv h
      unfold dep_inputs_loop at h
      exact Option.noConfusion h
    · intro comp rs rsq hinv h
      unfold inactive_pop_loop at h
      exact Option.noConfusion h
  | succ fuel ih =>
    obtain ⟨ihFS, ihGO, ihAU, ihDI, ihIP⟩ := ih
    refine ⟨?_, ?_, ?_, ?_, ?_⟩
    · -- full_split
      intro ridx rs rsq hinv h
      obtain ⟨hcoh, hic, htc, hdok, hclt, hcact, hcln, hcrn⟩ := hinv
      have hh : full_split (fuel + 1) re ridx rs =
          (match remove_stable ridx rs with
          | none => some rs
          | some ((node, rdata), rs2) =>
            full_split_go fuel re ridx node rdata
              { rs2 with state := rs2.state.remove_bounds rdata.events (getReaction re ridx) }) := by
        unfold full_split
        rfl
      rw [hh] at h
      rcases hrem : remove_stable ridx rs with _ | ⟨⟨node, rdata⟩, rs1⟩
      · rw [hrem] at h
        have hq : rs = rsq := by
          simpa using h
        rw [← hq]
        exact MPost_refl hcoh hic
      · rw [hrem] at h
        dsimp only at h
        obtain ⟨q1, q2, q3, q4, q5, q6, q7, q8, q9, q10, q11, q12, q13, q14⟩ :=
          remove_stable_spec hic hrem
        have hb1 : BOk re rs1.state
            (([] : List (ℕ × ℕ)) ++ (ridx, rdata.events) :: fullTracked rs1.nodes) := by
          rw [q5]
          exact BOk_perm q14 hcoh
        have hb2 : BOk re (rs1.state.remove_bounds rdata.events (getReaction re ridx))
            (fullTracked rs1.nodes) := BOk_remove_bounds hb1
        have hinv2 : MInv re c
            { rs1 with state := rs1.state.remove_bounds rdata.events (getReaction re ridx) } := by
          refine ⟨?_, fun r n i hr => q13 r n i hr, TC_transport q4.symm htc,
            DOk_transport q4.symm hdok, ?_, ?_, ?_, ?_⟩
          · exact hb2
          · show c < rs1.nodes.length
            rw [shapes_length q4]
            exact hclt
          · show (rs1.nodes.getD c default).is_active = true
            rw [← shapes_active q4 c]
            exact hcact
          · show (rs1.nodes.getD c default).left = none
            rw [← shapes_left q4 c]
            exact hcln
          · show (rs1.nodes.getD c default).right = none
            rw [← shapes_right q4 c]
            exact hcrn
        have hdesc2 : DescTo ({ rs1 with
            state := rs1.state.remove_bounds rdata.events (getReaction re ridx) } : RecState).nodes
            c node := by
          refine hinv2.2.2.2.1 node ?_ ?_
          · show node < rs1.nodes.length
            rw [shapes_length q4]
            exact q1
          · show (rs1.nodes.getD node default).is_active = true
            rw [← shapes_active q4 node]
            exact q2
        have hpost2 := ihGO ridx node rdata _ rsq hinv2 hdesc2 q3 h
        have hmid : MPost re c rs
            { rs1 with state := rs1.state.remove_bounds rdata.events (getReaction re ridx) } := by
          refine ⟨?_, fun r n i hr => q13 r n i hr, ?_, ?_⟩
          · exact hb2
          · exact q4
          · intro m hm
            show (rs1.nodes.getD m default).unstable_reactions = _
            by_cases hmn : m = node
            · rw [hmn]
              exact q12
            · rw [q11 m hmn]
        exact MPost_trans hmid hpost2
    · -- full_split_go
      intro ridx node rdata rs rsq hinv hdesc hrr h
      obtain ⟨hcoh, hic, htc, hdok, hclt, hcact, hcln, hcrn⟩ := hinv
      set SPL := rdata.splitR (getReaction re ridx) rs.rng with hSPLd
      set RS1 := { rs with state := rs.state.add_bounds rdata.events (getReaction re ridx) }
        with hRS1d
      set res := stable_is_stableR re rdata RS1 with hresd
      set RS2 := { RS1 with rng := res.2.2 } with hRS2d
      set RSR := { { rs with rng := SPL.2, state := rs.state.apply SPL.1.2.events (getReaction re ridx) } with total_events := rs.total_events + SPL.1.1.events }
        with hRSRd
      set RSS := { rs with rng := SPL.2 } with hRSSd
      rcases hL : (rs.nodes.getD node default).left with _ | lft
      · rcases hR : (rs.nodes.getD node default).right with _ | rgt
        · -- the descent has reached the leaf, which must be the visited node
          have hh : full_split_go (fuel + 1) re ridx node rdata rs =
              (if res.1 then some (add_stable re node res.2.1 RS2)
               else add_unstable_split fuel re node res.2.1 RS2) := by
            conv_lhs => unfold full_split_go
            dsimp only
            rw [hL, hR]
            try rfl
          rw [hh] at h
          have hnode : node = c := DescTo_childless hdesc hL hR
          subst hnode
          have hbp : BOk re RS1.state ((ridx, rdata.events) :: fullTracked rs.nodes) :=
            BOk_add_bounds hcoh ridx rdata.events
          have hbadd : BOk re RS2.state
              ((res.2.1.reaction, res.2.1.events) :: fullTracked RS2.nodes) := by
            rw [hresd, (stable_is_stableR_fields re rdata RS1).1,
              (stable_is_stableR_fields re rdata RS1).2, hrr]
            exact hbp
          by_cases hst : res.1 = true
          · rw [if_pos hst] at h
            have hrsq : add_stable re node res.2.1 RS2 = rsq := by
              simpa using h
            obtain ⟨a1, a2, a3, a4, a5, a6, a7, a8, a9, a10, a11⟩ :=
              add_stable_active_spec re res.2.1
                (show (RS2.nodes.getD node default).is_active = true from hcact)
                (show node < RS2.nodes.length from hclt)
                (show IC RS2 from fun r n i hr => hic r n i hr)
            rw [← hrsq]
            refine ⟨?_, a10, a1, fun m hm => congrArg RecNode.unstable_reactions (a8 m hm)⟩
            show BOk re (add_stable re node res.2.1 RS2).state
              (fullTracked (add_stable re node res.2.1 RS2).nodes)
            rw [a2]
            exact BOk_perm a11.symm hbadd
          · rw [if_neg hst] at h
            exact ihAU res.2.1 RS2 rsq (fun r n i hr => hic r n i hr) htc hdok hclt
              hcact hcln hcrn hbadd h
        · -- open to the right only: apply the right half, descend right
          have hh : full_split_go (fuel + 1) re ridx node rdata rs =
              full_split_go fuel re ridx rgt SPL.1.1 RSR := by
            conv_lhs => unfold full_split_go
            dsimp only
            rw [hL, hR]
            try rfl
          rw [hh] at h
          have hsub : DescTo rs.nodes c rgt := by
            cases hdesc with
            | leaf h1 h2 h3 h4 =>
              rw [hR] at h4
              exact Option.noConfusion h4
            | right h1 h2 h3 h4 hsub =>
              rw [hR] at h4
              obtain rfl := Option.some.inj h4
              exact hsub
            | both h1 h2 h3 h4 h5 h6 hsub =>
              rw [hL] at h3
              exact Option.noConfusion h3
          have hinv2 : MInv re c RSR := by
            refine ⟨?_, fun r n i hr => hic r n i hr, htc, hdok, hclt,
              hcact, hcln, hcrn⟩
            exact BOk_apply hcoh _ _
          exact ihGO ridx rgt SPL.1.1 RSR rsq hinv2 hsub
            ((splitR_fields rdata _ rs.rng).1.trans hrr) h
      · rcases hR : (rs.nodes.getD node default).right with _ | rgt
        · have hh : full_split_go (fuel + 1) re ridx node rdata rs = none := by
            conv_lhs => unfold full_split_go
            dsimp only
            rw [hL, hR]
            try rfl
          rw [hh] at h
          exact Option.noConfusion h
        · -- open node: park the right half in the inactive right child, go left
          have hh : full_split_go (fuel + 1) re ridx node rdata rs =
              full_split_go fuel re ridx lft SPL.1.1
                (add_stable re rgt SPL.1.2 RSS) := by
            conv_lhs => unfold full_split_go
            dsimp only
            rw [hL, hR]
            try rfl
          rw [hh] at h
          have hinvert : (rs.nodes.getD rgt default).is_active = false ∧
              rgt < rs.nodes.length ∧ DescTo rs.nodes c lft := by
            cases hdesc with
            | leaf h1 h2 h3 h4 =>
              rw [hL] at h3
              exact Option.noConfusion h3
            | right h1 h2 h3 h4 hsub =>
              rw [hL] at h3
              exact Option.noConfusion h3
            | both h1 h2 h3 h4 h5 h6 hsub =>
              rw [hL] at h3
              rw [hR] at h4
              obtain rfl := Option.some.inj h3
              obtain rfl := Option.some.inj h4
              exact ⟨h6, h5, hsub⟩
          obtain ⟨hin, hrlt, hsub⟩ := hinvert
          obtain ⟨b1, b2, b3, b4, b5, b6, b7, b8, b9, b10, b11, b12⟩ :=
            add_stable_inactive_spec re SPL.1.2
              (show ((RSS : RecState).nodes.getD rgt default).is_active = false from hin)
              (show IC RSS from fun r n i hr => hic r n i hr)
          have hcoh2 : Coh re (add_stable re rgt SPL.1.2 RSS) := by
            show BOk re (add_stable re rgt SPL.1.2 RSS).state
              (fullTracked (add_stable re rgt SPL.1.2 RSS).nodes)
            rw [b2, b12]
            exact hcoh
          have hinv2 : MInv re c (add_stable re rgt SPL.1.2 RSS) := by
            refine ⟨hcoh2, b11, TC_transport b1.symm htc, DOk_transport b1.symm hdok,
              ?_, ?_, ?_, ?_⟩
            · show c < (add_stable re rgt SPL.1.2 RSS).nodes.length
              rw [shapes_length b1]
              exact hclt
            · rw [← shapes_active b1 c]
              exact hcact
            · rw [← shapes_left b1 c]
              exact hcln
            · rw [← shapes_right b1 c]
              exact hcrn
          have hdesc2 : DescTo (add_stable re rgt SPL.1.2 RSS).nodes c lft :=
            DescTo_transport b1.symm hsub
          have hpost := ihGO ridx lft SPL.1.1 (add_stable re rgt SPL.1.2 RSS) rsq
            hinv2 hdesc2 ((splitR_fields rdata _ rs.rng).1.trans hrr) h
          refine MPost_trans ⟨hcoh2, b11, b1, ?_⟩ hpost
          intro m hm
          exact b10 m
    · -- add_unstable_split
      intro rdata rs rsq hic htc hdok hclt hcact hcln hcrn hbok h
      set dst := (rdata.destabilizeR (getReaction re rdata.reaction) rs.rng) with hdstd
      set RS1 := { rs with rng := dst.2 } with hRS1d
      set RS2 := RS1.setNode c (fun nd =>
        { nd with unstable_reactions := nd.unstable_reactions ++ [dst.1] }) with hRS2d
      set RS3 := { RS2 with
        upper_last_listener := RS2.upper_last_listener.set rdata.reaction NO_LISTENER
        lower_last_listener := RS2.lower_last_listener.set rdata.reaction NO_LISTENER
        unstable_dependents := add_unstable_deps RS2.unstable_dependents (getReaction re rdata.reaction)
        stored_stable := RS2.stored_stable.set rdata.reaction false } with hRS3d
      have hh : add_unstable_split (fuel + 1) re c rdata rs =
          dep_inputs_loop fuel re (getReaction re rdata.reaction).inputs RS3 := by
        unfold add_unstable_split
        rfl
      rw [hh] at h
      have hn2 : RS2.nodes = modifyIdx rs.nodes c (fun nd =>
          { nd with unstable_reactions := nd.unstable_reactions ++ [dst.1] }) := rfl
      have hsh2 : shapes RS2.nodes = shapes rs.nodes := by
        rw [hn2]
        exact shapes_modifyIdx c (fun nd => rfl)
      have hcoh3 : Coh re RS3 := by
        show BOk re RS2.state (fullTracked RS2.nodes)
        rw [hn2, fullTracked_modifyIdx rs.nodes c _ hclt]
        rw [nodeTracked_active (show ({ rs.nodes.getD c default with
          unstable_reactions := (rs.nodes.getD c default).unstable_reactions ++ [dst.1] } : RecNode).is_active = true from hcact)]
        have hun : nodeUnstableTracked { rs.nodes.getD c default with
            unstable_reactions := (rs.nodes.getD c default).unstable_reactions ++ [dst.1] } =
            nodeUnstableTracked (rs.nodes.getD c default) ++
              [(rdata.reaction, rdata.events)] := by
          show ((rs.nodes.getD c default).unstable_reactions ++ [dst.1]).map _ = _
          rw [List.map_append]
          rw [show ([dst.1] : List ReactionData).map (fun d => (d.reaction, d.events)) =
            [(dst.1.reaction, dst.1.events)] from rfl]
          rw [hdstd, (destabilizeR_fields rdata _ rs.rng).1,
            (destabilizeR_fields rdata _ rs.rng).2]
          rfl
        rw [hun]
        rw [show nodeStableTracked { rs.nodes.getD c default with
          unstable_reactions := (rs.nodes.getD c default).unstable_reactions ++ [dst.1] } =
          nodeStableTracked (rs.nodes.getD c default) from rfl]
        have hbsrc : BOk re rs.state ((rdata.reaction, rdata.events) ::
            (fullTracked (rs.nodes.take c) ++
              ((nodeStableTracked (rs.nodes.getD c default) ++
                nodeUnstableTracked (rs.nodes.getD c default)) ++
                fullTracked (rs.nodes.drop (c + 1))))) := by
          rw [← nodeTracked_active hcact, ← fullTracked_decomp rs.nodes c hclt]
          exact hbok
        refine BOk_perm ?_ hbsrc
        rw [List.perm_iff_count]
        intro a
        simp [List.count_append, List.count_cons]
        omega
      have hic3 : IC RS3 := by
        intro r n i hr
        obtain ⟨g1, g2, g3, g4⟩ := hic r n i hr
        show n < RS2.nodes.length ∧ _
        rw [hn2, modifyIdx_length]
        refine ⟨g1, ?_, ?_, ?_⟩
        · rw [modifyIdx_getD]
          by_cases hnc : n = c ∧ c < rs.nodes.length
          · rw [if_pos hnc]
            exact g2
          · rw [if_neg hnc]
            exact g2
        · rw [modifyIdx_getD]
          by_cases hnc : n = c ∧ c < rs.nodes.length
          · rw [if_pos hnc]
            exact g3
          · rw [if_neg hnc]
            exact g3
        · rw [modifyIdx_getD]
          by_cases hnc : n = c ∧ c < rs.nodes.length
          · rw [if_pos hnc]
            exact g4
          · rw [if_neg hnc]
            exact g4
      have hinv3 : MInv re c RS3 := by
        refine ⟨hcoh3, hic3, TC_transport hsh2.symm htc, DOk_transport hsh2.symm hdok,
          ?_, ?_, ?_, ?_⟩
        · show c < RS2.nodes.length
          rw [shapes_length hsh2]
          exact hclt
        · show (RS2.nodes.getD c default).is_active = true
          rw [← shapes_active hsh2 c]
          exact hcact
        · show (RS2.nodes.getD c default).left = none
          rw [← shapes_left hsh2 c]
          exact hcln
        · show (RS2.nodes.getD c default).right = none
          rw [← shapes_right hsh2 c]
          exact hcrn
      have hpost := ihDI (getReaction re rdata.reaction).inputs RS3 rsq hinv3 h
      refine MPost_trans ⟨hcoh3, hic3, hsh2, ?_⟩ hpost
      intro m hm
      show ((RS2.nodes).getD m default).unstable_reactions = _
      rw [hn2, modifyIdx_getD, if_neg (fun hcon => hm hcon.1)]
    · -- dep_inputs_loop
      intro inputs rs rsq hinv h
      rcases inputs with _ | ⟨inp, rest⟩
      · have hh : dep_inputs_loop (fuel + 1) re ([] : List Input) rs = some rs := by
          conv_lhs => unfold dep_inputs_loop
        rw [hh] at h
        have hq : rs = rsq := by
          simpa using h
        rw [← hq]
        exact MPost_refl hinv.1 hinv.2.1
      · have hh : dep_inputs_loop (fuel + 1) re (inp :: rest) rs =
            (if rs.unstable_dependents.getD inp.index 0 = 1 then
              match inactive_pop_loop fuel re inp.index rs with
              | none => none
              | some rs2 => dep_inputs_loop fuel re rest rs2
            else dep_inputs_loop fuel re rest rs) := by
          conv_lhs => unfold dep_inputs_loop
        rw [hh] at h
        by_cases hdep : rs.unstable_dependents.getD inp.index 0 = 1
        · rw [if_pos hdep] at h
          rcases hip : inactive_pop_loop fuel re inp.index rs with _ | rs2
          · rw [hip] at h
            exact Option.noConfusion h
          · rw [hip] at h
            have hp1 := ihIP inp.index rs rs2 hinv hip
            exact MPost_trans hp1 (ihDI rest rs2 rsq (MInv_of_post hinv hp1) h)
        · rw [if_neg hdep] at h
          exact ihDI rest rs rsq hinv h
    · -- inactive_pop_loop
      intro comp rs rsq hinv h
      set RSX := { rs with inactive_by_component := rs.inactive_by_component.set comp (rs.inactive_by_component.getD comp []).dropLast }
        with hRSXd
      rcases hlast : (rs.inactive_by_component.getD comp []).getLast? with _ | ridx
      · have hh : inactive_pop_loop (fuel + 1) re comp rs = some rs := by
          conv_lhs => unfold inactive_pop_loop
          dsimp only
          rw [hlast]
          try rfl
        rw [hh] at h
        have hq : rs = rsq := by
          simpa using h
        rw [← hq]
        exact MPost_refl hinv.1 hinv.2.1
      · have hh : inactive_pop_loop (fuel + 1) re comp rs =
            (match full_split fuel re ridx RSX with
            | none => none
            | some rs2 => inactive_pop_loop fuel re comp rs2) := by
          conv_lhs => unfold inactive_pop_loop
          dsimp only
          rw [hlast]
          try rfl
        rw [hh] at h
        rcases hfs : full_split fuel re ridx RSX with _ | rs2
        · rw [hfs] at h
          exact Option.noConfusion h
        · rw [hfs] at h
          have hinvx : MInv re c RSX := hinv
          have hp1 := ihFS ridx RSX rs2 hinvx hfs
          have hp1x : MPost re c rs rs2 := hp1
          exact MPost_trans hp1x (ihIP comp rs2 rsq (MInv_of_post hinv hp1x) h)

/-! ### The reactivation loops (listener processing) -/

theorem map_entry_set (l : List StableReactionData) (i : ℕ) (d2 : StableReactionData)
    (hi : i < l.length) (hr : d2.reaction = (l.getD i default).reaction)
    (he : d2.events = (l.getD i default).events) :
    (l.set i d2).map (fun d => (d.reaction, d.events)) =
      l.map (fun d => (d.reaction, d.events)) := by
  induction l generalizing i with
  | nil => rfl
  | cons a t ih =>
    cases i with
    | zero =>
      show (d2.reaction, d2.events) :: _ = (a.reaction, a.events) :: _
      rw [hr, he]
      rfl
    | succ i =>
      show (a.reaction, a.events) :: (t.set i d2).map _ =
        (a.reaction, a.events) :: t.map _
      rw [ih i (by simpa using hi) hr he]

theorem fullTracked_set_entry (nodes : List RecNode) (n i : ℕ) (d2 : StableReactionData)
    (hn : n < nodes.length)
    (hi : i < (nodes.getD n default).stable_reactions.length)
    (hr : d2.reaction = ((nodes.getD n default).stable_reactions.getD i default).reaction)
    (he : d2.events = ((nodes.getD n default).stable_reactions.getD i default).events) :
    fullTracked (modifyIdx nodes n (fun nd =>
      { nd with stable_reactions := nd.stable_reactions.set i d2 })) =
      fullTracked nodes := by
  rw [fullTracked_modifyIdx nodes n _ hn, fullTracked_decomp nodes n hn]
  have hsame : nodeTracked { nodes.getD n default with
      stable_reactions := (nodes.getD n default).stable_reactions.set i d2 } =
      nodeTracked (nodes.getD n default) := by
    unfold nodeTracked
    by_cases ha : (nodes.getD n default).is_active = true
    · rw [if_pos ha, if_pos ha]
      rw [show nodeStableTracked { nodes.getD n default with
        stable_reactions := (nodes.getD n default).stable_reactions.set i d2 } =
        ((nodes.getD n default).stable_reactions.set i d2).map
          (fun d => (d.reaction, d.events)) from rfl]
      rw [map_entry_set _ i d2 hi hr he]
      rfl
    · rw [if_neg ha, if_neg ha]
  rw [hsame]

theorem MInv_of_listenerFrame {re : List FReaction} {c : ℕ} {a b : RecState}
    (hf : listenerFrame a b) (h : MInv re c b) : MInv re c a := by
  obtain ⟨f1, f2, f3, f4, f5, f6, f7, f8⟩ := hf
  obtain ⟨h1, h2, h3, h4, h5, h6, h7, h8⟩ := h
  refine ⟨?_, ?_, ?_, ?_, ?_, ?_, ?_, ?_⟩
  · show BOk re a.state (fullTracked a.nodes)
    rw [f1, f3]
    exact h1
  · intro r n i hr
    rw [f2] at hr
    rw [f1]
    exact h2 r n i hr
  · rw [f1]
    exact h3
  · rw [f1]
    exact h4
  · rw [f1]
    exact h5
  · rw [f1]
    exact h6
  · rw [f1]
    exact h7
  · rw [f1]
    exact h8

theorem MPost_of_listenerFrame {re : List FReaction} {c : ℕ} {rs a rsq : RecState}
    (hf : listenerFrame a rs) (h : MPost re c a rsq) : MPost re c rs rsq := by
  refine ⟨h.1, h.2.1, h.2.2.1.trans (by rw [hf.1]), ?_⟩
  intro m hm
  rw [h.2.2.2 m hm, hf.1]

theorem MPost_of_listenerFrame_pre {re : List FReaction} {c : ℕ} {rs a : RecState}
    (hf : listenerFrame a rs) (h : MInv re c a) : MPost re c rs a := by
  refine ⟨h.1, h.2.1, by rw [hf.1], ?_⟩
  intro m hm
  rw [hf.1]

theorem reactivate_upper_spec (re : List FReaction) (c : ℕ) : ∀ fuel comp rs rsq,
    MInv re c rs → reactivate_upper_loop fuel re comp rs = some rsq →
    MPost re c rs rsq := by
  intro fuel
  induction fuel with
  | zero =>
    intro comp rs rsq hinv h
    unfold reactivate_upper_loop at h
    exact Option.noConfusion h
  | succ fuel ih =>
    intro comp rs rsq hinv h
    rcases hpop : listener_pop_if_smaller_than (rs.upper_listeners.getD comp [])
        ((rs.state.getC comp).upper) with _ | ⟨data, h2⟩
    · have hh : reactivate_upper_loop (fuel + 1) re comp rs = some rs := by
        conv_lhs => unfold reactivate_upper_loop
        dsimp only
        rw [hpop]
      rw [hh] at h
      have hq : rs = rsq := by
        simpa using h
      rw [← hq]
      exact MPost_refl hinv.1 hinv.2.1
    · set RS1 := { rs with upper_listeners := rs.upper_listeners.set comp h2 } with hRS1d
      have hfr1 : listenerFrame RS1 rs := ⟨rfl, rfl, rfl, rfl, rfl, rfl, rfl, rfl⟩
      have hinv1 : MInv re c RS1 := MInv_of_listenerFrame hfr1 hinv
      rcases hsi : rs.stable_index.getD data.1 none with _ | ⟨node_idx, vec_idx⟩
      · have hh : reactivate_upper_loop (fuel + 1) re comp rs =
            reactivate_upper_loop fuel re comp RS1 := by
          conv_lhs => unfold reactivate_upper_loop
          dsimp only
          rw [hpop]
          dsimp only
          rw [hsi]
        rw [hh] at h
        exact MPost_of_listenerFrame hfr1 (ih comp RS1 rsq hinv1 h)
      · obtain ⟨g1, g2, g3, g4⟩ := hinv.2.1 data.1 node_idx vec_idx hsi
        by_cases hstale : rs.nodes.length ≤ data.2.1 ∨
            data.2.2 ≠ (rs.nodes.getD data.2.1 default).id
        · have hh : reactivate_upper_loop (fuel + 1) re comp rs =
              reactivate_upper_loop fuel re comp RS1 := by
            conv_lhs => unfold reactivate_upper_loop
            dsimp only
            rw [hpop]
            dsimp only
            rw [hsi]
            dsimp only
            rw [if_pos hstale]
          rw [hh] at h
          exact MPost_of_listenerFrame hfr1 (ih comp RS1 rsq hinv1 h)
        · by_cases hhigh : rs.state.upper_product (getReaction re data.1) <
              ((rs.nodes.getD node_idx default).stable_reactions.getD vec_idx default).high
          · have hh : reactivate_upper_loop (fuel + 1) re comp rs =
                reactivate_upper_loop fuel re comp
                  (add_positive_listeners re
                    ((rs.nodes.getD node_idx default).stable_reactions.getD vec_idx default)
                    node_idx
                    { RS1 with upper_last_listener :=
                      RS1.upper_last_listener.set data.1 NO_LISTENER }) := by
              conv_lhs => unfold reactivate_upper_loop
              dsimp only
              rw [hpop]
              dsimp only
              rw [hsi]
              dsimp only
              rw [if_neg hstale, if_pos hhigh]
            rw [hh] at h
            have hfr2 : listenerFrame (add_positive_listeners re
                ((rs.nodes.getD node_idx default).stable_reactions.getD vec_idx default)
                node_idx
                { RS1 with upper_last_listener :=
                  RS1.upper_last_listener.set data.1 NO_LISTENER }) rs :=
              listenerFrame_trans (add_positive_listeners_frame re _ node_idx _)
                ⟨rfl, rfl, rfl, rfl, rfl, rfl, rfl, rfl⟩
            exact MPost_of_listenerFrame hfr2
              (ih comp _ rsq (MInv_of_listenerFrame hfr2 hinv) h)
          · set res := ((rs.nodes.getD node_idx default).stable_reactions.getD
              vec_idx default).sample_highR (getReaction re data.1) rs.rng with hresd
            set RS5 := ({ RS1 with rng := res.2.2 }).setNode node_idx (fun nd =>
              { nd with stable_reactions := nd.stable_reactions.set vec_idx res.1 })
              with hRS5d
            have hn5 : RS5.nodes = modifyIdx rs.nodes node_idx (fun nd =>
                { nd with stable_reactions := nd.stable_reactions.set vec_idx res.1 }) :=
              rfl
            have hsh5 : shapes RS5.nodes = shapes rs.nodes := by
              rw [hn5]
              exact shapes_modifyIdx node_idx (fun nd => rfl)
            have hcoh5 : Coh re RS5 := by
              show BOk re RS5.state (fullTracked RS5.nodes)
              rw [hn5, fullTracked_set_entry rs.nodes node_idx vec_idx res.1 g1 g3
                (sample_highR_fields _ _ _).1 (sample_highR_fields _ _ _).2]
              exact hinv.1
            have hic5 : IC RS5 := by
              intro r n i hr
              obtain ⟨w1, w2, w3, w4⟩ := hinv.2.1 r n i hr
              show n < RS5.nodes.length ∧ _
              rw [hn5, modifyIdx_length]
              refine ⟨w1, ?_⟩
              rw [modifyIdx_getD]
              by_cases hnc : n = node_idx ∧ node_idx < rs.nodes.length
              · rw [if_pos hnc]
                refine ⟨w2, ?_, ?_⟩
                · show i < ((rs.nodes.getD n default).stable_reactions.set
                    vec_idx res.1).length
                  rw [List.length_set]
                  exact w3
                · show (((rs.nodes.getD n default).stable_reactions.set
                    vec_idx res.1).getD i default).reaction = r
                  rw [getD_set]
                  by_cases hiv : i = vec_idx ∧ vec_idx <
                      (rs.nodes.getD n default).stable_reactions.length
                  · rw [if_pos hiv]
                    rw [(sample_highR_fields _ _ _).1]
                    rw [hnc.1, hiv.1] at w4
                    exact w4
                  · rw [if_neg hiv]
                    exact w4
              · rw [if_neg hnc]
                exact ⟨w2, w3, w4⟩
            have hinv5 : MInv re c RS5 := by
              refine ⟨hcoh5, hic5, TC_transport hsh5.symm hinv.2.2.1,
                DOk_transport hsh5.symm hinv.2.2.2.1, ?_, ?_, ?_, ?_⟩
              · rw [shapes_length hsh5]
                exact hinv.2.2.2.2.1
              · rw [← shapes_active hsh5 c]
                exact hinv.2.2.2.2.2.1
              · rw [← shapes_left hsh5 c]
                exact hinv.2.2.2.2.2.2.1
              · rw [← shapes_right hsh5 c]
                exact hinv.2.2.2.2.2.2.2
            have hpost5 : MPost re c rs RS5 := by
              refine ⟨hcoh5, hic5, hsh5, ?_⟩
              intro m hm
              rw [hn5, modifyIdx_getD]
              by_cases hnc : m = node_idx ∧ node_idx < rs.nodes.length
              · rw [if_pos hnc]
              · rw [if_neg hnc]
            by_cases hnu : rs.state.upper_product (getReaction re data.1) < res.2.1
            · have hh : reactivate_upper_loop (fuel + 1) re comp rs =
                  reactivate_upper_loop fuel re comp
                    (add_positive_listeners re res.1 node_idx
                      { RS5 with upper_last_listener :=
                        RS5.upper_last_listener.set data.1 NO_LISTENER }) := by
                conv_lhs => unfold reactivate_upper_loop
                dsimp only
                rw [hpop]
                dsimp only
                rw [hsi]
                dsimp only
                rw [if_neg hstale, if_neg hhigh, if_pos hnu]
              rw [hh] at h
              have hfr2 : listenerFrame (add_positive_listeners re res.1 node_idx
                  { RS5 with upper_last_listener :=
                    RS5.upper_last_listener.set data.1 NO_LISTENER }) RS5 :=
                listenerFrame_trans (add_positive_listeners_frame re _ node_idx _)
                  ⟨rfl, rfl, rfl, rfl, rfl, rfl, rfl, rfl⟩
              exact MPost_trans hpost5 (MPost_of_listenerFrame hfr2
                (ih comp _ rsq (MInv_of_listenerFrame hfr2 hinv5) h))
            · rcases hfs : full_split fuel re data.1
                  { RS5 with
                    upper_last_listener := RS5.upper_last_listener.set data.1 NO_LISTENER
                    lower_last_listener := RS5.lower_last_listener.set data.1 NO_LISTENER }
                  with _ | rs9
              · have hh : reactivate_upper_loop (fuel + 1) re comp rs = none := by
                  conv_lhs => unfold reactivate_upper_loop
                  dsimp only
                  rw [hpop]
                  dsimp only
                  rw [hsi]
                  dsimp only
                  rw [if_neg hstale, if_neg hhigh, if_neg hnu]
                  rw [hfs]
                rw [hh] at h
                exact Option.noConfusion h
              · have hh : reactivate_upper_loop (fuel + 1) re comp rs =
                    reactivate_upper_loop fuel re comp rs9 := by
                  conv_lhs => unfold reactivate_upper_loop
                  dsimp only
                  rw [hpop]
                  dsimp only
                  rw [hsi]
                  dsimp only
                  rw [if_neg hstale, if_neg hhigh, if_neg hnu]
                  rw [hfs]
                rw [hh] at h
                have hfr8 : listenerFrame { RS5 with
                    upper_last_listener := RS5.upper_last_listener.set data.1 NO_LISTENER
                    lower_last_listener := RS5.lower_last_listener.set data.1 NO_LISTENER }
                    RS5 := ⟨rfl, rfl, rfl, rfl, rfl, rfl, rfl, rfl⟩
                have hinv8 := MInv_of_listenerFrame hfr8 hinv5
                have hp8 := (mutual_spec re c fuel).1 data.1 _ rs9 hinv8 hfs
                have hp9 := ih comp rs9 rsq (MInv_of_post hinv8 hp8) h
                exact MPost_trans hpost5 (MPost_trans
                  (MPost_of_listenerFrame_pre hfr8 hinv8)
                  (MPost_trans hp8 hp9))

theorem reactivate_lower_spec (re : List FReaction) (c : ℕ) : ∀ fuel comp rs rsq,
    MInv re c rs → reactivate_lower_loop fuel re comp rs = some rsq →
    MPost re c rs rsq := by
  intro fuel
  induction fuel with
  | zero =>
    intro comp rs rsq hinv h
    unfold reactivate_lower_loop at h
    exact Option.noConfusion h
  | succ fuel ih =>
    intro comp rs rsq hinv h
    rcases hpop : listener_pop_if_larger_than (rs.lower_listeners.getD comp [])
        ((rs.state.getC comp).lower) with _ | ⟨data, h2⟩
    · have hh : reactivate_lower_loop (fuel + 1) re comp rs = some rs := by
        conv_lhs => unfold reactivate_lower_loop
        dsimp only
        rw [hpop]
      rw [hh] at h
      have hq : rs = rsq := by
        simpa using h
      rw [← hq]
      exact MPost_refl hinv.1 hinv.2.1
    · set RS1 := { rs with lower_listeners := rs.lower_listeners.set comp h2 } with hRS1d
      have hfr1 : listenerFrame RS1 rs := ⟨rfl, rfl, rfl, rfl, rfl, rfl, rfl, rfl⟩
      have hinv1 : MInv re c RS1 := MInv_of_listenerFrame hfr1 hinv
      rcases hsi : rs.stable_index.getD data.1 none with _ | ⟨node_idx, vec_idx⟩
      · have hh : reactivate_lower_loop (fuel + 1) re comp rs =
            reactivate_lower_loop fuel re comp RS1 := by
          conv_lhs => unfold reactivate_lower_loop
          dsimp only
          rw [hpop]
          dsimp only
          rw [hsi]
        rw [hh] at h
        exact MPost_of_listenerFrame hfr1 (ih comp RS1 rsq hinv1 h)
      · obtain ⟨g1, g2, g3, g4⟩ := hinv.2.1 data.1 node_idx vec_idx hsi
        by_cases hstale : rs.nodes.length ≤ data.2.1 ∨
            data.2.2 ≠ (rs.nodes.getD data.2.1 default).id
        · have hh : reactivate_lower_loop (fuel + 1) re comp rs =
              reactivate_lower_loop fuel re comp RS1 := by
            conv_lhs => unfold reactivate_lower_loop
            dsimp only
            rw [hpop]
            dsimp only
            rw [hsi]
            dsimp only
            rw [if_pos hstale]
          rw [hh] at h
          exact MPost_of_listenerFrame hfr1 (ih comp RS1 rsq hinv1 h)
        · by_cases hlow :
              ((rs.nodes.getD node_idx default).stable_reactions.getD vec_idx default).low ≤
              rs.state.lower_product (getReaction re data.1)
                ((rs.nodes.getD node_idx default).stable_reactions.getD
                  vec_idx default).has_events
          · have hh : reactivate_lower_loop (fuel + 1) re comp rs =
                reactivate_lower_loop fuel re comp
                  (add_negative_listeners re
                    ((rs.nodes.getD node_idx default).stable_reactions.getD vec_idx default)
                    node_idx
                    { RS1 with lower_last_listener :=
                      RS1.lower_last_listener.set data.1 NO_LISTENER }) := by
              conv_lhs => unfold reactivate_lower_loop
              dsimp only
              rw [hpop]
              dsimp only
              rw [hsi]
              dsimp only
              rw [if_neg hstale, if_pos hlow]
            rw [hh] at h
            have hfr2 : listenerFrame (add_negative_listeners re
                ((rs.nodes.getD node_idx default).stable_reactions.getD vec_idx default)
                node_idx
                { RS1 with lower_last_listener :=
                  RS1.lower_last_listener.set data.1 NO_LISTENER }) rs :=
              listenerFrame_trans (add_negative_listeners_frame re _ node_idx _)
                ⟨rfl, rfl, rfl, rfl, rfl, rfl, rfl, rfl⟩
            exact MPost_of_listenerFrame hfr2
              (ih comp _ rsq (MInv_of_listenerFrame hfr2 hinv) h)
          · set res := ((rs.nodes.getD node_idx default).stable_reactions.getD
              vec_idx default).sample_lowR (getReaction re data.1) rs.rng with hresd
            set RS5 := ({ RS1 with rng := res.2.2 }).setNode node_idx (fun nd =>
              { nd with stable_reactions := nd.stable_reactions.set vec_idx res.1 })
              with hRS5d
            have hn5 : RS5.nodes = modifyIdx rs.nodes node_idx (fun nd =>
                { nd with stable_reactions := nd.stable_reactions.set vec_idx res.1 }) :=
              rfl
            have hsh5 : shapes RS5.nodes = shapes rs.nodes := by
              rw [hn5]
              exact shapes_modifyIdx node_idx (fun nd => rfl)
            have hcoh5 : Coh re RS5 := by
              show BOk re RS5.state (fullTracked RS5.nodes)
              rw [hn5, fullTracked_set_entry rs.nodes node_idx vec_idx res.1 g1 g3
                (sample_lowR_fields _ _ _).1 (sample_lowR_fields _ _ _).2]
              exact hinv.1
            have hic5 : IC RS5 := by
              intro r n i hr
              obtain ⟨w1, w2, w3, w4⟩ := hinv.2.1 r n i hr
              show n < RS5.nodes.length ∧ _
              rw [hn5, modifyIdx_length]
              refine ⟨w1, ?_⟩
              rw [modifyIdx_getD]
              by_cases hnc : n = node_idx ∧ node_idx < rs.nodes.length
              · rw [if_pos hnc]
                refine ⟨w2, ?_, ?_⟩
                · show i < ((rs.nodes.getD n default).stable_reactions.set
                    vec_idx res.1).length
                  rw [List.length_set]
                  exact w3
                · show (((rs.nodes.getD n default).stable_reactions.set
                    vec_idx res.1).getD i default).reaction = r
                  rw [getD_set]
                  by_cases hiv : i = vec_idx ∧ vec_idx <
                      (rs.nodes.getD n default).stable_reactions.length
                  · rw [if_pos hiv]
                    rw [(sample_lowR_fields _ _ _).1]
                    rw [hnc.1, hiv.1] at w4
                    exact w4
                  · rw [if_neg hiv]
                    exact w4
              · rw [if_neg hnc]
                exact ⟨w2, w3, w4⟩
            have hinv5 : MInv re c RS5 := by
              refine ⟨hcoh5, hic5, TC_transport hsh5.symm hinv.2.2.1,
                DOk_transport hsh5.symm hinv.2.2.2.1, ?_, ?_, ?_, ?_⟩
              · rw [shapes_length hsh5]
                exact hinv.2.2.2.2.1
              · rw [← shapes_active hsh5 c]
                exact hinv.2.2.2.2.2.1
              · rw [← shapes_left hsh5 c]
                exact hinv.2.2.2.2.2.2.1
              · rw [← shapes_right hsh5 c]
                exact hinv.2.2.2.2.2.2.2
            have hpost5 : MPost re c rs RS5 := by
              refine ⟨hcoh5, hic5, hsh5, ?_⟩
              intro m hm
              rw [hn5, modifyIdx_getD]
              by_cases hnc : m = node_idx ∧ node_idx < rs.nodes.length
              · rw [if_pos hnc]
              · rw [if_neg hnc]
            by_cases hnu : res.2.1 ≤ rs.state.lower_product (getReaction re data.1)
                ((rs.nodes.getD node_idx default).stable_reactions.getD
                  vec_idx default).has_events
            · have hh : reactivate_lower_loop (fuel + 1) re comp rs =
                  reactivate_lower_loop fuel re comp
                    (add_negative_listeners re res.1 node_idx
                      { RS5 with lower_last_listener :=
                        RS5.lower_last_listener.set data.1 NO_LISTENER }) := by
                conv_lhs => unfold reactivate_lower_loop
                dsimp only
                rw [hpop]
                dsimp only
                rw [hsi]
                dsimp only
                rw [if_neg hstale, if_neg hlow, if_pos hnu]
              rw [hh] at h
              have hfr2 : listenerFrame (add_negative_listeners re res.1 node_idx
                  { RS5 with lower_last_listener :=
                    RS5.lower_last_listener.set data.1 NO_LISTENER }) RS5 :=
                listenerFrame_trans (add_negative_listeners_frame re _ node_idx _)
                  ⟨rfl, rfl, rfl, rfl, rfl, rfl, rfl, rfl⟩
              exact MPost_trans hpost5 (MPost_of_listenerFrame hfr2
                (ih comp _ rsq (MInv_of_listenerFrame hfr2 hinv5) h))
            · rcases hfs : full_split fuel re data.1
                  { RS5 with
                    lower_last_listener := RS5.lower_last_listener.set data.1 NO_LISTENER
                    upper_last_listener := RS5.upper_last_listener.set data.1 NO_LISTENER }
                  with _ | rs9
              · have hh : reactivate_lower_loop (fuel + 1) re comp rs = none := by
                  conv_lhs => unfold reactivate_lower_loop
                  dsimp only
                  rw [hpop]
                  dsimp only
                  rw [hsi]
                  dsimp only
                  rw [if_neg hstale, if_neg hlow, if_neg hnu]
                  rw [hfs]
                rw [hh] at h
                exact Option.noConfusion h
              · have hh : reactivate_lower_loop (fuel + 1) re comp rs =
                    reactivate_lower_loop fuel re comp rs9 := by
                  conv_lhs => unfold reactivate_lower_loop
                  dsimp only
                  rw [hpop]
                  dsimp only
                  rw [hsi]
                  dsimp only
                  rw [if_neg hstale, if_neg hlow, if_neg hnu]
                  rw [hfs]
                rw [hh] at h
                have hfr8 : listenerFrame { RS5 with
                    lower_last_listener := RS5.lower_last_listener.set data.1 NO_LISTENER
                    upper_last_listener := RS5.upper_last_listener.set data.1 NO_LISTENER }
                    RS5 := ⟨rfl, rfl, rfl, rfl, rfl, rfl, rfl, rfl⟩
                have hinv8 := MInv_of_listenerFrame hfr8 hinv5
                have hp8 := (mutual_spec re c fuel).1 data.1 _ rs9 hinv8 hfs
                have hp9 := ih comp rs9 rsq (MInv_of_post hinv8 hp8) h
                exact MPost_trans hpost5 (MPost_trans
                  (MPost_of_listenerFrame_pre hfr8 hinv8)
                  (MPost_trans hp8 hp9))

theorem reactivate_component_spec (re : List FReaction) (c : ℕ) (fuel comp : ℕ)
    (rs rsq : RecState) (hinv : MInv re c rs)
    (h : reactivate_component fuel re comp rs = some rsq) : MPost re c rs rsq := by
  unfold reactivate_component at h
  rcases hup : reactivate_upper_loop fuel re comp rs with _ | rs2
  · rw [hup] at h
    exact Option.noConfusion h
  · rw [hup] at h
    have hp1 := reactivate_upper_spec re c fuel comp rs rs2 hinv hup
    exact MPost_trans hp1
      (reactivate_lower_spec re c fuel comp rs2 rsq (MInv_of_post hinv hp1) h)

theorem reactivate_comps_spec (re : List FReaction) (c : ℕ) : ∀ fuel comps rs rsq,
    MInv re c rs → reactivate_comps_loop fuel re comps rs = some rsq →
    MPost re c rs rsq := by
  intro fuel
  induction fuel with
  | zero =>
    intro comps rs rsq hinv h
    unfold reactivate_comps_loop at h
    exact Option.noConfusion h
  | succ fuel ih =>
    intro comps rs rsq hinv h
    rcases comps with _ | ⟨p, rest⟩
    · have hh : reactivate_comps_loop (fuel + 1) re ([] : List (ℕ × ℤ)) rs = some rs := by
        conv_lhs => unfold reactivate_comps_loop
      rw [hh] at h
      have hq : rs = rsq := by
        simpa using h
      rw [← hq]
      exact MPost_refl hinv.1 hinv.2.1
    · have hh : reactivate_comps_loop (fuel + 1) re (p :: rest) rs =
          (match reactivate_component fuel re p.1 rs with
          | none => none
          | some rs2 => reactivate_comps_loop fuel re rest rs2) := by
        conv_lhs => unfold reactivate_comps_loop
      rw [hh] at h
      rcases hrc : reactivate_component fuel re p.1 rs with _ | rs2
      · rw [hrc] at h
        exact Option.noConfusion h
      · rw [hrc] at h
        have hp1 := reactivate_component_spec re c fuel p.1 rs rs2 hinv hrc
        exact MPost_trans hp1 (ih rest rs2 rsq (MInv_of_post hinv hp1) h)

theorem reactivate_stable_spec (re : List FReaction) (c : ℕ) : ∀ fuel node idx rs rsq,
    MInv re c rs → reactivate_stable_loop fuel re node idx rs = some rsq →
    MPost re c rs rsq := by
  intro fuel
  induction fuel with
  | zero =>
    intro node idx rs rsq hinv h
    unfold reactivate_stable_loop at h
    exact Option.noConfusion h
  | succ fuel ih =>
    intro node idx rs rsq hinv h
    by_cases hlt : idx < (rs.nodes.getD node default).stable_reactions.length
    · have hh : reactivate_stable_loop (fuel + 1) re node idx rs =
          (match reactivate_comps_loop fuel re
              (getReaction re ((rs.nodes.getD node default).stable_reactions.getD idx
                default).reaction).stoichiometry rs with
          | none => none
          | some rs2 => reactivate_stable_loop fuel re node (idx + 1) rs2) := by
        conv_lhs => unfold reactivate_stable_loop
        dsimp only
        rw [if_pos hlt]
      rw [hh] at h
      rcases hrc : reactivate_comps_loop fuel re
          (getReaction re ((rs.nodes.getD node default).stable_reactions.getD idx
            default).reaction).stoichiometry rs with _ | rs2
      · rw [hrc] at h
        exact Option.noConfusion h
      · rw [hrc] at h
        have hp1 := reactivate_comps_spec re c fuel _ rs rs2 hinv hrc
        exact MPost_trans hp1 (ih node (idx + 1) rs2 rsq (MInv_of_post hinv hp1) h)
    · have hh : reactivate_stable_loop (fuel + 1) re node idx rs = some rs := by
        conv_lhs => unfold reactivate_stable_loop
        dsimp only
        rw [if_neg hlt]
      rw [hh] at h
      have hq : rs = rsq := by
        simpa using h
      rw [← hq]
      exact MPost_refl hinv.1 hinv.2.1

theorem reactivate_unstable_spec2 (re : List FReaction) (c : ℕ) : ∀ fuel node idx rs rsq,
    MInv re c rs → reactivate_unstable_loop fuel re node idx rs = some rsq →
    MPost re c rs rsq := by
  intro fuel
  induction fuel with
  | zero =>
    intro node idx rs rsq hinv h
    unfold reactivate_unstable_loop at h
    exact Option.noConfusion h
  | succ fuel ih =>
    intro node idx rs rsq hinv h
    by_cases hlt : idx < (rs.nodes.getD node default).unstable_reactions.length
    · have hh : reactivate_unstable_loop (fuel + 1) re node idx rs =
          (match reactivate_comps_loop fuel re
              (getReaction re ((rs.nodes.getD node default).unstable_reactions.getD idx
                default).reaction).stoichiometry rs with
          | none => none
          | some rs2 => reactivate_unstable_loop fuel re node (idx + 1) rs2) := by
        conv_lhs => unfold reactivate_unstable_loop
        dsimp only
        rw [if_pos hlt]
      rw [hh] at h
      rcases hrc : reactivate_comps_loop fuel re
          (getReaction re ((rs.nodes.getD node default).unstable_reactions.getD idx
            default).reaction).stoichiometry rs with _ | rs2
      · rw [hrc] at h
        exact Option.noConfusion h
      · rw [hrc] at h
        have hp1 := reactivate_comps_spec re c fuel _ rs rs2 hinv hrc
        exact MPost_trans hp1 (ih node (idx + 1) rs2 rsq (MInv_of_post hinv hp1) h)
    · have hh : reactivate_unstable_loop (fuel + 1) re node idx rs = some rs := by
        conv_lhs => unfold reactivate_unstable_loop
        dsimp only
        rw [if_neg hlt]
      rw [hh] at h
      have hq : rs = rsq := by
        simpa using h
      rw [← hq]
      exact MPost_refl hinv.1 hinv.2.1

theorem reactivate_reactions_spec (re : List FReaction) (c : ℕ) (fuel node : ℕ)
    (rs rsq : RecState) (hinv : MInv re c rs)
    (h : reactivate_reactions fuel re node rs = some rsq) : MPost re c rs rsq := by
  unfold reactivate_reactions at h
  rcases hst : reactivate_stable_loop fuel re node 0 rs with _ | rs2
  · rw [hst] at h
    exact Option.noConfusion h
  · rw [hst] at h
    have hp1 := reactivate_stable_spec re c fuel node 0 rs rs2 hinv hst
    exact MPost_trans hp1
      (reactivate_unstable_spec2 re c fuel node 0 rs2 rsq (MInv_of_post hinv hp1) h)

/-- The instrumented recursion computes the same result as `recursion`;
the trace is pure logging. -/
theorem recursionT_fst : ∀ (fuel : ℕ) (re : List FReaction) (node : ℕ) (time : ℚ)
    (rs : RecState),
    (recursionT fuel re node time rs).1 = recursion fuel re node time rs := by
  intro fuel
  induction fuel with
  | zero => intro re node time rs; rfl
  | succ fuel ih =>
    intro re node time rs
    conv_lhs => unfold recursionT
    conv_rhs => unfold recursion
    dsimp only
    rcases hrr : reactivate_reactions fuel re node
        (resample_unstable re node (activate_node re node rs)) with _ | rs3
    · rfl
    · dsimp only
      by_cases hemp : ((stabilize_reactions re node (clear_listeners re node rs3)).nodes.getD
          node default).unstable_reactions.isEmpty
      · simp only [if_pos hemp]
      · simp only [if_neg hemp]
        rw [← ih]
        split
        · rename_i heqL
          rw [heqL]
        · rename_i rsL trL heqL
          rw [heqL]
          dsimp only
          rw [← ih]
          split
          · rename_i heqR
            rw [heqR]
          · rename_i rsR trR heqR
            rw [heqR]

/-- Activation only touches the `is_active` flag: every other field of every
node is unchanged. -/
theorem actT_fields (c : ℕ) (nodes : List RecNode) (m : ℕ) :
    ((actT c nodes).getD m default).left = (nodes.getD m default).left ∧
    ((actT c nodes).getD m default).right = (nodes.getD m default).right ∧
    ((actT c nodes).getD m default).parent = (nodes.getD m default).parent ∧
    ((actT c nodes).getD m default).id = (nodes.getD m default).id ∧
    ((actT c nodes).getD m default).stable_reactions =
      (nodes.getD m default).stable_reactions ∧
    ((actT c nodes).getD m default).unstable_reactions =
      (nodes.getD m default).unstable_reactions := by
  unfold actT
  rw [modifyIdx_getD]
  by_cases h : m = c ∧ c < nodes.length
  · rw [if_pos h]
    exact ⟨rfl, rfl, rfl, rfl, rfl, rfl⟩
  · rw [if_neg h]
    exact ⟨rfl, rfl, rfl, rfl, rfl, rfl⟩

/-- Tree coherence is preserved by marking a node active: the link structure
is untouched. -/
theorem TC_actT (c : ℕ) {nodes : List RecNode} (htc : TC nodes) : TC (actT c nodes) := by
  obtain ⟨t1, t2⟩ := htc
  constructor
  · intro m t hm
    rw [actT_length] at hm
    obtain ⟨l1, r1, p1, _⟩ := actT_fields c nodes m
    constructor
    · intro hl
      rw [l1] at hl
      obtain ⟨a1, a2, a3⟩ := (t1 m t hm).1 hl
      exact ⟨by rw [actT_length]; exact a1, ((actT_fields c nodes t).2.2.1).trans a2,
        by rw [r1]; exact a3⟩
    · intro hr
      rw [r1] at hr
      obtain ⟨a1, a2⟩ := (t1 m t hm).2 hr
      exact ⟨by rw [actT_length]; exact a1, ((actT_fields c nodes t).2.2.1).trans a2⟩
  · intro t p ht hp
    rw [actT_length] at ht
    rw [(actT_fields c nodes t).2.2.1] at hp
    obtain ⟨a1, a2⟩ := t2 t p ht hp
    refine ⟨by rw [actT_length]; exact a1, ?_⟩
    rw [(actT_fields c nodes p).1, (actT_fields c nodes p).2.1]
    exact a2

/-- Two node lists with equal shapes and equal unstable lists at an index
agree there up to `sameShapeU`. -/
theorem sameShapeU_of_shapes {A B : List RecNode} (h : shapes A = shapes B) (m : ℕ)
    (hu : (A.getD m default).unstable_reactions = (B.getD m default).unstable_reactions) :
    sameShapeU (A.getD m default) (B.getD m default) :=
  ⟨(shapes_active h m).symm, (shapes_parent h m).symm, (shapes_left h m).symm,
   (shapes_right h m).symm, (shapes_id h m).symm, hu⟩

theorem sameShapeU_setLeft {a b : RecNode} (h : sameShapeU a b) :
    sameShapeU { a with left := none } { b with left := none } :=
  ⟨h.1, h.2.1, rfl, h.2.2.2.1, h.2.2.2.2.1, h.2.2.2.2.2⟩

theorem sameShapeU_setRight {a b : RecNode} (h : sameShapeU a b) :
    sameShapeU { a with right := none } { b with right := none } :=
  ⟨h.1, h.2.1, h.2.2.1, rfl, h.2.2.2.2.1, h.2.2.2.2.2⟩

/-- A modification that keeps a node's shape keeps the shape list. -/
theorem shapes_modify_keep (N : List RecNode) (n : ℕ) (f : RecNode → RecNode)
    (hf : ∀ nd, nodeShape (f nd) = nodeShape nd) :
    shapes (modifyIdx N n f) = shapes N := by
  induction N generalizing n with
  | nil => rfl
  | cons a t ih =>
    cases n with
    | zero =>
      show shapes (f a :: t) = shapes (a :: t)
      unfold shapes
      rw [List.map_cons, List.map_cons, hf a]
    | succ k =>
      show shapes (a :: modifyIdx t k f) = shapes (a :: t)
      unfold shapes
      rw [List.map_cons, List.map_cons]
      have h2 := ih k
      unfold shapes at h2
      rw [h2]

/-- Field description of `add_node`: it pushes one inactive childless node
and reports its index; every non-`nodes` field survives. -/
theorem add_node_spec (parent : ℕ) (U : List ReactionData)
    (S : List StableReactionData) (b : Bool) (rs : RecState) :
    (add_node parent U S b rs).1 = rs.nodes.length ∧
    (add_node parent U S b rs).2.nodes = rs.nodes ++
      [⟨S, U, false, some parent, none, none,
        (rs.nodes.getD parent default).id * 2 + (if b then 0 else 1)⟩] ∧
    (add_node parent U S b rs).2.stable_index = rs.stable_index ∧
    (add_node parent U S b rs).2.state = rs.state ∧
    (add_node parent U S b rs).2.stored_stable = rs.stored_stable ∧
    (add_node parent U S b rs).2.unstable_dependents = rs.unstable_dependents ∧
    (add_node parent U S b rs).2.total_events = rs.total_events ∧
    (add_node parent U S b rs).2.inactive_by_component = rs.inactive_by_component ∧
    (add_node parent U S b rs).2.rng = rs.rng := by
  unfold add_node
  refine ⟨?_, rfl, rfl, rfl, rfl, rfl, rfl, rfl, rfl⟩
  simp

theorem setNode_nodes (X : RecState) (n : ℕ) (f : RecNode → RecNode) :
    (X.setNode n f).nodes = modifyIdx X.nodes n f :=
  rfl

theorem setNode_state (X : RecState) (n : ℕ) (f : RecNode → RecNode) :
    (X.setNode n f).state = X.state :=
  rfl

theorem setNode_si (X : RecState) (n : ℕ) (f : RecNode → RecNode) :
    (X.setNode n f).stable_index = X.stable_index :=
  rfl

theorem rngUpd_nodes (X : RecState) (r : RngState) :
    ({ X with rng := r } : RecState).nodes = X.nodes :=
  rfl

theorem rngUpd_state (X : RecState) (r : RngState) :
    ({ X with rng := r } : RecState).state = X.state :=
  rfl

theorem rngUpd_si (X : RecState) (r : RngState) :
    ({ X with rng := r } : RecState).stable_index = X.stable_index :=
  rfl

theorem updL_active (nd : RecNode) (l : Option ℕ) :
    ({ nd with left := l } : RecNode).is_active = nd.is_active :=
  rfl

theorem updL_parent (nd : RecNode) (l : Option ℕ) :
    ({ nd with left := l } : RecNode).parent = nd.parent :=
  rfl

theorem updL_left (nd : RecNode) (l : Option ℕ) :
    ({ nd with left := l } : RecNode).left = l :=
  rfl

theorem updL_right (nd : RecNode) (l : Option ℕ) :
    ({ nd with left := l } : RecNode).right = nd.right :=
  rfl

theorem updL_unstable (nd : RecNode) (l : Option ℕ) :
    ({ nd with left := l } : RecNode).unstable_reactions = nd.unstable_reactions :=
  rfl

theorem updR_active (nd : RecNode) (r : Option ℕ) :
    ({ nd with right := r } : RecNode).is_active = nd.is_active :=
  rfl

theorem updR_parent (nd : RecNode) (r : Option ℕ) :
    ({ nd with right := r } : RecNode).parent = nd.parent :=
  rfl

theorem updR_left (nd : RecNode) (r : Option ℕ) :
    ({ nd with right := r } : RecNode).left = nd.left :=
  rfl

theorem updR_right (nd : RecNode) (r : Option ℕ) :
    ({ nd with right := r } : RecNode).right = r :=
  rfl

theorem updR_unstable (nd : RecNode) (r : Option ℕ) :
    ({ nd with right := r } : RecNode).unstable_reactions = nd.unstable_reactions :=
  rfl

theorem upd2_active (nd : RecNode) (l r : Option ℕ) :
    ({ nd with left := l, right := r } : RecNode).is_active = nd.is_active :=
  rfl

theorem upd2_parent (nd : RecNode) (l r : Option ℕ) :
    ({ nd with left := l, right := r } : RecNode).parent = nd.parent :=
  rfl

theorem upd2_left (nd : RecNode) (l r : Option ℕ) :
    ({ nd with left := l, right := r } : RecNode).left = l :=
  rfl

theorem upd2_right (nd : RecNode) (l r : Option ℕ) :
    ({ nd with left := l, right := r } : RecNode).right = r :=
  rfl

theorem upd2_stable (nd : RecNode) (l r : Option ℕ) :
    ({ nd with left := l, right := r } : RecNode).stable_reactions =
      nd.stable_reactions :=
  rfl

theorem upd2_unstable (nd : RecNode) (l r : Option ℕ) :
    ({ nd with left := l, right := r } : RecNode).unstable_reactions =
      nd.unstable_reactions :=
  rfl

theorem updU_active (nd : RecNode) (u : List ReactionData) :
    ({ nd with unstable_reactions := u } : RecNode).is_active = nd.is_active :=
  rfl

theorem updU_parent (nd : RecNode) (u : List ReactionData) :
    ({ nd with unstable_reactions := u } : RecNode).parent = nd.parent :=
  rfl

theorem updU_left (nd : RecNode) (u : List ReactionData) :
    ({ nd with unstable_reactions := u } : RecNode).left = nd.left :=
  rfl

theorem updU_right (nd : RecNode) (u : List ReactionData) :
    ({ nd with unstable_reactions := u } : RecNode).right = nd.right :=
  rfl

theorem updU_stable (nd : RecNode) (u : List ReactionData) :
    ({ nd with unstable_reactions := u } : RecNode).stable_reactions =
      nd.stable_reactions :=
  rfl

theorem updU_unstable (nd : RecNode) (u : List ReactionData) :
    ({ nd with unstable_reactions := u } : RecNode).unstable_reactions = u :=
  rfl

theorem nodeStableTracked_updU (nd : RecNode) (u : List ReactionData) :
    nodeStableTracked { nd with unstable_reactions := u } = nodeStableTracked nd :=
  rfl

theorem nodeUnstableTracked_updU (nd : RecNode) (u : List ReactionData) :
    nodeUnstableTracked { nd with unstable_reactions := u } =
      u.map (fun d => (d.reaction, d.events)) :=
  rfl

set_option maxHeartbeats 3200000 in
/-- Full contract of one `recursion` visit, proved on the instrumented
variant: started on a freshly added inactive childless node `node` at the
end of the node list, with coherent bounds, index, tree links and descent,
every state logged in the trace satisfies the sandwich property, and if the
visit completes, the node has been popped, all invariants still hold, and
of the surviving nodes only the parent of `node` changed shape, losing its
link to `node`. -/
theorem recursionT_spec (re : List FReaction) (hsign : SignOk re) :
    ∀ (fuel node : ℕ) (time : ℚ) (rs : RecState),
    rs.nodes.length = node + 1 →
    (rs.nodes.getD node default).is_active = false →
    (rs.nodes.getD node default).left = none →
    (rs.nodes.getD node default).right = none →
    Coh re rs → IC rs → TC rs.nodes →
    DOk (actT node rs.nodes) node →
    (∀ s ∈ (recursionT fuel re node time rs).2, Sandwich s) ∧
    (∀ rsq, (recursionT fuel re node time rs).1 = some rsq →
      rsq.nodes.length = node ∧ Coh re rsq ∧ IC rsq ∧ TC rsq.nodes ∧
      (∀ m, m < node →
        sameShapeU (rsq.nodes.getD m default) (rs.nodes.getD m default) ∨
        ((rs.nodes.getD node default).parent = some m ∧
          (((rs.nodes.getD m default).left = some node ∧
            sameShapeU (rsq.nodes.getD m default)
              { rs.nodes.getD m default with left := none }) ∨
           ((rs.nodes.getD m default).left ≠ some node ∧
            sameShapeU (rsq.nodes.getD m default)
              { rs.nodes.getD m default with right := none }))))) := by
  intro fuel
  induction fuel with
  | zero =>
    intro node time rs hlen hinact hln hrn hcoh hic htc hdok
    constructor
    · intro s hs
      exact absurd hs (List.not_mem_nil s)
    · intro rsq h
      exact Option.noConfusion h
  | succ fuel ih =>
    intro node time rs hlen hinact hln hrn hcoh hic htc hdok
    have hnlt : node < rs.nodes.length := by omega
    unfold recursionT
    dsimp only
    set rs1 := activate_node re node rs with hrs1d
    set rs2 := resample_unstable re node rs1 with hrs2d
    have hA := activate_node_spec re hnlt hinact hcoh hic
    rw [← hrs1d] at hA
    obtain ⟨a1, a2, a3, a4, a5, a6, a7⟩ := hA
    have hlen1 : rs1.nodes.length = node + 1 := by rw [a1, actT_length]; exact hlen
    have hact1 : (rs1.nodes.getD node default).is_active = true := by
      rw [a1, actT_getD_self node rs.nodes hnlt]
    have hln1 : (rs1.nodes.getD node default).left = none := by
      rw [a1, actT_getD_self node rs.nodes hnlt]
      exact hln
    have hrn1 : (rs1.nodes.getD node default).right = none := by
      rw [a1, actT_getD_self node rs.nodes hnlt]
      exact hrn
    have hpar1 : (rs1.nodes.getD node default).parent =
        (rs.nodes.getD node default).parent := by
      rw [a1, actT_getD_self node rs.nodes hnlt]
    have hfr1 : ∀ m, m ≠ node →
        rs1.nodes.getD m default = rs.nodes.getD m default := by
      intro m hm
      rw [a1, actT_getD_other node rs.nodes hm]
    have htc1 : TC rs1.nodes := by rw [a1]; exact TC_actT node htc
    have hdok1 : DOk rs1.nodes node := by rw [a1]; exact hdok
    have hsand1 : Sandwich rs1.state := BOk_sandwich hsign a6
    have hnlt1 : node < rs1.nodes.length := by omega
    have hB := resample_unstable_spec re hnlt1 hact1 a6 a7
    rw [← hrs2d] at hB
    obtain ⟨b1, b2, b3, b4, b5, b6, b7, b8, b9, b10, b11⟩ := hB
    have hlen2 : rs2.nodes.length = node + 1 := b1.trans hlen1
    have hact2 : (rs2.nodes.getD node default).is_active = true :=
      (shapes_active b2 node).symm.trans hact1
    have hln2 : (rs2.nodes.getD node default).left = none :=
      (shapes_left b2 node).symm.trans hln1
    have hrn2 : (rs2.nodes.getD node default).right = none :=
      (shapes_right b2 node).symm.trans hrn1
    have hinv2 : MInv re node rs2 :=
      ⟨b10, b11, TC_transport b2.symm htc1, DOk_transport b2.symm hdok1,
       by omega, hact2, hln2, hrn2⟩
    have hsand2 : Sandwich rs2.state := BOk_sandwich hsign b10
    rcases hrr : reactivate_reactions fuel re node rs2 with _ | rs3
    · dsimp only
      constructor
      · intro s hs
        simp only [List.mem_cons, List.not_mem_nil, or_false] at hs
        rcases hs with rfl | rfl
        exacts [hsand1, hsand2]
      · intro rsq h
        exact Option.noConfusion h
    · dsimp only
      have hp3 : MPost re node rs2 rs3 :=
        reactivate_reactions_spec re node fuel node rs2 rs3 hinv2 hrr
      have hinv3 : MInv re node rs3 := MInv_of_post hinv2 hp3
      have hsand3 : Sandwich rs3.state := BOk_sandwich hsign hinv3.1
      have hlen3 : rs3.nodes.length = node + 1 :=
        (shapes_length hp3.2.2.1).trans hlen2
      set rs4 := clear_listeners re node rs3 with hrs4d
      have hlf := clear_listeners_frame re node rs3
      rw [← hrs4d] at hlf
      have hinv4 : MInv re node rs4 := MInv_of_listenerFrame hlf hinv3
      have hsand4 : Sandwich rs4.state := BOk_sandwich hsign hinv4.1
      have hlen4 : rs4.nodes.length = node + 1 := by rw [hlf.1]; exact hlen3
      have hnlt4 : node < rs4.nodes.length := hinv4.2.2.2.2.1
      have hact4 : (rs4.nodes.getD node default).is_active = true :=
        hinv4.2.2.2.2.2.1
      have hln4 : (rs4.nodes.getD node default).left = none :=
        hinv4.2.2.2.2.2.2.1
      have hrn4 : (rs4.nodes.getD node default).right = none :=
        hinv4.2.2.2.2.2.2.2
      set rs5 := stabilize_reactions re node rs4 with hrs5d
      have hS := stabilize_reactions_spec re hnlt4 hact4 hinv4.1 hinv4.2.1
      rw [← hrs5d] at hS
      obtain ⟨s1, s2, s3, s4, s5, s6, s7, s8, s9⟩ := hS
      have hlen5 : rs5.nodes.length = node + 1 := s1.trans hlen4
      have htc5 : TC rs5.nodes := TC_transport s2.symm hinv4.2.2.1
      have hdok5 : DOk rs5.nodes node := DOk_transport s2.symm hinv4.2.2.2.1
      have hact5 : (rs5.nodes.getD node default).is_active = true :=
        (shapes_active s2 node).symm.trans hact4
      have hln5 : (rs5.nodes.getD node default).left = none :=
        (shapes_left s2 node).symm.trans hln4
      have hrn5 : (rs5.nodes.getD node default).right = none :=
        (shapes_right s2 node).symm.trans hrn4
      have hnlt5 : node < rs5.nodes.length := by omega
      have hsand5 : Sandwich rs5.state := BOk_sandwich hsign s8
      have hpar5 : (rs5.nodes.getD node default).parent =
          (rs.nodes.getD node default).parent := by
        have e1 : (rs5.nodes.getD node default).parent =
            (rs4.nodes.getD node default).parent := (shapes_parent s2 node).symm
        have e2 : (rs4.nodes.getD node default).parent =
            (rs3.nodes.getD node default).parent := by rw [hlf.1]
        have e3 : (rs3.nodes.getD node default).parent =
            (rs2.nodes.getD node default).parent :=
          (shapes_parent hp3.2.2.1 node).symm
        have e4 : (rs2.nodes.getD node default).parent =
            (rs1.nodes.getD node default).parent := (shapes_parent b2 node).symm
        exact e1.trans (e2.trans (e3.trans (e4.trans hpar1)))
      have hfr5 : ∀ m, m ≠ node →
          sameShapeU (rs5.nodes.getD m default) (rs.nodes.getD m default) := by
        intro m hm
        refine sameShapeU_trans (sameShapeU_of_eq (s7 m hm)) ?_
        refine sameShapeU_trans (sameShapeU_of_eq (by rw [hlf.1])) ?_
        refine sameShapeU_trans (sameShapeU_of_shapes hp3.2.2.1 m (hp3.2.2.2 m hm)) ?_
        refine sameShapeU_trans (sameShapeU_of_eq (b8 m hm)) ?_
        exact sameShapeU_of_eq (hfr1 m hm)
      by_cases hemp : ((rs5.nodes.getD node default).unstable_reactions.isEmpty = true)
      · rw [if_pos hemp]
        have hunst5 : (rs5.nodes.getD node default).unstable_reactions = [] := by
          cases hu : (rs5.nodes.getD node default).unstable_reactions with
          | nil => rfl
          | cons a t =>
            rw [hu] at hemp
            exact Bool.noConfusion hemp
        have hF := finish_node_spec re hlen5 hact5 hln5 hrn5 hunst5 s8 s9 htc5
        obtain ⟨f1, f2, f3, f4, f5, f6, f7, f8, f9⟩ := hF
        constructor
        · intro s hs
          simp only [List.mem_cons, List.not_mem_nil, or_false] at hs
          rcases hs with rfl | rfl | rfl | rfl | rfl | rfl
          exacts [hsand1, hsand2, hsand3, hsand4, hsand5, BOk_sandwich hsign f6]
        · intro rsq h
          obtain rfl := Option.some.inj h
          refine ⟨f1, f6, f7, f8, ?_⟩
          intro m hm
          have hne : m ≠ node := by omega
          rcases f9 m hm with h9 | ⟨h9p, h9b⟩
          · exact Or.inl (sameShapeU_trans (sameShapeU_of_eq h9) (hfr5 m hne))
          · refine Or.inr ⟨hpar5.symm.trans h9p, ?_⟩
            rcases h9b with ⟨hgl, hsh⟩ | ⟨hgl, hsh⟩
            · exact Or.inl ⟨((hfr5 m hne).2.2.1).symm.trans hgl,
                sameShapeU_trans (sameShapeU_of_eq hsh) (sameShapeU_setLeft (hfr5 m hne))⟩
            · exact Or.inr ⟨fun hcon => hgl (((hfr5 m hne).2.2.1).trans hcon),
                sameShapeU_trans (sameShapeU_of_eq hsh) (sameShapeU_setRight (hfr5 m hne))⟩
      · rw [if_neg hemp]
        set dp := deactivate_pass re node rs5 with hdpd
        have hD := deactivate_pass_spec re hnlt5 hact5 s8 s9
        rw [← hdpd] at hD
        obtain ⟨d1, d2, d3, d4, d5, d6, d7, d8, d9⟩ := hD
        have hnltdp : node < dp.1.nodes.length := by rw [d1, hlen5]; omega
        have hactdp : (dp.1.nodes.getD node default).is_active = true :=
          (shapes_active d2 node).symm.trans hact5
        have hcohdp := d8
        unfold Coh at hcohdp
        rw [fullTracked_decomp dp.1.nodes node hnltdp, nodeTracked_active hactdp] at hcohdp
        have hbok0 : BOk re dp.1.state
            ((fullTracked (dp.1.nodes.take node) ++
                nodeStableTracked (dp.1.nodes.getD node default)) ++
              (((dp.1.nodes.getD node default).unstable_reactions).map
                  (fun d => (d.reaction, d.events)) ++
                fullTracked (dp.1.nodes.drop (node + 1)))) := by
          refine BOk_perm (List.Perm.of_eq ?_) hcohdp
          simp [nodeUnstableTracked, List.append_assoc]
        obtain ⟨u1, u2, u3, u4, u5, u6, u7⟩ := unstable_remove_fold re
          ((dp.1.nodes.getD node default).unstable_reactions) dp.1
          (fullTracked (dp.1.nodes.take node) ++
            nodeStableTracked (dp.1.nodes.getD node default))
          (fullTracked (dp.1.nodes.drop (node + 1))) hbok0
        set rsb := List.foldl (fun rs2 rdata =>
          { rs2 with
            state := rs2.state.remove_bounds rdata.events (getReaction re rdata.reaction),
            unstable_dependents := remove_unstable_deps rs2.unstable_dependents (getReaction re rdata.reaction) }) dp.1 ((dp.1.nodes.getD node default).unstable_reactions) with hrsbd
        set rsc := rsb.setNode node (fun nd => { nd with unstable_reactions := [] }) with hrscd
        set spl := List.foldl
          (fun (acc : (List ReactionData × List ReactionData) × RngState) rdata =>
            ((acc.1.1 ++ [(rdata.splitR (getReaction re rdata.reaction) acc.2).1.1],
              acc.1.2 ++ [(rdata.splitR (getReaction re rdata.reaction) acc.2).1.2]),
             (rdata.splitR (getReaction re rdata.reaction) acc.2).2))
          (([], []), rsc.rng) ((rsb.nodes.getD node default).unstable_reactions) with hspld
        set rsd := { rsc with rng := spl.2 } with hrsdd
        set ar := add_node node spl.1.2 dp.2.2 false rsd with hard
        set rse := ar.2.setNode node (fun nd => { nd with right := some ar.1 }) with hrsed
        set al := add_node node spl.1.1 dp.2.1 true rse with hald
        set rsf := al.2.setNode node (fun nd => { nd with left := some al.1 }) with hrsfd
        have hAr := add_node_spec node spl.1.2 dp.2.2 false rsd
        rw [← hard] at hAr
        obtain ⟨har1, har2, har3, har4, har5, har6, har7, har8, har9⟩ := hAr
        set Rn : RecNode := ⟨dp.2.2, spl.1.2, false, some node, none, none,
          (rsd.nodes.getD node default).id * 2 + (if false then 0 else 1)⟩ with hRnd
        have hrseN : rse.nodes = modifyIdx (rsd.nodes ++ [Rn]) node
            (fun nd => { nd with right := some ar.1 }) := by
          rw [hrsed, setNode_nodes, har2]
        have hAl := add_node_spec node spl.1.1 dp.2.1 true rse
        rw [← hald] at hAl
        obtain ⟨hal1, hal2, hal3, hal4, hal5, hal6, hal7, hal8, hal9⟩ := hAl
        set Ln : RecNode := ⟨dp.2.1, spl.1.1, false, some node, none, none,
          (rse.nodes.getD node default).id * 2 + (if true then 0 else 1)⟩ with hLnd
        have hnodesd : rsd.nodes = modifyIdx dp.1.nodes node
            (fun nd => { nd with unstable_reactions := [] }) := by
          rw [hrsdd, rngUpd_nodes, hrscd, setNode_nodes, u1]
        have hlend : rsd.nodes.length = node + 1 := by
          rw [hnodesd, modifyIdx_length, d1, hlen5]
        have har1n : ar.1 = node + 1 := by rw [har1, hlend]
        have hal1X : al.1 = rsd.nodes.length + 1 := by
          rw [hal1, hrseN, modifyIdx_length, List.length_append]
          simp
        have hal1n : al.1 = node + 2 := by rw [hal1X, hlend]
        have hrsfN : rsf.nodes = attachKids rsd.nodes node Rn Ln := by
          rw [hrsfd, setNode_nodes, hal2, hrseN, har1, hal1X]
          unfold attachKids
          rfl
        have hgetdN : rsd.nodes.getD node default =
            { dp.1.nodes.getD node default with unstable_reactions := [] } := by
          rw [hnodesd, modifyIdx_getD, if_pos ⟨rfl, hnltdp⟩]
        have hactd : (rsd.nodes.getD node default).is_active = true := by
          rw [hgetdN, updU_active]
          exact hactdp
        have hlnd : (rsd.nodes.getD node default).left = none := by
          rw [hgetdN, updU_left]
          exact (shapes_left d2 node).symm.trans hln5
        have hrnd : (rsd.nodes.getD node default).right = none := by
          rw [hgetdN, updU_right]
          exact (shapes_right d2 node).symm.trans hrn5
        have hunstd : (rsd.nodes.getD node default).unstable_reactions = [] := by
          rw [hgetdN, updU_unstable]
        have hpardN : (rsd.nodes.getD node default).parent =
            (rs.nodes.getD node default).parent := by
          rw [hgetdN, updU_parent]
          exact (shapes_parent d2 node).symm.trans hpar5
        have hCd : Coh re rsd := by
          show BOk re rsd.state (fullTracked rsd.nodes)
          have htr : fullTracked rsd.nodes =
              (fullTracked (dp.1.nodes.take node) ++
                nodeStableTracked (dp.1.nodes.getD node default)) ++
                fullTracked (dp.1.nodes.drop (node + 1)) := by
            rw [hnodesd, fullTracked_modifyIdx dp.1.nodes node _ hnltdp]
            have hnt : nodeTracked { dp.1.nodes.getD node default with
                unstable_reactions := ([] : List ReactionData) } =
                nodeStableTracked (dp.1.nodes.getD node default) := by
              rw [nodeTracked_active (by rw [updU_active]; exact hactdp)]
              rw [nodeStableTracked_updU, nodeUnstableTracked_updU]
              simp
            rw [hnt, List.append_assoc]
          have hstated : rsd.state = rsb.state := by
            rw [hrsdd, rngUpd_state, hrscd, setNode_state]
          rw [htr, hstated]
          exact u7
        have hsid : rsd.stable_index = rsb.stable_index := by
          rw [hrsdd, rngUpd_si, hrscd, setNode_si]
        have hICd : IC rsd := by
          intro r n2 i2 hr
          have hr2 : dp.1.stable_index.getD r none = some (n2, i2) := by
            rw [← u2, ← hsid]
            exact hr
          obtain ⟨w1, w2, w3, w4⟩ := d9 r n2 i2 hr2
          by_cases hn2 : n2 = node
          · subst hn2
            refine ⟨by rw [hnodesd, modifyIdx_length]; exact w1, ?_, ?_, ?_⟩
            · rw [hgetdN, updU_active]
              exact w2
            · rw [hgetdN, updU_stable]
              exact w3
            · rw [hgetdN, updU_stable]
              exact w4
          · have hgm : rsd.nodes.getD n2 default = dp.1.nodes.getD n2 default := by
              rw [hnodesd, modifyIdx_getD, if_neg (fun hcon => hn2 hcon.1)]
            exact ⟨by rw [hnodesd, modifyIdx_length]; exact w1, by rw [hgm]; exact w2,
              by rw [hgm]; exact w3, by rw [hgm]; exact w4⟩
        have htcdp : TC dp.1.nodes := TC_transport d2.symm htc5
        have hshd : shapes (modifyIdx dp.1.nodes node
            (fun nd => { nd with unstable_reactions := [] })) = shapes dp.1.nodes :=
          shapes_modify_keep dp.1.nodes node
            (fun nd => { nd with unstable_reactions := [] }) (fun nd => rfl)
        have htcd : TC rsd.nodes := by
          rw [hnodesd]
          exact TC_transport hshd.symm htcdp
        have hdokdp : DOk dp.1.nodes node := DOk_transport d2.symm hdok5
        have hdokd : DOk rsd.nodes node := by
          rw [hnodesd]
          exact DOk_transport hshd.symm hdokdp
        have hlenf3 : rsf.nodes.length = node + 3 := by
          rw [hrsfN, attachKids_length, hlend]
        have hgetL : rsf.nodes.getD (node + 2) default = Ln := by
          rw [hrsfN, show node + 2 = rsd.nodes.length + 1 from by rw [hlend]]
          exact attachKids_getD_L rsd.nodes node Rn Ln (by rw [hlend]; omega)
        have hgetR : rsf.nodes.getD (node + 1) default = Rn := by
          rw [hrsfN, show node + 1 = rsd.nodes.length from by rw [hlend]]
          exact attachKids_getD_R rsd.nodes node Rn Ln (by rw [hlend]; omega)
        have hgetN : rsf.nodes.getD node default =
            { rsd.nodes.getD node default with
              left := some (node + 2)
              right := some (node + 1) } := by
          rw [hrsfN, attachKids_getD_node rsd.nodes node Rn Ln (by rw [hlend]; omega), hlend]
        have hgetlt : ∀ m, m < node →
            rsf.nodes.getD m default = rsd.nodes.getD m default := by
          intro m hm
          rw [hrsfN]
          exact attachKids_getD_lt rsd.nodes node Rn Ln m hm (by rw [hlend]; omega)
        have hstatef : rsf.state = rsd.state := by
          rw [hrsfd, setNode_state, hal4, hrsed, setNode_state, har4]
        have hsif : rsf.stable_index = rsd.stable_index := by
          rw [hrsfd, setNode_si, hal3, hrsed, setNode_si, har3]
        have hcohf : Coh re rsf := by
          show BOk re rsf.state (fullTracked rsf.nodes)
          rw [hstatef, hrsfN,
            attachKids_tracked rsd.nodes node Rn Ln (by rw [hlend]; omega) rfl rfl]
          exact hCd
        have hicf : IC rsf := by
          intro r n2 i2 hr
          have hr2 : rsd.stable_index.getD r none = some (n2, i2) := by
            rw [← hsif]
            exact hr
          obtain ⟨w1, w2, w3, w4⟩ := hICd r n2 i2 hr2
          have hlt : n2 < rsf.nodes.length := by rw [hlenf3]; rw [hlend] at w1; omega
          by_cases hn2 : n2 = node
          · subst hn2
            exact ⟨hlt, by rw [hgetN, upd2_active]; exact w2,
              by rw [hgetN, upd2_stable]; exact w3,
              by rw [hgetN, upd2_stable]; exact w4⟩
          · have hgm : rsf.nodes.getD n2 default = rsd.nodes.getD n2 default := by
              apply hgetlt
              rw [hlend] at w1
              omega
            exact ⟨hlt, by rw [hgm]; exact w2, by rw [hgm]; exact w3,
              by rw [hgm]; exact w4⟩
        have htcf : TC rsf.nodes := by
          rw [hrsfN]
          exact TC_attach rsd.nodes node Rn Ln hlend hlnd hrnd ⟨rfl, rfl, rfl⟩
            ⟨rfl, rfl, rfl⟩ htcd
        have hdokf : DOk (actT (node + 2) rsf.nodes) (node + 2) := by
          rw [hrsfN]
          exact DOk_attach rsd.nodes node Rn Ln hlend hactd hlnd hrnd rfl rfl rfl hdokd
        have hsandf : Sandwich rsf.state := BOk_sandwich hsign hcohf
        have hihL := ih (node + 2) (time / 2) rsf (by rw [hlenf3]) (by rw [hgetL])
          (by rw [hgetL]) (by rw [hgetL]) hcohf hicf htcf hdokf
        rw [hal1n, har1n]
        rcases hLsplit : recursionT fuel re (node + 2) (time / 2) rsf with ⟨_ | rsL, trL⟩
        · rw [hLsplit] at hihL
          obtain ⟨hLtr, hLres⟩ := hihL
          dsimp only
          constructor
          · intro s hs
            simp only [List.mem_append, List.mem_cons, List.not_mem_nil, or_false] at hs
            rcases hs with (rfl | rfl | rfl | rfl | rfl | rfl) | hmemL
            exacts [hsand1, hsand2, hsand3, hsand4, hsand5, hsandf, hLtr _ hmemL]
          · intro rsq h
            exact Option.noConfusion h
        · rw [hLsplit] at hihL
          obtain ⟨hLtr, hLres⟩ := hihL
          dsimp only
          obtain ⟨c1L, c2L, c3L, c4L, c5L⟩ := hLres rsL rfl
          have qA : sameShapeU (rsL.nodes.getD (node + 1) default) Rn := by
            rcases c5L (node + 1) (by omega) with hA | ⟨hB1, _⟩
            · rw [hgetR] at hA
              exact hA
            · exfalso
              rw [hgetL] at hB1
              have hB2 : (some node : Option ℕ) = some (node + 1) := hB1
              have := Option.some.inj hB2
              omega
          have qact : (rsL.nodes.getD (node + 1) default).is_active = false := qA.1
          have qln : (rsL.nodes.getD (node + 1) default).left = none := qA.2.2.1
          have qrn : (rsL.nodes.getD (node + 1) default).right = none := qA.2.2.2.1
          have qpar : (rsL.nodes.getD (node + 1) default).parent = some node := qA.2.1
          have hdokR : DOk (actT (node + 1) rsL.nodes) (node + 1) :=
            DOk_after_left rsf.nodes rsL.nodes node hlenf3 c1L
              (by rw [hgetL]) (by rw [hgetN, upd2_left]) (by rw [hgetN, upd2_right])
              (by rw [hgetN, upd2_active]; exact hactd)
              (by rw [hgetR]) (by rw [hgetR]) (by rw [hgetR]) (by rw [hgetR])
              c4L hdokf c5L
          have hihR := ih (node + 1) (time / 2) rsL (by rw [c1L]) qact qln qrn
            c2L c3L c4L hdokR
          rcases hRsplit : recursionT fuel re (node + 1) (time / 2) rsL with ⟨_ | rsR, trR⟩
          · rw [hRsplit] at hihR
            obtain ⟨hRtr, hRres⟩ := hihR
            dsimp only
            constructor
            · intro s hs
              simp only [List.mem_append, List.mem_cons, List.not_mem_nil, or_false] at hs
              rcases hs with ((rfl | rfl | rfl | rfl | rfl | rfl) | hmemL) | hmemR
              exacts [hsand1, hsand2, hsand3, hsand4, hsand5, hsandf,
                hLtr _ hmemL, hRtr _ hmemR]
            · intro rsq h
              exact Option.noConfusion h
          · rw [hRsplit] at hihR
            obtain ⟨hRtr, hRres⟩ := hihR
            dsimp only
            obtain ⟨c1R, c2R, c3R, c4R, c5R⟩ := hRres rsR rfl
            have hactf : (rsf.nodes.getD node default).is_active = true := by
              rw [hgetN, upd2_active]
              exact hactd
            have hnodeL : sameShapeU (rsL.nodes.getD node default)
                { rsf.nodes.getD node default with left := none } := by
              rcases c5L node (by omega) with hA | ⟨hB1, hB2⟩
              · exfalso
                have hl3 : (rsL.nodes.getD node default).left = some (node + 2) :=
                  hA.2.2.1.trans (by rw [hgetN, upd2_left])
                obtain ⟨hlt2, _, _⟩ := (c4L.1 node (node + 2) (by rw [c1L]; omega)).1 hl3
                rw [c1L] at hlt2
                omega
              · rcases hB2 with ⟨hg, hsh⟩ | ⟨hg, hsh⟩
                · exact hsh
                · exact absurd (by rw [hgetN, upd2_left]) hg
            have nLact : (rsL.nodes.getD node default).is_active = true := by
              rw [hnodeL.1, updL_active]
              exact hactf
            have nLln : (rsL.nodes.getD node default).left = none := by
              rw [hnodeL.2.2.1, updL_left]
            have nLrn : (rsL.nodes.getD node default).right = some (node + 1) := by
              rw [hnodeL.2.2.2.1, updL_right, hgetN, upd2_right]
            have nLpar : (rsL.nodes.getD node default).parent =
                (rs.nodes.getD node default).parent := by
              rw [hnodeL.2.1, updL_parent, hgetN, upd2_parent]
              exact hpardN
            have nLunst : (rsL.nodes.getD node default).unstable_reactions = [] := by
              rw [hnodeL.2.2.2.2.2, updL_unstable, hgetN, upd2_unstable]
              exact hunstd
            have hnodeR : sameShapeU (rsR.nodes.getD node default)
                { rsL.nodes.getD node default with right := none } := by
              rcases c5R node (by omega) with hA2 | ⟨hB1x, hB2x⟩
              · exfalso
                have hr3 : (rsR.nodes.getD node default).right = some (node + 1) :=
                  hA2.2.2.2.1.trans nLrn
                obtain ⟨hlt2, _⟩ := (c4R.1 node (node + 1) (by rw [c1R]; omega)).2 hr3
                rw [c1R] at hlt2
                omega
              · rcases hB2x with ⟨hg2, hsh2⟩ | ⟨hg2, hsh2⟩
                · exfalso
                  rw [nLln] at hg2
                  exact Option.noConfusion hg2
                · exact hsh2
            have nRact : (rsR.nodes.getD node default).is_active = true := by
              rw [hnodeR.1, updR_active]
              exact nLact
            have nRln : (rsR.nodes.getD node default).left = none := by
              rw [hnodeR.2.2.1, updR_left]
              exact nLln
            have nRrn : (rsR.nodes.getD node default).right = none := by
              rw [hnodeR.2.2.2.1, updR_right]
            have nRunst : (rsR.nodes.getD node default).unstable_reactions = [] := by
              rw [hnodeR.2.2.2.2.2, updR_unstable]
              exact nLunst
            have nRpar : (rsR.nodes.getD node default).parent =
                (rs.nodes.getD node default).parent := by
              rw [hnodeR.2.1, updR_parent]
              exact nLpar
            have hF := finish_node_spec re c1R nRact nRln nRrn nRunst c2R c3R c4R
            obtain ⟨f1, f2, f3, f4, f5, f6, f7, f8, f9⟩ := hF
            constructor
            · intro s hs
              simp only [List.mem_append, List.mem_cons, List.not_mem_nil, or_false] at hs
              rcases hs with (((rfl | rfl | rfl | rfl | rfl | rfl) | hmemL) | hmemR) | rfl
              exacts [hsand1, hsand2, hsand3, hsand4, hsand5, hsandf,
                hLtr _ hmemL, hRtr _ hmemR, BOk_sandwich hsign f6]
            · intro rsq h
              obtain rfl := Option.some.inj h
              refine ⟨f1, f6, f7, f8, ?_⟩
              intro m hm
              have hne : m ≠ node := by omega
              have hcompf : rsf.nodes.getD m default = rs5.nodes.getD m default := by
                rw [hgetlt m hm]
                have hdm : rsd.nodes.getD m default = dp.1.nodes.getD m default := by
                  rw [hnodesd, modifyIdx_getD, if_neg (fun hcon => hne hcon.1)]
                rw [hdm]
                exact d6 m hne
              have hmidL : sameShapeU (rsL.nodes.getD m default)
                  (rs.nodes.getD m default) := by
                rcases c5L m (by omega) with hA3 | ⟨hB3, _⟩
                · refine sameShapeU_trans hA3 ?_
                  refine sameShapeU_trans (sameShapeU_of_eq hcompf) ?_
                  exact hfr5 m hne
                · exfalso
                  rw [hgetL] at hB3
                  have hB4 : (some node : Option ℕ) = some m := hB3
                  have := Option.some.inj hB4
                  omega
              have hmidR : sameShapeU (rsR.nodes.getD m default)
                  (rs.nodes.getD m default) := by
                rcases c5R m (by omega) with hA4 | ⟨hB4, _⟩
                · exact sameShapeU_trans hA4 hmidL
                · exfalso
                  rw [qpar] at hB4
                  have := Option.some.inj hB4
                  omega
              rcases f9 m hm with h9 | ⟨h9p, h9b⟩
              · exact Or.inl (sameShapeU_trans (sameShapeU_of_eq h9) hmidR)
              · refine Or.inr ⟨nRpar.symm.trans h9p, ?_⟩
                rcases h9b with ⟨hgl, hsh⟩ | ⟨hgl, hsh⟩
                · exact Or.inl ⟨(hmidR.2.2.1).symm.trans hgl,
                    sameShapeU_trans (sameShapeU_of_eq hsh) (sameShapeU_setLeft hmidR)⟩
                · exact Or.inr ⟨fun hcon => hgl ((hmidR.2.2.1).trans hcon),
                    sameShapeU_trans (sameShapeU_of_eq hsh) (sameShapeU_setRight hmidR)⟩

theorem updA_active (nd : RecNode) (b : Bool) :
    ({ nd with is_active := b } : RecNode).is_active = b :=
  rfl

theorem updA_left (nd : RecNode) (b : Bool) :
    ({ nd with is_active := b } : RecNode).left = nd.left :=
  rfl

theorem updA_right (nd : RecNode) (b : Bool) :
    ({ nd with is_active := b } : RecNode).right = nd.right :=
  rfl

theorem getD_replicate_self {α : Type} (a : α) (k r : ℕ) :
    (List.replicate k a).getD r a = a := by
  induction k generalizing r with
  | zero => cases r <;> rfl
  | succ k ih =>
    cases r with
    | zero => rfl
    | succ r2 =>
      show (List.replicate k a).getD r2 a = a
      exact ih r2

theorem StateData_new_getC (init : List ℤ) (i : ℕ) :
    (StateData.new init).getC i =
      ⟨init.getD i 0, init.getD i 0, init.getD i 0⟩ := by
  unfold StateData.new StateData.getC
  exact getD_map (fun j => ComponentData.mk j j j) init i 0

/-- The freshly built recursion tree satisfies the visit precondition at the
root: one inactive childless node, trivial ledger, empty index, trivial tree
links and descent. -/
theorem RecursionTree_new_init (init : List ℤ) (re : List FReaction) (time : ℚ)
    (rng : RngState) :
    (RecursionTree.new init re time rng).nodes.length = 0 + 1 ∧
    ((RecursionTree.new init re time rng).nodes.getD 0 default).is_active = false ∧
    ((RecursionTree.new init re time rng).nodes.getD 0 default).left = none ∧
    ((RecursionTree.new init re time rng).nodes.getD 0 default).right = none ∧
    Coh re (RecursionTree.new init re time rng) ∧
    IC (RecursionTree.new init re time rng) ∧
    TC (RecursionTree.new init re time rng).nodes ∧
    DOk (actT 0 (RecursionTree.new init re time rng).nodes) 0 := by
  set R0 := RecursionTree.new init re time rng with hR0
  have hlen1 : R0.nodes.length = 1 := rfl
  have hact0 : (R0.nodes.getD 0 default).is_active = false := rfl
  have hln0 : (R0.nodes.getD 0 default).left = none := rfl
  have hrn0 : (R0.nodes.getD 0 default).right = none := rfl
  have hpar0 : (R0.nodes.getD 0 default).parent = none := rfl
  have hnlt0 : 0 < R0.nodes.length := by rw [hlen1]; omega
  refine ⟨hlen1, hact0, hln0, hrn0, ?_, ?_, ?_, ?_⟩
  · show BOk re R0.state (fullTracked R0.nodes)
    have hft : fullTracked R0.nodes = [] := rfl
    have hst : R0.state = StateData.new init := rfl
    rw [hft, hst]
    intro i hi
    rw [negSum_nil, posSum_nil, StateData_new_getC]
    constructor <;> simp
  · intro r n i hr
    have hsi : R0.stable_index = List.replicate re.length none := rfl
    rw [hsi, getD_replicate_self] at hr
    exact Option.noConfusion hr
  · constructor
    · intro m t hm
      rw [hlen1] at hm
      have hm0 : m = 0 := by omega
      subst hm0
      constructor
      · intro hl
        rw [hln0] at hl
        exact Option.noConfusion hl
      · intro hr2
        rw [hrn0] at hr2
        exact Option.noConfusion hr2
    · intro t p ht hp
      rw [hlen1] at ht
      have ht0 : t = 0 := by omega
      subst ht0
      rw [hpar0] at hp
      exact Option.noConfusion hp
  · intro m hm hact
    rw [actT_length, hlen1] at hm
    have hm0 : m = 0 := by omega
    subst hm0
    refine DescTo.leaf (by rw [actT_length, hlen1]; omega) ?_ ?_ ?_
    · rw [actT_getD_self 0 R0.nodes hnlt0, updA_active]
    · rw [actT_getD_self 0 R0.nodes hnlt0, updA_left]
      exact hln0
    · rw [actT_getD_self 0 R0.nodes hnlt0, updA_right]
      exact hrn0

/-- The sign discipline of the stoichiometry partitions produced by
`Reaction::new`. -/
theorem Reaction_new_signs (inputs : List (ℕ × ℕ)) (st : List (ℕ × ℤ)) (rate : ℚ) :
    (∀ p ∈ (Reaction.new inputs st rate).negative_stoichiometry, p.2 < 0) ∧
    (∀ p ∈ (Reaction.new inputs st rate).positive_stoichiometry, 0 < p.2) := by
  constructor
  · intro p hp
    have hp2 : p ∈ st.filter (fun q => decide (q.2 < 0)) := hp
    simpa using List.of_mem_filter hp2
  · intro p hp
    have hp2 : p ∈ st.filter (fun q => decide (0 < q.2)) := hp
    simpa using List.of_mem_filter hp2

/-- `From<Reaction>` keeps the stoichiometry partitions, so sign-correct
reactions give a sign-correct `FReaction` list. -/
theorem SignOk_map_ofReaction (rs : List Reaction)
    (h : ∀ r ∈ rs, (∀ p ∈ r.negative_stoichiometry, p.2 < 0) ∧
      (∀ p ∈ r.positive_stoichiometry, 0 < p.2)) :
    SignOk (rs.map FReaction.ofReaction) := by
  intro fr hfr
  rcases List.mem_map.mp hfr with ⟨r, hr, rfl⟩
  exact ⟨(h r hr).1, (h r hr).2⟩

/-! ## Claim theorems -/

/-- C1: Propensity-bracket law.  For every reaction, duration `t > 0`, rate
`> 0` and product `p ≥ 0`, the `ReactionData` returned by
`ReactionData::sample` satisfies `low ≤ p < high`; and `ReactionData::resample`
called with current product `p ≥ 0` on data satisfying the sampling
invariants (`events = 0 → low = 0` and `low ≤ high`) again yields fields with
`low ≤ p < high`.  The uniform-root draws lie in `[0,1)` and the exponential
draws are positive, matching the distributions sampled by the code. -/
theorem c1_propensity_bracket :
    (∀ (p t : ℚ) (ridx : ℕ) (reaction : FReaction) (k : ℕ) (m e : ℚ),
      0 < t → 0 < reaction.rate → 0 ≤ p → 0 ≤ m → m < 1 → 0 < e →
      (ReactionData.sample p ridx reaction t k m e).low ≤ p ∧
        p < (ReactionData.sample p ridx reaction t k m e).high) ∧
    (∀ (d : ReactionData) (p : ℚ) (reaction : FReaction)
        (dr : ReactionData.ResampleDraws),
      (d.events = 0 → d.low = 0) → d.low ≤ d.high → 0 ≤ p →
      0 ≤ dr.mLow → dr.mLow < 1 → 0 ≤ dr.mHigh → dr.mHigh < 1 →
      0 ≤ dr.mExtra → dr.mExtra < 1 → 0 < dr.e →
      (d.resample p reaction dr).low ≤ p ∧ p < (d.resample p reaction dr).high) := by
  constructor
  · intro p t ridx reaction k m e ht hr hp hm0 hm1 he
    refine ⟨?_, ?_⟩
    · show p * max_sample (sample_poisson (p * t * reaction.rate) k) m ≤ p
      have h1 := max_sample_nonneg (m := m) (sample_poisson (p * t * reaction.rate) k) hm0
      have h2 := max_sample_le_one (m := m) (sample_poisson (p * t * reaction.rate) k) hm1.le
      nlinarith
    · show p < p + sample_exp (reaction.rate * t) e
      simpa [sample_exp] using he
  · intro d p reaction dr hinv hlh hp hm1a hm1b hm2a hm2b hm3a hm3b he
    unfold ReactionData.resample
    split_ifs with h1 h2
    · refine ⟨?_, ?_⟩
      · show p * max_sample (sample_binomial (d.events - 1) (p / d.low) dr.kBin) dr.mLow ≤ p
        have ha := max_sample_nonneg (m := dr.mLow)
          (sample_binomial (d.events - 1) (p / d.low) dr.kBin) hm1a
        have hb := max_sample_le_one (m := dr.mLow)
          (sample_binomial (d.events - 1) (p / d.low) dr.kBin) hm1b.le
        nlinarith
      · show p < p + (d.low - p) *
          (1 - max_sample
            (d.events - sample_binomial (d.events - 1) (p / d.low) dr.kBin - 1) dr.mHigh)
        have hms := max_sample_lt_one (m := dr.mHigh)
          (d.events - sample_binomial (d.events - 1) (p / d.low) dr.kBin - 1) hm2b
        nlinarith
    · refine ⟨?_, ?_⟩
      · show d.high +
          max_sample (sample_poisson (reaction.rate * d.time * (p - d.high)) dr.kPoisson)
            dr.mExtra * (p - d.high) ≤ p
        have ha := max_sample_nonneg (m := dr.mExtra)
          (sample_poisson (reaction.rate * d.time * (p - d.high)) dr.kPoisson) hm3a
        have hb := max_sample_le_one (m := dr.mExtra)
          (sample_poisson (reaction.rate * d.time * (p - d.high)) dr.kPoisson) hm3b.le
        nlinarith
      · show p < p + sample_exp (reaction.rate * d.time) dr.e
        simpa [sample_exp] using he
    · exact ⟨le_of_not_lt h1, lt_of_not_le h2⟩

/-- Witness for C1 at concrete inputs: a fresh sample at product 1 and a
resample at product 1/4 of data bracketed by `[1/2, 2)`. -/
theorem c1_propensity_bracket_witness :
    ((ReactionData.sample 1 0 ⟨[], [], [], [], 1⟩ 1 2 0 1).low ≤ 1 ∧
      (1 : ℚ) < (ReactionData.sample 1 0 ⟨[], [], [], [], 1⟩ 1 2 0 1).high) ∧
    (((⟨0, 1, 2, 1 / 2, 2⟩ : ReactionData).resample (1 / 4) ⟨[], [], [], [], 1⟩
        ⟨1, 0, 0, 0, 0, 1⟩).low ≤ 1 / 4 ∧
      (1 / 4 : ℚ) < ((⟨0, 1, 2, 1 / 2, 2⟩ : ReactionData).resample (1 / 4)
        ⟨[], [], [], [], 1⟩ ⟨1, 0, 0, 0, 0, 1⟩).high) :=
  ⟨c1_propensity_bracket.1 1 1 0 ⟨[], [], [], [], 1⟩ 2 0 1 (by norm_num) (by norm_num)
      (by norm_num) (by norm_num) (by norm_num) (by norm_num),
    c1_propensity_bracket.2 ⟨0, 1, 2, 1 / 2, 2⟩ (1 / 4) ⟨[], [], [], [], 1⟩
      ⟨1, 0, 0, 0, 0, 1⟩ (by norm_num) (by norm_num) (by norm_num) (by norm_num)
      (by norm_num) (by norm_num) (by norm_num) (by norm_num) (by norm_num)
      (by norm_num)⟩

/-- C3: Stability criterion.  A reaction with active `ReactionData` is judged
stable by `RecursionTree::is_stable` (and hence moved to the stable set in
the stabilize phase) exactly when its current `lower_product` — computed with
the `has_events` flag — is at least its `low` and its current
`upper_product` is strictly below its `high`. -/
theorem c3_stability_criterion (state : StateData) (reaction : FReaction)
    (rdata : ReactionData) :
    is_stable state reaction rdata = true ↔
      (rdata.low ≤ state.lower_product reaction rdata.has_events ∧
        state.upper_product reaction < rdata.high) := by
  simp [is_stable, and_comm]

/-- C6: `remove_bounds` undoes `add_bounds` (and conversely) for every state,
reaction and event count. -/
theorem c6_add_remove_bounds_inverse (s : StateData) (events : ℕ)
    (reaction : FReaction) :
    (s.add_bounds events reaction).remove_bounds events reaction = s ∧
    (s.remove_bounds events reaction).add_bounds events reaction = s := by
  by_cases hc : (events : ℤ) = 0
  · constructor <;>
      simp [StateData.add_bounds, StateData.remove_bounds, StateData.change_bounds, hc]
  · constructor
    · simp only [StateData.add_bounds, StateData.remove_bounds, StateData.change_bounds,
        ne_eq, neg_eq_zero, hc, not_false_eq_true, if_true,
        StateData.apply_negative, StateData.apply_positive]
      rw [bounds_roundtrip]
    · have h := bounds_roundtrip reaction (-(events : ℤ)) s.state
      simp only [neg_neg] at h
      simp only [StateData.add_bounds, StateData.remove_bounds, StateData.change_bounds,
        ne_eq, neg_eq_zero, hc, not_false_eq_true, if_true,
        StateData.apply_negative, StateData.apply_positive]
      rw [h]

/-- C7: Self-consumption derivation.  Every input of the `FReaction` built
from a parsed `Reaction` carries as `self_consumption` the minimum of 0 and
the stoichiometry delta the reaction applies to that species (0 when the
species has no stoichiometry entry); in particular it is non-positive. -/
theorem c7_self_consumption (r : Reaction) (inp : Input)
    (h : inp ∈ (FReaction.ofReaction r).inputs) :
    inp.self_consumption =
      min (((r.stoichiometry.find? (fun q => q.1 == inp.index)).map Prod.snd).getD 0) 0 ∧
    (r.stoichiometry.find? (fun q => q.1 == inp.index) = none →
      inp.self_consumption = 0) ∧
    inp.self_consumption ≤ 0 := by
  simp only [FReaction.ofReaction, List.mem_map] at h
  obtain ⟨p, hp, rfl⟩ := h
  refine ⟨rfl, ?_, min_le_right _ _⟩
  intro hnone
  simp [hnone]

/-- C2 counterexample: at the concrete parent data
`(events = 3, low = 1, high = 5, time = 2)` with draws giving
`right.events = 1` and the uniform `1/2`, the code's
`<ReactionData as TauData>::split` differs from the spec's split algorithm:
the spec (picked half weighted by its own event count, probability
`left.events/events = 2/3` of replacing the left `low`) replaces the left
half's `low`, while the code (`random_bool(res.events/events)`, probability
`right.events/events = 1/3`) keeps it and replaces the right half's `low`. -/
theorem c2_split_spec_counterexample :
    ReactionData.split ⟨7, 2, 3, 1, 5⟩ ⟨[], [], [], [], 1⟩ ⟨2 ^ 63, 0, 1 / 2, 1 / 2, 0, 1⟩ ≠
      ReactionData.split_spec ⟨7, 2, 3, 1, 5⟩ ⟨[], [], [], [], 1⟩
        ⟨2 ^ 63, 0, 1 / 2, 1 / 2, 0, 1⟩ := by
  intro h
  have h1 := congrArg (fun x => x.1.low) h
  have hb : binomial_05 3 9223372036854775808 0 = 1 := by decide
  norm_num [ReactionData.split, ReactionData.split_spec, random_bool, max_sample,
    sample_exp, hb] at h1

/-- C2 as amended by the counterexample: `split` halves the stored time,
draws `right.events ~ Binomial(events, ½)` with
`left.events = events − right.events`, replaces the `low` of one half chosen
with probability proportional to the *other* half's event count by
`low · max_uniform(that half's events)` (the other half keeps the parent's
`low`), and picks either half with probability ½, replacing its `high` by
`high + Exponential(r · t/2)` (the other keeps the parent's `high`). -/
theorem c2_split_follows_amended_spec (d : ReactionData) (reaction : FReaction)
    (dr : ReactionData.SplitDraws) :
    d.split reaction dr = d.split_spec_amended reaction dr :=
  rfl

/-- C8: `binomial_05(0)` is 0; for `1 ≤ n ≤ 64` the result is the population
count of the drawn word shifted right by `64 − n` — a 64-bit word whose top
`64 − n` bits are cleared (`< 2^n`), and which is uniformly distributed over
such masked words (each value has exactly `2^(64−n)` preimages among the
`2^64` equiprobable draws) — hence the result is at most `n`; for `n > 64`
it falls through to the general `Binomial(n, ½)` sampler's draw. -/
theorem c8_binomial_half :
    (∀ w g, binomial_05 0 w g = 0) ∧
    (∀ n w g, 1 ≤ n → n ≤ 64 → w < 2 ^ 64 →
      binomial_05 n w g = count_ones (w >>> (64 - n)) ∧
      w >>> (64 - n) < 2 ^ n ∧
      binomial_05 n w g ≤ n) ∧
    (∀ n v, n ≤ 64 → v < 2 ^ n →
      ((Finset.range (2 ^ 64)).filter (fun w => w >>> (64 - n) = v)).card =
        2 ^ (64 - n)) ∧
    (∀ n w g, 64 < n → binomial_05 n w g = g) := by
  refine ⟨?_, ?_, ?_, ?_⟩
  · intro w g
    simp [binomial_05]
  · intro n w g h1 h64 hw
    unfold binomial_05
    rw [if_neg (by omega), if_pos h64]
    exact ⟨rfl, shiftRight_lt_pow hw h64,
      le_trans (count_ones_le (shiftRight_lt_pow hw h64)) le_rfl⟩
  · intro n v hn hv
    have hd : 0 < 2 ^ (64 - n) := Nat.pos_pow_of_pos _ (by norm_num)
    have hset : (Finset.range (2 ^ 64)).filter (fun w => w >>> (64 - n) = v) =
        Finset.Ico (v * 2 ^ (64 - n)) (v * 2 ^ (64 - n) + 2 ^ (64 - n)) := by
      ext w
      simp only [Finset.mem_filter, Finset.mem_range, Finset.mem_Ico,
        Nat.shiftRight_eq_div_pow]
      constructor
      · rintro ⟨hw, rfl⟩
        refine ⟨Nat.div_mul_le_self w _, ?_⟩
        have hmod := Nat.mod_lt w hd
        have hdm := Nat.div_add_mod w (2 ^ (64 - n))
        calc w = 2 ^ (64 - n) * (w / 2 ^ (64 - n)) + w % 2 ^ (64 - n) := hdm.symm
        _ < 2 ^ (64 - n) * (w / 2 ^ (64 - n)) + 2 ^ (64 - n) := by omega
        _ = w / 2 ^ (64 - n) * 2 ^ (64 - n) + 2 ^ (64 - n) := by ring
      · rintro ⟨hlo, hhi⟩
        have hdivv : w / 2 ^ (64 - n) = v := by
          have hle : v ≤ w / 2 ^ (64 - n) :=
            (Nat.le_div_iff_mul_le hd).mpr hlo
          have hlt : w / 2 ^ (64 - n) < v + 1 := by
            rw [Nat.div_lt_iff_lt_mul hd]
            calc w < v * 2 ^ (64 - n) + 2 ^ (64 - n) := hhi
            _ = (v + 1) * 2 ^ (64 - n) := by ring
          omega
        refine ⟨?_, hdivv⟩
        calc w < v * 2 ^ (64 - n) + 2 ^ (64 - n) := hhi
        _ = (v + 1) * 2 ^ (64 - n) := by ring
        _ ≤ 2 ^ n * 2 ^ (64 - n) := Nat.mul_le_mul_right _ hv
        _ = 2 ^ 64 := by
          rw [← pow_add]
          congr 1
          omega
    rw [hset, Nat.card_Ico]
    omega
  · intro n w g hn
    unfold binomial_05
    rw [if_neg (by omega), if_neg (by omega)]

/-- Witness for C8 at `n = 3`, the word `2^63` (top bit set, shifted value 4)
and general draw 0; and the uniformity count at the shifted value 4. -/
theorem c8_binomial_half_witness :
    binomial_05 0 5 7 = 0 ∧
    (binomial_05 3 (2 ^ 63) 0 = count_ones (2 ^ 63 >>> (64 - 3)) ∧
      2 ^ 63 >>> (64 - 3) < 2 ^ 3 ∧
      binomial_05 3 (2 ^ 63) 0 ≤ 3) ∧
    ((Finset.range (2 ^ 64)).filter (fun w => w >>> (64 - 3) = 4)).card = 2 ^ (64 - 3) ∧
    binomial_05 70 (2 ^ 63) 33 = 33 :=
  ⟨c8_binomial_half.1 5 7,
    c8_binomial_half.2.1 3 (2 ^ 63) 0 (by decide) (by decide) (by decide),
    c8_binomial_half.2.2.1 3 4 (by decide) (by decide),
    c8_binomial_half.2.2.2 70 (2 ^ 63) 33 (by decide)⟩

/-- Witness for C7 at the concrete decay reaction `A -> ∅`, whose single
input receives self-consumption −1. -/
theorem c7_self_consumption_witness :
    ((⟨0, 1, -1⟩ : Input).self_consumption =
      min ((((Reaction.new [(0, 1)] [(0, -1)] 1).stoichiometry.find?
        (fun q => q.1 == (⟨0, 1, -1⟩ : Input).index)).map Prod.snd).getD 0) 0 ∧
    ((Reaction.new [(0, 1)] [(0, -1)] 1).stoichiometry.find?
        (fun q => q.1 == (⟨0, 1, -1⟩ : Input).index) = none →
      (⟨0, 1, -1⟩ : Input).self_consumption = 0) ∧
    (⟨0, 1, -1⟩ : Input).self_consumption ≤ 0) :=
  c7_self_consumption (Reaction.new [(0, 1)] [(0, -1)] 1) ⟨0, 1, -1⟩ (by decide)

/-- C10: Resample underflow safety.  The invariant `events = 0 → low = 0` is
established by `sample` and preserved by `resample` and by both halves of
`split`; under it, any call of `resample` with product `p ≥ 0` that enters
the product-decreased branch (`p < low`) has `events ≥ 1` — so the `u64`
subtraction `events − 1` cannot underflow — and the `Binomial(events − 1,
p/low)` there is constructed with a probability argument in `[0, 1)`. -/
theorem c10_resample_underflow_safety :
    (∀ (p : ℚ) (ridx : ℕ) (reaction : FReaction) (t : ℚ) (k : ℕ) (m e : ℚ),
      (ReactionData.sample p ridx reaction t k m e).events = 0 →
        (ReactionData.sample p ridx reaction t k m e).low = 0) ∧
    (∀ (d : ReactionData) (p : ℚ) (reaction : FReaction)
        (dr : ReactionData.ResampleDraws), (d.events = 0 → d.low = 0) →
      ((d.resample p reaction dr).events = 0 → (d.resample p reaction dr).low = 0)) ∧
    (∀ (d : ReactionData) (reaction : FReaction) (dr : ReactionData.SplitDraws),
      (d.events = 0 → d.low = 0) →
      dr.word < 2 ^ 64 → dr.kGen ≤ d.events → 0 ≤ dr.uLow → dr.uLow < 1 →
      (((d.split reaction dr).1.events = 0 → (d.split reaction dr).1.low = 0) ∧
        ((d.split reaction dr).2.events = 0 → (d.split reaction dr).2.low = 0))) ∧
    (∀ (d : ReactionData) (p : ℚ), (d.events = 0 → d.low = 0) → 0 ≤ p → p < d.low →
      1 ≤ d.events ∧ 0 ≤ p / d.low ∧ p / d.low < 1) := by
  refine ⟨?_, ?_, ?_, ?_⟩
  · intro p ridx reaction t k m e h0
    show p * max_sample (sample_poisson (p * t * reaction.rate) k) m = 0
    have : sample_poisson (p * t * reaction.rate) k = 0 := h0
    rw [this, max_sample_zero, mul_zero]
  · intro d p reaction dr hinv
    unfold ReactionData.resample
    split_ifs with h1 h2
    · intro h0
      show p * max_sample (sample_binomial (d.events - 1) (p / d.low) dr.kBin) dr.mLow = 0
      have h0' : sample_binomial (d.events - 1) (p / d.low) dr.kBin = 0 := h0
      rw [h0', max_sample_zero, mul_zero]
    · intro h0
      exact absurd h0 (by
        show ¬(d.events + _ + 1 = 0)
        omega)
    · exact hinv
  · intro d reaction dr hinv hw hg hu0 hu1
    have hk : binomial_05 d.events dr.word dr.kGen ≤ d.events := binomial_05_le hw hg
    by_cases hev : 0 < d.events
    · by_cases hcoin : random_bool
        ((binomial_05 d.events dr.word dr.kGen : ℚ) / (d.events : ℚ)) dr.uLow = true
      · simp only [ReactionData.split, hev, hcoin, if_true]
        constructor
        · intro h0
          have h0' : d.events - binomial_05 d.events dr.word dr.kGen = 0 := h0
          show d.low * max_sample (d.events - binomial_05 d.events dr.word dr.kGen) dr.m = 0
          rw [h0', max_sample_zero, mul_zero]
        · intro h0
          have h0' : binomial_05 d.events dr.word dr.kGen = 0 := h0
          rw [h0'] at hcoin
          simp only [random_bool, Nat.cast_zero, zero_div, decide_eq_true_eq] at hcoin
          exact absurd hcoin (not_lt.mpr hu0)
      · simp only [ReactionData.split, hev, hcoin, if_true, if_false]
        constructor
        · intro h0
          have h0' : d.events - binomial_05 d.events dr.word dr.kGen = 0 := h0
          have hkev : binomial_05 d.events dr.word dr.kGen = d.events := by omega
          rw [hkev] at hcoin
          have hne : (d.events : ℚ) ≠ 0 := by
            exact_mod_cast Nat.pos_iff_ne_zero.mp hev
          rw [show ((d.events : ℚ) / (d.events : ℚ)) = 1 from div_self hne] at hcoin
          simp only [random_bool, decide_eq_true_eq] at hcoin
          exact absurd hu1 hcoin
        · intro h0
          have h0' : binomial_05 d.events dr.word dr.kGen = 0 := h0
          show d.low * max_sample (binomial_05 d.events dr.word dr.kGen) dr.m = 0
          rw [h0', max_sample_zero, mul_zero]
    · have hev0 : d.events = 0 := by omega
      simp only [ReactionData.split, hev, if_false]
      exact ⟨fun h => hinv hev0, fun h => hinv hev0⟩
  · intro d p hinv hp hlow
    have hpos : 0 < d.low := lt_of_le_of_lt hp hlow
    refine ⟨?_, div_nonneg hp hpos.le, (div_lt_one hpos).mpr hlow⟩
    rcases Nat.eq_zero_or_pos d.events with h0 | h1
    · rw [hinv h0] at hlow
      exact absurd hlow (not_lt.mpr hp)
    · exact h1

/-- Witness for C10: a fresh sample with two events, a resample of data
bracketed by `[1/2, 2)` at product `1/4`, a split of two-event data with the
top-bit word, and the safety conclusion at the same bracketed data. -/
theorem c10_resample_underflow_safety_witness :
    ((ReactionData.sample 1 0 ⟨[], [], [], [], 1⟩ 1 2 0 1).events = 0 →
      (ReactionData.sample 1 0 ⟨[], [], [], [], 1⟩ 1 2 0 1).low = 0) ∧
    (((⟨0, 1, 2, 1 / 2, 2⟩ : ReactionData).resample (1 / 4) ⟨[], [], [], [], 1⟩
        ⟨1, 0, 0, 0, 0, 1⟩).events = 0 →
      ((⟨0, 1, 2, 1 / 2, 2⟩ : ReactionData).resample (1 / 4) ⟨[], [], [], [], 1⟩
        ⟨1, 0, 0, 0, 0, 1⟩).low = 0) ∧
    ((((⟨0, 1, 2, 1 / 2, 2⟩ : ReactionData).split ⟨[], [], [], [], 1⟩
        ⟨2 ^ 63, 0, 1 / 2, 1 / 2, 0, 1⟩).1.events = 0 →
      ((⟨0, 1, 2, 1 / 2, 2⟩ : ReactionData).split ⟨[], [], [], [], 1⟩
        ⟨2 ^ 63, 0, 1 / 2, 1 / 2, 0, 1⟩).1.low = 0) ∧
      (((⟨0, 1, 2, 1 / 2, 2⟩ : ReactionData).split ⟨[], [], [], [], 1⟩
        ⟨2 ^ 63, 0, 1 / 2, 1 / 2, 0, 1⟩).2.events = 0 →
      ((⟨0, 1, 2, 1 / 2, 2⟩ : ReactionData).split ⟨[], [], [], [], 1⟩
        ⟨2 ^ 63, 0, 1 / 2, 1 / 2, 0, 1⟩).2.low = 0)) ∧
    (1 ≤ (⟨0, 1, 2, 1 / 2, 2⟩ : ReactionData).events ∧
      (0 : ℚ) ≤ 1 / 4 / (⟨0, 1, 2, 1 / 2, 2⟩ : ReactionData).low ∧
      (1 / 4 : ℚ) / (⟨0, 1, 2, 1 / 2, 2⟩ : ReactionData).low < 1) :=
  ⟨c10_resample_underflow_safety.1 1 0 ⟨[], [], [], [], 1⟩ 1 2 0 1,
    c10_resample_underflow_safety.2.1 ⟨0, 1, 2, 1 / 2, 2⟩ (1 / 4) ⟨[], [], [], [], 1⟩
      ⟨1, 0, 0, 0, 0, 1⟩ (by norm_num),
    c10_resample_underflow_safety.2.2.1 ⟨0, 1, 2, 1 / 2, 2⟩ ⟨[], [], [], [], 1⟩
      ⟨2 ^ 63, 0, 1 / 2, 1 / 2, 0, 1⟩ (by norm_num) (by decide) (by decide)
      (by norm_num) (by norm_num),
    c10_resample_underflow_safety.2.2.2 ⟨0, 1, 2, 1 / 2, 2⟩ (1 / 4) (by norm_num)
      (by norm_num) (by norm_num)⟩

theorem multispace_not_alphanum {c : Char} (h : isMultispace c = true) :
    Char.isAlphanum c = false := by
  simp only [isMultispace, Bool.or_eq_true, beq_iff_eq] at h
  rcases h with ((h | h) | h) | h <;> subst h <;> decide

theorem multispace_not_digit {c : Char} (h : isMultispace c = true) :
    Char.isDigit c = false := by
  simp only [isMultispace, Bool.or_eq_true, beq_iff_eq] at h
  rcases h with ((h | h) | h) | h <;> subst h <;> decide

theorem parse_line_blank (l : List Char) (h : l.all isMultispace = true) :
    parse_line l = none := by
  have hreactant : parse_reactant l = none := by
    cases l with
    | nil => rfl
    | cons c t =>
      simp only [List.all_cons, Bool.and_eq_true] at h
      simp [parse_reactant, pTakeWhile1, List.takeWhile_cons, multispace_not_alphanum h.1]
  have hitem : parse_reaction_item l = none := by
    cases l with
    | nil => rfl
    | cons c t =>
      simp only [List.all_cons, Bool.and_eq_true] at h
      simp [parse_reaction_item, pTakeWhile1, List.dropWhile_cons, List.takeWhile_cons,
        multispace_not_digit h.1, multispace_not_alphanum h.1]
  have hdrop : l.dropWhile isMultispace = [] := by
    rw [List.dropWhile_eq_nil_iff]
    intro x hx
    exact List.all_eq_true.mp h x hx
  have hreaction : parse_reaction l = none := by
    simp [parse_reaction, parse_reaction_half, hitem, pMultispace0, hdrop, pTag,
      List.isPrefixOf]
  simp [parse_line, hreactant, hreaction]

/-- C9 counterexample: the two-line file `A = 5` followed by a blank line.
The blank line passes the comment filter, `parse_line` rejects it, and
`parse_data_file` aborts (the Rust code panics) instead of succeeding as the
claim states. -/
theorem c9_blank_line_counterexample :
    ParseState.empty.parse_data_file [("A = 5".toList), ([] : List Char)] =
      Except.error ("") :=
  rfl

/-- C9 as amended by the counterexample: a line that is entirely blank (empty
or whitespace only) is indeed neither a species assignment nor a reaction —
`parse_line` fails on it — but blank lines are *not* tolerated: only
`#`-comment lines are filtered out, so `parse_data_file` reports a parse
error (the Rust code panics) on every file containing a blank line. -/
theorem c9_blank_line_amended :
    (∀ (l : List Char), l.all isMultispace = true → parse_line l = none) ∧
    (∀ (lines : List (List Char)) (st : ParseState) (l : List Char),
      l ∈ lines → l.all isMultispace = true →
      ∃ msg, st.parse_data_file lines = Except.error msg) := by
  refine ⟨parse_line_blank, ?_⟩
  intro lines
  induction lines with
  | nil =>
    intro st l hmem _
    exact absurd hmem (List.not_mem_nil l)
  | cons hd t ih =>
    intro st l hmem hblank
    rcases List.mem_cons.mp hmem with rfl | hmem'
    · have hdrop : l.dropWhile isMultispace = [] := by
        rw [List.dropWhile_eq_nil_iff]
        intro x hx
        exact List.all_eq_true.mp hblank x hx
      refine ⟨String.mk l, ?_⟩
      simp [ParseState.parse_data_file, hdrop, parse_line_blank l hblank]
    · by_cases hP : ((hd.dropWhile isMultispace).head? == some '#') = true
      · simp only [ParseState.parse_data_file, hP, if_true]
        exact ih st l hmem' hblank
      · rcases hpl : parse_line hd with _ | ⟨rest, ln⟩
        · exact ⟨String.mk hd, by simp [ParseState.parse_data_file, hP, hpl]⟩
        · cases ln with
          | reactant r =>
            simp only [ParseState.parse_data_file, hP, if_false, hpl]
            exact ih _ l hmem' hblank
          | reaction nr =>
            simp only [ParseState.parse_data_file, hP, if_false, hpl]
            exact ih _ l hmem' hblank

/-- Witness for C9's amended claim at the single-space line inside a
two-line file. -/
theorem c9_blank_line_amended_witness :
    parse_line [' '] = none ∧
    ∃ msg, ParseState.empty.parse_data_file [("A = 5".toList), [' ']] =
      Except.error msg :=
  ⟨c9_blank_line_amended.1 [' '] (by decide),
    c9_blank_line_amended.2 [("A = 5".toList), [' ']] ParseState.empty [' ']
      (by decide) (by decide)⟩

/-- The `FReaction` built for the decay network `A -> ∅` at rate 1. -/
def decay_reaction : FReaction :=
  FReaction.ofReaction (Reaction.new [(0, 1)] [(0, -1)] 1)

/-- C5: exhibit of the failing run.  On the network `A -> ∅` (rate 1) with
`A = 1` and horizon 1, the draw sequence Poisson = 2, uniform = 0 (the value
0 is produced by `rng.random::<f64>()` with positive probability, although
the spec's `max_uniform` is over the open interval `(0,1)`), exponential = 1
gives root data `(events = 2, low = 0, high = 2)`.  The recursion then adds
the bounds (`lower` becomes −1), leaves the data unchanged in the resample
phase (the product 1 lies in `[0, 2)`), judges the reaction stable
(`lower_product = 0 ≥ low = 0`, `upper_product = 1 < high = 2`), and applies
the two events on termination, leaving `A = −1 < 0` — contradicting the
claim that no species value is ever negative. -/
theorem c5_negative_value_exhibit :
    ((ReactionData.sample 1 0 decay_reaction 1 2 0 1).events = 2 ∧
      (ReactionData.sample 1 0 decay_reaction 1 2 0 1).low = 0 ∧
      (ReactionData.sample 1 0 decay_reaction 1 2 0 1).high = 2) ∧
    (ReactionData.sample 1 0 decay_reaction 1 2 0 1).resample 1 decay_reaction
        ⟨0, 0, 0, 0, 0, 1⟩ =
      ReactionData.sample 1 0 decay_reaction 1 2 0 1 ∧
    is_stable ((StateData.new [1]).add_bounds 2 decay_reaction) decay_reaction
      (ReactionData.sample 1 0 decay_reaction 1 2 0 1) = true ∧
    ((((StateData.new [1]).add_bounds 2 decay_reaction).remove_bounds 2
        decay_reaction).apply 2 decay_reaction).getC 0 = ⟨-1, -1, -1⟩ := by
  norm_num [decay_reaction, FReaction.ofReaction, Reaction.new, ReactionData.sample,
    ReactionData.resample, sample_poisson, sample_exp, max_sample, is_stable,
    ReactionData.has_events, StateData.new, StateData.add_bounds, StateData.remove_bounds,
    StateData.change_bounds, StateData.apply, StateData.apply_negative,
    StateData.apply_positive, StateData.getC, StateData.lower_product,
    StateData.upper_product, modifyIdx, addLower, addUpper, addAll, binomial]

/-- C4: Bounds sandwich.  For every reaction network whose stoichiometry
partitions respect the signs (as `Reaction::new` guarantees), every horizon,
initial state, random source and recursion-fuel budget: every state recorded
after every phase of every node visit of the recursion (the trace of
`recursionT`, whose first component is exactly `recursion`) satisfies
`lower ≤ value ≤ upper` for every species, and when the root call returns,
all reactions having been applied and removed, the returned state satisfies
`lower = value = upper` for every species. -/
theorem c4_bounds_sandwich :
    ∀ (reactions : List Reaction) (fuel : ℕ) (time : ℚ) (init : List ℤ)
      (rng : RngState),
    (∀ r ∈ reactions,
      (∀ p ∈ r.negative_stoichiometry, p.2 < 0) ∧
      (∀ p ∈ r.positive_stoichiometry, 0 < p.2)) →
    (∀ s ∈ (recursionT fuel (reactions.map FReaction.ofReaction) 0 time
        (RecursionTree.new init (reactions.map FReaction.ofReaction) time rng)).2,
      Sandwich s) ∧
    (∀ rsq, recursion fuel (reactions.map FReaction.ofReaction) 0 time
        (RecursionTree.new init (reactions.map FReaction.ofReaction) time rng) =
          some rsq →
      Sandwich rsq.state ∧
      ∀ i, i < rsq.state.state.length →
        (rsq.state.getC i).lower = (rsq.state.getC i).value ∧
        (rsq.state.getC i).upper = (rsq.state.getC i).value) := by
  intro reactions fuel time init rng hsgn
  have hsign : SignOk (reactions.map FReaction.ofReaction) :=
    SignOk_map_ofReaction reactions hsgn
  obtain ⟨r1, r2, r3, r4, r5, r6, r7, r8⟩ :=
    RecursionTree_new_init init (reactions.map FReaction.ofReaction) time rng
  have hmain := recursionT_spec (reactions.map FReaction.ofReaction) hsign fuel 0 time
    (RecursionTree.new init (reactions.map FReaction.ofReaction) time rng)
    r1 r2 r3 r4 r5 r6 r7 r8
  refine ⟨hmain.1, ?_⟩
  intro rsq h
  have hT : (recursionT fuel (reactions.map FReaction.ofReaction) 0 time
      (RecursionTree.new init (reactions.map FReaction.ofReaction) time rng)).1 =
      some rsq := by
    rw [recursionT_fst]
    exact h
  obtain ⟨q1, q2, q3, q4, q5⟩ := hmain.2 rsq hT
  have hnil : rsq.nodes = [] := List.eq_nil_of_length_eq_zero q1
  have hbok : BOk (reactions.map FReaction.ofReaction) rsq.state [] := by
    have hc := q2
    unfold Coh at hc
    rw [hnil, fullTracked_nil] at hc
    exact hc
  exact ⟨BOk_sandwich hsign hbok, BOk_nil_collapse hbok⟩

theorem c4_bounds_sandwich_witness :
    (((recursion 5 (([] : List Reaction).map FReaction.ofReaction) 0 1
        (RecursionTree.new [2] (([] : List Reaction).map FReaction.ofReaction) 1
          ⟨⟨fun _ u => u, fun x => x⟩, fun _ => 0, fun _ => 0, fun _ => 0,
           fun _ => 1, fun _ => 0, 0, 0, 0, 0, 0⟩)).getD
      (RecursionTree.new [2] (([] : List Reaction).map FReaction.ofReaction) 1
          ⟨⟨fun _ u => u, fun x => x⟩, fun _ => 0, fun _ => 0, fun _ => 0,
           fun _ => 1, fun _ => 0, 0, 0, 0, 0, 0⟩)).state.getC 0).lower =
      (((recursion 5 (([] : List Reaction).map FReaction.ofReaction) 0 1
        (RecursionTree.new [2] (([] : List Reaction).map FReaction.ofReaction) 1
          ⟨⟨fun _ u => u, fun x => x⟩, fun _ => 0, fun _ => 0, fun _ => 0,
           fun _ => 1, fun _ => 0, 0, 0, 0, 0, 0⟩)).getD
      (RecursionTree.new [2] (([] : List Reaction).map FReaction.ofReaction) 1
          ⟨⟨fun _ u => u, fun x => x⟩, fun _ => 0, fun _ => 0, fun _ => 0,
           fun _ => 1, fun _ => 0, 0, 0, 0, 0, 0⟩)).state.getC 0).value ∧
    (((recursion 5 (([] : List Reaction).map FReaction.ofReaction) 0 1
        (RecursionTree.new [2] (([] : List Reaction).map FReaction.ofReaction) 1
          ⟨⟨fun _ u => u, fun x => x⟩, fun _ => 0, fun _ => 0, fun _ => 0,
           fun _ => 1, fun _ => 0, 0, 0, 0, 0, 0⟩)).getD
      (RecursionTree.new [2] (([] : List Reaction).map FReaction.ofReaction) 1
          ⟨⟨fun _ u => u, fun x => x⟩, fun _ => 0, fun _ => 0, fun _ => 0,
           fun _ => 1, fun _ => 0, 0, 0, 0, 0, 0⟩)).state.getC 0).upper =
      (((recursion 5 (([] : List Reaction).map FReaction.ofReaction) 0 1
        (RecursionTree.new [2] (([] : List Reaction).map FReaction.ofReaction) 1
          ⟨⟨fun _ u => u, fun x => x⟩, fun _ => 0, fun _ => 0, fun _ => 0,
           fun _ => 1, fun _ => 0, 0, 0, 0, 0, 0⟩)).getD
      (RecursionTree.new [2] (([] : List Reaction).map FReaction.ofReaction) 1
          ⟨⟨fun _ u => u, fun x => x⟩, fun _ => 0, fun _ => 0, fun _ => 0,
           fun _ => 1, fun _ => 0, 0, 0, 0, 0, 0⟩)).state.getC 0).value := by
  have h := (c4_bounds_sandwich [] 5 1 [2]
    ⟨⟨fun _ u => u, fun x => x⟩, fun _ => 0, fun _ => 0, fun _ => 0,
     fun _ => 1, fun _ => 0, 0, 0, 0, 0, 0⟩
    (fun r hr => absurd hr (List.not_mem_nil r))).2
    ((recursion 5 (([] : List Reaction).map FReaction.ofReaction) 0 1
        (RecursionTree.new [2] (([] : List Reaction).map FReaction.ofReaction) 1
          ⟨⟨fun _ u => u, fun x => x⟩, fun _ => 0, fun _ => 0, fun _ => 0,
           fun _ => 1, fun _ => 0, 0, 0, 0, 0, 0⟩)).getD
      (RecursionTree.new [2] (([] : List Reaction).map FReaction.ofReaction) 1
          ⟨⟨fun _ u => u, fun x => x⟩, fun _ => 0, fun _ => 0, fun _ => 0,
           fun _ => 1, fun _ => 0, 0, 0, 0, 0, 0⟩)) (by rfl)
  exact h.2 0 (by decide)

end TauSplit
